import Mathlib

set_option linter.unusedSectionVars false

/-!
Verification of the sparse-matrix library (namespace `algebra`) against its
specification.  The development shallowly embeds the data model and the
operations of the library:

* `storage.hpp`     — storage order, index comparators, COO / CSR / MSR stores
* `impl/matrix.tpp` — the general `Matrix`: set, get, compress, uncompress,
                      norms, reader, SpMV and SpGEMM
* `square_matrix.tpp` — the `SquareMatrix` extension: compress_mod, the
                      modified (MSR/MSC) kernels
* `matrix_views.hpp`, `proxy.hpp` — the `DiagonalView` and the zero-erasing
                      write proxy

Machine integers (`size_t`) are modelled as `ℕ`; the scalar type `T` is a
commutative ring with decidable equality (instantiated at `ℤ` in concrete
witnesses).  `std::vector` indexing `v[j]` is modelled by `List.getD j 0`
(the C++ source only indexes in bounds on well-formed states, which the
theorems assume).  `std::map<Index,T>` is modelled extensionally as
`Index → Option α` together with the in-order traversal `entries`, which is
faithful to map iteration whenever every stored key is inside the matrix
bounds (again an invariant of all reachable states, carried as a
hypothesis).  Functions that throw return `Except Err`.
-/

namespace SparseSpec

/-- Storage order of a matrix (enum `StorageOrder` in storage.hpp). -/
inductive StorageOrder where
  | RowMajor : StorageOrder
  | ColumnMajor : StorageOrder
deriving DecidableEq

/-- Key of a stored entry (struct `Index` in storage.hpp). -/
structure Index where
  row : ℕ
  col : ℕ
deriving DecidableEq

/-- Comparator `RowMajor::operator()` from storage.hpp. -/
def rowMajorLt (a b : Index) : Prop :=
  a.row < b.row ∨ (a.row = b.row ∧ a.col < b.col)

/-- Comparator `ColMajor::operator()` from storage.hpp. -/
def colMajorLt (a b : Index) : Prop :=
  a.col < b.col ∨ (a.col = b.col ∧ a.row < b.row)

instance (a b : Index) : Decidable (rowMajorLt a b) := by
  unfold rowMajorLt; infer_instance

instance (a b : Index) : Decidable (colMajorLt a b) := by
  unfold colMajorLt; infer_instance

/-- The comparator selected by `ComparatorSelector` for the storage order. -/
def idxLt : StorageOrder → Index → Index → Prop
  | .RowMajor => rowMajorLt
  | .ColumnMajor => colMajorLt

/-- The major coordinate of a key: the row in row-major order, the column in
column-major order. -/
def Index.major : StorageOrder → Index → ℕ
  | .RowMajor, k => k.row
  | .ColumnMajor, k => k.col

/-- The minor coordinate of a key (the other one). -/
def Index.minor : StorageOrder → Index → ℕ
  | .RowMajor, k => k.col
  | .ColumnMajor, k => k.row

/-- Build a key from its major and minor coordinates. -/
def Index.make : StorageOrder → ℕ → ℕ → Index
  | .RowMajor, i, j => ⟨i, j⟩
  | .ColumnMajor, i, j => ⟨j, i⟩

/-- Number of outer slices of the compressed format: rows for CSR
(row-major), columns for CSC (column-major). -/
def majorDim (S : StorageOrder) (rows cols : ℕ) : ℕ :=
  match S with
  | .RowMajor => rows
  | .ColumnMajor => cols

/-- Extent of the minor axis. -/
def minorDim (S : StorageOrder) (rows cols : ℕ) : ℕ :=
  match S with
  | .RowMajor => cols
  | .ColumnMajor => rows

/-- The COO store `UncompressedStorage` (`std::map<Index, T, comparator>`),
modelled extensionally: `f k = some v` when the map stores `v` at key `k`. -/
def UMap (α : Type) : Type := Index → Option α

/-- The empty map (`uncompressed_format.clear()`). -/
def UMap.empty {α : Type} : UMap α := fun _ => none

/-- Map subscript assignment `uncompressed_format[k] = v`. -/
def UMap.insert {α : Type} (f : UMap α) (k : Index) (v : α) : UMap α :=
  fun q => if q = k then some v else f q

/-- Map erase `uncompressed_format.erase(k)`. -/
def UMap.erase {α : Type} (f : UMap α) (k : Index) : UMap α :=
  fun q => if q = k then none else f q

/-- Map lookup `uncompressed_format.find(k)`. -/
def UMap.find {α : Type} (f : UMap α) (k : Index) : Option α := f k

/-- Compressed CSR/CSC storage (`CompressedStorage` in storage.hpp). -/
structure CompressedStorage (α : Type) where
  inner : List ℕ
  outer : List ℕ
  values : List α
deriving DecidableEq

/-- Modified compressed MSR/MSC storage (`ModifiedCompressedStorage`). -/
structure ModifiedCompressedStorage (α : Type) where
  values : List α
  bind : List ℕ
deriving DecidableEq

/-- The general matrix `Matrix<T, S>` (matrix.hpp).  The storage order `S`
is a template parameter in the source and is passed to each operation
here. -/
structure Matrix (α : Type) where
  rows : ℕ
  cols : ℕ
  compressed : Bool
  uncompressed_format : UMap α
  compressed_format : CompressedStorage α

/-- The square matrix `SquareMatrix<T, S>` (square_matrix.hpp), which extends
the general matrix with the modified-compressed storage. -/
structure SquareMatrix (α : Type) extends Matrix α where
  modified : Bool
  compressed_format_mod : ModifiedCompressedStorage α

/-- Error kinds thrown by the library (§7 of the specification). -/
inductive Err where
  | OutOfRange : Err
  | ShapeMismatch : Err
  | FormatMismatch : Err
  | IllegalStructure : Err
deriving DecidableEq

variable {α : Type} [CommRing α] [DecidableEq α]

/-- In-order traversal of the COO store: `std::map` iteration visits the
stored pairs sorted by the comparator, i.e. grouped by major coordinate and
sorted by minor coordinate inside each group.  This list is the faithful
model of `for (const auto &it : uncompressed_format)` whenever every stored
key is inside the matrix bounds. -/
def entries (S : StorageOrder) (rows cols : ℕ) (f : UMap α) :
    List (Index × α) :=
  (List.range (majorDim S rows cols)).flatMap (fun i =>
    (List.range (minorDim S rows cols)).filterMap (fun j =>
      (f (Index.make S i j)).map (fun v => (Index.make S i j, v))))

/-- The while-loop of `Matrix::compress` (matrix.tpp:195,209): advance the
slice index up to `target`, recording `osize` (the current `outer.size()`)
into each intervening `inner` slot. -/
def fillInner (inner : List ℕ) (index target osize : ℕ) : List ℕ × ℕ :=
  if index < target then
    fillInner (inner.set (index + 1) osize) (index + 1) target osize
  else (inner, index)
termination_by target - index

/-- Accumulator of the `Matrix::compress` loop. -/
structure CompressAcc (α : Type) where
  inner : List ℕ
  outer : List ℕ
  values : List α
  index : ℕ

/-- One iteration of the entry walk of `Matrix::compress` (matrix.tpp:190). -/
def compressStep (S : StorageOrder) (acc : CompressAcc α)
    (e : Index × α) : CompressAcc α :=
  let fi := fillInner acc.inner acc.index (e.1.major S) acc.outer.length
  { inner := fi.1
    outer := acc.outer ++ [e.1.minor S]
    values := acc.values ++ [e.2]
    index := fi.2 }

/-- Format conversion `Matrix::compress` (matrix.tpp:166). -/
def Matrix.compress (S : StorageOrder) (m : Matrix α) : Matrix α :=
  if m.compressed then m
  else
    let md := majorDim S m.rows m.cols
    let acc := (entries S m.rows m.cols m.uncompressed_format).foldl
      (compressStep S)
      { inner := List.replicate (md + 1) 0, outer := [], values := [], index := 0 }
    let fi := fillInner acc.inner acc.index md acc.outer.length
    { rows := m.rows, cols := m.cols, compressed := true
      uncompressed_format := UMap.empty
      compressed_format := { inner := fi.1, outer := acc.outer, values := acc.values } }

/-- Positions of the stored entries of slice `i` of a compressed matrix:
the index range `[inner[i], inner[i+1])`. -/
def slicePositions (inner : List ℕ) (i : ℕ) : List ℕ :=
  List.range' (inner.getD i 0) (inner.getD (i + 1) 0 - inner.getD i 0)

/-- Format conversion `Matrix::uncompress` (matrix.tpp:355): insert every
stored entry of every slice into the (cleared) COO store. -/
def Matrix.uncompress (S : StorageOrder) (m : Matrix α) : Matrix α :=
  if ¬ m.compressed then m
  else
    let md := majorDim S m.rows m.cols
    let f := (List.range md).foldl (fun f i =>
        (slicePositions m.compressed_format.inner i).foldl (fun f j =>
          f.insert (Index.make S i (m.compressed_format.outer.getD j 0))
            (m.compressed_format.values.getD j 0)) f)
      UMap.empty
    { rows := m.rows, cols := m.cols, compressed := false
      uncompressed_format := f
      compressed_format := { inner := [], outer := [], values := [] } }

/-- Linear scan of one compressed slice for the entry with minor coordinate
`target` (the inner loops of `Matrix::operator() const`, matrix.tpp:427). -/
def sliceScan (outer : List ℕ) (values : List α)
    (start stop target : ℕ) : Option α :=
  ((List.range' start (stop - start)).find? (fun j => outer.getD j 0 == target)).map
    (fun j => values.getD j 0)

/-- Element read `Matrix::operator()(row, col) const` (matrix.tpp:408). -/
def Matrix.get (S : StorageOrder) (m : Matrix α) (row col : ℕ) : Except Err α :=
  if row ≥ m.rows ∨ col ≥ m.cols then .error .OutOfRange
  else if m.compressed then
    let target := match S with | .ColumnMajor => row | .RowMajor => col
    let slice := match S with | .ColumnMajor => col | .RowMajor => row
    match sliceScan m.compressed_format.outer m.compressed_format.values
        (m.compressed_format.inner.getD slice 0)
        (m.compressed_format.inner.getD (slice + 1) 0) target with
    | some v => .ok v
    | none => .ok 0
  else
    match m.uncompressed_format.find ⟨row, col⟩ with
    | some v => .ok v
    | none => .ok 0

/-- Element write `Matrix::set` (matrix.tpp:139): bounds check, transparent
uncompress, then store the value, or erase the key when the value is the
additive identity. -/
def Matrix.set (S : StorageOrder) (m : Matrix α) (row col : ℕ) (value : α) :
    Except Err (Matrix α) :=
  if row ≥ m.rows ∨ col ≥ m.cols then .error .OutOfRange
  else
    let m := if m.compressed then m.uncompress S else m
    if value ≠ 0 then
      .ok { m with uncompressed_format := m.uncompressed_format.insert ⟨row, col⟩ value }
    else
      match m.uncompressed_format.find ⟨row, col⟩ with
      | some _ => .ok { m with uncompressed_format := m.uncompressed_format.erase ⟨row, col⟩ }
      | none => .ok m

/-- Entry count `Matrix::get_nnz` (matrix.tpp:790): the size of the active
store (map size modelled as the length of the in-order traversal). -/
def Matrix.get_nnz (S : StorageOrder) (m : Matrix α) : ℕ :=
  if m.compressed then m.compressed_format.values.length
  else (entries S m.rows m.cols m.uncompressed_format).length

/-- Shape reset `Matrix::resize_and_clear` (matrix.tpp:471). -/
def Matrix.resize_and_clear (_m : Matrix α) (rows cols : ℕ) : Matrix α :=
  { rows := rows, cols := cols, compressed := false
    uncompressed_format := UMap.empty
    compressed_format := { inner := [], outer := [], values := [] } }

/-- Matrix-Market ingest `Matrix::reader` (matrix.tpp:601), modelled from
the point where the header has been parsed: the three numbers of the
dimensions line are `row_read`, `col_read` and the declared entry count
(`nnz` in the source, which reads it into a local and never uses it), and
`lines` holds the parsed 1-based entry lines.  The matrix is resized and
each entry line is applied through `set(row-1, col-1, value)`. -/
def Matrix.reader (S : StorageOrder) (m : Matrix α)
    (row_read col_read _declared_nnz : ℕ) (lines : List (ℕ × ℕ × α)) :
    Except Err (Matrix α) :=
  let m0 := m.resize_and_clear row_read col_read
  lines.foldl (fun acc e =>
    match acc with
    | .error err => .error err
    | .ok mm => mm.set S (e.1 - 1) (e.2.1 - 1) e.2.2) (.ok m0)

/-- In-place accumulation `result[i] += d` on a dense `std::vector`. -/
def vecAddAt (res : List α) (i : ℕ) (d : α) : List α :=
  res.set i (res.getD i 0 + d)

/-- SpMV `operator*(const Matrix&, const std::vector&)` (matrix.tpp:649). -/
def Matrix.matVec (S : StorageOrder) (m : Matrix α) (v : List α) :
    Except Err (List α) :=
  if m.cols ≠ v.length then .error .ShapeMismatch
  else .ok <|
    if ¬ m.compressed then
      (entries S m.rows m.cols m.uncompressed_format).foldl
        (fun res e => vecAddAt res e.1.row (e.2 * v.getD e.1.col 0))
        (List.replicate m.rows 0)
    else match S with
    | .ColumnMajor =>
      (List.range m.cols).foldl (fun res col =>
        (slicePositions m.compressed_format.inner col).foldl (fun res j =>
          vecAddAt res (m.compressed_format.outer.getD j 0)
            (m.compressed_format.values.getD j 0 * v.getD col 0)) res)
        (List.replicate m.rows 0)
    | .RowMajor =>
      (List.range m.rows).foldl (fun res row =>
        (slicePositions m.compressed_format.inner row).foldl (fun res j =>
          vecAddAt res row
            (m.compressed_format.values.getD j 0 *
              v.getD (m.compressed_format.outer.getD j 0) 0)) res)
        (List.replicate m.rows 0)

/-- Write through the zero-erasing proxy, `result(row, col) += d`
(Proxy::operator+= in proxy.hpp): the new logical value is stored when it is
nonzero, otherwise the key is erased. -/
def proxyAdd (f : UMap α) (k : Index) (d : α) : UMap α :=
  let newv := (f k).getD 0 + d
  if newv = 0 then f.erase k else f.insert k newv

/-- SpGEMM `operator*(const Matrix&, const Matrix&)` (matrix.tpp:711).  The
result is a fresh matrix in uncompressed state; every accumulation goes
through the zero-erasing proxy. -/
def Matrix.matMul (S : StorageOrder) (m1 m2 : Matrix α) : Except Err (Matrix α) :=
  if m1.cols ≠ m2.rows then .error .ShapeMismatch
  else if m1.compressed ≠ m2.compressed then .error .FormatMismatch
  else
    let f :=
      if ¬ m1.compressed then
        (entries S m1.rows m1.cols m1.uncompressed_format).foldl (fun f e1 =>
          (entries S m2.rows m2.cols m2.uncompressed_format).foldl (fun f e2 =>
            if e1.1.col = e2.1.row then
              proxyAdd f ⟨e1.1.row, e2.1.col⟩ (e1.2 * e2.2)
            else f) f)
          UMap.empty
      else match S with
      | .ColumnMajor =>
        (List.range m2.cols).foldl (fun f col =>
          (slicePositions m2.compressed_format.inner col).foldl (fun f k =>
            let j := m2.compressed_format.outer.getD k 0
            (slicePositions m1.compressed_format.inner j).foldl (fun f i =>
              proxyAdd f ⟨m1.compressed_format.outer.getD i 0, col⟩
                (m1.compressed_format.values.getD i 0 *
                  m2.compressed_format.values.getD k 0)) f) f)
          UMap.empty
      | .RowMajor =>
        (List.range m1.rows).foldl (fun f row =>
          (slicePositions m1.compressed_format.inner row).foldl (fun f j =>
            let k := m1.compressed_format.outer.getD j 0
            (slicePositions m2.compressed_format.inner k).foldl (fun f i =>
              proxyAdd f ⟨row, m2.compressed_format.outer.getD i 0⟩
                (m1.compressed_format.values.getD j 0 *
                  m2.compressed_format.values.getD i 0)) f) f)
          UMap.empty
    .ok { rows := m1.rows, cols := m2.cols, compressed := false
          uncompressed_format := f
          compressed_format := { inner := [], outer := [], values := [] } }

/-- Positions of the off-diagonal entries of slice `i` of a modified
compressed matrix: the range `[bind[i], e)` where `e` is `bind[i+1]` except
for the last slice, where it is `values.size()` (the pattern shared by all
modified-format loops of square_matrix.tpp). -/
def msrSlice (bind : List ℕ) (vlen N i : ℕ) : List ℕ :=
  let start := bind.getD i 0
  let stop := if i ≠ N - 1 then bind.getD (i + 1) 0 else vlen
  List.range' start (stop - start)

/-- Element read `SquareMatrix::operator()(row, col) const`
(square_matrix.tpp:389): in modified state a diagonal index reads the
reserved diagonal slot, an off-diagonal index scans its slice; otherwise
the general-matrix read runs. -/
def SquareMatrix.get (S : StorageOrder) (m : SquareMatrix α) (row col : ℕ) :
    Except Err α :=
  if row ≥ m.rows ∨ col ≥ m.cols then .error .OutOfRange
  else if m.modified then
    if row = col then .ok (m.compressed_format_mod.values.getD row 0)
    else
      let slice := match S with | .ColumnMajor => col | .RowMajor => row
      let target := match S with | .ColumnMajor => row | .RowMajor => col
      let N := match S with | .ColumnMajor => m.cols | .RowMajor => m.rows
      match ((msrSlice m.compressed_format_mod.bind
            m.compressed_format_mod.values.length N slice).find?
          (fun j => m.compressed_format_mod.bind.getD j 0 == target)).map
          (fun j => m.compressed_format_mod.values.getD j 0) with
      | some v => .ok v
      | none => .ok 0
  else m.toMatrix.get S row col

/-- The value produced by an element read, with the thrown case mapped to 0
(the source only evaluates `(*this)(i, i)` at in-range indices). -/
def SquareMatrix.getVal (S : StorageOrder) (m : SquareMatrix α) (row col : ℕ) : α :=
  match m.get S row col with
  | .ok v => v
  | .error _ => 0

/-- Entry count `SquareMatrix::get_nnz` (square_matrix.tpp:620): in modified
state the buffer length minus the number of zero diagonal slots. -/
def SquareMatrix.get_nnz (S : StorageOrder) (m : SquareMatrix α) : ℕ :=
  if m.modified then
    m.compressed_format_mod.values.length -
      ((List.range m.rows).filter
        (fun i => decide (m.compressed_format_mod.values.getD i 0 = 0))).length
  else m.toMatrix.get_nnz S

/-- Buffer size `SquareMatrix::get_mod_size` (square_matrix.tpp:14): the
number of zero diagonal elements plus the entry count. -/
def SquareMatrix.get_mod_size (S : StorageOrder) (m : SquareMatrix α) : ℕ :=
  ((List.range m.rows).filter (fun i => decide (m.getVal S i i = 0))).length +
    m.get_nnz S

/-- Format conversion `SquareMatrix::uncompress` (square_matrix.tpp:329):
from modified state, insert every nonzero diagonal slot and every
off-diagonal slice entry into the cleared COO store; otherwise the
general-matrix uncompress runs. -/
def SquareMatrix.uncompress (S : StorageOrder) (m : SquareMatrix α) :
    SquareMatrix α :=
  if m.modified then
    let N := match S with | .ColumnMajor => m.cols | .RowMajor => m.rows
    let mv := m.compressed_format_mod.values
    let mb := m.compressed_format_mod.bind
    let f := (List.range N).foldl (fun f i =>
      let f := if mv.getD i 0 ≠ 0 then f.insert ⟨i, i⟩ (mv.getD i 0) else f
      (msrSlice mb mv.length N i).foldl (fun f j =>
        f.insert (Index.make S i (mb.getD j 0)) (mv.getD j 0)) f) UMap.empty
    { m with
        toMatrix := { m.toMatrix with uncompressed_format := f },
        modified := false }
  else { m with toMatrix := m.toMatrix.uncompress S }

/-- Element write `SquareMatrix::set` (square_matrix.tpp:186): a modified
matrix is first uncompressed, then the general-matrix set runs. -/
def SquareMatrix.set (S : StorageOrder) (m : SquareMatrix α) (row col : ℕ)
    (value : α) : Except Err (SquareMatrix α) :=
  let m := if m.modified then m.uncompress S else m
  match Matrix.set S m.toMatrix row col value with
  | .error e => .error e
  | .ok base => .ok { m with toMatrix := base }

/-- Accumulator of `SquareMatrix::compress_mod`. -/
structure ModAcc (α : Type) where
  values : List α
  bind : List ℕ
  off : ℕ

/-- Format conversion `SquareMatrix::compress_mod` (square_matrix.tpp:30). -/
def SquareMatrix.compress_mod (S : StorageOrder) (m : SquareMatrix α) :
    SquareMatrix α :=
  if m.modified then m
  else
    let N := m.rows
    let sz := m.get_mod_size S
    let init : ModAcc α := ⟨List.replicate sz 0, List.replicate sz 0, 0⟩
    if m.compressed then
      let acc := (List.range N).foldl (fun acc i =>
        let acc : ModAcc α := { acc with bind := acc.bind.set i (acc.off + N) }
        (slicePositions m.compressed_format.inner i).foldl (fun acc j =>
          let t := m.compressed_format.outer.getD j 0
          let v := m.compressed_format.values.getD j 0
          if t = i then { acc with values := acc.values.set i v }
          else
            { values := acc.values.set (N + acc.off) v
              bind := acc.bind.set (N + acc.off) t
              off := acc.off + 1 }) acc) init
      { m with
          toMatrix := { m.toMatrix with
            compressed := false,
            compressed_format := { inner := [], outer := [], values := [] } },
          modified := true,
          compressed_format_mod := ⟨acc.values, acc.bind⟩ }
    else
      let acc := (entries S m.rows m.cols m.uncompressed_format).foldl (fun acc e =>
        if e.1.col = e.1.row then { acc with values := acc.values.set e.1.row e.2 }
        else
          let values := acc.values.set (N + acc.off) e.2
          let bind := acc.bind.set (N + acc.off) (e.1.minor S)
          let bind := if e.1.major S < N - 1 then
              bind.set (e.1.major S + 1) (bind.getD (e.1.major S + 1) 0 + 1)
            else bind
          ⟨values, bind, acc.off + 1⟩) init
      let b := (List.range' 1 (N - 1)).foldl (fun b i =>
        let b := b.set i (b.getD i 0 + b.getD (i - 1) 0)
        b.set (i - 1) (b.getD (i - 1) 0 + N)) acc.bind
      let b := b.set (N - 1) (b.getD (N - 1) 0 + N)
      { m with
          toMatrix := { m.toMatrix with
            compressed := false,
            uncompressed_format := UMap.empty },
          modified := true,
          compressed_format_mod := ⟨acc.values, b⟩ }

/-- Accumulator of the merge loop of `SquareMatrix::compress`. -/
structure MergeAcc (α : Type) where
  inner : List ℕ
  outer : List ℕ
  values : List α
  index : ℕ

/-- Format conversion `SquareMatrix::compress` (square_matrix.tpp:199): from
modified state, merge the diagonal slots back into slice order; otherwise
the general-matrix compress runs. -/
def SquareMatrix.compress (S : StorageOrder) (m : SquareMatrix α) :
    SquareMatrix α :=
  if m.compressed then m
  else if m.modified then
    let N := match S with | .ColumnMajor => m.cols | .RowMajor => m.rows
    let mv := m.compressed_format_mod.values
    let mb := m.compressed_format_mod.bind
    let acc := (List.range N).foldl (fun acc i =>
      let start := mb.getD i 0
      let stop := if i + 1 = N then mv.length else mb.getD (i + 1) 0
      let st := (List.range' start (stop - start)).foldl
        (fun (st : MergeAcc α × Bool) j =>
          let t := mb.getD j 0
          let st :=
            if ¬ st.2 ∧ mv.getD i 0 ≠ 0 ∧ t > i then
              ({ st.1 with values := st.1.values ++ [mv.getD i 0]
                           outer := st.1.outer ++ [i]
                           index := st.1.index + 1 }, true)
            else st
          ({ st.1 with values := st.1.values ++ [mv.getD j 0]
                       outer := st.1.outer ++ [t] }, st.2))
        (acc, false)
      let acc :=
        if ¬ st.2 ∧ mv.getD i 0 ≠ 0 then
          { st.1 with values := st.1.values ++ [mv.getD i 0]
                      outer := st.1.outer ++ [i]
                      index := st.1.index + 1 }
        else st.1
      let index := acc.index + (stop - start)
      { acc with index := index, inner := acc.inner.set (i + 1) index })
      ⟨List.replicate (N + 1) 0, [], [], 0⟩
    { m with
        toMatrix := { m.toMatrix with
          compressed := true,
          compressed_format := ⟨acc.inner, acc.outer, acc.values⟩ },
        modified := false,
        compressed_format_mod := ⟨[], []⟩ }
  else { m with toMatrix := m.toMatrix.compress S }

/-- SpMV `operator*(const SquareMatrix&, const std::vector&)`
(square_matrix.tpp:646): in modified state the off-diagonal slices are
walked followed by the diagonal slots; otherwise the general-matrix SpMV
runs. -/
def SquareMatrix.matVec (S : StorageOrder) (m : SquareMatrix α) (v : List α) :
    Except Err (List α) :=
  if m.modified then
    if v.length ≠ m.cols then .error .ShapeMismatch
    else .ok <|
      let mv := m.compressed_format_mod.values
      let mb := m.compressed_format_mod.bind
      let N := match S with | .ColumnMajor => m.cols | .RowMajor => m.rows
      let res := (List.range N).foldl (fun res i =>
        (msrSlice mb mv.length N i).foldl (fun res j =>
          match S with
          | .ColumnMajor => vecAddAt res (mb.getD j 0) (mv.getD j 0 * v.getD i 0)
          | .RowMajor => vecAddAt res i (mv.getD j 0 * v.getD (mb.getD j 0) 0)) res)
        (List.replicate m.rows 0)
      (List.range m.rows).foldl
        (fun res i => vecAddAt res i (mv.getD i 0 * v.getD i 0)) res
  else m.toMatrix.matVec S v

/-- SpGEMM `operator*(const SquareMatrix&, const SquareMatrix&)`
(square_matrix.tpp:738).  When at least one operand is in modified state the
source enters the MSR branch; at line 745 it builds a `std::runtime_error`
for the mixed case but never throws it, so execution falls through to the
MSR arithmetic regardless (reading the unpopulated buffers of the
unmodified operand, whose out-of-range accesses are modelled by the
`getD _ 0` defaults).  The loops below transcribe the four contribution
phases: off-diagonal times off-diagonal (with the unconditional
last-position handling of each slice), the diagonal of one factor against
the stored entries of the other, and the diagonal-diagonal products. -/
def SquareMatrix.matMul (S : StorageOrder) (m1 m2 : SquareMatrix α) :
    Except Err (SquareMatrix α) :=
  if m1.modified ∨ m2.modified then
    if m1.cols ≠ m2.rows then .error .ShapeMismatch
    else
      let N := m1.rows
      let m1v := m1.compressed_format_mod.values
      let m1b := m1.compressed_format_mod.bind
      let m2v := m2.compressed_format_mod.values
      let m2b := m2.compressed_format_mod.bind
      let f :=
        match S with
        | .ColumnMajor =>
          let f := (List.range m2.cols).foldl (fun f col =>
            let start := m2b.getD col 0
            let stop := if col + 1 = m2.cols then m2v.length else m2b.getD (col + 1) 0
            let f := (List.range' start (stop - 1 - start)).foldl (fun f k =>
              let j := m2b.getD k 0
              (List.range' (m1b.getD j 0) (m1b.getD (j + 1) 0 - m1b.getD j 0)).foldl
                (fun f i =>
                  proxyAdd f ⟨m1b.getD i 0, col⟩ (m1v.getD i 0 * m2v.getD k 0)) f) f
            let kf := max start (stop - 1)
            let j := m2b.getD kf 0
            let e := if j + 1 = m1.cols then m1v.length else m1b.getD (j + 1) 0
            let f := (List.range' (m1b.getD j 0) (e - m1b.getD j 0)).foldl (fun f i =>
              proxyAdd f ⟨m1b.getD i 0, col⟩ (m1v.getD i 0 * m2v.getD kf 0)) f
            (List.range' start (stop - start)).foldl (fun f k =>
              let j := m2b.getD k 0
              proxyAdd f ⟨j, col⟩ (m1v.getD j 0 * m2v.getD k 0)) f) UMap.empty
          let f := (List.range m2.cols).foldl (fun f col =>
            let s := m1b.getD col 0
            let e := if col + 1 = m2.cols then m1v.length else m1b.getD (col + 1) 0
            (List.range' s (e - s)).foldl (fun f i =>
              proxyAdd f ⟨m1b.getD i 0, col⟩ (m1v.getD i 0 * m2v.getD col 0)) f) f
          (List.range m1.rows).foldl (fun f i =>
            proxyAdd f ⟨i, i⟩ (m1v.getD i 0 * m2v.getD i 0)) f
        | .RowMajor =>
          let f := (List.range m1.rows).foldl (fun f row =>
            let start := m1b.getD row 0
            let stop := if row + 1 = m1.rows then m1v.length else m1b.getD (row + 1) 0
            let f := (List.range' start (stop - 1 - start)).foldl (fun f k =>
              let j := m1b.getD k 0
              (List.range' (m2b.getD j 0) (m2b.getD (j + 1) 0 - m2b.getD j 0)).foldl
                (fun f i =>
                  proxyAdd f ⟨row, m2b.getD i 0⟩ (m1v.getD k 0 * m2v.getD i 0)) f) f
            let kf := max start (stop - 1)
            let j := m1b.getD kf 0
            let e := if j + 1 = m2.rows then m2v.length else m2b.getD (j + 1) 0
            let f := (List.range' (m2b.getD j 0) (e - m2b.getD j 0)).foldl (fun f i =>
              proxyAdd f ⟨row, m2b.getD i 0⟩ (m1v.getD kf 0 * m2v.getD i 0)) f
            (List.range' start (stop - start)).foldl (fun f k =>
              let j := m1b.getD k 0
              proxyAdd f ⟨row, j⟩ (m1v.getD k 0 * m2v.getD j 0)) f) UMap.empty
          let f := (List.range m1.rows).foldl (fun f row =>
            let s := m2b.getD row 0
            let e := if row + 1 = m1.rows then m2v.length else m2b.getD (row + 1) 0
            (List.range' s (e - s)).foldl (fun f i =>
              proxyAdd f ⟨row, m2b.getD i 0⟩ (m1v.getD row 0 * m2v.getD i 0)) f) f
          (List.range m1.rows).foldl (fun f i =>
            proxyAdd f ⟨i, i⟩ (m1v.getD i 0 * m2v.getD i 0)) f
      .ok { toMatrix := { rows := N, cols := N, compressed := false
                          uncompressed_format := f
                          compressed_format := { inner := [], outer := [], values := [] } }
            modified := false
            compressed_format_mod := ⟨[], []⟩ }
  else
    match Matrix.matMul S m1.toMatrix m2.toMatrix with
    | .error e => .error e
    | .ok base => .ok { toMatrix := base, modified := false
                        compressed_format_mod := ⟨[], []⟩ }

/-- Shape reset `SquareMatrix::resize_and_clear` (square_matrix.tpp:457). -/
def SquareMatrix.resize_and_clear (_m : SquareMatrix α) (dim : ℕ) : SquareMatrix α :=
  { toMatrix := { rows := dim, cols := dim, compressed := false
                  uncompressed_format := UMap.empty
                  compressed_format := { inner := [], outer := [], values := [] } }
    modified := false
    compressed_format_mod := ⟨[], []⟩ }

/-- Matrix-Market ingest `SquareMatrix::reader` (square_matrix.tpp:566),
modelled from the point where the header has been parsed, like
`Matrix.reader`; a non-square dimensions line is rejected, and the declared
entry count is read into a local (`nnz`) that is never used. -/
def SquareMatrix.reader (S : StorageOrder) (m : SquareMatrix α)
    (row_read col_read _declared_nnz : ℕ) (lines : List (ℕ × ℕ × α)) :
    Except Err (SquareMatrix α) :=
  if row_read ≠ col_read then .error .ShapeMismatch
  else
    let m0 := m.resize_and_clear row_read
    lines.foldl (fun acc e =>
      match acc with
      | .error err => .error err
      | .ok mm => mm.set S (e.1 - 1) (e.2.1 - 1) e.2.2) (.ok m0)

/-- Element read `DiagonalView::operator() const` (matrix_views.hpp:161):
a diagonal index delegates to the underlying square matrix, any other index
throws. -/
def DiagonalView.get (S : StorageOrder) (m : SquareMatrix α) (row col : ℕ) :
    Except Err α :=
  if row = col then m.get S row col
  else .error .IllegalStructure

/-- Element write `DiagonalView::set` (matrix_views.hpp:126). -/
def DiagonalView.set (S : StorageOrder) (m : SquareMatrix α) (row col : ℕ)
    (value : α) : Except Err (SquareMatrix α) :=
  if row = col then m.set S row col value
  else .error .IllegalStructure

/-- Entry count `DiagonalView::get_nnz` (matrix_views.hpp:182): the source
accumulates `sum += matrix(i, i)` over the diagonal into a value of the
scalar type and returns it (converted to `size_t` by the declared return
type); the accumulated scalar sum is modelled here. -/
def DiagonalView.get_nnz (S : StorageOrder) (m : SquareMatrix α) : α :=
  (List.range m.rows).foldl (fun sum i => sum + m.getVal S i i) 0

section Norms

variable {β : Type} [LinearOrderedCommRing β] [DecidableEq β]

/-- Dereferenced `std::max_element` over an accumulator vector.  The C++
call dereferences the iterator, which is undefined on an empty vector; the
value 0 stands in for that (unreachable) case. -/
def maxElem (l : List β) : β :=
  match l with
  | [] => 0
  | x :: xs => xs.foldl max x

/-- One-norm `Matrix::norm<NormType::One>` (matrix.tpp:484): per-column
absolute sums computed from the active representation, then their maximum.
The C++ accumulates into `double`; over an ordered scalar the arithmetic is
modelled exactly. -/
def Matrix.normOne (S : StorageOrder) (m : Matrix β) : β :=
  if ¬ m.compressed then
    maxElem ((entries S m.rows m.cols m.uncompressed_format).foldl
      (fun sums e => vecAddAt sums e.1.col |e.2|) (List.replicate m.cols 0))
  else match S with
  | .ColumnMajor =>
    maxElem ((List.range m.cols).foldl (fun sums col =>
      (slicePositions m.compressed_format.inner col).foldl (fun sums j =>
        vecAddAt sums col |m.compressed_format.values.getD j 0|) sums)
      (List.replicate m.cols 0))
  | .RowMajor =>
    maxElem ((List.range m.rows).foldl (fun sums row =>
      (slicePositions m.compressed_format.inner row).foldl (fun sums j =>
        vecAddAt sums (m.compressed_format.outer.getD j 0)
          |m.compressed_format.values.getD j 0|) sums)
      (List.replicate m.cols 0))

/-- One-norm `SquareMatrix::norm<NormType::One>` (square_matrix.tpp:477):
in modified state the off-diagonal slices and the diagonal slots are
accumulated; otherwise the general-matrix norm runs (which is also what
`Matrix::norm` does for a modified square matrix through its typeid
re-dispatch). -/
def SquareMatrix.normOne (S : StorageOrder) (m : SquareMatrix β) : β :=
  if m.modified then
    let mv := m.compressed_format_mod.values
    let mb := m.compressed_format_mod.bind
    match S with
    | .ColumnMajor =>
      maxElem ((List.range m.cols).foldl (fun sums i =>
        let sums := (msrSlice mb mv.length m.cols i).foldl (fun sums j =>
          vecAddAt sums i |mv.getD j 0|) sums
        vecAddAt sums i |mv.getD i 0|) (List.replicate m.cols 0))
    | .RowMajor =>
      maxElem ((List.range m.rows).foldl (fun sums i =>
        let sums := (msrSlice mb mv.length m.rows i).foldl (fun sums j =>
          vecAddAt sums (mb.getD j 0) |mv.getD j 0|) sums
        vecAddAt sums i |mv.getD i 0|) (List.replicate m.cols 0))
  else m.toMatrix.normOne S

end Norms

/-- The value produced by an element read of the general matrix, with the
thrown case mapped to 0 (used only at in-range indices). -/
def Matrix.getVal (S : StorageOrder) (m : Matrix α) (row col : ℕ) : α :=
  match m.get S row col with
  | .ok v => v
  | .error _ => 0

/-- Test fixture: the 4×4 square matrix of specification scenario 5, with
diagonal `[2, -1, 0, 5]` and the off-diagonal entry `A[1,3] = 7`, in
uncompressed state. -/
def scenario5A : SquareMatrix ℤ :=
  { toMatrix :=
      { rows := 4, cols := 4, compressed := false
        uncompressed_format := fun k =>
          if k = ⟨0, 0⟩ then some 2
          else if k = ⟨1, 1⟩ then some (-1)
          else if k = ⟨3, 3⟩ then some 5
          else if k = ⟨1, 3⟩ then some 7
          else none
        compressed_format := { inner := [], outer := [], values := [] } }
    modified := false
    compressed_format_mod := ⟨[], []⟩ }

/-- Test fixture: a 2×2 square matrix with entries `[[1, 2], [0, 4]]` in
uncompressed state. -/
def square2Base : SquareMatrix ℤ :=
  { toMatrix :=
      { rows := 2, cols := 2, compressed := false
        uncompressed_format := fun k =>
          if k = ⟨0, 0⟩ then some 1
          else if k = ⟨0, 1⟩ then some 2
          else if k = ⟨1, 1⟩ then some 4
          else none
        compressed_format := { inner := [], outer := [], values := [] } }
    modified := false
    compressed_format_mod := ⟨[], []⟩ }

/-- Test fixture: `square2Base` converted to modified compressed state. -/
def square2Mod : SquareMatrix ℤ :=
  square2Base.compress_mod .RowMajor

/-- Test fixture: an empty 1×1 integer matrix in uncompressed state. -/
def unit1 : Matrix ℤ :=
  { rows := 1, cols := 1, compressed := false
    uncompressed_format := UMap.empty
    compressed_format := { inner := [], outer := [], values := [] } }

/-- Test fixture: the 3×3 integer matrix of specification scenario 1, with
dense form `[[1,2,3],[0,0,0],[3,3,0]]` (so with an empty middle row), in
uncompressed state. -/
def scen1 : Matrix ℤ :=
  { rows := 3, cols := 3, compressed := false
    uncompressed_format := fun k =>
      if k = ⟨0, 0⟩ then some 1
      else if k = ⟨0, 1⟩ then some 2
      else if k = ⟨0, 2⟩ then some 3
      else if k = ⟨2, 0⟩ then some 3
      else if k = ⟨2, 1⟩ then some 3
      else none
    compressed_format := { inner := [], outer := [], values := [] } }

/-- The per-major-slice group of the in-order map traversal: the stored
entries with major coordinate `i`, ordered by minor coordinate, so that
`entries S rows cols f = (List.range md).flatMap (entryGroup S rows cols f)`. -/
def entryGroup (S : StorageOrder) (rows cols : ℕ) (f : UMap α) (i : ℕ) :
    List (Index × α) :=
  (List.range (minorDim S rows cols)).filterMap (fun j =>
    (f (Index.make S i j)).map (fun v => (Index.make S i j, v)))

/-- Number of stored entries whose major coordinate is below `i`: the value
that `Matrix::compress` records into `inner[i]`. -/
def countLt (S : StorageOrder) (es : List (Index × α)) (i : ℕ) : ℕ :=
  (es.filter (fun e => decide (e.1.major S < i))).length

/-- Well-formedness of the COO store: every stored key lies inside the
matrix bounds.  Every reachable state satisfies this because `set` checks
the bounds and the conversions preserve the key set (§3 of the
specification); it is the hypothesis under which the map traversal model is
faithful. -/
def MapWF (rows cols : ℕ) (f : UMap α) : Prop :=
  ∀ k v, f k = some v → k.row < rows ∧ k.col < cols

/-- Zero-freeness of the COO store: no stored value is the additive
identity.  Every reachable state satisfies this because `set` and the proxy
erase zero writes; it is the hypothesis under which the modified-format
buffer sizing (`get_mod_size`) is exact. -/
def MapZF (f : UMap α) : Prop :=
  ∀ k v, f k = some v → v ≠ 0

/-- The off-diagonal part of a slice group: the entries the modified format
stores past the reserved diagonal prefix. -/
def offGroup (S : StorageOrder) (rows cols : ℕ) (f : UMap α) (i : ℕ) :
    List (Index × α) :=
  (entryGroup S rows cols f i).filter (fun e => decide (¬ e.1.col = e.1.row))

/-- The off-diagonal entries of the whole traversal, in traversal order: the
order in which `compress_mod` fills the off-diagonal region. -/
def offEntries (S : StorageOrder) (rows cols : ℕ) (f : UMap α) :
    List (Index × α) :=
  (entries S rows cols f).filter (fun e => decide (¬ e.1.col = e.1.row))

/-- The entries a modified-format slice re-inserts on `uncompress`: the
diagonal slot first (when present), then the off-diagonal entries. -/
def modGroup (S : StorageOrder) (rows cols : ℕ) (f : UMap α) (i : ℕ) :
    List (Index × α) :=
  (match f ⟨i, i⟩ with
   | some v => [((⟨i, i⟩ : Index), v)]
   | none => []) ++ offGroup S rows cols f i

/-- A conversion call on a square matrix: `compress_mod()`, `compress()` or
`uncompress()` (the three format conversions of square_matrix.tpp). -/
inductive ConvOp where
  | cmod : ConvOp
  | comp : ConvOp
  | uncomp : ConvOp

/-- Apply one conversion call. -/
def applyConv (S : StorageOrder) (m : SquareMatrix α) : ConvOp → SquareMatrix α
  | .cmod => m.compress_mod S
  | .comp => m.compress S
  | .uncomp => m.uncompress S

/-- Apply a sequence of conversion calls left to right. -/
def applyConvs (S : StorageOrder) (m : SquareMatrix α) (ops : List ConvOp) :
    SquareMatrix α :=
  ops.foldl (applyConv S) m

/-- The canonical inner pointer array of the compressed format of a square
map: slot `q` counts the stored entries with major coordinate below `q`. -/
def csrInner (S : StorageOrder) (n : ℕ) (f : UMap α) : List ℕ :=
  (List.range (n + 1)).map (fun q => countLt S (entries S n n f) q)

/-- The Uncompressed representation state holding the map `f`: the state a
freshly filled `SquareMatrix` is in, and the state `uncompress` returns to. -/
def CooSt (n : ℕ) (f : UMap α) (q : SquareMatrix α) : Prop :=
  q.rows = n ∧ q.cols = n ∧ q.modified = false ∧ q.compressed = false ∧
  q.uncompressed_format = f ∧
  q.compressed_format = ⟨[], [], []⟩

/-- The ModifiedCompressed representation state holding the map `f`: the
canonical MSR/MSC arrays `compress_mod` builds. -/
def MsrSt (S : StorageOrder) (n : ℕ) (f : UMap α) (q : SquareMatrix α) :
    Prop :=
  q.rows = n ∧ q.cols = n ∧ q.modified = true ∧ q.compressed = false ∧
  q.uncompressed_format = UMap.empty ∧
  q.compressed_format = ⟨[], [], []⟩ ∧
  q.compressed_format_mod.values =
    (List.range n).map (fun i => (f ⟨i, i⟩).getD 0) ++
      (offEntries S n n f).map Prod.snd ∧
  q.compressed_format_mod.bind =
    (List.range n).map (fun i => n + countLt S (offEntries S n n f) i) ++
      (offEntries S n n f).map (fun e => e.1.minor S)

/-- The Compressed representation state holding the map `f`: the canonical
CSR/CSC arrays `compress` builds. -/
def CsrSt (S : StorageOrder) (n : ℕ) (f : UMap α) (q : SquareMatrix α) :
    Prop :=
  q.rows = n ∧ q.cols = n ∧ q.modified = false ∧ q.compressed = true ∧
  q.uncompressed_format = UMap.empty ∧
  q.compressed_format.inner = csrInner S n f ∧
  q.compressed_format.outer =
    (entries S n n f).map (fun e => e.1.minor S) ∧
  q.compressed_format.values = (entries S n n f).map Prod.snd

/-- A reachable representation state for the logical contents `f`. -/
def GoodSt (S : StorageOrder) (n : ℕ) (f : UMap α) (q : SquareMatrix α) :
    Prop :=
  CooSt n f q ∨ MsrSt S n f q ∨ CsrSt S n f q

/-- The freshly constructed uncompressed square matrix holding `f`. -/
def cooBase (n : ℕ) (f : UMap α) : SquareMatrix α :=
  { toMatrix :=
      { rows := n, cols := n, compressed := false
        uncompressed_format := f
        compressed_format := { inner := [], outer := [], values := [] } }
    modified := false
    compressed_format_mod := { values := [], bind := [] } }

/-- The entry-level step of the merge loop of `SquareMatrix::compress` from
modified state (square_matrix.tpp:199): before emitting an off-diagonal
entry, insert the pending nonzero diagonal value `D` of slice `i` if the
entry's minor coordinate has passed the diagonal. -/
def mergeStep (S : StorageOrder) (i : ℕ) (D : α) :
    MergeAcc α × Bool → Index × α → MergeAcc α × Bool :=
  fun st e =>
    let st :=
      if ¬ st.2 ∧ D ≠ 0 ∧ e.1.minor S > i then
        ({ st.1 with values := st.1.values ++ [D]
                     outer := st.1.outer ++ [i]
                     index := st.1.index + 1 }, true)
      else st
    ({ st.1 with values := st.1.values ++ [e.2]
                 outer := st.1.outer ++ [e.1.minor S] }, st.2)


/-- The per-slice effect of the merge loop of `SquareMatrix::compress` on
the canonical MSR arrays: append the slice's entries and record the new
running index in the inner pointer at slot `i + 1`. -/
def mergeRow (S : StorageOrder) (n : ℕ) (f : UMap α) (acc : MergeAcc α)
    (i : ℕ) : MergeAcc α :=
  ⟨acc.inner.set (i + 1) (acc.index + (entryGroup S n n f i).length),
    acc.outer ++ (entryGroup S n n f i).map (fun e => e.1.minor S),
    acc.values ++ (entryGroup S n n f i).map Prod.snd,
    acc.index + (entryGroup S n n f i).length⟩


/-- A run of consecutive writes: store the elements of `xs` at positions
`p, p + 1, ...` of `l` (the off-diagonal region writes of
`SquareMatrix::compress_mod`). -/
def writeRun {δ : Type} (l : List δ) (p : ℕ) : List δ → List δ
  | [] => l
  | x :: xs => writeRun (l.set p x) (p + 1) xs

/-- One entry step of the slice walk of the compressed branch of
`SquareMatrix::compress_mod` (square_matrix.tpp:30): a diagonal hit is
stored in the reserved diagonal slot of the values buffer, anything else is
appended to the off-diagonal region of both buffers. -/
def modStep (S : StorageOrder) (n i : ℕ) (acc : ModAcc α) (e : Index × α) :
    ModAcc α :=
  if e.1.minor S = i then ⟨acc.values.set i e.2, acc.bind, acc.off⟩
  else ⟨acc.values.set (n + acc.off) e.2,
    acc.bind.set (n + acc.off) (e.1.minor S), acc.off + 1⟩

/-- The per-slice effect of the compressed branch of
`SquareMatrix::compress_mod`: record the slice pointer, then walk the
slice's entries. -/
def modRow (S : StorageOrder) (n : ℕ) (f : UMap α) (acc : ModAcc α) (i : ℕ) :
    ModAcc α :=
  (entryGroup S n n f i).foldl (modStep S n i)
    ⟨acc.values, acc.bind.set i (acc.off + n), acc.off⟩

/-- Loop invariant of the entry walk of `Matrix::compress`, relating the
accumulator to the processed prefix `p` of the traversal. -/
def CompressInv (S : StorageOrder) (md : ℕ) (p : List (Index × α))
    (acc : CompressAcc α) : Prop :=
  acc.outer = p.map (fun e => e.1.minor S) ∧
  acc.values = p.map Prod.snd ∧
  acc.inner.length = md + 1 ∧
  acc.index ≤ md ∧
  ((p = [] ∧ acc.index = 0) ∨ (∃ e ∈ p, acc.index = e.1.major S)) ∧
  (∀ e ∈ p, e.1.major S ≤ acc.index) ∧
  (∀ q, q ≤ md → acc.inner.getD q 0 = if q ≤ acc.index then countLt S p q else 0)

/-- Loop invariant of the entry walk of `SquareMatrix::compress_mod` on an
uncompressed source, relating the accumulator to the processed prefix `p`:
the diagonal prefix of `values` holds the diagonal values seen so far, the
off-diagonal region holds the off-diagonal values and minors seen so far,
and the slots `1..rows-1` of `bind` count the off-diagonal entries of the
previous major slice (the raw per-slice counters before the prefix pass). -/
def ModInv (S : StorageOrder) (rows noff : ℕ) (p : List (Index × α))
    (acc : ModAcc α) : Prop :=
  acc.values.length = rows + noff ∧
  acc.bind.length = rows + noff ∧
  acc.off = (p.filter (fun e => decide (¬ e.1.col = e.1.row))).length ∧
  (∀ q, q < rows → acc.values.getD q 0 =
    (match p.find? (fun x => x.1 == (⟨q, q⟩ : Index)) with
     | some x => x.2
     | none => 0)) ∧
  (∀ t, acc.values.getD (rows + t) 0 =
    ((p.filter (fun e => decide (¬ e.1.col = e.1.row))).map Prod.snd).getD t 0) ∧
  (∀ t, acc.bind.getD (rows + t) 0 =
    ((p.filter (fun e => decide (¬ e.1.col = e.1.row))).map
      (fun e => e.1.minor S)).getD t 0) ∧
  (∀ q, 1 ≤ q → q < rows → acc.bind.getD q 0 =
    ((p.filter (fun e => decide (¬ e.1.col = e.1.row))).filter
      (fun e => decide (e.1.major S = q - 1))).length) ∧
  acc.bind.getD 0 0 = 0

/-- Loop invariant of the pointer-accumulation pass of
`SquareMatrix::compress_mod` (the loop `bind[i] += bind[i-1];
bind[i-1] += rows`): after `j` steps the slots below `j` hold their final
pointers, slot `j` holds the plain prefix count, and the slots above still
hold the raw per-slice counters. -/
def MsrPassInv (S : StorageOrder) (rows : ℕ) (os : List (Index × α))
    (minors : List ℕ) (j : ℕ) (b : List ℕ) : Prop :=
  b.length = rows + os.length ∧
  (∀ q, q < j → b.getD q 0 = rows + countLt S os q) ∧
  b.getD j 0 = countLt S os j ∧
  (∀ q, j < q → q < rows → b.getD q 0 =
    (os.filter (fun e => decide (e.1.major S = q - 1))).length) ∧
  (∀ t, b.getD (rows + t) 0 = minors.getD t 0)

end SparseSpec

namespace SparseSpec

variable {α : Type} [CommRing α] [DecidableEq α]

theorem UMap.insert_self (f : UMap α) (k : Index) (v : α) :
    (f.insert k v) k = some v := by
  simp [UMap.insert]

theorem UMap.erase_self (f : UMap α) (k : Index) :
    (f.erase k) k = none := by
  simp [UMap.erase]

theorem Matrix.uncompress_rows (S : StorageOrder) (m : Matrix α) :
    (m.uncompress S).rows = m.rows := by
  unfold Matrix.uncompress; split <;> rfl

theorem Matrix.uncompress_cols (S : StorageOrder) (m : Matrix α) :
    (m.uncompress S).cols = m.cols := by
  unfold Matrix.uncompress; split <;> rfl

theorem Matrix.uncompress_compressed (S : StorageOrder) (m : Matrix α) :
    (m.uncompress S).compressed = false ∨ m.compressed = false := by
  unfold Matrix.uncompress
  split
  · next h => right; exact Bool.eq_false_iff.mpr h
  · left; rfl

theorem Matrix.compress_rows (S : StorageOrder) (m : Matrix α) :
    (m.compress S).rows = m.rows := by
  unfold Matrix.compress; split <;> rfl

theorem Matrix.compress_cols (S : StorageOrder) (m : Matrix α) :
    (m.compress S).cols = m.cols := by
  unfold Matrix.compress; split <;> rfl

/-- The state reached inside `Matrix::set` after the transparent uncompress
is uncompressed and has the original shape. -/
theorem Matrix.setPre_spec (S : StorageOrder) (m : Matrix α) :
    (if m.compressed then m.uncompress S else m).compressed = false ∧
    (if m.compressed then m.uncompress S else m).rows = m.rows ∧
    (if m.compressed then m.uncompress S else m).cols = m.cols := by
  by_cases hc : m.compressed
  · simp only [hc, if_true]
    refine ⟨?_, Matrix.uncompress_rows S m, Matrix.uncompress_cols S m⟩
    rcases Matrix.uncompress_compressed S m with h | h
    · exact h
    · rw [hc] at h; cases h
  · simp [hc]

/-- Element membership after `Matrix::set` at the written key, and the
result shape, for in-range indices. -/
theorem Matrix.set_ok (S : StorageOrder) (m : Matrix α) (r c : ℕ) (v : α)
    (hr : r < m.rows) (hc : c < m.cols) :
    ∃ m', m.set S r c v = .ok m' ∧
      m'.rows = m.rows ∧ m'.cols = m.cols ∧ m'.compressed = false ∧
      (v = 0 → m'.uncompressed_format ⟨r, c⟩ = none) ∧
      (v ≠ 0 → m'.uncompressed_format ⟨r, c⟩ = some v) := by
  obtain ⟨h1, h2, h3⟩ := Matrix.setPre_spec S m
  unfold Matrix.set
  rw [if_neg (by omega)]
  set m₂ := if m.compressed then m.uncompress S else m with hm₂
  by_cases hv : v = 0
  · rw [if_neg (by simp [hv])]
    cases hfind : m₂.uncompressed_format.find ⟨r, c⟩ with
    | some w =>
      exact ⟨_, rfl, h2, h3, h1, fun _ => UMap.erase_self _ _, fun hne => absurd hv hne⟩
    | none =>
      exact ⟨m₂, rfl, h2, h3, h1, fun _ => hfind, fun hne => absurd hv hne⟩
  · rw [if_pos hv]
    exact ⟨_, rfl, h2, h3, h1, fun h0 => absurd h0 hv, fun _ => UMap.insert_self _ _ _⟩

/-- An uncompressed matrix reads back the stored (or absent) value. -/
theorem Matrix.get_uncompressed (S : StorageOrder) (m : Matrix α) (r c : ℕ)
    (hr : r < m.rows) (hc : c < m.cols) (hcomp : m.compressed = false) :
    m.get S r c = .ok ((m.uncompressed_format ⟨r, c⟩).getD 0) := by
  unfold Matrix.get
  rw [if_neg (by omega), hcomp]
  simp only [Bool.false_eq_true, if_false]
  cases h : m.uncompressed_format.find ⟨r, c⟩ with
  | some w => simp [UMap.find] at h; simp [h]
  | none => simp [UMap.find] at h; simp [h]

theorem SquareMatrix.uncompress_rows_eq (S : StorageOrder) (m : SquareMatrix α) :
    (m.uncompress S).rows = m.rows := by
  unfold SquareMatrix.uncompress
  split
  · rfl
  · exact Matrix.uncompress_rows S m.toMatrix

theorem SquareMatrix.uncompress_cols_eq (S : StorageOrder) (m : SquareMatrix α) :
    (m.uncompress S).cols = m.cols := by
  unfold SquareMatrix.uncompress
  split
  · rfl
  · exact Matrix.uncompress_cols S m.toMatrix

theorem SquareMatrix.uncompress_modified (S : StorageOrder) (m : SquareMatrix α) :
    (m.uncompress S).modified = false ∨ m.modified = false := by
  unfold SquareMatrix.uncompress
  split
  · left; rfl
  · next h => right; exact Bool.eq_false_iff.mpr h

theorem Matrix.set_error (S : StorageOrder) (m : Matrix α) (r c : ℕ) (v : α)
    (h : r ≥ m.rows ∨ c ≥ m.cols) : m.set S r c v = .error .OutOfRange := by
  unfold Matrix.set
  rw [if_pos h]

/-- The unfolding equation of `SquareMatrix.set`. -/
theorem SquareMatrix.set_eq (S : StorageOrder) (sq : SquareMatrix α)
    (r c : ℕ) (v : α) :
    sq.set S r c v =
      match Matrix.set S (if sq.modified then sq.uncompress S else sq).toMatrix r c v with
      | .error e => .error e
      | .ok base =>
          .ok { (if sq.modified then sq.uncompress S else sq) with toMatrix := base } :=
  rfl

/-- C3: `set(r, c, v)` fails with OutOfRange exactly when `r ≥ rows` or
`c ≥ cols`; otherwise the matrix first transitions to uncompressed state
(from compressed, and for a square matrix also from modified state), then a
zero value erases the entry (no zero is ever stored) while a nonzero value
overwrites it, and afterwards `get(r, c)` returns `v`. -/
theorem claim_C3_set_semantics (S : StorageOrder) (m : Matrix α)
    (sq : SquareMatrix α) (r c : ℕ) (v : α) :
    ((r ≥ m.rows ∨ c ≥ m.cols) → m.set S r c v = .error .OutOfRange) ∧
    ((r ≥ sq.rows ∨ c ≥ sq.cols) → sq.set S r c v = .error .OutOfRange) ∧
    (r < m.rows → c < m.cols → ∃ m', m.set S r c v = .ok m' ∧
      m'.rows = m.rows ∧ m'.cols = m.cols ∧
      m'.compressed = false ∧
      (v = 0 → m'.uncompressed_format ⟨r, c⟩ = none) ∧
      (v ≠ 0 → m'.uncompressed_format ⟨r, c⟩ = some v) ∧
      m'.get S r c = .ok v) ∧
    (r < sq.rows → c < sq.cols → ∃ sq', sq.set S r c v = .ok sq' ∧
      sq'.compressed = false ∧ sq'.modified = false ∧
      (v = 0 → sq'.uncompressed_format ⟨r, c⟩ = none) ∧
      (v ≠ 0 → sq'.uncompressed_format ⟨r, c⟩ = some v) ∧
      sq'.get S r c = .ok v) := by
  have hm₂rows : (if sq.modified then sq.uncompress S else sq).rows = sq.rows := by
    split
    · exact SquareMatrix.uncompress_rows_eq S sq
    · rfl
  have hm₂cols : (if sq.modified then sq.uncompress S else sq).cols = sq.cols := by
    split
    · exact SquareMatrix.uncompress_cols_eq S sq
    · rfl
  have hm₂mod : sq.modified = false ∨
      (if sq.modified then sq.uncompress S else sq).modified = false := by
    split
    · next hmm =>
        rcases SquareMatrix.uncompress_modified S sq with h | h
        · right; exact h
        · left; exact h
    · next hmm => left; exact Bool.eq_false_iff.mpr hmm
  refine ⟨?_, ?_, ?_, ?_⟩
  · intro h
    exact Matrix.set_error S m r c v h
  · intro h
    have hb : r ≥ (if sq.modified then sq.uncompress S else sq).toMatrix.rows ∨
        c ≥ (if sq.modified then sq.uncompress S else sq).toMatrix.cols := by
      have e1 : (if sq.modified then sq.uncompress S else sq).toMatrix.rows = sq.rows :=
        hm₂rows
      have e2 : (if sq.modified then sq.uncompress S else sq).toMatrix.cols = sq.cols :=
        hm₂cols
      omega
    rw [SquareMatrix.set_eq, Matrix.set_error S _ r c v hb]
  · intro hr hc
    obtain ⟨m', hset, h2, h3, h1, hz, hnz⟩ := Matrix.set_ok S m r c v hr hc
    refine ⟨m', hset, h2, h3, h1, hz, hnz, ?_⟩
    rw [Matrix.get_uncompressed S m' r c (by omega) (by omega) h1]
    by_cases hv : v = 0
    · rw [hz hv, hv]; rfl
    · rw [hnz hv]; rfl
  · intro hr hc
    rw [SquareMatrix.set_eq]
    set m₂ := if sq.modified then sq.uncompress S else sq with hm₂
    have hmod : m₂.modified = false := by
      rw [hm₂]
      rcases hm₂mod with h | h
      · rw [h]; simp only [Bool.false_eq_true, if_false]
        exact Bool.eq_false_iff.mpr (by rw [h]; simp)
      · rw [hm₂] at h; exact h
    have hrows : m₂.toMatrix.rows = sq.rows := by
      rw [show m₂.toMatrix.rows = m₂.rows from rfl, hm₂]; exact hm₂rows
    have hcols : m₂.toMatrix.cols = sq.cols := by
      rw [show m₂.toMatrix.cols = m₂.cols from rfl, hm₂]; exact hm₂cols
    obtain ⟨m', hset, h2, h3, h1, hz, hnz⟩ :=
      Matrix.set_ok S m₂.toMatrix r c v (by omega) (by omega)
    rw [hset]
    refine ⟨{ m₂ with toMatrix := m' }, rfl, h1, hmod, hz, hnz, ?_⟩
    show SquareMatrix.get S _ r c = _
    unfold SquareMatrix.get
    rw [if_neg (by
      show ¬ (r ≥ m'.rows ∨ c ≥ m'.cols)
      omega)]
    simp only [hmod, Bool.false_eq_true, if_false]
    have hget := Matrix.get_uncompressed S m' r c (by omega) (by omega) h1
    rw [hget]
    by_cases hv : v = 0
    · rw [hz hv, hv]; rfl
    · rw [hnz hv]; rfl

/-- Witness for C3: setting `(0,0) := 5` on an empty 1×1 matrix succeeds,
stores the value, and reads it back. -/
theorem claim_C3_set_semantics_witness :
    (0 < unit1.rows ∧ 0 < unit1.cols) ∧
    (∃ m', Matrix.set .RowMajor unit1 0 0 (5 : ℤ) = .ok m' ∧
      m'.rows = unit1.rows ∧ m'.cols = unit1.cols ∧
      m'.compressed = false ∧
      ((5 : ℤ) = 0 → m'.uncompressed_format ⟨0, 0⟩ = none) ∧
      ((5 : ℤ) ≠ 0 → m'.uncompressed_format ⟨0, 0⟩ = some 5) ∧
      m'.get .RowMajor 0 0 = .ok 5) :=
  ⟨⟨by decide, by decide⟩,
    (claim_C3_set_semantics .RowMajor unit1 square2Base 0 0 (5 : ℤ)).2.2.1
      (by decide) (by decide)⟩

/-- C8 counterexample: the claim of the specification says that
`DiagonalView::get` at an off-diagonal index returns the additive identity
without failing; on the code it throws instead (matrix_views.hpp:168). -/
theorem claim_C8_counterexample :
    DiagonalView.get .RowMajor scenario5A 0 1 = .error .IllegalStructure ∧
    DiagonalView.get .RowMajor scenario5A 0 1 ≠ .ok 0 := by
  constructor
  · rfl
  · intro h
    rw [show DiagonalView.get .RowMajor scenario5A 0 1 =
      Except.error Err.IllegalStructure from rfl] at h
    exact Except.noConfusion h

/-- C8 as amended: `DiagonalView::get` and `DiagonalView::set` delegate to
the underlying square matrix on diagonal indices; on off-diagonal indices
both fail with IllegalStructure (leaving the matrix unchanged, since the
error is raised before any write). -/
theorem claim_C8_diagonal_view_access (S : StorageOrder) (A : SquareMatrix α)
    (r c : ℕ) (v : α) :
    (∀ i, DiagonalView.get S A i i = A.get S i i) ∧
    (r ≠ c → DiagonalView.get S A r c = .error .IllegalStructure) ∧
    (∀ i, DiagonalView.set S A i i v = A.set S i i v) ∧
    (r ≠ c → DiagonalView.set S A r c v = .error .IllegalStructure) := by
  refine ⟨fun i => ?_, fun h => ?_, fun i => ?_, fun h => ?_⟩
  · unfold DiagonalView.get; rw [if_pos rfl]
  · unfold DiagonalView.get; rw [if_neg h]
  · unfold DiagonalView.set; rw [if_pos rfl]
  · unfold DiagonalView.set; rw [if_neg h]

/-- Witness for the amended C8: on the scenario-5 square matrix, the
diagonal read delegates and the off-diagonal write fails. -/
theorem claim_C8_diagonal_view_access_witness :
    DiagonalView.get .RowMajor scenario5A 1 1 = scenario5A.get .RowMajor 1 1 ∧
    DiagonalView.set .RowMajor scenario5A 1 0 (3 : ℤ) = .error .IllegalStructure :=
  ⟨(claim_C8_diagonal_view_access .RowMajor scenario5A 1 0 (3 : ℤ)).1 1,
    (claim_C8_diagonal_view_access .RowMajor scenario5A 1 0 (3 : ℤ)).2.2.2
      (by decide)⟩

/-- C9: on the scenario-5 square matrix with diagonal `[2, -1, 0, 5]`, the
code of `DiagonalView::get_nnz` sums the diagonal values and produces 6,
while the number of nonzero diagonal slots (what the specification and the
function's own documentation promise) is 3. -/
theorem claim_C9_get_nnz_evaluation :
    DiagonalView.get_nnz .RowMajor scenario5A = (6 : ℤ) ∧
    ((List.range 4).filter
      (fun i => decide (SquareMatrix.getVal .RowMajor scenario5A i i ≠ 0))).length = 3 ∧
    (6 : ℤ) ≠ 3 := by
  refine ⟨by decide, by decide, by decide⟩

/-- C6: the specification requires SpGEMM to fail with FormatMismatch when
exactly one square operand is in modified state; square_matrix.tpp:745
constructs the `std::runtime_error` but never throws it, so the embedded
operation returns a result on the mixed pair instead of an error. -/
theorem claim_C6_mixed_modified_no_error :
    square2Mod.modified = true ∧
    square2Base.modified = false ∧
    (SquareMatrix.matMul .RowMajor square2Mod square2Base).isOk = true := by
  refine ⟨by decide, rfl, by decide⟩

/-- C10: the matrices produced by the reader are determined solely by the
rows/cols fields of the dimensions line and the entry lines; the declared
entry count is parsed but never used, so two files that differ only in it
load identically, and a file whose declared count disagrees with its entry
lines (here: declared 7, actual 2) loads without error. -/
theorem claim_C10_reader_ignores_declared_nnz (S : StorageOrder) (m : Matrix α)
    (sq : SquareMatrix α) (rows cols n1 n2 : ℕ) (lines : List (ℕ × ℕ × α)) :
    m.reader S rows cols n1 lines = m.reader S rows cols n2 lines ∧
    sq.reader S rows cols n1 lines = sq.reader S rows cols n2 lines ∧
    (Matrix.reader .RowMajor unit1 3 3 7 [(1, 1, (3 : ℤ)), (2, 2, 4)]).isOk = true :=
  ⟨rfl, rfl, by decide⟩

theorem foldl_flatMap {γ δ σ : Type} (l : List γ) (g : γ → List δ)
    (F : σ → δ → σ) (d0 : σ) :
    (l.flatMap g).foldl F d0 = l.foldl (fun d a => (g a).foldl F d) d0 := by
  induction l generalizing d0 with
  | nil => rfl
  | cons a l ih => rw [List.flatMap_cons, List.foldl_append, List.foldl_cons, ih]

/-- Folding a loop body over an index window `[start, start + g.length)`
equals folding the corresponding element action directly over `g`, when the
body at position `start + t` acts like the element action at `g[t]`. -/
theorem foldl_window {γ σ : Type} (g : List γ) (B : σ → ℕ → σ) (F : σ → γ → σ) :
    ∀ (start : ℕ) (d0 : σ),
      (∀ t (ht : t < g.length) (d : σ), B d (start + t) = F d (g.get ⟨t, ht⟩)) →
      (List.range' start g.length).foldl B d0 = g.foldl F d0 := by
  induction g with
  | nil => intro start d0 _; rfl
  | cons e g ih =>
    intro start d0 hag
    rw [show (e :: g).length = g.length + 1 from rfl, List.range'_succ,
      List.foldl_cons, List.foldl_cons]
    have h0 := hag 0 (by simp) d0
    rw [Nat.add_zero] at h0
    rw [h0]
    show (List.range' (start + 1) g.length).foldl B (F d0 e) = g.foldl F (F d0 e)
    refine ih (start + 1) (F d0 e) (fun t ht d => ?_)
    have h1 := hag (t + 1) (Nat.succ_lt_succ ht) d
    rw [show start + (t + 1) = start + 1 + t from by omega] at h1
    exact h1

/-- Scanning an index window for a minor coordinate equals `find?` over the
corresponding entry list, when the arrays agree with the entries on the
window. -/
theorem sliceScan_spec (S : StorageOrder) (outerL : List ℕ) (valuesL : List α)
    (g : List (Index × α)) :
    ∀ (start : ℕ),
      (∀ t (ht : t < g.length),
        outerL.getD (start + t) 0 = (g.get ⟨t, ht⟩).1.minor S ∧
        valuesL.getD (start + t) 0 = (g.get ⟨t, ht⟩).2) →
      ∀ target, sliceScan outerL valuesL start (start + g.length) target =
        ((g.find? (fun e => e.1.minor S == target)).map Prod.snd) := by
  induction g with
  | nil => intro start _ target; simp [sliceScan]
  | cons e g ih =>
    intro start hag target
    obtain ⟨ho0, hv0⟩ := hag 0 (by simp)
    rw [Nat.add_zero] at ho0 hv0
    have ho : outerL.getD start 0 = e.1.minor S := ho0
    have hv : valuesL.getD start 0 = e.2 := hv0
    unfold sliceScan
    rw [show start + (e :: g).length - start = (e :: g).length from by omega,
      show (e :: g).length = g.length + 1 from rfl, List.range'_succ,
      List.find?_cons, List.find?_cons, ho]
    by_cases hp : e.1.minor S = target
    · rw [show (e.1.minor S == target) = true from by simp [hp]]
      show some (valuesL.getD start 0) = some e.2
      rw [hv]
    · rw [show (e.1.minor S == target) = false from by simp [hp]]
      have hrec := ih (start + 1) (fun t ht => by
        have h1 := hag (t + 1) (Nat.succ_lt_succ ht)
        rw [show start + (t + 1) = start + 1 + t from by omega,
          List.get_cons_succ] at h1
        exact h1) target
      unfold sliceScan at hrec
      rw [show start + 1 + g.length - (start + 1) = g.length from by omega] at hrec
      exact hrec

theorem foldl_insert_of_not_mem (l : List (Index × α)) (g : UMap α) (k : Index)
    (h : ∀ e ∈ l, e.1 ≠ k) :
    (l.foldl (fun g e => g.insert e.1 e.2) g) k = g k := by
  induction l generalizing g with
  | nil => rfl
  | cons e l ih =>
    rw [List.foldl_cons, ih _ (fun e' he' => h e' (List.mem_cons_of_mem _ he'))]
    unfold UMap.insert
    rw [if_neg (fun hk => h e (List.mem_cons_self e l) hk.symm)]

/-- The map obtained by inserting a key-nodup entry list (in any order of
folding) looks up exactly the first entry with the queried key. -/
theorem foldl_insert_find? (l : List (Index × α)) (k : Index) :
    ∀ (g : UMap α), (l.map Prod.fst).Nodup →
    (l.foldl (fun g e => g.insert e.1 e.2) g) k =
      (match l.find? (fun e => e.1 == k) with
       | some e => some e.2
       | none => g k) := by
  induction l with
  | nil => intro g _; rfl
  | cons e l ih =>
    intro g hnd
    rw [List.foldl_cons, List.find?_cons]
    have hnd' : (l.map Prod.fst).Nodup := by
      rw [List.map_cons] at hnd; exact hnd.of_cons
    by_cases hk : e.1 = k
    · rw [show (e.1 == k) = true from by simp [hk]]
      have hnot : ∀ e' ∈ l, e'.1 ≠ k := by
        intro e' he' hk'
        rw [List.map_cons] at hnd
        rcases List.nodup_cons.mp hnd with ⟨hmem, _⟩
        exact hmem (hk ▸ hk' ▸ List.mem_map_of_mem Prod.fst he')
      rw [foldl_insert_of_not_mem l _ k hnot]
      unfold UMap.insert
      rw [if_pos hk.symm]
    · rw [show (e.1 == k) = false from by simp [hk]]
      rw [ih _ hnd']
      cases l.find? (fun e' => e'.1 == k) with
      | some e' => rfl
      | none =>
        show (UMap.insert g e.1 e.2) k = g k
        unfold UMap.insert
        rw [if_neg (fun h' => hk h'.symm)]

theorem find?_key_of_mem (l : List (Index × α)) (k : Index) (v : α) :
    (l.map Prod.fst).Nodup → (k, v) ∈ l →
    l.find? (fun e => e.1 == k) = some (k, v) := by
  induction l with
  | nil => intro _ hm; cases hm
  | cons e l ih =>
    intro hnd hm
    rw [List.find?_cons]
    rw [List.map_cons] at hnd
    rcases List.nodup_cons.mp hnd with ⟨hk1, hnd'⟩
    rcases List.mem_cons.mp hm with he | hm'
    · rw [show (e.1 == k) = true from by rw [← he]; simp, ← he]
    · have hne : e.1 ≠ k := by
        intro h
        exact hk1 (h ▸ List.mem_map_of_mem Prod.fst hm')
      rw [show (e.1 == k) = false from by simp [hne]]
      exact ih hnd' hm'

theorem Index.make_major (S : StorageOrder) (i j : ℕ) :
    (Index.make S i j).major S = i := by
  cases S <;> rfl

theorem Index.make_minor (S : StorageOrder) (i j : ℕ) :
    (Index.make S i j).minor S = j := by
  cases S <;> rfl

theorem Index.make_eta (S : StorageOrder) (k : Index) :
    Index.make S (k.major S) (k.minor S) = k := by
  cases S <;> rfl

theorem Index.bounds_iff (S : StorageOrder) (rows cols : ℕ) (k : Index) :
    (k.row < rows ∧ k.col < cols) ↔
      (k.major S < majorDim S rows cols ∧ k.minor S < minorDim S rows cols) := by
  cases S
  · exact Iff.rfl
  · exact and_comm

theorem mem_entryGroup (S : StorageOrder) (rows cols : ℕ) (f : UMap α) (i : ℕ)
    (e : Index × α) :
    e ∈ entryGroup S rows cols f i ↔
      e.1.major S = i ∧ e.1.minor S < minorDim S rows cols ∧ f e.1 = some e.2 := by
  unfold entryGroup
  rw [List.mem_filterMap]
  constructor
  · rintro ⟨j, hj, he⟩
    rw [List.mem_range] at hj
    obtain ⟨v, hv, hev⟩ := Option.map_eq_some'.mp he
    rw [← hev]
    exact ⟨Index.make_major S i j, by rw [Index.make_minor]; exact hj, by rw [hv]⟩
  · rintro ⟨hmaj, hmin, hf⟩
    refine ⟨e.1.minor S, List.mem_range.mpr hmin, ?_⟩
    rw [← hmaj, Index.make_eta, hf]
    rfl

theorem entries_eq_flatMap (S : StorageOrder) (rows cols : ℕ) (f : UMap α) :
    entries S rows cols f =
      (List.range (majorDim S rows cols)).flatMap (entryGroup S rows cols f) :=
  rfl

theorem mem_entries (S : StorageOrder) (rows cols : ℕ) (f : UMap α)
    (e : Index × α) :
    e ∈ entries S rows cols f ↔
      e.1.row < rows ∧ e.1.col < cols ∧ f e.1 = some e.2 := by
  rw [entries_eq_flatMap, List.mem_flatMap]
  constructor
  · rintro ⟨i, hi, he⟩
    rw [List.mem_range] at hi
    obtain ⟨hmaj, hmin, hf⟩ := (mem_entryGroup S rows cols f i e).mp he
    have hb := (Index.bounds_iff S rows cols e.1).mpr ⟨hmaj ▸ hi, hmin⟩
    exact ⟨hb.1, hb.2, hf⟩
  · rintro ⟨hr, hc, hf⟩
    have hb := (Index.bounds_iff S rows cols e.1).mp ⟨hr, hc⟩
    exact ⟨e.1.major S, List.mem_range.mpr hb.1,
      (mem_entryGroup S rows cols f _ e).mpr ⟨rfl, hb.2, hf⟩⟩

theorem entries_pairwise (S : StorageOrder) (rows cols : ℕ) (f : UMap α) :
    (entries S rows cols f).Pairwise (fun a b =>
      a.1.major S < b.1.major S ∨
        (a.1.major S = b.1.major S ∧ a.1.minor S < b.1.minor S)) := by
  rw [entries_eq_flatMap, List.pairwise_flatMap]
  constructor
  · intro i _
    unfold entryGroup
    rw [List.pairwise_filterMap]
    refine (List.pairwise_lt_range _).imp ?_
    intro j j' hjj' b hb b' hb'
    obtain ⟨v, _, hbv⟩ := Option.map_eq_some'.mp hb
    obtain ⟨v', _, hbv'⟩ := Option.map_eq_some'.mp hb'
    right
    rw [← hbv, ← hbv']
    exact ⟨by rw [Index.make_major, Index.make_major],
      by rw [Index.make_minor, Index.make_minor]; exact hjj'⟩
  · refine (List.pairwise_lt_range _).imp ?_
    intro i i' hii' x hx y hy
    left
    rw [((mem_entryGroup S rows cols f i x).mp hx).1,
      ((mem_entryGroup S rows cols f i' y).mp hy).1]
    exact hii'

theorem entries_keys_nodup (S : StorageOrder) (rows cols : ℕ) (f : UMap α) :
    ((entries S rows cols f).map Prod.fst).Nodup := by
  rw [List.Nodup, List.pairwise_map]
  refine (entries_pairwise S rows cols f).imp ?_
  intro a b hab heq
  rw [heq] at hab
  rcases hab with h | ⟨_, h⟩ <;> exact absurd h (lt_irrefl _)

theorem entries_find?_eq (S : StorageOrder) (rows cols : ℕ) (f : UMap α)
    (hwf : MapWF rows cols f) (k : Index) :
    (match (entries S rows cols f).find? (fun e => e.1 == k) with
     | some e => some e.2
     | none => (none : Option α)) = f k := by
  cases hf : f k with
  | some v =>
    have hb := hwf k v hf
    have hmem : (k, v) ∈ entries S rows cols f :=
      (mem_entries S rows cols f (k, v)).mpr ⟨hb.1, hb.2, hf⟩
    rw [find?_key_of_mem _ k v (entries_keys_nodup S rows cols f) hmem]
  | none =>
    rw [List.find?_eq_none.mpr ?_]
    intro e he hbeq
    have hf' := ((mem_entries S rows cols f e).mp he).2.2
    rw [show e.1 = k from by simpa using hbeq] at hf'
    rw [hf] at hf'
    cases hf'

theorem fillInner_snd (inner : List ℕ) (index target osize : ℕ) :
    (fillInner inner index target osize).2 = max index target := by
  induction inner, index, target, osize using fillInner.induct with
  | case1 inner index target osize h ih =>
    rw [fillInner, if_pos h, ih]
    omega
  | case2 inner index target osize h =>
    rw [fillInner, if_neg h]
    omega

theorem fillInner_fst_length (inner : List ℕ) (index target osize : ℕ) :
    (fillInner inner index target osize).1.length = inner.length := by
  induction inner, index, target, osize using fillInner.induct with
  | case1 inner index target osize h ih =>
    rw [fillInner, if_pos h]
    rw [ih, List.length_set]
  | case2 inner index target osize h =>
    rw [fillInner, if_neg h]

theorem fillInner_fst_getD (inner : List ℕ) (index target osize : ℕ) :
    ∀ q, target < inner.length →
      (fillInner inner index target osize).1.getD q 0 =
        if index < q ∧ q ≤ target then osize else inner.getD q 0 := by
  induction inner, index, target, osize using fillInner.induct with
  | case1 inner index target osize h ih =>
    intro q hlen
    rw [fillInner, if_pos h, ih q (by rw [List.length_set]; exact hlen)]
    by_cases h1 : index + 1 < q ∧ q ≤ target
    · rw [if_pos h1, if_pos (by omega)]
    · rw [if_neg h1]
      by_cases h2 : index < q ∧ q ≤ target
      · have hq : q = index + 1 := by omega
        rw [if_pos h2, hq,
          List.getD_eq_getElem _ _ (by rw [List.length_set]; omega),
          List.getElem_set, if_pos rfl]
      · rw [if_neg h2]
        have hq : q ≠ index + 1 := by omega
        by_cases hql : q < inner.length
        · rw [List.getD_eq_getElem _ _ (by rw [List.length_set]; exact hql),
            List.getD_eq_getElem _ _ hql, List.getElem_set,
            if_neg (fun hh => hq hh.symm)]
        · rw [List.getD_eq_default _ _ (by rw [List.length_set]; omega),
            List.getD_eq_default _ _ (by omega)]
  | case2 inner index target osize h =>
    intro q hlen
    rw [fillInner, if_neg h, if_neg (by omega)]

theorem countLt_all (S : StorageOrder) (p : List (Index × α)) (q : ℕ)
    (h : ∀ e ∈ p, e.1.major S < q) : countLt S p q = p.length := by
  unfold countLt
  rw [List.filter_eq_self.mpr (fun e he => by simpa using h e he)]

theorem countLt_append_single (S : StorageOrder) (p : List (Index × α))
    (e : Index × α) (q : ℕ) :
    countLt S (p ++ [e]) q =
      countLt S p q + (if e.1.major S < q then 1 else 0) := by
  unfold countLt
  rw [List.filter_append, List.length_append]
  congr 1
  by_cases h : e.1.major S < q
  · rw [if_pos h]
    simp [List.filter, h]
  · rw [if_neg h]
    simp [List.filter, h]

theorem compress_foldl_inv (S : StorageOrder) (md : ℕ) :
    ∀ (es p : List (Index × α)) (acc : CompressAcc α),
      (∀ e ∈ p ++ es, e.1.major S < md) →
      (p ++ es).Pairwise (fun a b => a.1.major S ≤ b.1.major S) →
      CompressInv S md p acc →
      CompressInv S md (p ++ es) (es.foldl (compressStep S) acc) := by
  intro es
  induction es with
  | nil => intro p acc _ _ hinv; simpa using hinv
  | cons e es ih =>
    intro p acc hb hsort hinv
    obtain ⟨houter, hvalues, hilen, hile, horigin, hge, hcnt⟩ := hinv
    rw [List.foldl_cons]
    have ht : e.1.major S < md := hb e (by simp)
    have htge : acc.index ≤ e.1.major S := by
      rcases horigin with ⟨_, h0⟩ | ⟨e', he', hmaj⟩
      · omega
      · rw [hmaj]
        have := (List.pairwise_append.mp hsort).2.2 e' he' e (by simp)
        exact this
    have hstep : CompressInv S md (p ++ [e]) (compressStep S acc e) := by
      rw [show compressStep S acc e =
        { inner := (fillInner acc.inner acc.index (e.1.major S) acc.outer.length).1
          outer := acc.outer ++ [e.1.minor S]
          values := acc.values ++ [e.2]
          index := (fillInner acc.inner acc.index (e.1.major S) acc.outer.length).2 }
        from rfl]
      have hsnd : (fillInner acc.inner acc.index (e.1.major S) acc.outer.length).2 =
          e.1.major S := by
        rw [fillInner_snd]; omega
      have hplen : acc.outer.length = p.length := by rw [houter, List.length_map]
      refine ⟨?_, ?_, ?_, ?_, ?_, ?_, ?_⟩
      · show acc.outer ++ [e.1.minor S] = (p ++ [e]).map _
        rw [List.map_append, houter]
        rfl
      · show acc.values ++ [e.2] = (p ++ [e]).map _
        rw [List.map_append, hvalues]
        rfl
      · show (fillInner acc.inner acc.index (e.1.major S) acc.outer.length).1.length = md + 1
        rw [fillInner_fst_length, hilen]
      · show (fillInner acc.inner acc.index (e.1.major S) acc.outer.length).2 ≤ md
        rw [hsnd]; omega
      · right
        refine ⟨e, by simp, ?_⟩
        show (fillInner acc.inner acc.index (e.1.major S) acc.outer.length).2 = _
        exact hsnd
      · intro a ha
        show a.1.major S ≤ (fillInner acc.inner acc.index (e.1.major S) acc.outer.length).2
        rw [hsnd]
        rcases List.mem_append.mp ha with hp | he'
        · exact le_trans (hge a hp) htge
        · rw [List.mem_singleton.mp he']
      · intro q hq
        show (fillInner acc.inner acc.index (e.1.major S) acc.outer.length).1.getD q 0 =
          if q ≤ (fillInner acc.inner acc.index (e.1.major S) acc.outer.length).2 then
            countLt S (p ++ [e]) q else 0
        rw [fillInner_fst_getD _ _ _ _ q (by omega), hsnd,
          countLt_append_single]
        by_cases h1 : acc.index < q ∧ q ≤ e.1.major S
        · rw [if_pos h1, if_pos (by omega), if_neg (by omega), hplen,
            countLt_all S p q (fun a ha => by have := hge a ha; omega)]
          omega
        · rw [if_neg h1]
          by_cases h2 : q ≤ acc.index
          · rw [hcnt q hq, if_pos h2, if_pos (by omega), if_neg (by omega)]
            omega
          · rw [hcnt q hq, if_neg h2, if_neg (by omega)]
    have hres := ih (p ++ [e]) (compressStep S acc e)
      (by intro a ha; exact hb a (by simpa [List.append_assoc] using ha))
      (by rw [List.append_assoc]; exact hsort)
      hstep
    rw [List.append_assoc] at hres
    simpa using hres

theorem entries_major_lt (S : StorageOrder) (rows cols : ℕ) (f : UMap α) :
    ∀ e ∈ entries S rows cols f, e.1.major S < majorDim S rows cols := by
  intro e he
  obtain ⟨hr, hc, _⟩ := (mem_entries S rows cols f e).mp he
  exact ((Index.bounds_iff S rows cols e.1).mp ⟨hr, hc⟩).1

theorem entries_major_sorted (S : StorageOrder) (rows cols : ℕ) (f : UMap α) :
    (entries S rows cols f).Pairwise (fun a b => a.1.major S ≤ b.1.major S) := by
  refine (entries_pairwise S rows cols f).imp ?_
  intro a b h
  rcases h with h | ⟨h, _⟩ <;> omega

/-- Specification of `Matrix::compress` on an uncompressed matrix: the outer
and value arrays list the traversal's minors and values in order, and every
inner slot `q` holds the number of stored entries with major coordinate
below `q`. -/
theorem compress_spec (S : StorageOrder) (m : Matrix α) (hc : m.compressed = false) :
    (m.compress S).rows = m.rows ∧
    (m.compress S).cols = m.cols ∧
    (m.compress S).compressed = true ∧
    (m.compress S).uncompressed_format = UMap.empty ∧
    (m.compress S).compressed_format.outer =
      (entries S m.rows m.cols m.uncompressed_format).map (fun e => e.1.minor S) ∧
    (m.compress S).compressed_format.values =
      (entries S m.rows m.cols m.uncompressed_format).map Prod.snd ∧
    (m.compress S).compressed_format.inner.length = majorDim S m.rows m.cols + 1 ∧
    (∀ q, q ≤ majorDim S m.rows m.cols →
      (m.compress S).compressed_format.inner.getD q 0 =
        countLt S (entries S m.rows m.cols m.uncompressed_format) q) := by
  have hes_lt := entries_major_lt S m.rows m.cols m.uncompressed_format
  have hes_sorted := entries_major_sorted S m.rows m.cols m.uncompressed_format
  set es := entries S m.rows m.cols m.uncompressed_format with hes
  set md := majorDim S m.rows m.cols with hmd
  have hinv0 : CompressInv S md ([] : List (Index × α))
      { inner := List.replicate (md + 1) 0, outer := [], values := [], index := 0 } := by
    refine ⟨rfl, rfl, by simp, show (0 : ℕ) ≤ md from Nat.zero_le md,
      Or.inl ⟨rfl, rfl⟩, by simp, ?_⟩
    intro q hq
    show (List.replicate (md + 1) 0).getD q 0 = _
    rw [List.getD_eq_getElem _ _ (by rw [List.length_replicate]; omega),
      List.getElem_replicate]
    by_cases h : q ≤ 0 <;> simp [h, countLt]
  have hinv := compress_foldl_inv S md es [] _ (by simpa using hes_lt)
    (by simpa using hes_sorted) hinv0
  rw [List.nil_append] at hinv
  set acc := es.foldl (compressStep S)
    { inner := List.replicate (md + 1) 0, outer := [], values := [], index := 0 } with hacc
  obtain ⟨houter, hvalues, hilen, hile, _, hge, hcnt⟩ := hinv
  have hcomp : m.compress S =
      { rows := m.rows, cols := m.cols, compressed := true
        uncompressed_format := UMap.empty
        compressed_format :=
          { inner := (fillInner acc.inner acc.index md acc.outer.length).1
            outer := acc.outer, values := acc.values } } := by
    rw [Matrix.compress, if_neg (by rw [hc]; simp)]
  rw [hcomp]
  refine ⟨rfl, rfl, rfl, rfl, houter, hvalues, ?_, ?_⟩
  · show (fillInner acc.inner acc.index md acc.outer.length).1.length = md + 1
    rw [fillInner_fst_length, hilen]
  · intro q hq
    show (fillInner acc.inner acc.index md acc.outer.length).1.getD q 0 = countLt S es q
    rw [fillInner_fst_getD _ _ _ _ q (by omega)]
    by_cases h1 : acc.index < q ∧ q ≤ md
    · rw [if_pos h1,
        countLt_all S es q (fun a ha => by have := hge a ha; omega),
        houter, List.length_map]
    · rw [if_neg h1, hcnt q hq, if_pos (by omega)]

theorem range_split_at (i md : ℕ) (hi : i ≤ md) :
    List.range md = List.range i ++ List.range' i (md - i) := by
  rw [List.range_eq_range', List.range_eq_range']
  have h := List.range'_append 0 i (md - i) 1
  rw [show (0 + 1 * i) = i from by omega,
    show (md - i) + i = md from by omega] at h
  exact h.symm

theorem range_split_mid (i md : ℕ) (hi : i < md) :
    List.range md = List.range i ++ i :: List.range' (i + 1) (md - (i + 1)) := by
  rw [range_split_at i md (by omega)]
  congr 1
  rw [show md - i = (md - (i + 1)) + 1 from by omega, List.range'_succ]

theorem countLt_entries (S : StorageOrder) (rows cols : ℕ) (f : UMap α) (i : ℕ)
    (hi : i ≤ majorDim S rows cols) :
    countLt S (entries S rows cols f) i =
      ((List.range i).flatMap (entryGroup S rows cols f)).length := by
  unfold countLt
  congr 1
  rw [entries_eq_flatMap, List.filter_flatMap, range_split_at i _ hi,
    List.flatMap_append]
  have h2 : (List.range' i (majorDim S rows cols - i)).flatMap
      (fun i' => (entryGroup S rows cols f i').filter
        (fun e => decide (e.1.major S < i))) = [] := by
    rw [List.flatMap_eq_nil_iff]
    intro i' hi'
    rw [List.filter_eq_nil_iff]
    intro e he
    rw [List.mem_range'] at hi'
    obtain ⟨t, _, hit⟩ := hi'
    have hmaj := ((mem_entryGroup S rows cols f i' e).mp he).1
    simp only [decide_eq_true_eq]
    omega
  rw [h2, List.append_nil]
  apply List.flatMap_congr
  intro i' hi'
  rw [List.mem_range] at hi'
  rw [List.filter_eq_self]
  intro e he
  rw [((mem_entryGroup S rows cols f i' e).mp he).1]
  simpa using hi'

theorem entries_split (S : StorageOrder) (rows cols : ℕ) (f : UMap α) (i : ℕ)
    (hi : i < majorDim S rows cols) :
    entries S rows cols f =
      ((List.range i).flatMap (entryGroup S rows cols f) ++
        entryGroup S rows cols f i) ++
        (List.range' (i + 1) (majorDim S rows cols - (i + 1))).flatMap
          (entryGroup S rows cols f) := by
  rw [entries_eq_flatMap, range_split_mid i _ hi, List.flatMap_append,
    List.flatMap_cons, List.append_assoc]

theorem countLt_succ_entries (S : StorageOrder) (rows cols : ℕ) (f : UMap α)
    (i : ℕ) (hi : i < majorDim S rows cols) :
    countLt S (entries S rows cols f) (i + 1) =
      countLt S (entries S rows cols f) i + (entryGroup S rows cols f i).length := by
  rw [countLt_entries S rows cols f i (by omega),
    countLt_entries S rows cols f (i + 1) (by omega),
    List.range_succ, List.flatMap_append, List.length_append]
  simp

theorem entries_getD_group (S : StorageOrder) (rows cols : ℕ) (f : UMap α)
    (i : ℕ) (hi : i < majorDim S rows cols) (t : ℕ)
    (ht : t < (entryGroup S rows cols f i).length) (d : Index × α) :
    (entries S rows cols f).getD (countLt S (entries S rows cols f) i + t) d =
      (entryGroup S rows cols f i).get ⟨t, ht⟩ := by
  have hsplit := entries_split S rows cols f i hi
  have hA : ((List.range i).flatMap (entryGroup S rows cols f)).length =
      countLt S (entries S rows cols f) i :=
    (countLt_entries S rows cols f i (by omega)).symm
  have hlen : countLt S (entries S rows cols f) i + t <
      (entries S rows cols f).length := by
    have hL : (entries S rows cols f).length =
        (((List.range i).flatMap (entryGroup S rows cols f)).length +
          (entryGroup S rows cols f i).length) +
          ((List.range' (i + 1) (majorDim S rows cols - (i + 1))).flatMap
            (entryGroup S rows cols f)).length := by
      conv_lhs => rw [hsplit]
      rw [List.length_append, List.length_append]
    rw [← hA]
    omega
  rw [List.getD_eq_getElem _ _ hlen, List.getElem_of_eq hsplit]
  rw [List.getElem_append_left (by rw [List.length_append, hA]; omega)]
  rw [List.getElem_append_right (by rw [hA]; omega)]
  congr 1
  rw [hA]
  omega

/-- The arrays produced by `Matrix::compress` agree with the slice-`i` entry
group on the window starting at `countLt i`. -/
theorem compress_window (S : StorageOrder) (m : Matrix α) (hc : m.compressed = false)
    (i : ℕ) (hi : i < majorDim S m.rows m.cols) (t : ℕ)
    (ht : t < (entryGroup S m.rows m.cols m.uncompressed_format i).length) :
    (m.compress S).compressed_format.outer.getD
        (countLt S (entries S m.rows m.cols m.uncompressed_format) i + t) 0 =
      ((entryGroup S m.rows m.cols m.uncompressed_format i).get ⟨t, ht⟩).1.minor S ∧
    (m.compress S).compressed_format.values.getD
        (countLt S (entries S m.rows m.cols m.uncompressed_format) i + t) 0 =
      ((entryGroup S m.rows m.cols m.uncompressed_format i).get ⟨t, ht⟩).2 := by
  obtain ⟨_, _, _, _, houter, hvalues, _, _⟩ := compress_spec S m hc
  set es := entries S m.rows m.cols m.uncompressed_format with hes
  have hlen : countLt S es i + t < es.length := by
    have hsplit := entries_split S m.rows m.cols m.uncompressed_format i hi
    have hA := countLt_entries S m.rows m.cols m.uncompressed_format i (by omega)
    rw [← hes] at hsplit hA
    have hL : es.length =
        (((List.range i).flatMap (entryGroup S m.rows m.cols m.uncompressed_format)).length +
          (entryGroup S m.rows m.cols m.uncompressed_format i).length) +
          ((List.range' (i + 1) (majorDim S m.rows m.cols - (i + 1))).flatMap
            (entryGroup S m.rows m.cols m.uncompressed_format)).length := by
      conv_lhs => rw [hsplit]
      rw [List.length_append, List.length_append]
    rw [← hA] at hL
    omega
  have hget := entries_getD_group S m.rows m.cols m.uncompressed_format i hi t ht
    (⟨⟨0, 0⟩, 0⟩ : Index × α)
  rw [← hes] at hget
  constructor
  · rw [houter, List.getD_eq_getElem _ _ (by rw [List.length_map]; exact hlen),
      List.getElem_map, ← hget, List.getD_eq_getElem _ _ hlen]
  · rw [hvalues, List.getD_eq_getElem _ _ (by rw [List.length_map]; exact hlen),
      List.getElem_map, ← hget, List.getD_eq_getElem _ _ hlen]

theorem find?_filterMap_target {γ : Type} (l : List ℕ) (h : ℕ → Option γ)
    (p : γ → Bool) (target : ℕ)
    (hp : ∀ j ∈ l, ∀ x, h j = some x → (p x = true ↔ j = target)) :
    target ∈ l → (l.filterMap h).find? p = h target := by
  induction l with
  | nil => intro ht; cases ht
  | cons j l ih =>
    intro ht
    rw [List.filterMap_cons]
    by_cases hj : j = target
    · cases hx : h j with
      | some x =>
        rw [List.find?_cons,
          show p x = true from (hp j (by simp) x hx).mpr hj, ← hj, hx]
      | none =>
        by_cases htl : target ∈ l
        · exact ih (fun j' hj' => hp j' (List.mem_cons_of_mem j hj')) htl
        · have hnone : (l.filterMap h).find? p = none := by
            rw [List.find?_eq_none]
            intro x hxmem hpx
            obtain ⟨j', hj', hx'⟩ := List.mem_filterMap.mp hxmem
            have hiff := hp j' (List.mem_cons_of_mem j hj') x hx'
            exact htl (hiff.mp hpx ▸ hj')
          rw [hnone, ← hj, hx]
    · have htl : target ∈ l := by
        rcases List.mem_cons.mp ht with h' | h'
        · exact absurd h'.symm hj
        · exact h'
      cases hx : h j with
      | some x =>
        rw [List.find?_cons,
          show p x = false from by
            rcases hpx : p x with _ | _
            · rfl
            · exact absurd ((hp j (by simp) x hx).mp hpx) hj]
        exact ih (fun j' hj' => hp j' (List.mem_cons_of_mem j hj')) htl
      | none => exact ih (fun j' hj' => hp j' (List.mem_cons_of_mem j hj')) htl

theorem entryGroup_find?_minor (S : StorageOrder) (rows cols : ℕ) (f : UMap α)
    (i target : ℕ) (ht : target < minorDim S rows cols) :
    ((entryGroup S rows cols f i).find? (fun e => e.1.minor S == target)).map
        Prod.snd = f (Index.make S i target) := by
  unfold entryGroup
  have hfind := find?_filterMap_target (List.range (minorDim S rows cols))
    (fun j => (f (Index.make S i j)).map (fun v => (Index.make S i j, v)))
    (fun e => e.1.minor S == target) target
    (by
      intro j hj x hx
      obtain ⟨v, hv, hxv⟩ := Option.map_eq_some'.mp hx
      rw [← hxv]
      simp [Index.make_minor])
    (List.mem_range.mpr ht)
  rw [hfind]
  show ((f (Index.make S i target)).map
    (fun v => (Index.make S i target, v))).map Prod.snd = f (Index.make S i target)
  cases hf : f (Index.make S i target) with
  | some v => rfl
  | none => rfl

/-- Element reads on the output of `Matrix::compress` return exactly the
logical value of the uncompressed source. -/
theorem get_compress (S : StorageOrder) (m : Matrix α) (hcomp : m.compressed = false)
    (r c : ℕ) (hr : r < m.rows) (hc : c < m.cols) :
    (m.compress S).get S r c = .ok ((m.uncompressed_format ⟨r, c⟩).getD 0) := by
  obtain ⟨hrows, hcols, hcm, _, houter, hvalues, hilen, hinner⟩ := compress_spec S m hcomp
  cases S with
  | RowMajor =>
    have hb : r < majorDim .RowMajor m.rows m.cols := hr
    have hbm : c < minorDim .RowMajor m.rows m.cols := hc
    unfold Matrix.get
    rw [if_neg (by rw [hrows, hcols]; omega)]
    simp only [hcm, if_true]
    rw [hinner r (by omega), hinner (r + 1) (by omega),
      countLt_succ_entries .RowMajor m.rows m.cols m.uncompressed_format r hb,
      sliceScan_spec .RowMajor _ _
        (entryGroup .RowMajor m.rows m.cols m.uncompressed_format r)
        (countLt .RowMajor (entries .RowMajor m.rows m.cols m.uncompressed_format) r)
        (fun t ht => compress_window .RowMajor m hcomp r hb t ht) c,
      entryGroup_find?_minor .RowMajor m.rows m.cols m.uncompressed_format r c hbm,
      show Index.make StorageOrder.RowMajor r c = (⟨r, c⟩ : Index) from rfl]
    cases m.uncompressed_format ⟨r, c⟩ with
    | some v => rfl
    | none => rfl
  | ColumnMajor =>
    have hb : c < majorDim .ColumnMajor m.rows m.cols := hc
    have hbm : r < minorDim .ColumnMajor m.rows m.cols := hr
    unfold Matrix.get
    rw [if_neg (by rw [hrows, hcols]; omega)]
    simp only [hcm, if_true]
    rw [hinner c (by omega), hinner (c + 1) (by omega),
      countLt_succ_entries .ColumnMajor m.rows m.cols m.uncompressed_format c hb,
      sliceScan_spec .ColumnMajor _ _
        (entryGroup .ColumnMajor m.rows m.cols m.uncompressed_format c)
        (countLt .ColumnMajor (entries .ColumnMajor m.rows m.cols m.uncompressed_format) c)
        (fun t ht => compress_window .ColumnMajor m hcomp c hb t ht) r,
      entryGroup_find?_minor .ColumnMajor m.rows m.cols m.uncompressed_format c r hbm,
      show Index.make StorageOrder.ColumnMajor c r = (⟨r, c⟩ : Index) from rfl]
    cases m.uncompressed_format ⟨r, c⟩ with
    | some v => rfl
    | none => rfl

theorem entryGroup_key (S : StorageOrder) (rows cols : ℕ) (f : UMap α) (i : ℕ)
    (e : Index × α) (he : e ∈ entryGroup S rows cols f i) :
    Index.make S i (e.1.minor S) = e.1 := by
  rw [← ((mem_entryGroup S rows cols f i e).mp he).1, Index.make_eta]

/-- Applying `Matrix::uncompress` to the output of `Matrix::compress`
rebuilds exactly the original COO store. -/
theorem uncompress_compress_map (S : StorageOrder) (m : Matrix α)
    (hc : m.compressed = false) (hwf : MapWF m.rows m.cols m.uncompressed_format) :
    ((m.compress S).uncompress S).uncompressed_format = m.uncompressed_format ∧
    ((m.compress S).uncompress S).rows = m.rows ∧
    ((m.compress S).uncompress S).cols = m.cols ∧
    ((m.compress S).uncompress S).compressed = false := by
  obtain ⟨hrows, hcols, hcm, _, houter, hvalues, hilen, hinner⟩ := compress_spec S m hc
  have hmd' : majorDim S (m.compress S).rows (m.compress S).cols =
      majorDim S m.rows m.cols := by rw [hrows, hcols]
  have hunc : (m.compress S).uncompress S =
      { rows := (m.compress S).rows, cols := (m.compress S).cols, compressed := false
        uncompressed_format :=
          (List.range (majorDim S (m.compress S).rows (m.compress S).cols)).foldl
            (fun f i => (slicePositions (m.compress S).compressed_format.inner i).foldl
              (fun f j =>
                f.insert
                  (Index.make S i ((m.compress S).compressed_format.outer.getD j 0))
                  ((m.compress S).compressed_format.values.getD j 0)) f) UMap.empty
        compressed_format := { inner := [], outer := [], values := [] } } := by
    rw [Matrix.uncompress, if_neg (by rw [hcm]; simp)]
  rw [hunc]
  refine ⟨?_, hrows, hcols, rfl⟩
  show (List.range (majorDim S (m.compress S).rows (m.compress S).cols)).foldl _
    UMap.empty = _
  rw [hmd']
  have hfold : (List.range (majorDim S m.rows m.cols)).foldl
      (fun f i => (slicePositions (m.compress S).compressed_format.inner i).foldl
        (fun f j =>
          f.insert (Index.make S i ((m.compress S).compressed_format.outer.getD j 0))
            ((m.compress S).compressed_format.values.getD j 0)) f) UMap.empty =
      (List.range (majorDim S m.rows m.cols)).foldl
        (fun f i => (entryGroup S m.rows m.cols m.uncompressed_format i).foldl
          (fun f e => f.insert e.1 e.2) f) UMap.empty := by
    refine List.foldl_ext _ _ _ ?_
    intro g i hi
    rw [List.mem_range] at hi
    have hslice : slicePositions (m.compress S).compressed_format.inner i =
        List.range'
          (countLt S (entries S m.rows m.cols m.uncompressed_format) i)
          (entryGroup S m.rows m.cols m.uncompressed_format i).length := by
      unfold slicePositions
      rw [hinner i (by omega), hinner (i + 1) (by omega),
        countLt_succ_entries S m.rows m.cols m.uncompressed_format i hi]
      congr 1
      omega
    rw [hslice]
    refine foldl_window _ _ _
      (countLt S (entries S m.rows m.cols m.uncompressed_format) i) g ?_
    intro t ht d
    obtain ⟨ho, hv⟩ := compress_window S m hc i hi t ht
    rw [ho, hv, entryGroup_key S m.rows m.cols m.uncompressed_format i _
      (List.get_mem _ _ ht)]
  rw [hfold, ← foldl_flatMap, ← entries_eq_flatMap]
  funext k
  rw [foldl_insert_find? (entries S m.rows m.cols m.uncompressed_format) k UMap.empty
    (entries_keys_nodup S m.rows m.cols m.uncompressed_format)]
  have hfind := entries_find?_eq S m.rows m.cols m.uncompressed_format hwf k
  rw [← hfind]
  cases (entries S m.rows m.cols m.uncompressed_format).find? (fun e => e.1 == k) with
  | some e => rfl
  | none => rfl

/-- C1: on a well-formed uncompressed matrix, compress followed by
uncompress preserves every in-range read; and on a matrix in compressed
state (every reachable compressed state is the output of compress on a
well-formed uncompressed store, which is how the hypothesis states it),
uncompress followed by compress preserves every in-range read. -/
theorem claim_C1_conversion_roundtrips (S : StorageOrder) (m : Matrix α)
    (hwf : MapWF m.rows m.cols m.uncompressed_format)
    (hc : m.compressed = false) :
    (∀ r c, r < m.rows → c < m.cols →
      ((m.compress S).uncompress S).get S r c = m.get S r c) ∧
    (∀ r c, r < m.rows → c < m.cols →
      (((m.compress S).uncompress S).compress S).get S r c =
        (m.compress S).get S r c) := by
  obtain ⟨hmap, hrows, hcols, hcomp⟩ := uncompress_compress_map S m hc hwf
  constructor
  · intro r c hr hcc
    rw [Matrix.get_uncompressed S _ r c (by omega) (by omega) hcomp, hmap,
      Matrix.get_uncompressed S m r c hr hcc hc]
  · intro r c hr hcc
    have hwf' : MapWF ((m.compress S).uncompress S).rows
        ((m.compress S).uncompress S).cols
        ((m.compress S).uncompress S).uncompressed_format := by
      rw [hmap, hrows, hcols]; exact hwf
    rw [get_compress S _ hcomp r c (by omega) (by omega),
      get_compress S m hc r c hr hcc, hmap]

/-- Witness for C1: on the scenario-1 matrix both round trips preserve the
reads at a stored entry and at a hole. -/
theorem claim_C1_conversion_roundtrips_witness :
    ((scen1.compress .RowMajor).uncompress .RowMajor).get .RowMajor 0 1 =
      scen1.get .RowMajor 0 1 ∧
    ((scen1.compress .RowMajor).uncompress .RowMajor).get .RowMajor 1 2 =
      scen1.get .RowMajor 1 2 ∧
    (((scen1.compress .RowMajor).uncompress .RowMajor).compress .RowMajor).get
        .RowMajor 2 0 = (scen1.compress .RowMajor).get .RowMajor 2 0 := by
  have hwf : MapWF scen1.rows scen1.cols scen1.uncompressed_format := by
    intro k v h
    unfold scen1 at h
    simp only at h
    split_ifs at h with h1 h2 h3 h4 h5 <;>
      first
        | (subst_vars; exact ⟨by decide, by decide⟩)
        | cases h
  have h := claim_C1_conversion_roundtrips .RowMajor scen1 hwf rfl
  exact ⟨h.1 0 1 (by decide) (by decide), h.1 1 2 (by decide) (by decide),
    h.2 2 0 (by decide) (by decide)⟩

theorem list_range_map_sum {β : Type} [AddCommMonoid β] (n : ℕ) (h : ℕ → β) :
    ((List.range n).map h).sum = ∑ i ∈ Finset.range n, h i := by
  induction n with
  | zero => rfl
  | succ k ih =>
    rw [List.range_succ, Finset.sum_range_succ, List.map_append, List.sum_append, ih]
    simp

theorem flatMap_map_sum {γ δ β : Type} [AddCommMonoid β] (l : List γ)
    (g : γ → List δ) (F : δ → β) :
    ((l.flatMap g).map F).sum = (l.map (fun a => ((g a).map F).sum)).sum := by
  induction l with
  | nil => rfl
  | cons a l ih =>
    rw [List.flatMap_cons, List.map_append, List.sum_append, ih, List.map_cons,
      List.sum_cons]

theorem filterMap_map_sum {γ δ β : Type} [AddCommMonoid β] (l : List γ)
    (h : γ → Option δ) (F : δ → β) :
    ((l.filterMap h).map F).sum =
      (l.map (fun a => match h a with | some x => F x | none => 0)).sum := by
  induction l with
  | nil => rfl
  | cons a l ih =>
    rw [List.filterMap_cons]
    cases ha : h a with
    | some x =>
      rw [List.map_cons, List.sum_cons, List.map_cons, List.sum_cons, ih, ha]
    | none =>
      rw [List.map_cons, List.sum_cons, ih, ha, zero_add]

theorem filter_map_sum {γ β : Type} [AddCommMonoid β] (l : List γ)
    (p : γ → Bool) (F : γ → β) :
    ((l.filter p).map F).sum = (l.map (fun a => if p a then F a else 0)).sum := by
  induction l with
  | nil => rfl
  | cons a l ih =>
    rw [List.filter_cons]
    by_cases ha : p a
    · rw [if_pos ha, List.map_cons, List.sum_cons, ih, List.map_cons, List.sum_cons,
        if_pos ha]
    · rw [if_neg ha, ih, List.map_cons, List.sum_cons, if_neg ha, zero_add]

/-- The sum of any function over the in-order traversal equals the dense
double sum over all coordinates (absent cells contributing zero). -/
theorem entries_map_sum {β : Type} [AddCommMonoid β] (S : StorageOrder)
    (rows cols : ℕ) (f : UMap α) (F : Index × α → β) :
    ((entries S rows cols f).map F).sum =
      ∑ r ∈ Finset.range rows, ∑ c ∈ Finset.range cols,
        (match f ⟨r, c⟩ with | some v => F (⟨r, c⟩, v) | none => 0) := by
  cases S with
  | RowMajor =>
    rw [entries_eq_flatMap, flatMap_map_sum, list_range_map_sum]
    refine Finset.sum_congr rfl ?_
    intro r _
    unfold entryGroup
    rw [filterMap_map_sum, list_range_map_sum]
    refine Finset.sum_congr rfl ?_
    intro c _
    cases hf : f ⟨r, c⟩ with
    | some v =>
      rw [show Index.make .RowMajor r c = (⟨r, c⟩ : Index) from rfl, hf]
      rfl
    | none =>
      rw [show Index.make .RowMajor r c = (⟨r, c⟩ : Index) from rfl, hf]
      rfl
  | ColumnMajor =>
    rw [entries_eq_flatMap, flatMap_map_sum, list_range_map_sum, Finset.sum_comm]
    refine Finset.sum_congr rfl ?_
    intro r _
    unfold entryGroup
    rw [filterMap_map_sum, list_range_map_sum]
    refine Finset.sum_congr rfl ?_
    intro c _
    cases hf : f ⟨c, r⟩ with
    | some v =>
      rw [show Index.make .ColumnMajor r c = (⟨c, r⟩ : Index) from rfl, hf]
      rfl
    | none =>
      rw [show Index.make .ColumnMajor r c = (⟨c, r⟩ : Index) from rfl, hf]
      rfl

/-- Summing a per-entry contribution over one row of the traversal equals
the dense sum over that row. -/
theorem entries_row_sum (S : StorageOrder) (rows cols : ℕ) (f : UMap α)
    (i : ℕ) (hi : i < rows) (F : ℕ → α → α) (hF0 : ∀ c, F c 0 = 0) :
    (((entries S rows cols f).filter (fun e => decide (e.1.row = i))).map
      (fun e => F e.1.col e.2)).sum =
      ∑ c ∈ Finset.range cols, F c ((f ⟨i, c⟩).getD 0) := by
  rw [filter_map_sum, entries_map_sum]
  have hcollapse : ∀ r ∈ Finset.range rows,
      (∑ c ∈ Finset.range cols,
        (match f ⟨r, c⟩ with
         | some v => if decide (r = i) = true then F c v else 0
         | none => 0)) =
      if r = i then ∑ c ∈ Finset.range cols, F c ((f ⟨r, c⟩).getD 0) else 0 := by
    intro r _
    by_cases hr : r = i
    · rw [if_pos hr]
      refine Finset.sum_congr rfl ?_
      intro c _
      cases hf : f ⟨r, c⟩ with
      | some v => simp [hr]
      | none => simp [hr, hF0]
    · rw [if_neg hr]
      refine Finset.sum_eq_zero ?_
      intro c _
      cases hf : f ⟨r, c⟩ with
      | some v => simp [hr]
      | none => simp
  rw [Finset.sum_congr rfl hcollapse, Finset.sum_ite_eq' (Finset.range rows) i
    (fun r => ∑ c ∈ Finset.range cols, F c ((f ⟨r, c⟩).getD 0)),
    if_pos (Finset.mem_range.mpr hi)]

/-- Summing a per-entry contribution over one column of the traversal equals
the dense sum over that column. -/
theorem entries_col_sum (S : StorageOrder) (rows cols : ℕ) (f : UMap α)
    (j : ℕ) (hj : j < cols) (F : ℕ → α → α) (hF0 : ∀ r, F r 0 = 0) :
    (((entries S rows cols f).filter (fun e => decide (e.1.col = j))).map
      (fun e => F e.1.row e.2)).sum =
      ∑ r ∈ Finset.range rows, F r ((f ⟨r, j⟩).getD 0) := by
  rw [filter_map_sum, entries_map_sum]
  refine Finset.sum_congr rfl ?_
  intro r _
  have hcollapse : ∀ c ∈ Finset.range cols,
      (match f ⟨r, c⟩ with
       | some v => if decide (c = j) = true then F r v else 0
       | none => 0) =
      if c = j then F r ((f ⟨r, c⟩).getD 0) else 0 := by
    intro c _
    by_cases hc : c = j
    · cases hf : f ⟨r, c⟩ with
      | some v => simp [hc]
      | none => simp [hc, hF0]
    · cases hf : f ⟨r, c⟩ with
      | some v => simp [hc]
      | none => simp [hc]
  rw [Finset.sum_congr rfl hcollapse, Finset.sum_ite_eq' (Finset.range cols) j
    (fun c => F r ((f ⟨r, c⟩).getD 0)), if_pos (Finset.mem_range.mpr hj)]

theorem vecAddAt_length (res : List α) (p : ℕ) (d : α) :
    (vecAddAt res p d).length = res.length := by
  unfold vecAddAt
  rw [List.length_set]

theorem vecAddAt_getD (res : List α) (p : ℕ) (d : α) (i : ℕ) (hi : i < res.length) :
    (vecAddAt res p d).getD i 0 =
      if p = i then res.getD i 0 + d else res.getD i 0 := by
  unfold vecAddAt
  by_cases hp : p = i
  · subst hp
    rw [if_pos rfl, List.getD_eq_getElem _ _ (by rw [List.length_set]; omega),
      List.getElem_set_self]
  · rw [if_neg hp, List.getD_eq_getElem _ _ (by rw [List.length_set]; omega),
      List.getElem_set_ne hp, List.getD_eq_getElem _ _ hi]

theorem foldl_vecAddAt_length {γ : Type} (l : List γ) (pos : γ → ℕ)
    (delta : γ → α) :
    ∀ res : List α,
      (l.foldl (fun r e => vecAddAt r (pos e) (delta e)) res).length = res.length := by
  induction l with
  | nil => intro res; rfl
  | cons e l ih =>
    intro res
    rw [List.foldl_cons, ih, vecAddAt_length]

/-- A scatter-accumulation fold touches slot `i` exactly through the elements
whose position is `i`: the final slot holds the initial value plus the sum of
their deltas (out-of-range scatters are dropped by `List.set` exactly as the
claim requires, and they cannot hit an in-range slot). -/
theorem foldl_vecAddAt_getD {γ : Type} (l : List γ) (pos : γ → ℕ)
    (delta : γ → α) :
    ∀ (res : List α) (i : ℕ), i < res.length →
      (l.foldl (fun r e => vecAddAt r (pos e) (delta e)) res).getD i 0 =
        res.getD i 0 + ((l.filter (fun e => decide (pos e = i))).map delta).sum := by
  induction l with
  | nil => intro res i _; simp
  | cons e l ih =>
    intro res i hi
    rw [List.foldl_cons,
      ih (vecAddAt res (pos e) (delta e)) i (by rw [vecAddAt_length]; exact hi),
      vecAddAt_getD res (pos e) (delta e) i hi, List.filter_cons]
    by_cases hp : pos e = i
    · rw [if_pos hp, if_pos (by simp [hp]), List.map_cons, List.sum_cons, add_assoc]
    · rw [if_neg hp, if_neg (by simp [hp])]

/-- Iterating a loop body over all slice windows of the compress image equals
folding the matching element action over the traversal of the source map. -/
theorem foldl_slices {σ : Type} (S : StorageOrder) (m : Matrix α)
    (hc : m.compressed = false) (body : ℕ → σ → ℕ → σ)
    (F : σ → Index × α → σ) (d0 : σ)
    (hbody : ∀ i, i < majorDim S m.rows m.cols →
      ∀ t (ht : t < (entryGroup S m.rows m.cols m.uncompressed_format i).length)
        (d : σ),
        body i d (countLt S (entries S m.rows m.cols m.uncompressed_format) i + t) =
          F d ((entryGroup S m.rows m.cols m.uncompressed_format i).get ⟨t, ht⟩)) :
    (List.range (majorDim S m.rows m.cols)).foldl
      (fun d i => (slicePositions (m.compress S).compressed_format.inner i).foldl
        (body i) d) d0 =
      (entries S m.rows m.cols m.uncompressed_format).foldl F d0 := by
  obtain ⟨_, _, _, _, _, _, _, hinner⟩ := compress_spec S m hc
  have hfold : (List.range (majorDim S m.rows m.cols)).foldl
      (fun d i => (slicePositions (m.compress S).compressed_format.inner i).foldl
        (body i) d) d0 =
      (List.range (majorDim S m.rows m.cols)).foldl
        (fun d i =>
          (entryGroup S m.rows m.cols m.uncompressed_format i).foldl F d) d0 := by
    refine List.foldl_ext _ _ _ ?_
    intro d i hi
    rw [List.mem_range] at hi
    have hslice : slicePositions (m.compress S).compressed_format.inner i =
        List.range' (countLt S (entries S m.rows m.cols m.uncompressed_format) i)
          (entryGroup S m.rows m.cols m.uncompressed_format i).length := by
      unfold slicePositions
      rw [hinner i (by omega), hinner (i + 1) (by omega),
        countLt_succ_entries S m.rows m.cols m.uncompressed_format i hi]
      congr 1
      omega
    rw [hslice]
    exact foldl_window _ _ _ _ d (fun t ht dd => hbody i hi t ht dd)
  rw [hfold, ← foldl_flatMap, ← entries_eq_flatMap]

/-- The SpMV loop of `operator*` on an uncompressed matrix produces the dense
row-times-vector sums. -/
theorem matVec_uncompressed_spec (S : StorageOrder) (m : Matrix α) (v : List α)
    (hc : m.compressed = false) (hv : v.length = m.cols) :
    ∃ r, m.matVec S v = .ok r ∧ r.length = m.rows ∧
      ∀ i, i < m.rows → r.getD i 0 =
        ∑ c ∈ Finset.range m.cols,
          (m.uncompressed_format ⟨i, c⟩).getD 0 * v.getD c 0 := by
  have hform : m.matVec S v =
      .ok ((entries S m.rows m.cols m.uncompressed_format).foldl
        (fun res e => vecAddAt res e.1.row (e.2 * v.getD e.1.col 0))
        (List.replicate m.rows 0)) := by
    unfold Matrix.matVec
    rw [if_neg (by omega), if_pos (by rw [hc]; simp)]
  refine ⟨_, hform, ?_, ?_⟩
  · rw [foldl_vecAddAt_length, List.length_replicate]
  · intro i hi
    rw [foldl_vecAddAt_getD _ _ _ _ i (by rw [List.length_replicate]; exact hi),
      List.getD_eq_getElem _ _ (by rw [List.length_replicate]; exact hi),
      List.getElem_replicate, zero_add]
    exact entries_row_sum S m.rows m.cols m.uncompressed_format i hi
      (fun c x => x * v.getD c 0) (fun c => zero_mul _)

theorem matVec_shape_error (S : StorageOrder) (m : Matrix α) (v : List α)
    (hv : v.length ≠ m.cols) : m.matVec S v = .error .ShapeMismatch := by
  unfold Matrix.matVec
  rw [if_pos (by omega)]

/-- SpMV on the compress image of an uncompressed matrix returns the same
result as SpMV on the source. -/
theorem matVec_compress_eq (S : StorageOrder) (m : Matrix α)
    (hc : m.compressed = false) (v : List α) :
    (m.compress S).matVec S v = m.matVec S v := by
  obtain ⟨hrows, hcols, hcm, _, _, _, _, _⟩ := compress_spec S m hc
  by_cases herr : m.cols ≠ v.length
  · unfold Matrix.matVec
    rw [if_pos (by rw [hcols]; exact herr), if_pos herr]
  · cases S with
    | RowMajor =>
      unfold Matrix.matVec
      rw [if_neg (by rw [hcols]; exact herr), if_neg herr,
        if_neg (by rw [hcm]; simp), if_pos (by rw [hc]; simp), hrows]
      refine congrArg Except.ok
        (foldl_slices .RowMajor m hc _ _ _ (fun i hi t ht d => ?_))
      obtain ⟨ho, hval⟩ := compress_window .RowMajor m hc i hi t ht
      rw [ho, hval]
      have hmaj : ((entryGroup .RowMajor m.rows m.cols m.uncompressed_format i).get
          ⟨t, ht⟩).1.major .RowMajor = i :=
        ((mem_entryGroup .RowMajor m.rows m.cols m.uncompressed_format i _).mp
          (List.get_mem _ _ ht)).1
      rw [show ((entryGroup .RowMajor m.rows m.cols m.uncompressed_format i).get
          ⟨t, ht⟩).1.row = i from hmaj]
      rfl
    | ColumnMajor =>
      unfold Matrix.matVec
      rw [if_neg (by rw [hcols]; exact herr), if_neg herr,
        if_neg (by rw [hcm]; simp), if_pos (by rw [hc]; simp), hrows, hcols]
      refine congrArg Except.ok
        (foldl_slices .ColumnMajor m hc _ _ _ (fun i hi t ht d => ?_))
      obtain ⟨ho, hval⟩ := compress_window .ColumnMajor m hc i hi t ht
      rw [ho, hval]
      have hmaj : ((entryGroup .ColumnMajor m.rows m.cols m.uncompressed_format i).get
          ⟨t, ht⟩).1.major .ColumnMajor = i :=
        ((mem_entryGroup .ColumnMajor m.rows m.cols m.uncompressed_format i _).mp
          (List.get_mem _ _ ht)).1
      rw [show ((entryGroup .ColumnMajor m.rows m.cols m.uncompressed_format i).get
          ⟨t, ht⟩).1.col = i from hmaj]
      rfl

section NormThms

variable {β : Type} [LinearOrderedCommRing β] [DecidableEq β]

theorem foldl_max_le_self (l : List β) : ∀ a : β, a ≤ l.foldl max a := by
  induction l with
  | nil => intro a; exact le_refl a
  | cons x l ih =>
    intro a
    rw [List.foldl_cons]
    exact le_trans (le_max_left a x) (ih (max a x))

theorem le_foldl_max (l : List β) (x : β) (hx : x ∈ l) :
    ∀ a, x ≤ l.foldl max a := by
  induction l with
  | nil => cases hx
  | cons y l ih =>
    intro a
    rw [List.foldl_cons]
    rcases List.mem_cons.mp hx with h | h
    · rw [h]
      exact le_trans (le_max_right a y) (foldl_max_le_self _ _)
    · exact ih h _

theorem foldl_max_mem (l : List β) : ∀ a, l.foldl max a ∈ a :: l := by
  induction l with
  | nil => intro a; exact List.mem_cons_self _ _
  | cons x l ih =>
    intro a
    rw [List.foldl_cons]
    rcases List.mem_cons.mp (ih (max a x)) with h | h
    · rw [h]
      rcases max_choice a x with hm | hm
      · rw [hm]; exact List.mem_cons_self _ _
      · rw [hm]; exact List.mem_cons_of_mem _ (List.mem_cons_self _ _)
    · exact List.mem_cons_of_mem _ (List.mem_cons_of_mem _ h)

/-- The dereferenced `std::max_element` of a nonempty vector is a member. -/
theorem maxElem_mem (l : List β) (h : l ≠ []) : maxElem l ∈ l := by
  cases l with
  | nil => exact absurd rfl h
  | cons x xs => exact foldl_max_mem xs x

/-- Every element is bounded by the dereferenced `std::max_element`. -/
theorem le_maxElem (l : List β) (x : β) (hx : x ∈ l) : x ≤ maxElem l := by
  cases l with
  | nil => cases hx
  | cons y xs =>
    rcases List.mem_cons.mp hx with h | h
    · exact h ▸ foldl_max_le_self xs y
    · exact le_foldl_max xs x h y

/-- The One-norm accumulator of an uncompressed matrix is exactly the list of
per-column absolute sums. -/
theorem normOne_uncompressed (S : StorageOrder) (m : Matrix β)
    (hc : m.compressed = false) :
    m.normOne S = maxElem ((List.range m.cols).map
      (fun c => ∑ r ∈ Finset.range m.rows, |(m.uncompressed_format ⟨r, c⟩).getD 0|)) := by
  unfold Matrix.normOne
  rw [if_pos (by rw [hc]; simp)]
  congr 1
  refine List.ext_getElem ?_ ?_
  · rw [foldl_vecAddAt_length, List.length_replicate, List.length_map,
      List.length_range]
  · intro n h1 h2
    have hn : n < m.cols := by
      have := h1
      rw [foldl_vecAddAt_length, List.length_replicate] at this
      exact this
    rw [← List.getD_eq_getElem _ 0 h1,
      foldl_vecAddAt_getD _ _ _ _ n (by rw [List.length_replicate]; exact hn),
      List.getD_eq_getElem _ _ (by rw [List.length_replicate]; exact hn),
      List.getElem_replicate, zero_add, List.getElem_map, List.getElem_range]
    exact entries_col_sum S m.rows m.cols m.uncompressed_format n hn
      (fun r x => |x|) (fun r => abs_zero)

/-- The One-norm of the compress image equals the One-norm of the source. -/
theorem normOne_compress_eq (S : StorageOrder) (m : Matrix β)
    (hc : m.compressed = false) :
    (m.compress S).normOne S = m.normOne S := by
  obtain ⟨hrows, hcols, hcm, _, _, _, _, _⟩ := compress_spec S m hc
  cases S with
  | RowMajor =>
    unfold Matrix.normOne
    rw [if_neg (by rw [hcm]; simp), if_pos (by rw [hc]; simp), hrows, hcols]
    refine congrArg maxElem
      (foldl_slices .RowMajor m hc _ _ _ (fun i hi t ht d => ?_))
    obtain ⟨ho, hval⟩ := compress_window .RowMajor m hc i hi t ht
    rw [ho, hval]
    rfl
  | ColumnMajor =>
    unfold Matrix.normOne
    rw [if_neg (by rw [hcm]; simp), if_pos (by rw [hc]; simp), hcols]
    refine congrArg maxElem
      (foldl_slices .ColumnMajor m hc _ _ _ (fun i hi t ht d => ?_))
    obtain ⟨ho, hval⟩ := compress_window .ColumnMajor m hc i hi t ht
    rw [hval]
    have hmaj : ((entryGroup .ColumnMajor m.rows m.cols m.uncompressed_format i).get
        ⟨t, ht⟩).1.major .ColumnMajor = i :=
      ((mem_entryGroup .ColumnMajor m.rows m.cols m.uncompressed_format i _).mp
        (List.get_mem _ _ ht)).1
    rw [show ((entryGroup .ColumnMajor m.rows m.cols m.uncompressed_format i).get
        ⟨t, ht⟩).1.col = i from hmaj]

end NormThms

theorem proxyAdd_other (f : UMap α) (a k : Index) (d : α) (hne : a ≠ k) :
    proxyAdd f a d k = f k := by
  unfold proxyAdd UMap.erase UMap.insert
  by_cases h0 : (f a).getD 0 + d = 0
  · rw [if_pos h0, if_neg (fun h => hne h.symm)]
  · rw [if_neg h0, if_neg (fun h => hne h.symm)]

theorem proxyAdd_self_getD (f : UMap α) (k : Index) (d : α) :
    (proxyAdd f k d k).getD 0 = (f k).getD 0 + d := by
  unfold proxyAdd UMap.erase UMap.insert
  by_cases h0 : (f k).getD 0 + d = 0
  · rw [if_pos h0, if_pos rfl]
    exact h0.symm
  · rw [if_neg h0, if_pos rfl]
    rfl

theorem proxyAdd_self_nonzero (f : UMap α) (k : Index) (d : α) (v : α)
    (hv : proxyAdd f k d k = some v) : v ≠ 0 := by
  unfold proxyAdd UMap.erase UMap.insert at hv
  by_cases h0 : (f k).getD 0 + d = 0
  · rw [if_pos h0, if_pos rfl] at hv
    cases hv
  · rw [if_neg h0, if_pos rfl] at hv
    cases hv
    exact h0

/-- Zero-erasing accumulation: after a sequence of proxy writes the slot for
`k` holds the initial value plus the sum of the deltas addressed at `k`, and
it never stores a zero it did not inherit. -/
theorem foldl_proxyAdd_spec (ups : List (Index × α)) :
    ∀ (f : UMap α) (k : Index), (∀ v, f k = some v → v ≠ 0) →
      ((ups.foldl (fun g e => proxyAdd g e.1 e.2) f) k).getD 0 =
        (f k).getD 0 + ((ups.filter (fun e => e.1 == k)).map Prod.snd).sum ∧
      (∀ v, (ups.foldl (fun g e => proxyAdd g e.1 e.2) f) k = some v → v ≠ 0) := by
  induction ups with
  | nil =>
    intro f k hzf
    exact ⟨by simp, hzf⟩
  | cons e ups ih =>
    intro f k hzf
    rw [List.foldl_cons, List.filter_cons]
    by_cases hk : e.1 = k
    · have hzf' : ∀ v, proxyAdd f e.1 e.2 k = some v → v ≠ 0 := by
        intro v hv
        rw [hk] at hv
        exact proxyAdd_self_nonzero f k e.2 v hv
      obtain ⟨hgd, hz⟩ := ih (proxyAdd f e.1 e.2) k hzf'
      refine ⟨?_, hz⟩
      rw [hgd, hk, proxyAdd_self_getD, if_pos (by simp [hk]), List.map_cons,
        List.sum_cons, add_assoc]
    · have hzf' : ∀ v, proxyAdd f e.1 e.2 k = some v → v ≠ 0 := by
        intro v hv
        rw [proxyAdd_other f e.1 k e.2 hk] at hv
        exact hzf v hv
      obtain ⟨hgd, hz⟩ := ih (proxyAdd f e.1 e.2) k hzf'
      refine ⟨?_, hz⟩
      rw [hgd, proxyAdd_other f e.1 k e.2 hk, if_neg (by simp [hk])]

/-- The map built by proxy writes from the empty map is fully determined by
the per-key delta sums. -/
theorem foldl_proxyAdd_empty (ups : List (Index × α)) (k : Index) :
    (ups.foldl (fun g e => proxyAdd g e.1 e.2) UMap.empty) k =
      (if ((ups.filter (fun e => e.1 == k)).map Prod.snd).sum = 0 then none
       else some (((ups.filter (fun e => e.1 == k)).map Prod.snd).sum)) := by
  obtain ⟨hgd, hz⟩ := foldl_proxyAdd_spec ups UMap.empty k
    (fun v hv => absurd hv (by unfold UMap.empty; simp))
  have hgd0 : ((ups.foldl (fun g e => proxyAdd g e.1 e.2) UMap.empty) k).getD 0 =
      ((ups.filter (fun e => e.1 == k)).map Prod.snd).sum := by
    rw [hgd]
    show (0 : α) + _ = _
    rw [zero_add]
  by_cases hs : ((ups.filter (fun e => e.1 == k)).map Prod.snd).sum = 0
  · rw [if_pos hs]
    cases hfin : (ups.foldl (fun g e => proxyAdd g e.1 e.2) UMap.empty) k with
    | none => rfl
    | some v =>
      exact absurd (by rw [hfin] at hgd0; rw [← hs, ← hgd0]; rfl) (hz v hfin)
  · rw [if_neg hs]
    cases hfin : (ups.foldl (fun g e => proxyAdd g e.1 e.2) UMap.empty) k with
    | none =>
      rw [hfin] at hgd0
      exact absurd hgd0.symm hs
    | some v =>
      rw [hfin] at hgd0
      rw [← hgd0]
      rfl

theorem foldl_filter_if {γ δ σ : Type} (l : List γ) (q : γ → Prop)
    [DecidablePred q] (g : γ → δ) (F : σ → δ → σ) :
    ∀ d, ((l.filter (fun a => decide (q a))).map g).foldl F d =
      l.foldl (fun d a => if q a then F d (g a) else d) d := by
  induction l with
  | nil => intro d; rfl
  | cons a l ih =>
    intro d
    rw [List.filter_cons, List.foldl_cons]
    by_cases hq : q a
    · rw [if_pos (by simp [hq]), List.map_cons, List.foldl_cons, if_pos hq, ih]
    · rw [if_neg (by simp [hq]), if_neg hq, ih]

theorem foldl_eq_id {γ σ : Type} (l : List γ) (B : σ → γ → σ)
    (h : ∀ d, ∀ a ∈ l, B d a = d) : ∀ d, l.foldl B d = d := by
  induction l with
  | nil => intro d; rfl
  | cons a l ih =>
    intro d
    rw [List.foldl_cons, h d a (List.mem_cons_self a l)]
    exact ih (fun d' a' ha' => h d' a' (List.mem_cons_of_mem a ha')) d

/-- The slice-`i` group is the traversal filtered to major coordinate `i`. -/
theorem entryGroup_eq_filter (S : StorageOrder) (rows cols : ℕ) (f : UMap α)
    (i : ℕ) (hi : i < majorDim S rows cols) :
    entryGroup S rows cols f i =
      (entries S rows cols f).filter (fun e => decide (e.1.major S = i)) := by
  rw [entries_eq_flatMap, List.filter_flatMap, range_split_mid i _ hi,
    List.flatMap_append, List.flatMap_cons]
  have hpre : (List.range i).flatMap (fun r => (entryGroup S rows cols f r).filter
      (fun e => decide (e.1.major S = i))) = [] := by
    rw [List.flatMap_eq_nil_iff]
    intro r hr
    rw [List.filter_eq_nil_iff]
    intro e he
    rw [List.mem_range] at hr
    have := ((mem_entryGroup S rows cols f r e).mp he).1
    simp only [decide_eq_true_eq]
    omega
  have hsuf : (List.range' (i + 1) (majorDim S rows cols - (i + 1))).flatMap
      (fun r => (entryGroup S rows cols f r).filter
        (fun e => decide (e.1.major S = i))) = [] := by
    rw [List.flatMap_eq_nil_iff]
    intro r hr
    rw [List.filter_eq_nil_iff]
    intro e he
    rw [List.mem_range'] at hr
    obtain ⟨t, _, hrt⟩ := hr
    have := ((mem_entryGroup S rows cols f r e).mp he).1
    simp only [decide_eq_true_eq]
    omega
  rw [hpre, hsuf, List.nil_append, List.append_nil]
  symm
  rw [List.filter_eq_self]
  intro e he
  rw [((mem_entryGroup S rows cols f i e).mp he).1]
  simp

/-- One inner pass of the uncompressed SpGEMM at fixed left entry: the deltas
addressed at `(i, j)` sum to the single dense product when the left entry sits
in row `i`. -/
theorem inner_pair_sum (S : StorageOrder) (rows2 cols2 : ℕ) (f2 : UMap α)
    (a b : ℕ) (w : α) (i j : ℕ) (hj : j < cols2) (hb : b < rows2) :
    (((((entries S rows2 cols2 f2).filter
        (fun e2 => decide (b = e2.1.row))).map
        (fun e2 => ((⟨a, e2.1.col⟩ : Index), w * e2.2))).filter
      (fun u => u.1 == (⟨i, j⟩ : Index))).map Prod.snd).sum =
      if a = i then w * (f2 ⟨b, j⟩).getD 0 else 0 := by
  rw [List.filter_map, List.map_map, List.filter_filter, filter_map_sum]
  have hpt : ∀ e2 ∈ entries S rows2 cols2 f2,
      (if (((fun u => u.1 == (⟨i, j⟩ : Index)) ∘
            (fun e2 => ((⟨a, e2.1.col⟩ : Index), w * e2.2))) e2 &&
          decide (b = e2.1.row)) = true
       then (Prod.snd ∘ (fun e2 => ((⟨a, e2.1.col⟩ : Index), w * e2.2))) e2 else 0) =
      (if decide (e2.1.row = b) = true
       then (if a = i then (if e2.1.col = j then w * e2.2 else 0) else 0) else 0) := by
    intro e2 _
    show (if (((⟨a, e2.1.col⟩ : Index) == (⟨i, j⟩ : Index)) &&
          decide (b = e2.1.row)) = true then w * e2.2 else 0) =
      (if decide (e2.1.row = b) = true
       then (if a = i then (if e2.1.col = j then w * e2.2 else 0) else 0) else 0)
    have hcond : (((⟨a, e2.1.col⟩ : Index) == (⟨i, j⟩ : Index)) &&
        decide (b = e2.1.row)) =
        (decide (a = i) && decide (e2.1.col = j) && decide (e2.1.row = b)) := by
      by_cases h1 : a = i <;> by_cases h2 : e2.1.col = j <;>
        by_cases h3 : e2.1.row = b <;>
        simp [h1, h2, h3, Index.mk.injEq,
          show (b = e2.1.row) ↔ (e2.1.row = b) from eq_comm]
    rw [hcond]
    by_cases h1 : a = i <;> by_cases h2 : e2.1.col = j <;>
      by_cases h3 : e2.1.row = b <;> simp [h1, h2, h3]
  rw [List.map_congr_left hpt, ← filter_map_sum,
    entries_row_sum S rows2 cols2 f2 b hb
      (fun c x => if a = i then (if c = j then w * x else 0) else 0)
      (fun c => by split_ifs <;> simp)]
  by_cases h2 : a = i
  · simp only [if_pos h2]
    rw [Finset.sum_ite_eq' (Finset.range cols2) j
      (fun c => w * (f2 ⟨b, c⟩).getD 0), if_pos (Finset.mem_range.mpr hj)]
  · simp only [if_neg h2]
    exact Finset.sum_const_zero

/-- Per-key delta sum of the uncompressed SpGEMM iteration (left-operand
outer loop): the dense product sum. -/
theorem matMul_sum_left (S : StorageOrder) (rows1 cols1 rows2 cols2 : ℕ)
    (f1 f2 : UMap α) (hsq : cols1 = rows2) (i j : ℕ)
    (hi : i < rows1) (hj : j < cols2) :
    ((((entries S rows1 cols1 f1).flatMap (fun e1 =>
        ((entries S rows2 cols2 f2).filter
          (fun e2 => decide (e1.1.col = e2.1.row))).map
          (fun e2 => ((⟨e1.1.row, e2.1.col⟩ : Index), e1.2 * e2.2)))).filter
      (fun u => u.1 == (⟨i, j⟩ : Index))).map Prod.snd).sum =
      ∑ kk ∈ Finset.range rows2,
        (f1 ⟨i, kk⟩).getD 0 * (f2 ⟨kk, j⟩).getD 0 := by
  subst hsq
  rw [List.filter_flatMap, flatMap_map_sum]
  have hG : ∀ e1 ∈ entries S rows1 cols1 f1,
      (((((entries S cols1 cols2 f2).filter
          (fun e2 => decide (e1.1.col = e2.1.row))).map
          (fun e2 => ((⟨e1.1.row, e2.1.col⟩ : Index), e1.2 * e2.2))).filter
        (fun u => u.1 == (⟨i, j⟩ : Index))).map Prod.snd).sum =
      (if decide (e1.1.row = i) = true
       then e1.2 * (f2 ⟨e1.1.col, j⟩).getD 0 else 0) := by
    intro e1 he1
    have hcol1 : e1.1.col < cols1 := ((mem_entries S rows1 cols1 f1 e1).mp he1).2.1
    rw [inner_pair_sum S cols1 cols2 f2 e1.1.row e1.1.col e1.2 i j hj hcol1]
    by_cases h : e1.1.row = i <;> simp [h]
  rw [List.map_congr_left hG, ← filter_map_sum,
    entries_row_sum S rows1 cols1 f1 i hi
      (fun c x => x * (f2 ⟨c, j⟩).getD 0) (fun c => zero_mul _)]

/-- One inner pass of the column-major compressed SpGEMM at fixed right
entry: the deltas addressed at `(i, j)` sum to the single dense product when
the right entry sits in column `j`. -/
theorem inner_pair_sum_col (S : StorageOrder) (rows1 cols1 : ℕ) (f1 : UMap α)
    (a b : ℕ) (w : α) (i j : ℕ) (hi : i < rows1) (hb : b < cols1) :
    (((((entries S rows1 cols1 f1).filter
        (fun e1 => decide (e1.1.col = b))).map
        (fun e1 => ((⟨e1.1.row, a⟩ : Index), e1.2 * w))).filter
      (fun u => u.1 == (⟨i, j⟩ : Index))).map Prod.snd).sum =
      if a = j then (f1 ⟨i, b⟩).getD 0 * w else 0 := by
  rw [List.filter_map, List.map_map, List.filter_filter, filter_map_sum]
  have hpt : ∀ e1 ∈ entries S rows1 cols1 f1,
      (if (((fun u => u.1 == (⟨i, j⟩ : Index)) ∘
            (fun e1 => ((⟨e1.1.row, a⟩ : Index), e1.2 * w))) e1 &&
          decide (e1.1.col = b)) = true
       then (Prod.snd ∘ (fun e1 => ((⟨e1.1.row, a⟩ : Index), e1.2 * w))) e1 else 0) =
      (if decide (e1.1.col = b) = true
       then (if a = j then (if e1.1.row = i then e1.2 * w else 0) else 0) else 0) := by
    intro e1 _
    show (if (((⟨e1.1.row, a⟩ : Index) == (⟨i, j⟩ : Index)) &&
          decide (e1.1.col = b)) = true then e1.2 * w else 0) =
      (if decide (e1.1.col = b) = true
       then (if a = j then (if e1.1.row = i then e1.2 * w else 0) else 0) else 0)
    have hcond : (((⟨e1.1.row, a⟩ : Index) == (⟨i, j⟩ : Index)) &&
        decide (e1.1.col = b)) =
        (decide (e1.1.row = i) && decide (a = j) && decide (e1.1.col = b)) := by
      by_cases h1 : e1.1.row = i <;> by_cases h2 : a = j <;>
        by_cases h3 : e1.1.col = b <;>
        simp [h1, h2, h3, Index.mk.injEq]
    rw [hcond]
    by_cases h1 : e1.1.row = i <;> by_cases h2 : a = j <;>
      by_cases h3 : e1.1.col = b <;> simp [h1, h2, h3]
  rw [List.map_congr_left hpt, ← filter_map_sum,
    entries_col_sum S rows1 cols1 f1 b hb
      (fun r x => if a = j then (if r = i then x * w else 0) else 0)
      (fun r => by split_ifs <;> simp)]
  by_cases h2 : a = j
  · simp only [if_pos h2]
    rw [Finset.sum_ite_eq' (Finset.range rows1) i
      (fun r => (f1 ⟨r, b⟩).getD 0 * w), if_pos (Finset.mem_range.mpr hi)]
  · simp only [if_neg h2]
    exact Finset.sum_const_zero

/-- Per-key delta sum of the column-major compressed SpGEMM iteration
(right-operand outer loop): the same dense product sum. -/
theorem matMul_sum_right (S : StorageOrder) (rows1 cols1 rows2 cols2 : ℕ)
    (f1 f2 : UMap α) (hsq : cols1 = rows2) (i j : ℕ)
    (hi : i < rows1) (hj : j < cols2) :
    ((((entries S rows2 cols2 f2).flatMap (fun e2 =>
        ((entries S rows1 cols1 f1).filter
          (fun e1 => decide (e1.1.col = e2.1.row))).map
          (fun e1 => ((⟨e1.1.row, e2.1.col⟩ : Index), e1.2 * e2.2)))).filter
      (fun u => u.1 == (⟨i, j⟩ : Index))).map Prod.snd).sum =
      ∑ kk ∈ Finset.range rows2,
        (f1 ⟨i, kk⟩).getD 0 * (f2 ⟨kk, j⟩).getD 0 := by
  subst hsq
  rw [List.filter_flatMap, flatMap_map_sum]
  have hG : ∀ e2 ∈ entries S cols1 cols2 f2,
      (((((entries S rows1 cols1 f1).filter
          (fun e1 => decide (e1.1.col = e2.1.row))).map
          (fun e1 => ((⟨e1.1.row, e2.1.col⟩ : Index), e1.2 * e2.2))).filter
        (fun u => u.1 == (⟨i, j⟩ : Index))).map Prod.snd).sum =
      (if decide (e2.1.col = j) = true
       then (f1 ⟨i, e2.1.row⟩).getD 0 * e2.2 else 0) := by
    intro e2 he2
    have hrow2 : e2.1.row < cols1 := ((mem_entries S cols1 cols2 f2 e2).mp he2).1
    rw [inner_pair_sum_col S rows1 cols1 f1 e2.1.col e2.1.row e2.2 i j hi hrow2]
    by_cases h : e2.1.col = j <;> simp [h]
  rw [List.map_congr_left hG, ← filter_map_sum,
    entries_col_sum S cols1 cols2 f2 j hj
      (fun r x => (f1 ⟨i, r⟩).getD 0 * x) (fun r => mul_zero _)]

theorem Matrix.getVal_uncompressed (S : StorageOrder) (m : Matrix α)
    (hc : m.compressed = false) (r c : ℕ) (hr : r < m.rows) (hcc : c < m.cols) :
    m.getVal S r c = (m.uncompressed_format ⟨r, c⟩).getD 0 := by
  unfold Matrix.getVal
  rw [Matrix.get_uncompressed S m r c hr hcc hc]

/-- `operator*` (matrix × matrix) on two uncompressed operands builds the
result map by proxy-accumulating over the flattened pair iteration. -/
theorem matMul_uncompressed_form (S : StorageOrder) (m1 m2 : Matrix α)
    (hc1 : m1.compressed = false) (hc2 : m2.compressed = false)
    (hsq : m1.cols = m2.rows) :
    m1.matMul S m2 = .ok
      { rows := m1.rows, cols := m2.cols, compressed := false
        uncompressed_format :=
          ((entries S m1.rows m1.cols m1.uncompressed_format).flatMap (fun e1 =>
            ((entries S m2.rows m2.cols m2.uncompressed_format).filter
              (fun e2 => decide (e1.1.col = e2.1.row))).map
              (fun e2 => ((⟨e1.1.row, e2.1.col⟩ : Index), e1.2 * e2.2)))).foldl
            (fun g e => proxyAdd g e.1 e.2) UMap.empty
        compressed_format := { inner := [], outer := [], values := [] } } := by
  have hfold :
      ((entries S m1.rows m1.cols m1.uncompressed_format).flatMap (fun e1 =>
        ((entries S m2.rows m2.cols m2.uncompressed_format).filter
          (fun e2 => decide (e1.1.col = e2.1.row))).map
          (fun e2 => ((⟨e1.1.row, e2.1.col⟩ : Index), e1.2 * e2.2)))).foldl
        (fun g e => proxyAdd g e.1 e.2) UMap.empty =
      (entries S m1.rows m1.cols m1.uncompressed_format).foldl (fun f e1 =>
        (entries S m2.rows m2.cols m2.uncompressed_format).foldl (fun f e2 =>
          if e1.1.col = e2.1.row then
            proxyAdd f ⟨e1.1.row, e2.1.col⟩ (e1.2 * e2.2)
          else f) f)
        UMap.empty := by
    rw [foldl_flatMap]
    refine List.foldl_ext _ _ UMap.empty ?_
    intro f e1 _
    show (((entries S m2.rows m2.cols m2.uncompressed_format).filter
        (fun e2 => decide (e1.1.col = e2.1.row))).map
        (fun e2 => ((⟨e1.1.row, e2.1.col⟩ : Index), e1.2 * e2.2))).foldl
        (fun g e => proxyAdd g e.1 e.2) f = _
    rw [foldl_filter_if (entries S m2.rows m2.cols m2.uncompressed_format)
      (fun e2 => e1.1.col = e2.1.row)
      (fun e2 => ((⟨e1.1.row, e2.1.col⟩ : Index), e1.2 * e2.2))
      (fun g e => proxyAdd g e.1 e.2) f]
  unfold Matrix.matMul
  rw [if_neg (by omega), if_neg (by rw [hc1, hc2]; simp)]
  rw [hc1, if_pos (show ¬ false = true by simp), hfold]

/-- Every key hit by the uncompressed SpGEMM iteration is in range for the
result shape. -/
theorem ups_key_bounds_left (S : StorageOrder) (rows1 cols1 rows2 cols2 : ℕ)
    (f1 f2 : UMap α) :
    ∀ u ∈ (entries S rows1 cols1 f1).flatMap (fun e1 =>
      ((entries S rows2 cols2 f2).filter
        (fun e2 => decide (e1.1.col = e2.1.row))).map
        (fun e2 => ((⟨e1.1.row, e2.1.col⟩ : Index), e1.2 * e2.2))),
      u.1.row < rows1 ∧ u.1.col < cols2 := by
  intro u hu
  rw [List.mem_flatMap] at hu
  obtain ⟨e1, he1, hu⟩ := hu
  rw [List.mem_map] at hu
  obtain ⟨e2, he2, hu⟩ := hu
  rw [List.mem_filter] at he2
  have hb1 := (mem_entries S rows1 cols1 f1 e1).mp he1
  have hb2 := (mem_entries S rows2 cols2 f2 e2).mp he2.1
  rw [← hu]
  exact ⟨hb1.1, hb2.2.1⟩

theorem ups_key_bounds_right (S : StorageOrder) (rows1 cols1 rows2 cols2 : ℕ)
    (f1 f2 : UMap α) :
    ∀ u ∈ (entries S rows2 cols2 f2).flatMap (fun e2 =>
      ((entries S rows1 cols1 f1).filter
        (fun e1 => decide (e1.1.col = e2.1.row))).map
        (fun e1 => ((⟨e1.1.row, e2.1.col⟩ : Index), e1.2 * e2.2))),
      u.1.row < rows1 ∧ u.1.col < cols2 := by
  intro u hu
  rw [List.mem_flatMap] at hu
  obtain ⟨e2, he2, hu⟩ := hu
  rw [List.mem_map] at hu
  obtain ⟨e1, he1, hu⟩ := hu
  rw [List.mem_filter] at he1
  have hb1 := (mem_entries S rows1 cols1 f1 e1).mp he1.1
  have hb2 := (mem_entries S rows2 cols2 f2 e2).mp he2
  rw [← hu]
  exact ⟨hb1.1, hb2.2.1⟩

/-- The two nesting orders of the SpGEMM iteration build the same result
map: the per-key delta sums agree. -/
theorem matMul_fold_orders_eq (S : StorageOrder) (rows1 cols1 rows2 cols2 : ℕ)
    (f1 f2 : UMap α) (hsq : cols1 = rows2) :
    ((entries S rows2 cols2 f2).flatMap (fun e2 =>
      ((entries S rows1 cols1 f1).filter
        (fun e1 => decide (e1.1.col = e2.1.row))).map
        (fun e1 => ((⟨e1.1.row, e2.1.col⟩ : Index), e1.2 * e2.2)))).foldl
      (fun g e => proxyAdd g e.1 e.2) UMap.empty =
    ((entries S rows1 cols1 f1).flatMap (fun e1 =>
      ((entries S rows2 cols2 f2).filter
        (fun e2 => decide (e1.1.col = e2.1.row))).map
        (fun e2 => ((⟨e1.1.row, e2.1.col⟩ : Index), e1.2 * e2.2)))).foldl
      (fun g e => proxyAdd g e.1 e.2) UMap.empty := by
  funext k
  rw [foldl_proxyAdd_empty, foldl_proxyAdd_empty]
  have hsum :
      (((((entries S rows2 cols2 f2).flatMap (fun e2 =>
        ((entries S rows1 cols1 f1).filter
          (fun e1 => decide (e1.1.col = e2.1.row))).map
          (fun e1 => ((⟨e1.1.row, e2.1.col⟩ : Index), e1.2 * e2.2)))).filter
        (fun e => e.1 == k)).map Prod.snd).sum : α) =
      ((((entries S rows1 cols1 f1).flatMap (fun e1 =>
        ((entries S rows2 cols2 f2).filter
          (fun e2 => decide (e1.1.col = e2.1.row))).map
          (fun e2 => ((⟨e1.1.row, e2.1.col⟩ : Index), e1.2 * e2.2)))).filter
        (fun e => e.1 == k)).map Prod.snd).sum := by
    by_cases hk : k.row < rows1 ∧ k.col < cols2
    · rw [show k = (⟨k.row, k.col⟩ : Index) from rfl,
        matMul_sum_right S rows1 cols1 rows2 cols2 f1 f2 hsq k.row k.col hk.1 hk.2,
        matMul_sum_left S rows1 cols1 rows2 cols2 f1 f2 hsq k.row k.col hk.1 hk.2]
    · have hempty1 : ((entries S rows2 cols2 f2).flatMap (fun e2 =>
          ((entries S rows1 cols1 f1).filter
            (fun e1 => decide (e1.1.col = e2.1.row))).map
            (fun e1 => ((⟨e1.1.row, e2.1.col⟩ : Index), e1.2 * e2.2)))).filter
          (fun e => e.1 == k) = [] := by
        rw [List.filter_eq_nil_iff]
        intro u hu
        have hb := ups_key_bounds_right S rows1 cols1 rows2 cols2 f1 f2 u hu
        simp only [beq_iff_eq]
        intro hk'
        rw [hk'] at hb
        exact hk hb
      have hempty2 : ((entries S rows1 cols1 f1).flatMap (fun e1 =>
          ((entries S rows2 cols2 f2).filter
            (fun e2 => decide (e1.1.col = e2.1.row))).map
            (fun e2 => ((⟨e1.1.row, e2.1.col⟩ : Index), e1.2 * e2.2)))).filter
          (fun e => e.1 == k) = [] := by
        rw [List.filter_eq_nil_iff]
        intro u hu
        have hb := ups_key_bounds_left S rows1 cols1 rows2 cols2 f1 f2 u hu
        simp only [beq_iff_eq]
        intro hk'
        rw [hk'] at hb
        exact hk hb
      rw [hempty1, hempty2]
  rw [hsum]

theorem slicePositions_compress (S : StorageOrder) (m : Matrix α)
    (hc : m.compressed = false) (i : ℕ) (hi : i < majorDim S m.rows m.cols) :
    slicePositions (m.compress S).compressed_format.inner i =
      List.range' (countLt S (entries S m.rows m.cols m.uncompressed_format) i)
        (entryGroup S m.rows m.cols m.uncompressed_format i).length := by
  obtain ⟨_, _, _, _, _, _, _, hinner⟩ := compress_spec S m hc
  unfold slicePositions
  rw [hinner i (by omega), hinner (i + 1) (by omega),
    countLt_succ_entries S m.rows m.cols m.uncompressed_format i hi]
  congr 1
  omega

/-- SpGEMM on the compress images returns the same result as SpGEMM on the
uncompressed sources. -/
theorem matMul_compress_eq (S : StorageOrder) (m1 m2 : Matrix α)
    (hc1 : m1.compressed = false) (hc2 : m2.compressed = false)
    (hsq : m1.cols = m2.rows) :
    (m1.compress S).matMul S (m2.compress S) = m1.matMul S m2 := by
  obtain ⟨hrows1, hcols1, hcm1, _, _, _, _, _⟩ := compress_spec S m1 hc1
  obtain ⟨hrows2, hcols2, hcm2, _, _, _, _, _⟩ := compress_spec S m2 hc2
  rw [matMul_uncompressed_form S m1 m2 hc1 hc2 hsq]
  cases S with
  | RowMajor =>
    have h1 : (List.range m1.rows).foldl (fun f row =>
        (slicePositions (m1.compress .RowMajor).compressed_format.inner row).foldl
          (fun f j =>
            (slicePositions (m2.compress .RowMajor).compressed_format.inner
              ((m1.compress .RowMajor).compressed_format.outer.getD j 0)).foldl
              (fun f i => proxyAdd f
                ⟨row, (m2.compress .RowMajor).compressed_format.outer.getD i 0⟩
                ((m1.compress .RowMajor).compressed_format.values.getD j 0 *
                  (m2.compress .RowMajor).compressed_format.values.getD i 0)) f) f)
        UMap.empty =
        (entries .RowMajor m1.rows m1.cols m1.uncompressed_format).foldl
          (fun f e1 =>
            (slicePositions (m2.compress .RowMajor).compressed_format.inner
              e1.1.col).foldl
              (fun f i => proxyAdd f
                ⟨e1.1.row, (m2.compress .RowMajor).compressed_format.outer.getD i 0⟩
                (e1.2 *
                  (m2.compress .RowMajor).compressed_format.values.getD i 0)) f)
          UMap.empty := by
      refine foldl_slices .RowMajor m1 hc1 _ _ UMap.empty ?_
      intro i hi t ht d
      obtain ⟨ho1, hval1⟩ := compress_window .RowMajor m1 hc1 i hi t ht
      rw [ho1, hval1]
      have hmaj : ((entryGroup .RowMajor m1.rows m1.cols m1.uncompressed_format i).get
          ⟨t, ht⟩).1.major .RowMajor = i :=
        ((mem_entryGroup .RowMajor m1.rows m1.cols m1.uncompressed_format i _).mp
          (List.get_mem _ _ ht)).1
      rw [show ((entryGroup .RowMajor m1.rows m1.cols m1.uncompressed_format i).get
          ⟨t, ht⟩).1.row = i from hmaj]
      rfl
    have h2 : (entries .RowMajor m1.rows m1.cols m1.uncompressed_format).foldl
        (fun f e1 =>
          (slicePositions (m2.compress .RowMajor).compressed_format.inner
            e1.1.col).foldl
            (fun f i => proxyAdd f
              ⟨e1.1.row, (m2.compress .RowMajor).compressed_format.outer.getD i 0⟩
              (e1.2 *
                (m2.compress .RowMajor).compressed_format.values.getD i 0)) f)
        UMap.empty =
        (entries .RowMajor m1.rows m1.cols m1.uncompressed_format).foldl
          (fun f e1 =>
            (entryGroup .RowMajor m2.rows m2.cols m2.uncompressed_format
              e1.1.col).foldl
              (fun f e2 => proxyAdd f ⟨e1.1.row, e2.1.col⟩ (e1.2 * e2.2)) f)
          UMap.empty := by
      refine List.foldl_ext _ _ UMap.empty ?_
      intro f e1 he1
      have hcol : e1.1.col < majorDim .RowMajor m2.rows m2.cols := by
        have := ((mem_entries .RowMajor m1.rows m1.cols m1.uncompressed_format
          e1).mp he1).2.1
        show e1.1.col < m2.rows
        omega
      rw [slicePositions_compress .RowMajor m2 hc2 e1.1.col hcol]
      refine foldl_window _ _ _ _ f ?_
      intro t ht d
      obtain ⟨ho2, hval2⟩ := compress_window .RowMajor m2 hc2 e1.1.col hcol t ht
      rw [ho2, hval2]
      rfl
    have h3 : ((entries .RowMajor m1.rows m1.cols m1.uncompressed_format).flatMap
        (fun e1 =>
          ((entries .RowMajor m2.rows m2.cols m2.uncompressed_format).filter
            (fun e2 => decide (e1.1.col = e2.1.row))).map
            (fun e2 => ((⟨e1.1.row, e2.1.col⟩ : Index), e1.2 * e2.2)))).foldl
        (fun g e => proxyAdd g e.1 e.2) UMap.empty =
        (entries .RowMajor m1.rows m1.cols m1.uncompressed_format).foldl
          (fun f e1 =>
            (entryGroup .RowMajor m2.rows m2.cols m2.uncompressed_format
              e1.1.col).foldl
              (fun f e2 => proxyAdd f ⟨e1.1.row, e2.1.col⟩ (e1.2 * e2.2)) f)
          UMap.empty := by
      rw [foldl_flatMap]
      refine List.foldl_ext _ _ UMap.empty ?_
      intro f e1 he1
      have hcol : e1.1.col < majorDim .RowMajor m2.rows m2.cols := by
        have := ((mem_entries .RowMajor m1.rows m1.cols m1.uncompressed_format
          e1).mp he1).2.1
        show e1.1.col < m2.rows
        omega
      show (((entries .RowMajor m2.rows m2.cols m2.uncompressed_format).filter
          (fun e2 => decide (e1.1.col = e2.1.row))).map
          (fun e2 => ((⟨e1.1.row, e2.1.col⟩ : Index), e1.2 * e2.2))).foldl
          (fun g e => proxyAdd g e.1 e.2) f = _
      rw [List.foldl_map]
      have hgrp : (entries .RowMajor m2.rows m2.cols m2.uncompressed_format).filter
          (fun e2 => decide (e1.1.col = e2.1.row)) =
          entryGroup .RowMajor m2.rows m2.cols m2.uncompressed_format e1.1.col := by
        rw [entryGroup_eq_filter .RowMajor m2.rows m2.cols m2.uncompressed_format
          e1.1.col hcol]
        exact List.filter_congr (fun e2 _ =>
          decide_eq_decide.mpr ⟨fun h => h.symm, fun h => h.symm⟩)
      rw [hgrp]
    unfold Matrix.matMul
    rw [if_neg (by rw [hcols1, hrows2]; omega),
      if_neg (by rw [hcm1, hcm2]; simp), hcm1,
      if_neg (by simp), hrows1, hcols2]
    refine congrArg (fun X =>
      (Except.ok { rows := m1.rows, cols := m2.cols, compressed := false
                   uncompressed_format := X
                   compressed_format :=
                     { inner := [], outer := [], values := [] } } :
        Except Err (Matrix α))) ?_
    exact h1.trans (h2.trans h3.symm)
  | ColumnMajor =>
    have h1 : (List.range m2.cols).foldl (fun f col =>
        (slicePositions (m2.compress .ColumnMajor).compressed_format.inner
          col).foldl
          (fun f k =>
            (slicePositions (m1.compress .ColumnMajor).compressed_format.inner
              ((m2.compress .ColumnMajor).compressed_format.outer.getD k 0)).foldl
              (fun f i => proxyAdd f
                ⟨(m1.compress .ColumnMajor).compressed_format.outer.getD i 0, col⟩
                ((m1.compress .ColumnMajor).compressed_format.values.getD i 0 *
                  (m2.compress .ColumnMajor).compressed_format.values.getD k 0)) f)
            f)
        UMap.empty =
        (entries .ColumnMajor m2.rows m2.cols m2.uncompressed_format).foldl
          (fun f e2 =>
            (slicePositions (m1.compress .ColumnMajor).compressed_format.inner
              e2.1.row).foldl
              (fun f i => proxyAdd f
                ⟨(m1.compress .ColumnMajor).compressed_format.outer.getD i 0,
                  e2.1.col⟩
                ((m1.compress .ColumnMajor).compressed_format.values.getD i 0 *
                  e2.2)) f)
          UMap.empty := by
      refine foldl_slices .ColumnMajor m2 hc2 _ _ UMap.empty ?_
      intro i hi t ht d
      obtain ⟨ho2, hval2⟩ := compress_window .ColumnMajor m2 hc2 i hi t ht
      rw [ho2, hval2]
      have hmaj : ((entryGroup .ColumnMajor m2.rows m2.cols
          m2.uncompressed_format i).get ⟨t, ht⟩).1.major .ColumnMajor = i :=
        ((mem_entryGroup .ColumnMajor m2.rows m2.cols m2.uncompressed_format
          i _).mp (List.get_mem _ _ ht)).1
      rw [show ((entryGroup .ColumnMajor m2.rows m2.cols
          m2.uncompressed_format i).get ⟨t, ht⟩).1.col = i from hmaj]
      rfl
    have h2 : (entries .ColumnMajor m2.rows m2.cols m2.uncompressed_format).foldl
        (fun f e2 =>
          (slicePositions (m1.compress .ColumnMajor).compressed_format.inner
            e2.1.row).foldl
            (fun f i => proxyAdd f
              ⟨(m1.compress .ColumnMajor).compressed_format.outer.getD i 0,
                e2.1.col⟩
              ((m1.compress .ColumnMajor).compressed_format.values.getD i 0 *
                e2.2)) f)
        UMap.empty =
        (entries .ColumnMajor m2.rows m2.cols m2.uncompressed_format).foldl
          (fun f e2 =>
            (entryGroup .ColumnMajor m1.rows m1.cols m1.uncompressed_format
              e2.1.row).foldl
              (fun f e1 => proxyAdd f ⟨e1.1.row, e2.1.col⟩ (e1.2 * e2.2)) f)
          UMap.empty := by
      refine List.foldl_ext _ _ UMap.empty ?_
      intro f e2 he2
      have hrow : e2.1.row < majorDim .ColumnMajor m1.rows m1.cols := by
        have := ((mem_entries .ColumnMajor m2.rows m2.cols m2.uncompressed_format
          e2).mp he2).1
        show e2.1.row < m1.cols
        omega
      rw [slicePositions_compress .ColumnMajor m1 hc1 e2.1.row hrow]
      refine foldl_window _ _ _ _ f ?_
      intro t ht d
      obtain ⟨ho1, hval1⟩ := compress_window .ColumnMajor m1 hc1 e2.1.row hrow t ht
      rw [ho1, hval1]
      rfl
    have h3 : ((entries .ColumnMajor m2.rows m2.cols m2.uncompressed_format).flatMap
        (fun e2 =>
          ((entries .ColumnMajor m1.rows m1.cols m1.uncompressed_format).filter
            (fun e1 => decide (e1.1.col = e2.1.row))).map
            (fun e1 => ((⟨e1.1.row, e2.1.col⟩ : Index), e1.2 * e2.2)))).foldl
        (fun g e => proxyAdd g e.1 e.2) UMap.empty =
        (entries .ColumnMajor m2.rows m2.cols m2.uncompressed_format).foldl
          (fun f e2 =>
            (entryGroup .ColumnMajor m1.rows m1.cols m1.uncompressed_format
              e2.1.row).foldl
              (fun f e1 => proxyAdd f ⟨e1.1.row, e2.1.col⟩ (e1.2 * e2.2)) f)
          UMap.empty := by
      rw [foldl_flatMap]
      refine List.foldl_ext _ _ UMap.empty ?_
      intro f e2 he2
      have hrow : e2.1.row < majorDim .ColumnMajor m1.rows m1.cols := by
        have := ((mem_entries .ColumnMajor m2.rows m2.cols m2.uncompressed_format
          e2).mp he2).1
        show e2.1.row < m1.cols
        omega
      show (((entries .ColumnMajor m1.rows m1.cols m1.uncompressed_format).filter
          (fun e1 => decide (e1.1.col = e2.1.row))).map
          (fun e1 => ((⟨e1.1.row, e2.1.col⟩ : Index), e1.2 * e2.2))).foldl
          (fun g e => proxyAdd g e.1 e.2) f = _
      rw [List.foldl_map]
      have hgrp : (entries .ColumnMajor m1.rows m1.cols
          m1.uncompressed_format).filter
          (fun e1 => decide (e1.1.col = e2.1.row)) =
          entryGroup .ColumnMajor m1.rows m1.cols m1.uncompressed_format
            e2.1.row := by
        rw [entryGroup_eq_filter .ColumnMajor m1.rows m1.cols
          m1.uncompressed_format e2.1.row hrow]
        exact List.filter_congr (fun e1 _ => rfl)
      rw [hgrp]
    have horders := matMul_fold_orders_eq .ColumnMajor m1.rows m1.cols m2.rows
      m2.cols m1.uncompressed_format m2.uncompressed_format hsq
    unfold Matrix.matMul
    rw [if_neg (by rw [hcols1, hrows2]; omega),
      if_neg (by rw [hcm1, hcm2]; simp), hcm1,
      if_neg (by simp), hrows1, hcols2]
    refine congrArg (fun X =>
      (Except.ok { rows := m1.rows, cols := m2.cols, compressed := false
                   uncompressed_format := X
                   compressed_format :=
                     { inner := [], outer := [], values := [] } } :
        Except Err (Matrix α))) ?_
    exact (h1.trans h2).trans (h3.symm.trans horders)

/-- C5: `operator*` on two general matrices with matching inner dimension,
both in the uncompressed family, returns an uncompressed result of shape
`(A.rows, B.cols)` whose every in-range read is the dense product sum
`sum_k A[i,k] * B[k,j]`, with no zero cell stored (cancellations are erased
by the proxy); the compress images — the reachable compressed family —
produce the identical result.  Neither operand is modified: the operator
builds a fresh matrix from const references. -/
theorem claim_C5_spgemm (S : StorageOrder) (m1 m2 : Matrix α)
    (hc1 : m1.compressed = false) (hc2 : m2.compressed = false)
    (hsq : m1.cols = m2.rows) :
    ∃ C, m1.matMul S m2 = .ok C ∧
      C.rows = m1.rows ∧ C.cols = m2.cols ∧ C.compressed = false ∧
      (∀ i j, i < m1.rows → j < m2.cols →
        C.get S i j = .ok (∑ kk ∈ Finset.range m2.rows,
          m1.getVal S i kk * m2.getVal S kk j)) ∧
      (∀ k v, C.uncompressed_format k = some v → v ≠ 0) ∧
      (m1.compress S).matMul S (m2.compress S) = .ok C := by
  refine ⟨_, matMul_uncompressed_form S m1 m2 hc1 hc2 hsq, rfl, rfl, rfl,
    ?_, ?_, ?_⟩
  · intro i j hi hj
    have hget := Matrix.get_uncompressed S
      { rows := m1.rows, cols := m2.cols, compressed := false
        uncompressed_format :=
          ((entries S m1.rows m1.cols m1.uncompressed_format).flatMap (fun e1 =>
            ((entries S m2.rows m2.cols m2.uncompressed_format).filter
              (fun e2 => decide (e1.1.col = e2.1.row))).map
              (fun e2 => ((⟨e1.1.row, e2.1.col⟩ : Index), e1.2 * e2.2)))).foldl
            (fun g e => proxyAdd g e.1 e.2) UMap.empty
        compressed_format := { inner := [], outer := [], values := [] } }
      i j hi hj rfl
    rw [hget]
    refine congrArg Except.ok ?_
    obtain ⟨hgd, _⟩ := foldl_proxyAdd_spec
      ((entries S m1.rows m1.cols m1.uncompressed_format).flatMap (fun e1 =>
        ((entries S m2.rows m2.cols m2.uncompressed_format).filter
          (fun e2 => decide (e1.1.col = e2.1.row))).map
          (fun e2 => ((⟨e1.1.row, e2.1.col⟩ : Index), e1.2 * e2.2))))
      UMap.empty (⟨i, j⟩ : Index)
      (fun v hv => absurd hv (by unfold UMap.empty; simp))
    rw [show ((UMap.empty : UMap α) ⟨i, j⟩).getD 0 = 0 from rfl, zero_add] at hgd
    rw [hgd,
      matMul_sum_left S m1.rows m1.cols m2.rows m2.cols m1.uncompressed_format
        m2.uncompressed_format hsq i j hi hj]
    refine Finset.sum_congr rfl ?_
    intro kk hkk
    rw [Finset.mem_range] at hkk
    rw [Matrix.getVal_uncompressed S m1 hc1 i kk hi (by omega),
      Matrix.getVal_uncompressed S m2 hc2 kk j hkk hj]
  · intro k v hv
    have hv' : (((entries S m1.rows m1.cols m1.uncompressed_format).flatMap
        (fun e1 =>
          ((entries S m2.rows m2.cols m2.uncompressed_format).filter
            (fun e2 => decide (e1.1.col = e2.1.row))).map
            (fun e2 => ((⟨e1.1.row, e2.1.col⟩ : Index), e1.2 * e2.2)))).foldl
        (fun g e => proxyAdd g e.1 e.2) UMap.empty) k = some v := hv
    rw [foldl_proxyAdd_empty] at hv'
    split_ifs at hv' with hs
    all_goals cases hv'
    all_goals exact hs
  · exact (matMul_compress_eq S m1 m2 hc1 hc2 hsq).trans
      (matMul_uncompressed_form S m1 m2 hc1 hc2 hsq)

/-- Witness for C5: the scenario-1 matrix squared. -/
theorem claim_C5_spgemm_witness :
    ∃ C, scen1.matMul .RowMajor scen1 = .ok C ∧
      C.rows = scen1.rows ∧ C.cols = scen1.cols ∧ C.compressed = false ∧
      (∀ i j, i < scen1.rows → j < scen1.cols →
        C.get .RowMajor i j = .ok (∑ kk ∈ Finset.range scen1.rows,
          scen1.getVal .RowMajor i kk * scen1.getVal .RowMajor kk j)) ∧
      (∀ k v, C.uncompressed_format k = some v → v ≠ 0) ∧
      (scen1.compress .RowMajor).matMul .RowMajor (scen1.compress .RowMajor) =
        .ok C :=
  claim_C5_spgemm .RowMajor scen1 scen1 rfl rfl rfl

theorem countLt_flatMap (S : StorageOrder) (G : ℕ → List (Index × α)) (md : ℕ)
    (hmaj : ∀ r, r < md → ∀ e ∈ G r, e.1.major S = r) (i : ℕ) (hi : i ≤ md) :
    countLt S ((List.range md).flatMap G) i = ((List.range i).flatMap G).length := by
  unfold countLt
  congr 1
  rw [List.filter_flatMap, range_split_at i md hi, List.flatMap_append]
  have h2 : (List.range' i (md - i)).flatMap
      (fun r => (G r).filter (fun e => decide (e.1.major S < i))) = [] := by
    rw [List.flatMap_eq_nil_iff]
    intro r hr
    rw [List.filter_eq_nil_iff]
    intro e he
    rw [List.mem_range'] at hr
    obtain ⟨t, _, hrt⟩ := hr
    have hm := hmaj r (by omega) e he
    simp only [decide_eq_true_eq]
    omega
  rw [h2, List.append_nil]
  apply List.flatMap_congr
  intro r hr
  rw [List.mem_range] at hr
  rw [List.filter_eq_self]
  intro e he
  have hm := hmaj r (by omega) e he
  rw [hm]
  simpa using hr

theorem countLt_flatMap_succ (S : StorageOrder) (G : ℕ → List (Index × α))
    (md : ℕ) (hmaj : ∀ r, r < md → ∀ e ∈ G r, e.1.major S = r) (i : ℕ)
    (hi : i < md) :
    countLt S ((List.range md).flatMap G) (i + 1) =
      countLt S ((List.range md).flatMap G) i + (G i).length := by
  rw [countLt_flatMap S G md hmaj i (by omega),
    countLt_flatMap S G md hmaj (i + 1) (by omega),
    List.range_succ, List.flatMap_append, List.length_append]
  simp

theorem flatMap_split (G : ℕ → List (Index × α)) (md i : ℕ) (hi : i < md) :
    (List.range md).flatMap G =
      ((List.range i).flatMap G ++ G i) ++
        (List.range' (i + 1) (md - (i + 1))).flatMap G := by
  rw [range_split_mid i md hi, List.flatMap_append, List.flatMap_cons,
    List.append_assoc]

theorem flatMap_getD_group (S : StorageOrder) (G : ℕ → List (Index × α))
    (md : ℕ) (hmaj : ∀ r, r < md → ∀ e ∈ G r, e.1.major S = r) (i : ℕ)
    (hi : i < md) (t : ℕ) (ht : t < (G i).length) (d : Index × α) :
    ((List.range md).flatMap G).getD
        (countLt S ((List.range md).flatMap G) i + t) d = (G i).get ⟨t, ht⟩ := by
  have hsplit := flatMap_split G md i hi
  have hA : ((List.range i).flatMap G).length =
      countLt S ((List.range md).flatMap G) i :=
    (countLt_flatMap S G md hmaj i (by omega)).symm
  have hlen : countLt S ((List.range md).flatMap G) i + t <
      ((List.range md).flatMap G).length := by
    have hL : ((List.range md).flatMap G).length =
        (((List.range i).flatMap G).length + (G i).length) +
          ((List.range' (i + 1) (md - (i + 1))).flatMap G).length := by
      conv_lhs => rw [hsplit]
      rw [List.length_append, List.length_append]
    rw [← hA]
    omega
  rw [List.getD_eq_getElem _ _ hlen, List.getElem_of_eq hsplit]
  rw [List.getElem_append_left (by rw [List.length_append, hA]; omega)]
  rw [List.getElem_append_right (by rw [hA]; omega)]
  congr 1
  rw [hA]
  omega

theorem offEntries_eq_flatMap (S : StorageOrder) (rows cols : ℕ) (f : UMap α) :
    offEntries S rows cols f =
      (List.range (majorDim S rows cols)).flatMap (offGroup S rows cols f) := by
  unfold offEntries offGroup
  rw [entries_eq_flatMap, List.filter_flatMap]

theorem offGroup_major (S : StorageOrder) (rows cols : ℕ) (f : UMap α) :
    ∀ r, r < majorDim S rows cols → ∀ e ∈ offGroup S rows cols f r,
      e.1.major S = r := by
  intro r _ e he
  unfold offGroup at he
  rw [List.mem_filter] at he
  exact ((mem_entryGroup S rows cols f r e).mp he.1).1

theorem SquareMatrix.get_unmod (S : StorageOrder) (m : SquareMatrix α)
    (hmod : m.modified = false) (r c : ℕ) (hr : r < m.rows) (hcc : c < m.cols) :
    m.get S r c = m.toMatrix.get S r c := by
  unfold SquareMatrix.get
  rw [if_neg (by omega), hmod]
  rfl

theorem SquareMatrix.getVal_unmod_uncompressed (S : StorageOrder)
    (m : SquareMatrix α) (hmod : m.modified = false) (hc : m.compressed = false)
    (r c : ℕ) (hr : r < m.rows) (hcc : c < m.cols) :
    m.getVal S r c = (m.uncompressed_format ⟨r, c⟩).getD 0 := by
  unfold SquareMatrix.getVal
  rw [SquareMatrix.get_unmod S m hmod r c hr hcc,
    Matrix.get_uncompressed S m.toMatrix r c hr hcc hc]

theorem filterMap_delta {δ : Type} (N i : ℕ) (hi : i < N) (g : ℕ → Option δ)
    (hg : ∀ j, j ≠ i → g j = none) :
    (List.range N).filterMap g = (g i).toList := by
  rw [range_split_mid i N hi, List.filterMap_append, List.filterMap_cons]
  have hpre : (List.range i).filterMap g = [] :=
    List.filterMap_eq_nil_iff.mpr (fun j hj =>
      hg j (by rw [List.mem_range] at hj; omega))
  have hsuf : (List.range' (i + 1) (N - (i + 1))).filterMap g = [] :=
    List.filterMap_eq_nil_iff.mpr (fun j hj => hg j (by
      rw [List.mem_range'] at hj
      obtain ⟨t, _, hjt⟩ := hj
      omega))
  rw [hpre, hsuf]
  cases g i <;> simp

theorem entryGroup_filter_diag (S : StorageOrder) (N : ℕ) (f : UMap α)
    (i : ℕ) (hi : i < N) :
    (entryGroup S N N f i).filter (fun e => decide (e.1.col = e.1.row)) =
      ((f ⟨i, i⟩).map (fun v => ((⟨i, i⟩ : Index), v))).toList := by
  unfold entryGroup
  rw [List.filter_filterMap]
  have hnd : minorDim S N N = N := by cases S <;> rfl
  rw [hnd]
  rw [filterMap_delta N i hi _ ?hg]
  · have hmk : Index.make S i i = (⟨i, i⟩ : Index) := by cases S <;> rfl
    rw [hmk]
    cases f ⟨i, i⟩ <;> simp [Option.filter]
  case hg =>
    intro j hj
    cases S with
    | RowMajor =>
      cases hf : f (Index.make .RowMajor i j) with
      | none => simp [hf]
      | some v => simp [hf, Option.filter, Index.make, hj]
    | ColumnMajor =>
      cases hf : f (Index.make .ColumnMajor i j) with
      | none => simp [hf]
      | some v =>
        simp [hf, Option.filter, Index.make, show i ≠ j from fun h => hj h.symm]

theorem diag_filter_entries (S : StorageOrder) (N : ℕ) (f : UMap α) :
    (entries S N N f).filter (fun e => decide (e.1.col = e.1.row)) =
      (List.range N).flatMap (fun i =>
        ((f ⟨i, i⟩).map (fun v => ((⟨i, i⟩ : Index), v))).toList) := by
  rw [entries_eq_flatMap, List.filter_flatMap]
  have hmd : majorDim S N N = N := by cases S <;> rfl
  rw [hmd]
  apply List.flatMap_congr
  intro i hi
  rw [List.mem_range] at hi
  exact entryGroup_filter_diag S N f i hi

theorem diag_length (S : StorageOrder) (N : ℕ) (f : UMap α) :
    ((entries S N N f).filter (fun e => decide (e.1.col = e.1.row))).length =
      ∑ i ∈ Finset.range N, (if (f ⟨i, i⟩).isSome then 1 else 0) := by
  rw [diag_filter_entries, List.length_flatMap, list_range_map_sum]
  refine Finset.sum_congr rfl ?_
  intro i _
  cases hf : f ⟨i, i⟩ <;> simp [hf]

theorem length_filter_range (N : ℕ) (p : ℕ → Bool) :
    ((List.range N).filter p).length =
      ∑ i ∈ Finset.range N, if p i then 1 else 0 := by
  induction N with
  | zero => rfl
  | succ n ih =>
    rw [List.range_succ, List.filter_append, List.length_append, ih,
      Finset.sum_range_succ]
    by_cases hp : p n <;> simp [hp]

theorem length_filter_partition {γ : Type} (l : List γ) (p : γ → Bool) :
    (l.filter p).length + (l.filter (fun a => ! p a)).length = l.length := by
  induction l with
  | nil => rfl
  | cons a l ih =>
    rw [List.filter_cons, List.filter_cons]
    by_cases hp : p a
    · rw [if_pos hp, if_neg (by simp [hp]), List.length_cons, List.length_cons]
      omega
    · rw [if_neg hp, if_pos (by simp [hp]), List.length_cons, List.length_cons]
      omega

/-- Exact size arithmetic behind `get_mod_size` on a zero-free square store:
zero-diagonal slots plus entry count equals `N` plus the off-diagonal
count. -/
theorem mod_size_core (S : StorageOrder) (N : ℕ) (f : UMap α) (hzf : MapZF f) :
    ((List.range N).filter (fun i => decide ((f ⟨i, i⟩).getD 0 = 0))).length +
      (entries S N N f).length = N + (offEntries S N N f).length := by
  have hpart := length_filter_partition (entries S N N f)
    (fun e => decide (e.1.col = e.1.row))
  have hoffs : (entries S N N f).filter
      (fun e => ! decide (e.1.col = e.1.row)) = offEntries S N N f := by
    unfold offEntries
    exact List.filter_congr (fun e _ => (decide_not).symm)
  rw [hoffs] at hpart
  have hdiag := diag_length S N f
  have hzc : ((List.range N).filter
      (fun i => decide ((f ⟨i, i⟩).getD 0 = 0))).length =
      ∑ i ∈ Finset.range N,
        if decide ((f ⟨i, i⟩).getD 0 = 0) = true then 1 else 0 :=
    length_filter_range N _
  have hsum : ((∑ i ∈ Finset.range N,
      if decide ((f ⟨i, i⟩).getD 0 = 0) = true then 1 else 0) : ℕ) +
      (∑ i ∈ Finset.range N, if (f ⟨i, i⟩).isSome then 1 else 0) = N := by
    rw [← Finset.sum_add_distrib]
    have hpt : ∀ i ∈ Finset.range N,
        ((if decide ((f ⟨i, i⟩).getD 0 = 0) = true then 1 else 0) : ℕ) +
          (if (f ⟨i, i⟩).isSome then 1 else 0) = 1 := by
      intro i _
      cases hf : f ⟨i, i⟩ with
      | none => simp [hf]
      | some v =>
        have hv := hzf ⟨i, i⟩ v hf
        simp [hf, hv]
    rw [Finset.sum_congr rfl hpt, Finset.sum_const, Finset.card_range,
      smul_eq_mul, mul_one]
  rw [hzc]
  omega

/-- `SquareMatrix::get_mod_size` on an unmodified uncompressed zero-free
square store: the reserved diagonal prefix plus the off-diagonal entries. -/
theorem get_mod_size_uncompressed (S : StorageOrder) (m : SquareMatrix α)
    (hmod : m.modified = false) (hc : m.compressed = false)
    (hsq : m.rows = m.cols) (hzf : MapZF m.uncompressed_format) :
    m.get_mod_size S =
      m.rows + (offEntries S m.rows m.cols m.uncompressed_format).length := by
  unfold SquareMatrix.get_mod_size SquareMatrix.get_nnz
  rw [hmod, if_neg (by simp)]
  unfold Matrix.get_nnz
  rw [hc, if_neg (by simp)]
  have hgv : ∀ i ∈ List.range m.rows,
      decide (m.getVal S i i = 0) =
        decide ((m.uncompressed_format ⟨i, i⟩).getD 0 = 0) := by
    intro i hi
    rw [List.mem_range] at hi
    rw [SquareMatrix.getVal_unmod_uncompressed S m hmod hc i i hi (by omega)]
  rw [List.filter_congr hgv]
  rw [show m.cols = m.rows from hsq.symm]
  exact mod_size_core S m.rows m.uncompressed_format hzf

theorem getD_set_ne {δ : Type} (l : List δ) (i q : ℕ) (a d : δ) (h : i ≠ q) :
    (l.set i a).getD q d = l.getD q d := by
  by_cases hq : q < l.length
  · rw [List.getD_eq_getElem _ _ (by rw [List.length_set]; omega),
      List.getElem_set_ne h, List.getD_eq_getElem _ _ hq]
  · rw [List.getD_eq_default _ _ (by rw [List.length_set]; omega),
      List.getD_eq_default _ _ (by omega)]

theorem getD_set_self {δ : Type} (l : List δ) (i : ℕ) (a d : δ)
    (h : i < l.length) : (l.set i a).getD i d = a := by
  rw [List.getD_eq_getElem _ _ (by rw [List.length_set]; omega),
    List.getElem_set_self]

theorem getD_append_offset {δ : Type} (A B : List δ) (t : ℕ) (d : δ) :
    (A ++ B).getD (A.length + t) d = B.getD t d := by
  rw [List.getD_append_right A B d (A.length + t) (by omega)]
  congr 1
  omega

theorem not_mem_keys_of_append (p rest : List (Index × α)) (e : Index × α)
    (hnd : ((p ++ e :: rest).map Prod.fst).Nodup) : e.1 ∉ p.map Prod.fst := by
  rw [List.map_append] at hnd
  rcases List.nodup_append.mp hnd with ⟨_, _, hdisj⟩
  intro hmem
  exact hdisj hmem (by rw [List.map_cons]; exact List.mem_cons_self _ _)

/-- Invariant preservation for the entry walk of `compress_mod` on an
uncompressed square source. -/
theorem modfold_inv (S : StorageOrder) (rows cols : ℕ) (hsq : rows = cols)
    (f : UMap α) :
    ∀ (rest p : List (Index × α)) (acc : ModAcc α),
      p ++ rest = entries S rows cols f →
      ModInv S rows (offEntries S rows cols f).length p acc →
      ModInv S rows (offEntries S rows cols f).length (p ++ rest)
        (rest.foldl (fun acc e =>
          if e.1.col = e.1.row then
            { acc with values := acc.values.set e.1.row e.2 }
          else
            ⟨acc.values.set (rows + acc.off) e.2,
             (if e.1.major S < rows - 1 then
               ((acc.bind.set (rows + acc.off) (e.1.minor S)).set
                 (e.1.major S + 1)
                 ((acc.bind.set (rows + acc.off) (e.1.minor S)).getD
                   (e.1.major S + 1) 0 + 1))
              else acc.bind.set (rows + acc.off) (e.1.minor S)),
             acc.off + 1⟩) acc) := by
  intro rest
  induction rest with
  | nil =>
    intro p acc hs hinv
    rw [List.append_nil]
    exact hinv
  | cons e rest ih =>
    intro p acc hs hinv
    rw [List.foldl_cons]
    have hnd := entries_keys_nodup S rows cols f
    rw [← hs] at hnd
    have hkey := not_mem_keys_of_append p rest e hnd
    have hmem : e ∈ entries S rows cols f := by
      rw [← hs]
      exact List.mem_append_right p (List.mem_cons_self e rest)
    obtain ⟨her, hec, hfe⟩ := (mem_entries S rows cols f e).mp hmem
    have hrows1 : 1 ≤ rows := by omega
    have hmaj_lt : e.1.major S < rows := by
      cases S
      · exact her
      · show e.1.col < rows
        omega
    have hoffsplit : offEntries S rows cols f =
        p.filter (fun e => decide (¬ e.1.col = e.1.row)) ++
          ((e :: rest).filter (fun e => decide (¬ e.1.col = e.1.row))) := by
      unfold offEntries
      rw [← hs, List.filter_append]
    obtain ⟨hL1, hL2, hO, hV1, hV2, hB2, hB1, hB0⟩ := hinv
    have hstep : ModInv S rows (offEntries S rows cols f).length (p ++ [e])
        (if e.1.col = e.1.row then
          { acc with values := acc.values.set e.1.row e.2 }
        else
          ⟨acc.values.set (rows + acc.off) e.2,
           (if e.1.major S < rows - 1 then
             ((acc.bind.set (rows + acc.off) (e.1.minor S)).set
               (e.1.major S + 1)
               ((acc.bind.set (rows + acc.off) (e.1.minor S)).getD
                 (e.1.major S + 1) 0 + 1))
            else acc.bind.set (rows + acc.off) (e.1.minor S)),
           acc.off + 1⟩) := by
      by_cases hd : e.1.col = e.1.row
      · rw [if_pos hd]
        have hfiltd : (p ++ [e]).filter
            (fun e => decide (¬ e.1.col = e.1.row)) =
            p.filter (fun e => decide (¬ e.1.col = e.1.row)) := by
          rw [List.filter_append]
          simp [hd]
        have hkne : ∀ q : ℕ, e.1.row ≠ q → e.1 ≠ (⟨q, q⟩ : Index) := by
          intro q hq hEq
          exact hq (by rw [hEq])
        refine ⟨?_, ?_, ?_, ?_, ?_, ?_, ?_, ?_⟩
        · show (acc.values.set e.1.row e.2).length = _
          rw [List.length_set]
          exact hL1
        · exact hL2
        · show acc.off = _
          rw [hfiltd]
          exact hO
        · intro q hq
          show (acc.values.set e.1.row e.2).getD q 0 = _
          rw [List.find?_append]
          by_cases hrq : e.1.row = q
          · have hkeyq : e.1 = (⟨q, q⟩ : Index) := by
              have h1 : e.1.col = q := hd.trans hrq
              calc e.1 = ⟨e.1.row, e.1.col⟩ := rfl
                _ = ⟨q, q⟩ := by rw [hrq, h1]
            have hfp : p.find? (fun x => x.1 == (⟨q, q⟩ : Index)) = none := by
              rw [List.find?_eq_none]
              intro x hx
              simp only [beq_iff_eq]
              intro hxk
              exact hkey (by
                rw [← hkeyq] at hxk
                rw [← hxk]
                exact List.mem_map_of_mem Prod.fst hx)
            rw [hfp,
              show List.find? (fun x => x.1 == (⟨q, q⟩ : Index)) [e] =
                some e from by
                  rw [List.find?_cons,
                    show (e.1 == (⟨q, q⟩ : Index)) = true from by
                      simp [hkeyq]],
              hrq, getD_set_self acc.values q e.2 0 (by rw [hL1]; omega)]
            rfl
          · rw [getD_set_ne acc.values e.1.row q e.2 0 hrq,
              show List.find? (fun x => x.1 == (⟨q, q⟩ : Index)) [e] =
                none from by
                  rw [List.find?_cons,
                    show (e.1 == (⟨q, q⟩ : Index)) = false from by
                      simp [hkne q hrq]]
                  rfl]
            rw [Option.or_none]
            exact hV1 q hq
        · intro t
          show (acc.values.set e.1.row e.2).getD (rows + t) 0 = _
          rw [getD_set_ne acc.values e.1.row (rows + t) e.2 0 (by omega),
            hfiltd]
          exact hV2 t
        · intro t
          rw [hfiltd]
          exact hB2 t
        · intro q h1 h2
          rw [hfiltd]
          exact hB1 q h1 h2
        · exact hB0
      · rw [if_neg hd]
        have hoffe : (fun e : Index × α =>
            decide (¬ e.1.col = e.1.row)) e = true := by simp [hd]
        have hfilto : (p ++ [e]).filter
            (fun e => decide (¬ e.1.col = e.1.row)) =
            p.filter (fun e => decide (¬ e.1.col = e.1.row)) ++ [e] := by
          rw [List.filter_append]
          congr 1
          rw [List.filter_cons, if_pos hoffe]
          rfl
        have hnoff : (offEntries S rows cols f).length =
            (p.filter (fun e => decide (¬ e.1.col = e.1.row))).length + 1 +
              (rest.filter (fun e => decide (¬ e.1.col = e.1.row))).length := by
          rw [hoffsplit, List.length_append, List.filter_cons, if_pos hoffe,
            List.length_cons]
          omega
        have hlt : acc.off <  (offEntries S rows cols f).length := by
          rw [hO]
          omega
        have hkne : ∀ q : ℕ, e.1 ≠ (⟨q, q⟩ : Index) := by
          intro q hEq
          exact hd (by rw [hEq])
        refine ⟨?_, ?_, ?_, ?_, ?_, ?_, ?_, ?_⟩
        · show (acc.values.set (rows + acc.off) e.2).length = _
          rw [List.length_set]
          exact hL1
        · show (if e.1.major S < rows - 1 then _ else _ : List ℕ).length = _
          split_ifs <;> simp only [List.length_set] <;> exact hL2
        · show acc.off + 1 = _
          rw [hfilto, List.length_append, hO]
          rfl
        · intro q hq
          show (acc.values.set (rows + acc.off) e.2).getD q 0 = _
          rw [getD_set_ne acc.values (rows + acc.off) q e.2 0 (by omega),
            List.find?_append,
            show List.find? (fun x => x.1 == (⟨q, q⟩ : Index)) [e] =
              none from by
                rw [List.find?_cons,
                  show (e.1 == (⟨q, q⟩ : Index)) = false from by
                    simp [hkne q]]
                rfl,
            Option.or_none]
          exact hV1 q hq
        · intro t
          show (acc.values.set (rows + acc.off) e.2).getD (rows + t) 0 = _
          rw [hfilto, List.map_append,
            show List.map Prod.snd [e] = [e.2] from rfl]
          rcases Nat.lt_trichotomy t acc.off with ht | ht | ht
          · rw [getD_set_ne acc.values (rows + acc.off) (rows + t) e.2 0
              (by omega),
              List.getD_append _ _ _ _ (by rw [List.length_map, ← hO]; omega)]
            exact hV2 t
          · rw [ht, getD_set_self acc.values (rows + acc.off) e.2 0
              (by rw [hL1]; omega)]
            have hlen : (List.map Prod.snd (p.filter
                (fun e => decide (¬ e.1.col = e.1.row)))).length = acc.off := by
              rw [List.length_map, hO]
            rw [List.getD_append_right _ _ _ _ (le_of_eq hlen), hlen,
              Nat.sub_self]
            rfl
          · rw [getD_set_ne acc.values (rows + acc.off) (rows + t) e.2 0
              (by omega)]
            have hle1 : (List.map Prod.snd (p.filter
                (fun e => decide (¬ e.1.col = e.1.row))) ++ [e.2]).length ≤
                t := by
              rw [List.length_append, List.length_map, ← hO]
              show acc.off + 1 ≤ t
              omega
            have hle2 : (List.map Prod.snd (p.filter
                (fun e => decide (¬ e.1.col = e.1.row)))).length ≤ t := by
              rw [List.length_map, ← hO]
              omega
            rw [List.getD_eq_default _ _ hle1, hV2 t,
              List.getD_eq_default _ _ hle2]
        · intro t
          show (if e.1.major S < rows - 1 then _ else _ : List ℕ).getD
            (rows + t) 0 = _
          rw [hfilto, List.map_append,
            show List.map (fun e : Index × α => e.1.minor S) [e] =
              [e.1.minor S] from rfl]
          have hcore : (acc.bind.set (rows + acc.off) (e.1.minor S)).getD
              (rows + t) 0 =
              (List.map (fun e => e.1.minor S) (p.filter
                (fun e => decide (¬ e.1.col = e.1.row))) ++
                [e.1.minor S]).getD t 0 := by
            rcases Nat.lt_trichotomy t acc.off with ht | ht | ht
            · rw [getD_set_ne acc.bind (rows + acc.off) (rows + t)
                (e.1.minor S) 0 (by omega),
                List.getD_append _ _ _ _
                  (by rw [List.length_map, ← hO]; omega)]
              exact hB2 t
            · rw [ht, getD_set_self acc.bind (rows + acc.off) (e.1.minor S) 0
                (by rw [hL2]; omega)]
              have hlen : (List.map (fun e => e.1.minor S) (p.filter
                  (fun e => decide (¬ e.1.col = e.1.row)))).length =
                  acc.off := by
                rw [List.length_map, hO]
              rw [List.getD_append_right _ _ _ _ (le_of_eq hlen), hlen,
                Nat.sub_self]
              rfl
            · rw [getD_set_ne acc.bind (rows + acc.off) (rows + t)
                (e.1.minor S) 0 (by omega)]
              have hle1 : (List.map (fun e => e.1.minor S) (p.filter
                  (fun e => decide (¬ e.1.col = e.1.row))) ++
                  [e.1.minor S]).length ≤ t := by
                rw [List.length_append, List.length_map, ← hO]
                show acc.off + 1 ≤ t
                omega
              have hle2 : (List.map (fun e : Index × α => e.1.minor S)
                  (p.filter (fun e => decide (¬ e.1.col = e.1.row)))).length ≤
                  t := by
                rw [List.length_map, ← hO]
                omega
              rw [List.getD_eq_default _ _ hle1, hB2 t,
                List.getD_eq_default _ _ hle2]
          split_ifs with hg
          · rw [getD_set_ne _ (e.1.major S + 1) (rows + t) _ 0 (by omega)]
            exact hcore
          · exact hcore
        · intro q h1 h2
          show (if e.1.major S < rows - 1 then _ else _ : List ℕ).getD q 0 = _
          rw [hfilto, List.filter_append]
          split_ifs with hg
          · by_cases hq : q = e.1.major S + 1
            · rw [hq, getD_set_self _ (e.1.major S + 1) _ 0
                (by rw [List.length_set, hL2]; omega),
                getD_set_ne acc.bind (rows + acc.off) (e.1.major S + 1) _ 0
                  (by omega),
                hB1 (e.1.major S + 1) (by omega) (by omega)]
              rw [show List.filter (fun x => decide (x.1.major S =
                  e.1.major S + 1 - 1)) [e] = [e] from by
                    rw [List.filter_cons,
                      if_pos (by simp)]
                    rfl,
                List.length_append, List.length_cons, List.length_nil]
            · rw [getD_set_ne _ (e.1.major S + 1) q _ 0 (fun h => hq h.symm),
                getD_set_ne acc.bind (rows + acc.off) q _ 0 (by omega),
                hB1 q h1 h2,
                show List.filter (fun x => decide (x.1.major S = q - 1))
                  [e] = [] from by
                    rw [List.filter_cons,
                      if_neg (by simp only [decide_eq_true_eq]; omega)]
                    rfl,
                List.append_nil]
          · rw [getD_set_ne acc.bind (rows + acc.off) q _ 0 (by omega),
              hB1 q h1 h2,
              show List.filter (fun x => decide (x.1.major S = q - 1))
                [e] = [] from by
                  rw [List.filter_cons,
                    if_neg (by simp only [decide_eq_true_eq]; omega)]
                  rfl,
              List.append_nil]
        · show (if e.1.major S < rows - 1 then _ else _ : List ℕ).getD 0 0 = 0
          split_ifs with hg
          · rw [getD_set_ne _ (e.1.major S + 1) 0 _ 0 (by omega),
              getD_set_ne acc.bind (rows + acc.off) 0 _ 0 (by omega)]
            exact hB0
          · rw [getD_set_ne acc.bind (rows + acc.off) 0 _ 0 (by omega)]
            exact hB0
    have hres := ih (p ++ [e]) _ (by rw [List.append_assoc]; simpa using hs)
      hstep
    rw [List.append_assoc] at hres
    simpa using hres

theorem countLt_zero (S : StorageOrder) (l : List (Index × α)) :
    countLt S l 0 = 0 := by
  unfold countLt
  rw [List.filter_eq_nil_iff.mpr (fun e _ => by simp)]
  rfl

theorem countLt_succ_gen (S : StorageOrder) (l : List (Index × α)) (q : ℕ) :
    countLt S l (q + 1) =
      countLt S l q +
        (l.filter (fun e => decide (e.1.major S = q))).length := by
  induction l with
  | nil => rfl
  | cons e l ih =>
    unfold countLt at ih ⊢
    rw [List.filter_cons, List.filter_cons, List.filter_cons]
    by_cases h1 : e.1.major S < q
    · rw [if_pos (by simp; omega), if_pos (by simp; omega),
        if_neg (by simp; omega), List.length_cons, List.length_cons]
      omega
    · by_cases h2 : e.1.major S = q
      · rw [if_pos (by simp; omega), if_neg (by simp; omega),
          if_pos (by simp [h2]), List.length_cons, List.length_cons]
        omega
      · rw [if_neg (by simp; omega), if_neg (by simp; omega),
          if_neg (by simp [h2])]
        exact ih

theorem getD_replicate {δ : Type} (n q : ℕ) (d : δ) :
    (List.replicate n d).getD q d = d := by
  by_cases hq : q < n
  · rw [List.getD_eq_getElem _ _ (by rw [List.length_replicate]; omega),
      List.getElem_replicate]
  · rw [List.getD_eq_default _ _ (by rw [List.length_replicate]; omega)]

/-- Invariant preservation for the pointer-accumulation pass of
`compress_mod`. -/
theorem msr_pass_inv (S : StorageOrder) (rows : ℕ) (os : List (Index × α))
    (minors : List ℕ) :
    ∀ (k j : ℕ) (b : List ℕ), j + k ≤ rows - 1 →
      MsrPassInv S rows os minors j b →
      MsrPassInv S rows os minors (j + k)
        ((List.range' (j + 1) k).foldl (fun b i =>
          (b.set i (b.getD i 0 + b.getD (i - 1) 0)).set (i - 1)
            ((b.set i (b.getD i 0 + b.getD (i - 1) 0)).getD (i - 1) 0 + rows))
          b) := by
  intro k
  induction k with
  | zero =>
    intro j b _ h
    simpa using h
  | succ k ih =>
    intro j b hjk hinv
    rw [List.range'_succ, List.foldl_cons]
    obtain ⟨hLen, hDone, hCur, hRaw, hHi⟩ := hinv
    have hjrows : j + 1 < rows := by omega
    have hstep : MsrPassInv S rows os minors (j + 1)
        ((b.set (j + 1) (b.getD (j + 1) 0 + b.getD (j + 1 - 1) 0)).set
          (j + 1 - 1)
          ((b.set (j + 1) (b.getD (j + 1) 0 + b.getD (j + 1 - 1) 0)).getD
            (j + 1 - 1) 0 + rows)) := by
      simp only [Nat.add_sub_cancel]
      have hga : b.getD (j + 1) 0 =
          (os.filter (fun e => decide (e.1.major S = j))).length := by
        have h := hRaw (j + 1) (by omega) (by omega)
        rw [Nat.add_sub_cancel] at h
        exact h
      have hinner : (b.set (j + 1) (b.getD (j + 1) 0 + b.getD j 0)).getD
          j 0 = countLt S os j := by
        rw [getD_set_ne b (j + 1) j _ 0 (by omega)]
        exact hCur
      refine ⟨?_, ?_, ?_, ?_, ?_⟩
      · rw [List.length_set, List.length_set]
        exact hLen
      · intro q hq
        by_cases hqj : q = j
        · rw [hqj, getD_set_self _ j _ 0
            (by rw [List.length_set, hLen]; omega), hinner]
          omega
        · rw [getD_set_ne _ j q _ 0 (fun h => hqj h.symm),
            getD_set_ne b (j + 1) q _ 0 (by omega)]
          exact hDone q (by omega)
      · rw [getD_set_ne _ j (j + 1) _ 0 (by omega),
          getD_set_self b (j + 1) _ 0 (by rw [hLen]; omega), hga, hCur,
          countLt_succ_gen S os j]
        omega
      · intro q hq1 hq2
        rw [getD_set_ne _ j q _ 0 (by omega),
          getD_set_ne b (j + 1) q _ 0 (by omega)]
        exact hRaw q (by omega) hq2
      · intro t
        rw [getD_set_ne _ j (rows + t) _ 0 (by omega),
          getD_set_ne b (j + 1) (rows + t) _ 0 (by omega)]
        exact hHi t
    have hres := ih (j + 1) _ (by omega) hstep
    rw [show j + 1 + k = j + (k + 1) from by omega] at hres
    exact hres

theorem ext_getD {δ : Type} (A B : List δ) (d : δ) (hlen : A.length = B.length)
    (h : ∀ n, n < A.length → A.getD n d = B.getD n d) : A = B := by
  refine List.ext_getElem hlen ?_
  intro n h1 h2
  have hn := h n h1
  rw [List.getD_eq_getElem _ _ h1, List.getD_eq_getElem _ _ h2] at hn
  exact hn

/-- Specification of `SquareMatrix::compress_mod` on an unmodified,
uncompressed, well-formed, zero-free square store: the result is in modified
state, the store is cleared, `values` is the reserved diagonal prefix
followed by the off-diagonal values in traversal order, and `bind` is the
per-slice pointer prefix followed by the off-diagonal minors. -/
theorem compress_mod_spec (S : StorageOrder) (m : SquareMatrix α)
    (hmod : m.modified = false) (hc : m.compressed = false)
    (hsq : m.rows = m.cols)
    (hwf : MapWF m.rows m.cols m.uncompressed_format)
    (hzf : MapZF m.uncompressed_format) (hN : 1 ≤ m.rows) :
    (m.compress_mod S).rows = m.rows ∧
    (m.compress_mod S).cols = m.cols ∧
    (m.compress_mod S).compressed = false ∧
    (m.compress_mod S).modified = true ∧
    (m.compress_mod S).uncompressed_format = UMap.empty ∧
    (m.compress_mod S).compressed_format_mod.values =
      (List.range m.rows).map
        (fun i => (m.uncompressed_format ⟨i, i⟩).getD 0) ++
        (offEntries S m.rows m.cols m.uncompressed_format).map Prod.snd ∧
    (m.compress_mod S).compressed_format_mod.bind =
      (List.range m.rows).map (fun i =>
        m.rows + countLt S (offEntries S m.rows m.cols m.uncompressed_format) i)
        ++ (offEntries S m.rows m.cols m.uncompressed_format).map
          (fun e => e.1.minor S) := by
  have hsz := get_mod_size_uncompressed S m hmod hc hsq hzf
  have hbase : ModInv S m.rows
      (offEntries S m.rows m.cols m.uncompressed_format).length []
      (⟨List.replicate (m.get_mod_size S) 0,
        List.replicate (m.get_mod_size S) 0, 0⟩ : ModAcc α) := by
    unfold ModInv
    refine ⟨?_, ?_, rfl, ?_, ?_, ?_, ?_, ?_⟩
    · show (List.replicate (m.get_mod_size S) (0 : α)).length = _
      rw [List.length_replicate, hsz]
    · show (List.replicate (m.get_mod_size S) (0 : ℕ)).length = _
      rw [List.length_replicate, hsz]
    · intro q _
      show (List.replicate (m.get_mod_size S) (0 : α)).getD q 0 = _
      rw [getD_replicate]
      rfl
    · intro t
      show (List.replicate (m.get_mod_size S) (0 : α)).getD (m.rows + t) 0 = _
      rw [getD_replicate]
      rfl
    · intro t
      show (List.replicate (m.get_mod_size S) (0 : ℕ)).getD (m.rows + t) 0 = _
      rw [getD_replicate]
      rfl
    · intro q _ _
      show (List.replicate (m.get_mod_size S) (0 : ℕ)).getD q 0 = _
      rw [getD_replicate]
      rfl
    · show (List.replicate (m.get_mod_size S) (0 : ℕ)).getD 0 0 = 0
      rw [getD_replicate]
  have hfold := modfold_inv S m.rows m.cols hsq m.uncompressed_format
    (entries S m.rows m.cols m.uncompressed_format) []
    (⟨List.replicate (m.get_mod_size S) 0,
      List.replicate (m.get_mod_size S) 0, 0⟩ : ModAcc α)
    (List.nil_append _) hbase
  rw [List.nil_append] at hfold
  obtain ⟨hL1, hL2, hO, hV1, hV2, hB2, hB1, hB0⟩ := hfold
  have hdval : ∀ q, q < m.rows →
      (match (entries S m.rows m.cols m.uncompressed_format).find?
        (fun x => x.1 == (⟨q, q⟩ : Index)) with
       | some x => x.2
       | none => (0 : α)) = (m.uncompressed_format ⟨q, q⟩).getD 0 := by
    intro q hq
    have h := entries_find?_eq S m.rows m.cols m.uncompressed_format hwf
      (⟨q, q⟩ : Index)
    cases hfind : (entries S m.rows m.cols m.uncompressed_format).find?
        (fun x => x.1 == (⟨q, q⟩ : Index)) with
    | some x =>
      rw [hfind] at h
      rw [← h]
      rfl
    | none =>
      rw [hfind] at h
      rw [← h]
      rfl
  have hpass0 : MsrPassInv S m.rows
      (offEntries S m.rows m.cols m.uncompressed_format)
      ((offEntries S m.rows m.cols m.uncompressed_format).map
        (fun e => e.1.minor S)) 0
      ((entries S m.rows m.cols m.uncompressed_format).foldl
        (fun (acc : ModAcc α) (e : Index × α) =>
          if e.1.col = e.1.row then
            { acc with values := acc.values.set e.1.row e.2 }
          else
            ⟨acc.values.set (m.rows + acc.off) e.2,
             (if e.1.major S < m.rows - 1 then
               ((acc.bind.set (m.rows + acc.off) (e.1.minor S)).set
                 (e.1.major S + 1)
                 ((acc.bind.set (m.rows + acc.off) (e.1.minor S)).getD
                   (e.1.major S + 1) 0 + 1))
              else acc.bind.set (m.rows + acc.off) (e.1.minor S)),
             acc.off + 1⟩)
        (⟨List.replicate (m.get_mod_size S) 0,
          List.replicate (m.get_mod_size S) 0, 0⟩ : ModAcc α)).bind := by
    refine ⟨hL2, ?_, ?_, ?_, hB2⟩
    · intro q hq
      omega
    · rw [countLt_zero]
      exact hB0
    · intro q hq1 hq2
      exact hB1 q (by omega) hq2
  have hpass := msr_pass_inv S m.rows
    (offEntries S m.rows m.cols m.uncompressed_format)
    ((offEntries S m.rows m.cols m.uncompressed_format).map
      (fun e => e.1.minor S)) (m.rows - 1) 0 _ (by omega) hpass0
  simp only [Nat.zero_add] at hpass
  obtain ⟨hpLen, hpDone, hpCur, _, hpHi⟩ := hpass
  have hform : m.compress_mod S =
      { m with
          toMatrix := { m.toMatrix with
            compressed := false,
            uncompressed_format := UMap.empty },
          modified := true,
          compressed_format_mod :=
            (let acc := (entries S m.rows m.cols m.uncompressed_format).foldl
                (fun (acc : ModAcc α) (e : Index × α) =>
                  if e.1.col = e.1.row then
                    { acc with values := acc.values.set e.1.row e.2 }
                  else
                    ⟨acc.values.set (m.rows + acc.off) e.2,
                     (if e.1.major S < m.rows - 1 then
                       ((acc.bind.set (m.rows + acc.off) (e.1.minor S)).set
                         (e.1.major S + 1)
                         ((acc.bind.set (m.rows + acc.off)
                           (e.1.minor S)).getD (e.1.major S + 1) 0 + 1))
                      else acc.bind.set (m.rows + acc.off) (e.1.minor S)),
                     acc.off + 1⟩)
                (⟨List.replicate (m.get_mod_size S) 0,
                  List.replicate (m.get_mod_size S) 0, 0⟩ : ModAcc α)
             let b := (List.range' 1 (m.rows - 1)).foldl
                (fun (b : List ℕ) (i : ℕ) =>
                  (b.set i (b.getD i 0 + b.getD (i - 1) 0)).set (i - 1)
                    ((b.set i (b.getD i 0 + b.getD (i - 1) 0)).getD
                      (i - 1) 0 + m.rows)) acc.bind
             ⟨acc.values,
              b.set (m.rows - 1) (b.getD (m.rows - 1) 0 + m.rows)⟩) } := by
    unfold SquareMatrix.compress_mod
    rw [hmod, hc]
    rfl
  rw [hform]
  refine ⟨rfl, rfl, rfl, rfl, rfl, ?_, ?_⟩
  · show ((entries S m.rows m.cols m.uncompressed_format).foldl
      (fun (acc : ModAcc α) (e : Index × α) =>
        if e.1.col = e.1.row then
          { acc with values := acc.values.set e.1.row e.2 }
        else
          ⟨acc.values.set (m.rows + acc.off) e.2,
           (if e.1.major S < m.rows - 1 then
             ((acc.bind.set (m.rows + acc.off) (e.1.minor S)).set
               (e.1.major S + 1)
               ((acc.bind.set (m.rows + acc.off) (e.1.minor S)).getD
                 (e.1.major S + 1) 0 + 1))
            else acc.bind.set (m.rows + acc.off) (e.1.minor S)),
           acc.off + 1⟩)
      (⟨List.replicate (m.get_mod_size S) 0,
        List.replicate (m.get_mod_size S) 0, 0⟩ : ModAcc α)).values = _
    refine ext_getD _ _ 0 ?_ ?_
    · rw [hL1, List.length_append, List.length_map, List.length_map,
        List.length_range]
    · intro n hn
      rw [hL1] at hn
      by_cases hnr : n < m.rows
      · rw [hV1 n hnr, hdval n hnr,
          List.getD_append _ _ _ _
            (by rw [List.length_map, List.length_range]; omega),
          List.getD_eq_getElem _ _
            (by rw [List.length_map, List.length_range]; omega),
          List.getElem_map, List.getElem_range]
      · have ht : n = m.rows + (n - m.rows) := by omega
        rw [ht, hV2 (n - m.rows)]
        have hAlen : ((List.range m.rows).map
            (fun i => (m.uncompressed_format ⟨i, i⟩).getD 0)).length =
            m.rows := by
          rw [List.length_map, List.length_range]
        rw [show m.rows + (n - m.rows) =
          ((List.range m.rows).map
            (fun i => (m.uncompressed_format ⟨i, i⟩).getD 0)).length +
            (n - m.rows) from by rw [hAlen],
          getD_append_offset]
        rfl
  · show (((List.range' 1 (m.rows - 1)).foldl
      (fun (b : List ℕ) (i : ℕ) =>
        (b.set i (b.getD i 0 + b.getD (i - 1) 0)).set (i - 1)
          ((b.set i (b.getD i 0 + b.getD (i - 1) 0)).getD (i - 1) 0 +
            m.rows))
      ((entries S m.rows m.cols m.uncompressed_format).foldl
        (fun (acc : ModAcc α) (e : Index × α) =>
          if e.1.col = e.1.row then
            { acc with values := acc.values.set e.1.row e.2 }
          else
            ⟨acc.values.set (m.rows + acc.off) e.2,
             (if e.1.major S < m.rows - 1 then
               ((acc.bind.set (m.rows + acc.off) (e.1.minor S)).set
                 (e.1.major S + 1)
                 ((acc.bind.set (m.rows + acc.off) (e.1.minor S)).getD
                   (e.1.major S + 1) 0 + 1))
              else acc.bind.set (m.rows + acc.off) (e.1.minor S)),
             acc.off + 1⟩)
        (⟨List.replicate (m.get_mod_size S) 0,
          List.replicate (m.get_mod_size S) 0,
          0⟩ : ModAcc α)).bind).set (m.rows - 1) _) = _
    refine ext_getD _ _ 0 ?_ ?_
    · rw [List.length_set, hpLen, List.length_append, List.length_map,
        List.length_map, List.length_range]
    · intro n hn
      rw [List.length_set, hpLen] at hn
      by_cases hnr : n < m.rows
      · have hrhs : ((List.range m.rows).map (fun i =>
            m.rows + countLt S
              (offEntries S m.rows m.cols m.uncompressed_format) i) ++
            (offEntries S m.rows m.cols m.uncompressed_format).map
              (fun e => e.1.minor S)).getD n 0 =
            m.rows + countLt S
              (offEntries S m.rows m.cols m.uncompressed_format) n := by
          rw [List.getD_append _ _ _ _
              (by rw [List.length_map, List.length_range]; omega),
            List.getD_eq_getElem _ _
              (by rw [List.length_map, List.length_range]; omega),
            List.getElem_map, List.getElem_range]
        rw [hrhs]
        by_cases hlast : n = m.rows - 1
        · rw [hlast, getD_set_self _ (m.rows - 1) _ 0 (by rw [hpLen]; omega),
            hpCur]
          omega
        · rw [getD_set_ne _ (m.rows - 1) n _ 0 (fun h => hlast h.symm)]
          exact hpDone n (by omega)
      · have ht : n = m.rows + (n - m.rows) := by omega
        rw [ht, getD_set_ne _ (m.rows - 1) (m.rows + (n - m.rows)) _ 0
          (by omega), hpHi (n - m.rows)]
        have hAlen : ((List.range m.rows).map (fun i =>
            m.rows + countLt S
              (offEntries S m.rows m.cols m.uncompressed_format) i)).length =
            m.rows := by
          rw [List.length_map, List.length_range]
        rw [show m.rows + (n - m.rows) =
          ((List.range m.rows).map (fun i =>
            m.rows + countLt S
              (offEntries S m.rows m.cols m.uncompressed_format) i)).length +
            (n - m.rows) from by rw [hAlen],
          getD_append_offset]

theorem countLt_le (S : StorageOrder) (l : List (Index × α)) (q : ℕ) :
    countLt S l q ≤ l.length := by
  unfold countLt
  exact List.length_filter_le _ _

theorem find?_filter_of_pred {γ : Type} (l : List γ) (p q : γ → Bool)
    (h : ∀ a ∈ l, q a = true → p a = true) :
    (l.filter p).find? q = l.find? q := by
  induction l with
  | nil => rfl
  | cons a l ih =>
    rw [List.filter_cons]
    by_cases hp : p a
    · rw [if_pos hp, List.find?_cons, List.find?_cons]
      cases hq : q a
      · exact ih (fun x hx => h x (List.mem_cons_of_mem a hx))
      · rfl
    · rw [if_neg hp, List.find?_cons]
      have hq : q a = false := by
        cases hqa : q a
        · rfl
        · exact absurd (h a (List.mem_cons_self a l) hqa) hp
      rw [hq]
      exact ih (fun x hx => h x (List.mem_cons_of_mem a hx))

theorem offGroup_major_rows (S : StorageOrder) (rows cols : ℕ)
    (hmd : majorDim S rows cols = rows) (f : UMap α) :
    ∀ r, r < rows → ∀ e ∈ offGroup S rows cols f r, e.1.major S = r := by
  intro r hr e he
  exact offGroup_major S rows cols f r (by rw [hmd]; exact hr) e he

theorem offEntries_flatMap_rows (S : StorageOrder) (rows cols : ℕ)
    (hmd : majorDim S rows cols = rows) (f : UMap α) :
    offEntries S rows cols f =
      (List.range rows).flatMap (offGroup S rows cols f) := by
  rw [offEntries_eq_flatMap, hmd]

theorem countLt_off_bound (S : StorageOrder) (rows cols : ℕ)
    (hmd : majorDim S rows cols = rows) (f : UMap α) (i : ℕ) (hi : i < rows) :
    countLt S (offEntries S rows cols f) i +
      (offGroup S rows cols f i).length ≤
      (offEntries S rows cols f).length := by
  have hOS := offEntries_flatMap_rows S rows cols hmd f
  have hsucc := countLt_flatMap_succ S (offGroup S rows cols f) rows
    (offGroup_major_rows S rows cols hmd f) i hi
  rw [← hOS] at hsucc
  have hle := countLt_le S (offEntries S rows cols f) (i + 1)
  omega

/-- Reading the off-diagonal region of a modified-format array through a
slice window: position `countLt i + t` holds the image of the `t`-th
off-diagonal entry of slice `i`. -/
theorem msr_off_getD {δ : Type} (S : StorageOrder) (rows cols : ℕ)
    (f : UMap α) (A : List δ) (hA : A.length = rows)
    (hmd : majorDim S rows cols = rows)
    (g : Index × α → δ) (i : ℕ) (hi : i < rows) (t : ℕ)
    (ht : t < (offGroup S rows cols f i).length) (d : δ) :
    (A ++ (offEntries S rows cols f).map g).getD
      (rows + (countLt S (offEntries S rows cols f) i + t)) d =
      g ((offGroup S rows cols f i).get ⟨t, ht⟩) := by
  have hOS := offEntries_flatMap_rows S rows cols hmd f
  have hk : countLt S (offEntries S rows cols f) i + t <
      (offEntries S rows cols f).length := by
    have := countLt_off_bound S rows cols hmd f i hi
    omega
  rw [show rows + (countLt S (offEntries S rows cols f) i + t) =
      A.length + (countLt S (offEntries S rows cols f) i + t) from by
        rw [hA],
    getD_append_offset,
    List.getD_eq_getElem _ _ (by rw [List.length_map]; exact hk),
    List.getElem_map]
  have hgrp := flatMap_getD_group S (offGroup S rows cols f) rows
    (offGroup_major_rows S rows cols hmd f) i hi t ht (⟨⟨0, 0⟩, 0⟩ : Index × α)
  rw [← hOS] at hgrp
  rw [← hgrp, List.getD_eq_getElem _ _ hk]

/-- The slice windows of the canonical modified-format `bind` array are the
per-slice off-diagonal position ranges. -/
theorem msrSlice_canonical (S : StorageOrder) (rows cols : ℕ)
    (hmd : majorDim S rows cols = rows) (f : UMap α) (i : ℕ) (hi : i < rows) :
    msrSlice
      ((List.range rows).map
        (fun q => rows + countLt S (offEntries S rows cols f) q) ++
        (offEntries S rows cols f).map (fun e => e.1.minor S))
      (rows + (offEntries S rows cols f).length) rows i =
      List.range' (rows + countLt S (offEntries S rows cols f) i)
        (offGroup S rows cols f i).length := by
  have hOS := offEntries_flatMap_rows S rows cols hmd f
  have hsucc := countLt_flatMap_succ S (offGroup S rows cols f) rows
    (offGroup_major_rows S rows cols hmd f) i hi
  rw [← hOS] at hsucc
  have hstart : ((List.range rows).map
      (fun q => rows + countLt S (offEntries S rows cols f) q) ++
      (offEntries S rows cols f).map (fun e => e.1.minor S)).getD i 0 =
      rows + countLt S (offEntries S rows cols f) i := by
    rw [List.getD_append _ _ _ _
        (by rw [List.length_map, List.length_range]; omega),
      List.getD_eq_getElem _ _
        (by rw [List.length_map, List.length_range]; omega),
      List.getElem_map, List.getElem_range]
  simp only [msrSlice]
  rw [hstart]
  by_cases hlast : i = rows - 1
  · rw [if_neg (by omega)]
    have hall : countLt S (offEntries S rows cols f) (i + 1) =
        (offEntries S rows cols f).length := by
      have hIl : i + 1 = rows := by omega
      rw [hIl]
      apply countLt_all
      intro a ha
      have hmem : a ∈ (List.range rows).flatMap (offGroup S rows cols f) := by
        rw [← hOS]
        exact ha
      rw [List.mem_flatMap] at hmem
      obtain ⟨r, hr, hain⟩ := hmem
      rw [List.mem_range] at hr
      rw [offGroup_major_rows S rows cols hmd f r hr a hain]
      exact hr
    congr 1
    omega
  · rw [if_pos (by omega)]
    have hstop : ((List.range rows).map
        (fun q => rows + countLt S (offEntries S rows cols f) q) ++
        (offEntries S rows cols f).map (fun e => e.1.minor S)).getD
          (i + 1) 0 =
        rows + countLt S (offEntries S rows cols f) (i + 1) := by
      rw [List.getD_append _ _ _ _
          (by rw [List.length_map, List.length_range]; omega),
        List.getD_eq_getElem _ _
          (by rw [List.length_map, List.length_range]; omega),
        List.getElem_map, List.getElem_range]
    rw [hstop]
    congr 1
    omega

/-- An off-diagonal read of the modified format returns the source value:
the slice scan of `SquareMatrix::operator() const` over the canonical arrays
finds exactly the stored off-diagonal entry. -/
theorem get_compress_mod (S : StorageOrder) (m : SquareMatrix α)
    (hmod : m.modified = false) (hc : m.compressed = false)
    (hsq : m.rows = m.cols)
    (hwf : MapWF m.rows m.cols m.uncompressed_format)
    (hzf : MapZF m.uncompressed_format) (hN : 1 ≤ m.rows)
    (r c : ℕ) (hr : r < m.rows) (hcc : c < m.cols) :
    (m.compress_mod S).get S r c = m.get S r c := by
  obtain ⟨hrows, hcols, hcomp, hmodt, huf, hvals, hbind⟩ :=
    compress_mod_spec S m hmod hc hsq hwf hzf hN
  rw [SquareMatrix.get_unmod S m hmod r c hr hcc,
    Matrix.get_uncompressed S m.toMatrix r c hr hcc hc]
  have hvlen : (m.compress_mod S).compressed_format_mod.values.length =
      m.rows + (offEntries S m.rows m.cols m.uncompressed_format).length := by
    rw [hvals, List.length_append, List.length_map, List.length_map,
      List.length_range]
  have hdiag_read : ∀ q, q < m.rows →
      (m.compress_mod S).compressed_format_mod.values.getD q 0 =
        (m.uncompressed_format ⟨q, q⟩).getD 0 := by
    intro q hq
    rw [hvals,
      List.getD_append _ _ _ _
        (by rw [List.length_map, List.length_range]; omega),
      List.getD_eq_getElem _ _
        (by rw [List.length_map, List.length_range]; omega),
      List.getElem_map, List.getElem_range]
  by_cases hdg : r = c
  · subst hdg
    unfold SquareMatrix.get
    rw [if_neg (by rw [hrows, hcols]; omega), hmodt, if_pos rfl, if_pos rfl,
      hdiag_read r hr]
  · cases S with
    | RowMajor =>
      have hget : (m.compress_mod .RowMajor).get .RowMajor r c =
          (match ((msrSlice
                (m.compress_mod .RowMajor).compressed_format_mod.bind
                (m.compress_mod
                  .RowMajor).compressed_format_mod.values.length
                (m.compress_mod .RowMajor).rows r).find?
              (fun j => (m.compress_mod
                .RowMajor).compressed_format_mod.bind.getD j 0 == c)).map
              (fun j => (m.compress_mod
                .RowMajor).compressed_format_mod.values.getD j 0) with
            | some v => Except.ok v
            | none => Except.ok (0 : α)) := by
        unfold SquareMatrix.get
        rw [if_neg (by rw [hrows, hcols]; omega), hmodt, if_pos rfl,
          if_neg hdg]
      rw [hget, hvlen, hbind, hvals, hrows,
        msrSlice_canonical .RowMajor m.rows m.cols rfl m.uncompressed_format
          r hr]
      have hagree : ∀ t (ht : t < (offGroup .RowMajor m.rows m.cols
          m.uncompressed_format r).length),
          ((List.range m.rows).map (fun q =>
            m.rows + countLt .RowMajor
              (offEntries .RowMajor m.rows m.cols m.uncompressed_format) q) ++
            (offEntries .RowMajor m.rows m.cols m.uncompressed_format).map
              (fun e => e.1.minor .RowMajor)).getD
            (m.rows + countLt .RowMajor
              (offEntries .RowMajor m.rows m.cols m.uncompressed_format) r +
              t) 0 =
            ((offGroup .RowMajor m.rows m.cols m.uncompressed_format r).get
              ⟨t, ht⟩).1.minor .RowMajor ∧
          ((List.range m.rows).map
            (fun i => (m.uncompressed_format ⟨i, i⟩).getD 0) ++
            (offEntries .RowMajor m.rows m.cols m.uncompressed_format).map
              Prod.snd).getD
            (m.rows + countLt .RowMajor
              (offEntries .RowMajor m.rows m.cols m.uncompressed_format) r +
              t) 0 =
            ((offGroup .RowMajor m.rows m.cols m.uncompressed_format r).get
              ⟨t, ht⟩).2 := by
        intro t ht
        constructor
        · rw [show m.rows + countLt .RowMajor
            (offEntries .RowMajor m.rows m.cols m.uncompressed_format) r + t =
            m.rows + (countLt .RowMajor
              (offEntries .RowMajor m.rows m.cols m.uncompressed_format) r +
              t) from by omega]
          exact msr_off_getD .RowMajor m.rows m.cols m.uncompressed_format _
            (by rw [List.length_map, List.length_range]) rfl _ r hr t ht 0
        · rw [show m.rows + countLt .RowMajor
            (offEntries .RowMajor m.rows m.cols m.uncompressed_format) r + t =
            m.rows + (countLt .RowMajor
              (offEntries .RowMajor m.rows m.cols m.uncompressed_format) r +
              t) from by omega]
          exact msr_off_getD .RowMajor m.rows m.cols m.uncompressed_format _
            (by rw [List.length_map, List.length_range]) rfl _ r hr t ht 0
      have hscan := sliceScan_spec .RowMajor
        ((List.range m.rows).map (fun q =>
          m.rows + countLt .RowMajor
            (offEntries .RowMajor m.rows m.cols m.uncompressed_format) q) ++
          (offEntries .RowMajor m.rows m.cols m.uncompressed_format).map
            (fun e => e.1.minor .RowMajor))
        ((List.range m.rows).map
          (fun i => (m.uncompressed_format ⟨i, i⟩).getD 0) ++
          (offEntries .RowMajor m.rows m.cols m.uncompressed_format).map
            Prod.snd)
        (offGroup .RowMajor m.rows m.cols m.uncompressed_format r)
        (m.rows + countLt .RowMajor
          (offEntries .RowMajor m.rows m.cols m.uncompressed_format) r)
        hagree c
      unfold sliceScan at hscan
      rw [show m.rows + countLt .RowMajor
          (offEntries .RowMajor m.rows m.cols m.uncompressed_format) r +
          (offGroup .RowMajor m.rows m.cols m.uncompressed_format r).length -
          (m.rows + countLt .RowMajor
            (offEntries .RowMajor m.rows m.cols m.uncompressed_format) r) =
          (offGroup .RowMajor m.rows m.cols m.uncompressed_format r).length
        from by omega] at hscan
      have hpred : ∀ e ∈ entryGroup .RowMajor m.rows m.cols
          m.uncompressed_format r,
          (e.1.minor .RowMajor == c) = true →
          decide (¬ e.1.col = e.1.row) = true := by
        intro e he hq
        have hmaj := ((mem_entryGroup .RowMajor m.rows m.cols
          m.uncompressed_format r e).mp he).1
        have hmin : e.1.minor .RowMajor = c := by simpa using hq
        have hrow : e.1.row = r := hmaj
        have hcol : e.1.col = c := hmin
        simp only [decide_eq_true_eq, hrow, hcol]
        omega
      rw [hscan,
        show offGroup .RowMajor m.rows m.cols m.uncompressed_format r =
          (entryGroup .RowMajor m.rows m.cols m.uncompressed_format r).filter
            (fun e => decide (¬ e.1.col = e.1.row)) from rfl,
        find?_filter_of_pred _ _ _ hpred,
        entryGroup_find?_minor .RowMajor m.rows m.cols m.uncompressed_format
          r c (show c < minorDim .RowMajor m.rows m.cols from hcc),
        show Index.make .RowMajor r c = (⟨r, c⟩ : Index) from rfl]
      cases m.uncompressed_format ⟨r, c⟩ with
      | some v => rfl
      | none => rfl
    | ColumnMajor =>
      have hmd : majorDim .ColumnMajor m.rows m.cols = m.rows := hsq.symm
      have hslice : c < m.rows := by omega
      have hget : (m.compress_mod .ColumnMajor).get .ColumnMajor r c =
          (match ((msrSlice
                (m.compress_mod .ColumnMajor).compressed_format_mod.bind
                (m.compress_mod
                  .ColumnMajor).compressed_format_mod.values.length
                (m.compress_mod .ColumnMajor).cols c).find?
              (fun j => (m.compress_mod
                .ColumnMajor).compressed_format_mod.bind.getD j 0 == r)).map
              (fun j => (m.compress_mod
                .ColumnMajor).compressed_format_mod.values.getD j 0) with
            | some v => Except.ok v
            | none => Except.ok (0 : α)) := by
        unfold SquareMatrix.get
        rw [if_neg (by rw [hrows, hcols]; omega), hmodt, if_pos rfl,
          if_neg hdg]
      rw [hget, hcols, show m.cols = m.rows from hsq.symm, hvlen, hbind,
        hvals,
        msrSlice_canonical .ColumnMajor m.rows m.cols hmd
          m.uncompressed_format c hslice]
      have hagree : ∀ t (ht : t < (offGroup .ColumnMajor m.rows m.cols
          m.uncompressed_format c).length),
          ((List.range m.rows).map (fun q =>
            m.rows + countLt .ColumnMajor
              (offEntries .ColumnMajor m.rows m.cols m.uncompressed_format)
              q) ++
            (offEntries .ColumnMajor m.rows m.cols m.uncompressed_format).map
              (fun e => e.1.minor .ColumnMajor)).getD
            (m.rows + countLt .ColumnMajor
              (offEntries .ColumnMajor m.rows m.cols m.uncompressed_format)
              c + t) 0 =
            ((offGroup .ColumnMajor m.rows m.cols m.uncompressed_format c).get
              ⟨t, ht⟩).1.minor .ColumnMajor ∧
          ((List.range m.rows).map
            (fun i => (m.uncompressed_format ⟨i, i⟩).getD 0) ++
            (offEntries .ColumnMajor m.rows m.cols m.uncompressed_format).map
              Prod.snd).getD
            (m.rows + countLt .ColumnMajor
              (offEntries .ColumnMajor m.rows m.cols m.uncompressed_format)
              c + t) 0 =
            ((offGroup .ColumnMajor m.rows m.cols m.uncompressed_format c).get
              ⟨t, ht⟩).2 := by
        intro t ht
        constructor
        · rw [show m.rows + countLt .ColumnMajor
            (offEntries .ColumnMajor m.rows m.cols m.uncompressed_format) c +
            t = m.rows + (countLt .ColumnMajor
              (offEntries .ColumnMajor m.rows m.cols m.uncompressed_format)
              c + t) from by omega]
          exact msr_off_getD .ColumnMajor m.rows m.cols m.uncompressed_format
            _ (by rw [List.length_map, List.length_range]) hmd _ c hslice t
            ht 0
        · rw [show m.rows + countLt .ColumnMajor
            (offEntries .ColumnMajor m.rows m.cols m.uncompressed_format) c +
            t = m.rows + (countLt .ColumnMajor
              (offEntries .ColumnMajor m.rows m.cols m.uncompressed_format)
              c + t) from by omega]
          exact msr_off_getD .ColumnMajor m.rows m.cols m.uncompressed_format
            _ (by rw [List.length_map, List.length_range]) hmd _ c hslice t
            ht 0
      have hscan := sliceScan_spec .ColumnMajor
        ((List.range m.rows).map (fun q =>
          m.rows + countLt .ColumnMajor
            (offEntries .ColumnMajor m.rows m.cols m.uncompressed_format)
            q) ++
          (offEntries .ColumnMajor m.rows m.cols m.uncompressed_format).map
            (fun e => e.1.minor .ColumnMajor))
        ((List.range m.rows).map
          (fun i => (m.uncompressed_format ⟨i, i⟩).getD 0) ++
          (offEntries .ColumnMajor m.rows m.cols m.uncompressed_format).map
            Prod.snd)
        (offGroup .ColumnMajor m.rows m.cols m.uncompressed_format c)
        (m.rows + countLt .ColumnMajor
          (offEntries .ColumnMajor m.rows m.cols m.uncompressed_format) c)
        hagree r
      unfold sliceScan at hscan
      rw [show m.rows + countLt .ColumnMajor
          (offEntries .ColumnMajor m.rows m.cols m.uncompressed_format) c +
          (offGroup .ColumnMajor m.rows m.cols m.uncompressed_format
            c).length -
          (m.rows + countLt .ColumnMajor
            (offEntries .ColumnMajor m.rows m.cols m.uncompressed_format)
            c) =
          (offGroup .ColumnMajor m.rows m.cols m.uncompressed_format
            c).length
        from by omega] at hscan
      have hpred : ∀ e ∈ entryGroup .ColumnMajor m.rows m.cols
          m.uncompressed_format c,
          (e.1.minor .ColumnMajor == r) = true →
          decide (¬ e.1.col = e.1.row) = true := by
        intro e he hq
        have hmaj := ((mem_entryGroup .ColumnMajor m.rows m.cols
          m.uncompressed_format c e).mp he).1
        have hmin : e.1.minor .ColumnMajor = r := by simpa using hq
        have hcol : e.1.col = c := hmaj
        have hrow : e.1.row = r := hmin
        simp only [decide_eq_true_eq, hrow, hcol]
        omega
      rw [hscan,
        show offGroup .ColumnMajor m.rows m.cols m.uncompressed_format c =
          (entryGroup .ColumnMajor m.rows m.cols
            m.uncompressed_format c).filter
            (fun e => decide (¬ e.1.col = e.1.row)) from rfl,
        find?_filter_of_pred _ _ _ hpred,
        entryGroup_find?_minor .ColumnMajor m.rows m.cols
          m.uncompressed_format c r
          (show r < minorDim .ColumnMajor m.rows m.cols from hr),
        show Index.make .ColumnMajor c r = (⟨r, c⟩ : Index) from rfl]
      cases m.uncompressed_format ⟨r, c⟩ with
      | some v => rfl
      | none => rfl

/-- Entries of one traversal group are sorted by strictly increasing minor
coordinate. -/
theorem entryGroup_minor_pairwise (S : StorageOrder) (rows cols : ℕ)
    (f : UMap α) (i : ℕ) :
    (entryGroup S rows cols f i).Pairwise
      (fun a b => a.1.minor S < b.1.minor S) := by
  unfold entryGroup
  rw [List.pairwise_filterMap]
  refine (List.pairwise_lt_range _).imp ?_
  intro j j' hjj' b hb b' hb'
  obtain ⟨v, _, hbv⟩ := Option.map_eq_some'.mp hb
  obtain ⟨v', _, hbv'⟩ := Option.map_eq_some'.mp hb'
  rw [← hbv, ← hbv']
  rw [Index.make_minor, Index.make_minor]
  exact hjj'

/-- The keys of the off-diagonal part of a slice group are distinct. -/
theorem offGroup_keys_nodup (S : StorageOrder) (rows cols : ℕ) (f : UMap α)
    (i : ℕ) : ((offGroup S rows cols f i).map Prod.fst).Nodup := by
  have hp : (offGroup S rows cols f i).Pairwise
      (fun a b => a.1.minor S < b.1.minor S) :=
    (entryGroup_minor_pairwise S rows cols f i).filter _
  rw [List.Nodup, List.pairwise_map]
  refine hp.imp ?_
  intro a b hab heq
  rw [heq] at hab
  exact absurd hab (lt_irrefl _)

/-- The keys a modified-format slice re-inserts are distinct. -/
theorem modGroup_keys_nodup (S : StorageOrder) (rows cols : ℕ) (f : UMap α)
    (i : ℕ) : ((modGroup S rows cols f i).map Prod.fst).Nodup := by
  have hdiag : ∀ b ∈ (match f ⟨i, i⟩ with
      | some v => [((⟨i, i⟩ : Index), v)]
      | none => ([] : List (Index × α))), b.1 = (⟨i, i⟩ : Index) := by
    cases f ⟨i, i⟩ with
    | some v =>
      intro b hb
      rw [List.mem_singleton.mp hb]
    | none =>
      intro b hb
      exact absurd hb (List.not_mem_nil b)
  unfold modGroup
  rw [List.map_append]
  refine List.Nodup.append ?_ (offGroup_keys_nodup S rows cols f i) ?_
  · cases f ⟨i, i⟩ with
    | some v => simp
    | none => simp
  · intro a ha ha'
    obtain ⟨e0, he0, hea0⟩ := List.mem_map.mp ha
    obtain ⟨e', he', hea'⟩ := List.mem_map.mp ha'
    have hoff : ¬ e'.1.col = e'.1.row := by
      unfold offGroup at he'
      rw [List.mem_filter] at he'
      simpa using he'.2
    apply hoff
    rw [hea', ← hea0, hdiag e0 he0]

/-- Every entry a modified-format slice re-inserts is a stored entry of the
source map and belongs to that slice. -/
theorem modGroup_mem_spec (S : StorageOrder) (rows cols : ℕ) (f : UMap α)
    (i : ℕ) :
    ∀ e ∈ modGroup S rows cols f i, f e.1 = some e.2 ∧ e.1.major S = i := by
  intro e he
  unfold modGroup at he
  rcases List.mem_append.mp he with hd | ho
  · have hdiag : ∀ b ∈ (match f ⟨i, i⟩ with
        | some v => [((⟨i, i⟩ : Index), v)]
        | none => ([] : List (Index × α))),
        f b.1 = some b.2 ∧ b.1.major S = i := by
      cases hfd : f ⟨i, i⟩ with
      | some v =>
        intro b hb
        rw [List.mem_singleton.mp hb]
        exact ⟨hfd, by cases S <;> rfl⟩
      | none =>
        intro b hb
        exact absurd hb (List.not_mem_nil b)
    exact hdiag e hd
  · exact ⟨((mem_entryGroup S rows cols f i e).mp (List.mem_filter.mp ho).1).2.2,
      ((mem_entryGroup S rows cols f i e).mp (List.mem_filter.mp ho).1).1⟩

/-- A stored entry of the map belongs to its slice's re-insertion list. -/
theorem mem_modGroup_of_some (S : StorageOrder) (n : ℕ) (f : UMap α)
    (hwf : MapWF n n f) (k : Index) (v : α) (hf : f k = some v) :
    (k, v) ∈ modGroup S n n f (k.major S) := by
  have hb := hwf k v hf
  by_cases hdk : k.row = k.col
  · have hik : (⟨k.major S, k.major S⟩ : Index) = k := by
      cases S with
      | RowMajor =>
        show (⟨k.row, k.row⟩ : Index) = ⟨k.row, k.col⟩
        rw [hdk]
      | ColumnMajor =>
        show (⟨k.col, k.col⟩ : Index) = ⟨k.row, k.col⟩
        rw [hdk]
    unfold modGroup
    refine List.mem_append_left _ ?_
    rw [hik, hf]
    exact List.mem_singleton.mpr rfl
  · unfold modGroup
    refine List.mem_append_right _ ?_
    unfold offGroup
    refine List.mem_filter.mpr ⟨?_, ?_⟩
    · exact (mem_entryGroup S n n f (k.major S) (k, v)).mpr
        ⟨rfl, ((Index.bounds_iff S n n k).mp ⟨hb.1, hb.2⟩).2, hf⟩
    · simp only [decide_eq_true_eq]
      exact fun h => hdk h.symm

/-- Keys are distinct across the whole re-insertion sequence when each
group's entries carry their group index as major coordinate. -/
theorem flat_major_keys_nodup (S : StorageOrder)
    (g : ℕ → List (Index × α))
    (hmaj : ∀ i, ∀ e ∈ g i, e.1.major S = i)
    (hnd : ∀ i, ((g i).map Prod.fst).Nodup) :
    ∀ n, (((List.range n).flatMap g).map Prod.fst).Nodup := by
  intro n
  induction n with
  | zero => simp
  | succ n ih =>
    rw [List.range_succ, List.flatMap_append, List.map_append]
    refine List.Nodup.append ih ?_ ?_
    · simpa using hnd n
    · intro a ha ha'
      obtain ⟨e, he, hea⟩ := List.mem_map.mp ha
      obtain ⟨i, hi, hei⟩ := List.mem_flatMap.mp he
      obtain ⟨e', he', hea'⟩ := List.mem_map.mp ha'
      have he'2 : e' ∈ g n := by simpa using he'
      rw [List.mem_range] at hi
      have h1 : a.major S = i := by rw [← hea]; exact hmaj i e hei
      have h2 : a.major S = n := by rw [← hea']; exact hmaj n e' he'2
      omega

/-- The re-insertion loop of `SquareMatrix::uncompress` over the canonical
modified-format arrays of a zero-free in-bounds map rebuilds exactly that
map. -/
theorem msr_rebuild (S : StorageOrder) (n : ℕ) (f : UMap α)
    (hwf : MapWF n n f) (hzf : MapZF f) (N : ℕ) (hN : N = n) :
    (List.range N).foldl (fun g i =>
      (msrSlice
        ((List.range n).map
          (fun q => n + countLt S (offEntries S n n f) q) ++
          (offEntries S n n f).map (fun e => e.1.minor S))
        ((List.range n).map (fun i => (f ⟨i, i⟩).getD 0) ++
          (offEntries S n n f).map Prod.snd).length N i).foldl
        (fun g j => g.insert
          (Index.make S i
            (((List.range n).map
              (fun q => n + countLt S (offEntries S n n f) q) ++
              (offEntries S n n f).map (fun e => e.1.minor S)).getD j 0))
          (((List.range n).map (fun i => (f ⟨i, i⟩).getD 0) ++
            (offEntries S n n f).map Prod.snd).getD j 0))
        (if ((List.range n).map (fun i => (f ⟨i, i⟩).getD 0) ++
            (offEntries S n n f).map Prod.snd).getD i 0 ≠ 0 then
          g.insert ⟨i, i⟩
            (((List.range n).map (fun i => (f ⟨i, i⟩).getD 0) ++
              (offEntries S n n f).map Prod.snd).getD i 0)
        else g)) UMap.empty = f := by
  subst N
  have hmd : majorDim S n n = n := by cases S <;> rfl
  have hdr : ∀ i, i < n →
      ((List.range n).map (fun i => (f ⟨i, i⟩).getD 0) ++
        (offEntries S n n f).map Prod.snd).getD i 0 = (f ⟨i, i⟩).getD 0 := by
    intro i hi
    rw [List.getD_append _ _ _ _
        (by rw [List.length_map, List.length_range]; omega),
      List.getD_eq_getElem _ _
        (by rw [List.length_map, List.length_range]; omega),
      List.getElem_map, List.getElem_range]
  have hlen : ((List.range n).map (fun i => (f ⟨i, i⟩).getD 0) ++
      (offEntries S n n f).map Prod.snd).length =
      n + (offEntries S n n f).length := by
    rw [List.length_append, List.length_map, List.length_map,
      List.length_range]
  have hstep : ∀ (d : UMap α), ∀ i ∈ List.range n,
      (msrSlice
        ((List.range n).map
          (fun q => n + countLt S (offEntries S n n f) q) ++
          (offEntries S n n f).map (fun e => e.1.minor S))
        ((List.range n).map (fun i => (f ⟨i, i⟩).getD 0) ++
          (offEntries S n n f).map Prod.snd).length n i).foldl
        (fun g j => g.insert
          (Index.make S i
            (((List.range n).map
              (fun q => n + countLt S (offEntries S n n f) q) ++
              (offEntries S n n f).map (fun e => e.1.minor S)).getD j 0))
          (((List.range n).map (fun i => (f ⟨i, i⟩).getD 0) ++
            (offEntries S n n f).map Prod.snd).getD j 0))
        (if ((List.range n).map (fun i => (f ⟨i, i⟩).getD 0) ++
            (offEntries S n n f).map Prod.snd).getD i 0 ≠ 0 then
          d.insert ⟨i, i⟩
            (((List.range n).map (fun i => (f ⟨i, i⟩).getD 0) ++
              (offEntries S n n f).map Prod.snd).getD i 0)
        else d) =
      (modGroup S n n f i).foldl (fun g e => g.insert e.1 e.2) d := by
    intro d i hi0
    have hi : i < n := List.mem_range.mp hi0
    have hins : ∀ e ∈ offGroup S n n f i, ∀ dd : UMap α,
        dd.insert (Index.make S i (e.1.minor S)) e.2 =
          dd.insert e.1 e.2 := by
      intro e he dd
      have hmaj := offGroup_major_rows S n n hmd f i hi e he
      rw [← hmaj, Index.make_eta]
    rw [hlen, msrSlice_canonical S n n hmd f i hi, hdr i hi]
    have hwin : ∀ (g0 : UMap α),
        (List.range' (n + countLt S (offEntries S n n f) i)
          (offGroup S n n f i).length).foldl
          (fun g j => g.insert
            (Index.make S i
              (((List.range n).map
                (fun q => n + countLt S (offEntries S n n f) q) ++
                (offEntries S n n f).map (fun e => e.1.minor S)).getD j 0))
            (((List.range n).map (fun i => (f ⟨i, i⟩).getD 0) ++
              (offEntries S n n f).map Prod.snd).getD j 0)) g0 =
        (offGroup S n n f i).foldl (fun g e => g.insert e.1 e.2) g0 := by
      intro g0
      refine foldl_window _ _ _ _ g0 ?_
      intro t ht dd
      rw [show n + countLt S (offEntries S n n f) i + t =
          n + (countLt S (offEntries S n n f) i + t) from by omega,
        msr_off_getD S n n f _
          (by rw [List.length_map, List.length_range]) hmd _ i hi t ht 0,
        msr_off_getD S n n f _
          (by rw [List.length_map, List.length_range]) hmd _ i hi t ht
          (0 : α)]
      exact hins _ (List.get_mem _ _ ht) dd
    cases hfd : f ⟨i, i⟩ with
    | some v =>
      rw [if_pos (show ((some v).getD 0 : α) ≠ 0 from hzf ⟨i, i⟩ v hfd),
        show modGroup S n n f i = ((⟨i, i⟩ : Index), v) ::
          offGroup S n n f i from by unfold modGroup; rw [hfd]; rfl,
        List.foldl_cons]
      exact hwin _
    | none =>
      rw [if_neg (show ¬ ((Option.none.getD (0 : α)) ≠ 0) from by simp),
        show modGroup S n n f i = offGroup S n n f i from by
          unfold modGroup; rw [hfd]; rfl]
      exact hwin d
  refine (List.foldl_ext _ _ UMap.empty hstep).trans ?_
  rw [← foldl_flatMap]
  have hnodup : (((List.range n).flatMap (modGroup S n n f)).map
      Prod.fst).Nodup :=
    flat_major_keys_nodup S (modGroup S n n f)
      (fun i e he => (modGroup_mem_spec S n n f i e he).2)
      (fun i => modGroup_keys_nodup S n n f i) n
  funext k
  rw [foldl_insert_find? _ k _ hnodup]
  cases hf : f k with
  | some v =>
    have hb := hwf k v hf
    have hmem : (k, v) ∈ (List.range n).flatMap (modGroup S n n f) := by
      refine List.mem_flatMap.mpr ⟨k.major S, List.mem_range.mpr ?_, ?_⟩
      · cases S with
        | RowMajor => exact hb.1
        | ColumnMajor => exact hb.2
      · exact mem_modGroup_of_some S n f hwf k v hf
    rw [find?_key_of_mem _ k v hnodup hmem]
  | none =>
    have hnone : ((List.range n).flatMap (modGroup S n n f)).find?
        (fun e => e.1 == k) = none := by
      refine List.find?_eq_none.mpr ?_
      intro e he hbeq
      obtain ⟨i, hi, hei⟩ := List.mem_flatMap.mp he
      have hsome := (modGroup_mem_spec S n n f i e hei).1
      rw [show e.1 = k from by simpa using hbeq] at hsome
      rw [hf] at hsome
      cases hsome
    rw [hnone]
    rfl

/-- `SquareMatrix::uncompress` applied to the modified-format image of an
uncompressed square matrix restores the original COO store exactly. -/
theorem uncompress_compress_mod (S : StorageOrder) (m : SquareMatrix α)
    (hmod : m.modified = false) (hc : m.compressed = false)
    (hsq : m.rows = m.cols)
    (hwf : MapWF m.rows m.cols m.uncompressed_format)
    (hzf : MapZF m.uncompressed_format) (hN : 1 ≤ m.rows) :
    ((m.compress_mod S).uncompress S).modified = false ∧
    ((m.compress_mod S).uncompress S).compressed = false ∧
    ((m.compress_mod S).uncompress S).rows = m.rows ∧
    ((m.compress_mod S).uncompress S).cols = m.cols ∧
    ((m.compress_mod S).uncompress S).uncompressed_format =
      m.uncompressed_format := by
  obtain ⟨hrows, hcols, hcomp, hmodt, huf, hvals, hbind⟩ :=
    compress_mod_spec S m hmod hc hsq hwf hzf hN
  have hwf' : MapWF m.rows m.rows m.uncompressed_format := by
    intro k v h
    exact ⟨(hwf k v h).1, lt_of_lt_of_eq (hwf k v h).2 hsq.symm⟩
  refine ⟨?_, ?_, ?_, ?_, ?_⟩
  · unfold SquareMatrix.uncompress
    rw [hmodt, if_pos rfl]
  · unfold SquareMatrix.uncompress
    rw [hmodt, if_pos rfl]
    exact hcomp
  · unfold SquareMatrix.uncompress
    rw [hmodt, if_pos rfl]
    exact hrows
  · unfold SquareMatrix.uncompress
    rw [hmodt, if_pos rfl]
    exact hcols
  · cases S with
    | RowMajor =>
      unfold SquareMatrix.uncompress
      rw [hmodt, if_pos rfl, hvals, hbind,
        show m.cols = m.rows from hsq.symm]
      exact msr_rebuild .RowMajor m.rows m.uncompressed_format hwf' hzf _
        hrows
    | ColumnMajor =>
      unfold SquareMatrix.uncompress
      rw [hmodt, if_pos rfl, hvals, hbind,
        show m.cols = m.rows from hsq.symm]
      exact msr_rebuild .ColumnMajor m.rows m.uncompressed_format hwf' hzf _
        (hcols.trans hsq.symm)

/-- Splitting a mapped sum along a Boolean predicate. -/
theorem map_sum_filter_not {γ βm : Type} [AddCommMonoid βm] (l : List γ)
    (p : γ → Bool) (g : γ → βm) :
    (l.map g).sum = ((l.filter p).map g).sum +
      ((l.filter (fun a => ! p a)).map g).sum := by
  induction l with
  | nil => simp
  | cons a l ih =>
    by_cases h : p a = true
    · rw [List.map_cons, List.sum_cons, List.filter_cons_of_pos h,
        List.filter_cons_of_neg (by simp [h]), List.map_cons, List.sum_cons,
        ih, add_assoc]
    · rw [List.map_cons, List.sum_cons, List.filter_cons_of_neg h,
        List.filter_cons_of_pos (by simp [h]), List.map_cons, List.sum_cons,
        ih, ← add_assoc, add_comm (g a), add_assoc]

/-- Two successive filters commute. -/
theorem filter_exchange {γ : Type} (l : List γ) (p q : γ → Bool) :
    (l.filter p).filter q = (l.filter q).filter p := by
  rw [List.filter_filter, List.filter_filter]
  exact List.filter_congr (fun a _ => Bool.and_comm _ _)

/-- A flat map over an index range concentrated on one index. -/
theorem flatMap_delta {δ : Type} (N i : ℕ) (hi : i < N) (g : ℕ → List δ)
    (hg : ∀ j, j ≠ i → g j = []) :
    (List.range N).flatMap g = g i := by
  have hpre : (List.range i).flatMap g = [] :=
    List.flatMap_eq_nil_iff.mpr (fun j hj =>
      hg j (by rw [List.mem_range] at hj; omega))
  have hsuf : (List.range' (i + 1) (N - (i + 1))).flatMap g = [] :=
    List.flatMap_eq_nil_iff.mpr (fun j hj => hg j (by
      rw [List.mem_range'] at hj
      obtain ⟨t, _, hjt⟩ := hj
      omega))
  rw [range_split_mid i N hi, List.flatMap_append, List.flatMap_cons, hpre,
    hsuf, List.nil_append, List.append_nil]

/-- An index-range filter for one index keeps exactly that index. -/
theorem range_filter_eq_singleton (n i : ℕ) (hi : i < n) :
    (List.range n).filter (fun j => decide (j = i)) = [i] := by
  have hpre : (List.range i).filter (fun j => decide (j = i)) = [] :=
    List.filter_eq_nil_iff.mpr (fun j hj => by
      rw [List.mem_range] at hj
      simp only [decide_eq_true_eq]
      omega)
  have hsuf : (List.range' (i + 1) (n - (i + 1))).filter
      (fun j => decide (j = i)) = [] :=
    List.filter_eq_nil_iff.mpr (fun j hj => by
      rw [List.mem_range'] at hj
      obtain ⟨t, _, hjt⟩ := hj
      simp only [decide_eq_true_eq]
      omega)
  rw [range_split_mid i n hi, List.filter_append, hpre,
    List.filter_cons_of_pos (by simp), hsuf, List.nil_append]

/-- One row of a square traversal, split into its off-diagonal contributions
plus the diagonal slot, sums to the dense row sum. -/
theorem off_row_sum (S : StorageOrder) (n : ℕ) (f : UMap α) (i : ℕ)
    (hi : i < n) (F : ℕ → α → α) (hF0 : ∀ c, F c 0 = 0) :
    (((offEntries S n n f).filter (fun e => decide (e.1.row = i))).map
      (fun e => F e.1.col e.2)).sum + F i ((f ⟨i, i⟩).getD 0) =
    ∑ c ∈ Finset.range n, F c ((f ⟨i, c⟩).getD 0) := by
  have hsplit := map_sum_filter_not ((entries S n n f).filter
      (fun e => decide (e.1.row = i)))
    (fun e => decide (e.1.col = e.1.row)) (fun e => F e.1.col e.2)
  have hcd : (((entries S n n f).filter (fun e => decide (e.1.row = i))).filter
      (fun e => decide (e.1.col = e.1.row))) =
      ((f ⟨i, i⟩).map (fun v => ((⟨i, i⟩ : Index), v))).toList := by
    rw [filter_exchange, diag_filter_entries, List.filter_flatMap,
      flatMap_delta n i hi _ ?_]
    · cases f ⟨i, i⟩ <;> simp
    · intro j hj
      cases f ⟨j, j⟩ with
      | some v => simp [hj]
      | none => simp
  have hco : (((entries S n n f).filter (fun e => decide (e.1.row = i))).filter
      (fun e => ! decide (e.1.col = e.1.row))) =
      (offEntries S n n f).filter (fun e => decide (e.1.row = i)) := by
    rw [filter_exchange]
    unfold offEntries
    refine congrArg (List.filter _) ?_
    exact List.filter_congr (fun e _ => by rw [decide_not])
  have hds : (((((f ⟨i, i⟩).map (fun v => ((⟨i, i⟩ : Index), v))).toList)).map
      (fun e => F e.1.col e.2)).sum = F i ((f ⟨i, i⟩).getD 0) := by
    cases f ⟨i, i⟩ with
    | some v => simp
    | none => simp [hF0]
  rw [hcd, hco, hds] at hsplit
  rw [← entries_row_sum S n n f i hi F hF0, hsplit, add_comm]

/-- One column of a square traversal, split into its off-diagonal
contributions plus the diagonal slot, sums to the dense column sum. -/
theorem off_col_sum (S : StorageOrder) (n : ℕ) (f : UMap α) (c : ℕ)
    (hc : c < n) (F : ℕ → α → α) (hF0 : ∀ r, F r 0 = 0) :
    (((offEntries S n n f).filter (fun e => decide (e.1.col = c))).map
      (fun e => F e.1.row e.2)).sum + F c ((f ⟨c, c⟩).getD 0) =
    ∑ r ∈ Finset.range n, F r ((f ⟨r, c⟩).getD 0) := by
  have hsplit := map_sum_filter_not ((entries S n n f).filter
      (fun e => decide (e.1.col = c)))
    (fun e => decide (e.1.col = e.1.row)) (fun e => F e.1.row e.2)
  have hcd : (((entries S n n f).filter (fun e => decide (e.1.col = c))).filter
      (fun e => decide (e.1.col = e.1.row))) =
      ((f ⟨c, c⟩).map (fun v => ((⟨c, c⟩ : Index), v))).toList := by
    rw [filter_exchange, diag_filter_entries, List.filter_flatMap,
      flatMap_delta n c hc _ ?_]
    · cases f ⟨c, c⟩ <;> simp
    · intro j hj
      cases f ⟨j, j⟩ with
      | some v => simp [hj]
      | none => simp
  have hco : (((entries S n n f).filter (fun e => decide (e.1.col = c))).filter
      (fun e => ! decide (e.1.col = e.1.row))) =
      (offEntries S n n f).filter (fun e => decide (e.1.col = c)) := by
    rw [filter_exchange]
    unfold offEntries
    refine congrArg (List.filter _) ?_
    exact List.filter_congr (fun e _ => by rw [decide_not])
  have hds : (((((f ⟨c, c⟩).map (fun v => ((⟨c, c⟩ : Index), v))).toList)).map
      (fun e => F e.1.row e.2)).sum = F c ((f ⟨c, c⟩).getD 0) := by
    cases f ⟨c, c⟩ with
    | some v => simp
    | none => simp [hF0]
  rw [hcd, hco, hds] at hsplit
  rw [← entries_col_sum S n n f c hc F hF0, hsplit, add_comm]

/-- The modified-format SpMV loops over the canonical arrays (row-major
kernel) produce the dense row-times-vector sums. -/
theorem msr_matVec_rm (n : ℕ) (f : UMap α) (v : List α)
    (N : ℕ) (hN : N = n) (i : ℕ) (hi : i < n) :
    ((List.range n).foldl
      (fun res i2 => vecAddAt res i2
        (((List.range n).map (fun i3 => (f ⟨i3, i3⟩).getD 0) ++
          (offEntries .RowMajor n n f).map Prod.snd).getD i2 0 *
          v.getD i2 0))
      ((List.range N).foldl (fun res i2 =>
        (msrSlice
          ((List.range n).map
            (fun q => n + countLt .RowMajor (offEntries .RowMajor n n f) q) ++
            (offEntries .RowMajor n n f).map (fun e => e.1.minor .RowMajor))
          ((List.range n).map (fun i3 => (f ⟨i3, i3⟩).getD 0) ++
            (offEntries .RowMajor n n f).map Prod.snd).length N i2).foldl
          (fun res j => vecAddAt res i2
            (((List.range n).map (fun i3 => (f ⟨i3, i3⟩).getD 0) ++
              (offEntries .RowMajor n n f).map Prod.snd).getD j 0 *
              v.getD (((List.range n).map
                (fun q => n + countLt .RowMajor
                  (offEntries .RowMajor n n f) q) ++
                (offEntries .RowMajor n n f).map
                  (fun e => e.1.minor .RowMajor)).getD j 0) 0))
          res) (List.replicate n 0))).getD i 0 =
    ∑ c ∈ Finset.range n, (f ⟨i, c⟩).getD 0 * v.getD c 0 := by
  subst N
  have hmd : majorDim .RowMajor n n = n := rfl
  have hdr : ∀ q, q < n →
      ((List.range n).map (fun i3 => (f ⟨i3, i3⟩).getD 0) ++
        (offEntries .RowMajor n n f).map Prod.snd).getD q 0 =
      (f ⟨q, q⟩).getD 0 := by
    intro q hq
    rw [List.getD_append _ _ _ _
        (by rw [List.length_map, List.length_range]; omega),
      List.getD_eq_getElem _ _
        (by rw [List.length_map, List.length_range]; omega),
      List.getElem_map, List.getElem_range]
  have hoff : (List.range n).foldl (fun res i2 =>
      (msrSlice
        ((List.range n).map
          (fun q => n + countLt .RowMajor (offEntries .RowMajor n n f) q) ++
          (offEntries .RowMajor n n f).map (fun e => e.1.minor .RowMajor))
        ((List.range n).map (fun i3 => (f ⟨i3, i3⟩).getD 0) ++
          (offEntries .RowMajor n n f).map Prod.snd).length n i2).foldl
        (fun res j => vecAddAt res i2
          (((List.range n).map (fun i3 => (f ⟨i3, i3⟩).getD 0) ++
            (offEntries .RowMajor n n f).map Prod.snd).getD j 0 *
            v.getD (((List.range n).map
              (fun q => n + countLt .RowMajor
                (offEntries .RowMajor n n f) q) ++
              (offEntries .RowMajor n n f).map
                (fun e => e.1.minor .RowMajor)).getD j 0) 0))
        res) (List.replicate n 0) =
      (offEntries .RowMajor n n f).foldl
        (fun res e => vecAddAt res e.1.row (e.2 * v.getD e.1.col 0))
        (List.replicate n 0) := by
    have hstep : ∀ (d : List α), ∀ i2 ∈ List.range n,
        (msrSlice
          ((List.range n).map
            (fun q => n + countLt .RowMajor (offEntries .RowMajor n n f) q) ++
            (offEntries .RowMajor n n f).map (fun e => e.1.minor .RowMajor))
          ((List.range n).map (fun i3 => (f ⟨i3, i3⟩).getD 0) ++
            (offEntries .RowMajor n n f).map Prod.snd).length n i2).foldl
          (fun res j => vecAddAt res i2
            (((List.range n).map (fun i3 => (f ⟨i3, i3⟩).getD 0) ++
              (offEntries .RowMajor n n f).map Prod.snd).getD j 0 *
              v.getD (((List.range n).map
                (fun q => n + countLt .RowMajor
                  (offEntries .RowMajor n n f) q) ++
                (offEntries .RowMajor n n f).map
                  (fun e => e.1.minor .RowMajor)).getD j 0) 0))
          d =
        (offGroup .RowMajor n n f i2).foldl
          (fun res e => vecAddAt res e.1.row (e.2 * v.getD e.1.col 0)) d := by
      intro d i2 hi2m
      have hi2 : i2 < n := List.mem_range.mp hi2m
      rw [show ((List.range n).map (fun i3 => (f ⟨i3, i3⟩).getD 0) ++
          (offEntries .RowMajor n n f).map Prod.snd).length =
          n + (offEntries .RowMajor n n f).length from by
            rw [List.length_append, List.length_map, List.length_map,
              List.length_range],
        msrSlice_canonical .RowMajor n n hmd f i2 hi2]
      refine foldl_window _ _ _ _ d ?_
      intro t ht dd
      rw [show n + countLt .RowMajor (offEntries .RowMajor n n f) i2 + t =
          n + (countLt .RowMajor (offEntries .RowMajor n n f) i2 + t) from by
            omega,
        msr_off_getD .RowMajor n n f
          ((List.range n).map
            (fun q => n + countLt .RowMajor (offEntries .RowMajor n n f) q))
          (by rw [List.length_map, List.length_range]) hmd
          (fun e => e.1.minor .RowMajor) i2 hi2 t ht 0,
        msr_off_getD .RowMajor n n f
          ((List.range n).map (fun i3 => (f ⟨i3, i3⟩).getD 0))
          (by rw [List.length_map, List.length_range]) hmd
          Prod.snd i2 hi2 t ht (0 : α)]
      have hmaj := offGroup_major_rows .RowMajor n n hmd f i2 hi2 _
        (List.get_mem _ _ ht)
      rw [show ((offGroup .RowMajor n n f i2).get ⟨t, ht⟩).1.row = i2
        from hmaj]
      rfl
    refine (List.foldl_ext _ _ _ hstep).trans ?_
    rw [← foldl_flatMap, ← offEntries_flatMap_rows .RowMajor n n hmd f]
  rw [hoff,
    foldl_vecAddAt_getD _ _ _ _ i
      (by rw [foldl_vecAddAt_length, List.length_replicate]; exact hi),
    foldl_vecAddAt_getD _ _ _ _ i
      (by rw [List.length_replicate]; exact hi),
    List.getD_eq_getElem _ _ (by rw [List.length_replicate]; exact hi),
    List.getElem_replicate, zero_add, range_filter_eq_singleton n i hi,
    List.map_cons, List.map_nil, List.sum_cons, List.sum_nil, add_zero,
    hdr i hi]
  exact off_row_sum .RowMajor n f i hi (fun c x => x * v.getD c 0)
    (fun c => zero_mul _)

/-- The modified-format SpMV loops over the canonical arrays (column-major
kernel) produce the dense row-times-vector sums. -/
theorem msr_matVec_cm (n : ℕ) (f : UMap α) (v : List α)
    (N : ℕ) (hN : N = n) (i : ℕ) (hi : i < n) :
    ((List.range n).foldl
      (fun res i2 => vecAddAt res i2
        (((List.range n).map (fun i3 => (f ⟨i3, i3⟩).getD 0) ++
          (offEntries .ColumnMajor n n f).map Prod.snd).getD i2 0 *
          v.getD i2 0))
      ((List.range N).foldl (fun res i2 =>
        (msrSlice
          ((List.range n).map
            (fun q => n + countLt .ColumnMajor
              (offEntries .ColumnMajor n n f) q) ++
            (offEntries .ColumnMajor n n f).map
              (fun e => e.1.minor .ColumnMajor))
          ((List.range n).map (fun i3 => (f ⟨i3, i3⟩).getD 0) ++
            (offEntries .ColumnMajor n n f).map Prod.snd).length N i2).foldl
          (fun res j => vecAddAt res
            (((List.range n).map
              (fun q => n + countLt .ColumnMajor
                (offEntries .ColumnMajor n n f) q) ++
              (offEntries .ColumnMajor n n f).map
                (fun e => e.1.minor .ColumnMajor)).getD j 0)
            (((List.range n).map (fun i3 => (f ⟨i3, i3⟩).getD 0) ++
              (offEntries .ColumnMajor n n f).map Prod.snd).getD j 0 *
              v.getD i2 0))
          res) (List.replicate n 0))).getD i 0 =
    ∑ c ∈ Finset.range n, (f ⟨i, c⟩).getD 0 * v.getD c 0 := by
  subst N
  have hmd : majorDim .ColumnMajor n n = n := rfl
  have hdr : ∀ q, q < n →
      ((List.range n).map (fun i3 => (f ⟨i3, i3⟩).getD 0) ++
        (offEntries .ColumnMajor n n f).map Prod.snd).getD q 0 =
      (f ⟨q, q⟩).getD 0 := by
    intro q hq
    rw [List.getD_append _ _ _ _
        (by rw [List.length_map, List.length_range]; omega),
      List.getD_eq_getElem _ _
        (by rw [List.length_map, List.length_range]; omega),
      List.getElem_map, List.getElem_range]
  have hoff : (List.range n).foldl (fun res i2 =>
      (msrSlice
        ((List.range n).map
          (fun q => n + countLt .ColumnMajor
            (offEntries .ColumnMajor n n f) q) ++
          (offEntries .ColumnMajor n n f).map
            (fun e => e.1.minor .ColumnMajor))
        ((List.range n).map (fun i3 => (f ⟨i3, i3⟩).getD 0) ++
          (offEntries .ColumnMajor n n f).map Prod.snd).length n i2).foldl
        (fun res j => vecAddAt res
          (((List.range n).map
            (fun q => n + countLt .ColumnMajor
              (offEntries .ColumnMajor n n f) q) ++
            (offEntries .ColumnMajor n n f).map
              (fun e => e.1.minor .ColumnMajor)).getD j 0)
          (((List.range n).map (fun i3 => (f ⟨i3, i3⟩).getD 0) ++
            (offEntries .ColumnMajor n n f).map Prod.snd).getD j 0 *
            v.getD i2 0))
        res) (List.replicate n 0) =
      (offEntries .ColumnMajor n n f).foldl
        (fun res e => vecAddAt res e.1.row (e.2 * v.getD e.1.col 0))
        (List.replicate n 0) := by
    have hstep : ∀ (d : List α), ∀ i2 ∈ List.range n,
        (msrSlice
          ((List.range n).map
            (fun q => n + countLt .ColumnMajor
              (offEntries .ColumnMajor n n f) q) ++
            (offEntries .ColumnMajor n n f).map
              (fun e => e.1.minor .ColumnMajor))
          ((List.range n).map (fun i3 => (f ⟨i3, i3⟩).getD 0) ++
            (offEntries .ColumnMajor n n f).map Prod.snd).length n i2).foldl
          (fun res j => vecAddAt res
            (((List.range n).map
              (fun q => n + countLt .ColumnMajor
                (offEntries .ColumnMajor n n f) q) ++
              (offEntries .ColumnMajor n n f).map
                (fun e => e.1.minor .ColumnMajor)).getD j 0)
            (((List.range n).map (fun i3 => (f ⟨i3, i3⟩).getD 0) ++
              (offEntries .ColumnMajor n n f).map Prod.snd).getD j 0 *
              v.getD i2 0))
          d =
        (offGroup .ColumnMajor n n f i2).foldl
          (fun res e => vecAddAt res e.1.row (e.2 * v.getD e.1.col 0)) d := by
      intro d i2 hi2m
      have hi2 : i2 < n := List.mem_range.mp hi2m
      rw [show ((List.range n).map (fun i3 => (f ⟨i3, i3⟩).getD 0) ++
          (offEntries .ColumnMajor n n f).map Prod.snd).length =
          n + (offEntries .ColumnMajor n n f).length from by
            rw [List.length_append, List.length_map, List.length_map,
              List.length_range],
        msrSlice_canonical .ColumnMajor n n hmd f i2 hi2]
      refine foldl_window _ _ _ _ d ?_
      intro t ht dd
      rw [show n + countLt .ColumnMajor (offEntries .ColumnMajor n n f) i2 +
          t = n + (countLt .ColumnMajor (offEntries .ColumnMajor n n f) i2 +
          t) from by omega,
        msr_off_getD .ColumnMajor n n f
          ((List.range n).map
            (fun q => n + countLt .ColumnMajor
              (offEntries .ColumnMajor n n f) q))
          (by rw [List.length_map, List.length_range]) hmd
          (fun e => e.1.minor .ColumnMajor) i2 hi2 t ht 0,
        msr_off_getD .ColumnMajor n n f
          ((List.range n).map (fun i3 => (f ⟨i3, i3⟩).getD 0))
          (by rw [List.length_map, List.length_range]) hmd
          Prod.snd i2 hi2 t ht (0 : α)]
      have hmaj := offGroup_major_rows .ColumnMajor n n hmd f i2 hi2 _
        (List.get_mem _ _ ht)
      rw [show ((offGroup .ColumnMajor n n f i2).get ⟨t, ht⟩).1.col = i2
        from hmaj]
      rfl
    refine (List.foldl_ext _ _ _ hstep).trans ?_
    rw [← foldl_flatMap, ← offEntries_flatMap_rows .ColumnMajor n n hmd f]
  rw [hoff,
    foldl_vecAddAt_getD _ _ _ _ i
      (by rw [foldl_vecAddAt_length, List.length_replicate]; exact hi),
    foldl_vecAddAt_getD _ _ _ _ i
      (by rw [List.length_replicate]; exact hi),
    List.getD_eq_getElem _ _ (by rw [List.length_replicate]; exact hi),
    List.getElem_replicate, zero_add, range_filter_eq_singleton n i hi,
    List.map_cons, List.map_nil, List.sum_cons, List.sum_nil, add_zero,
    hdr i hi]
  exact off_row_sum .ColumnMajor n f i hi (fun c x => x * v.getD c 0)
    (fun c => zero_mul _)

/-- A nested scatter-accumulation loop preserves the accumulator length. -/
theorem foldl_foldl_vecAddAt_length {γ γ2 : Type} (l : List γ)
    (gl : γ → List γ2) (pos : γ → γ2 → ℕ) (delta : γ → γ2 → α) :
    ∀ res : List α,
      (l.foldl (fun r i => (gl i).foldl
        (fun r2 j => vecAddAt r2 (pos i j) (delta i j)) r) res).length =
      res.length := by
  induction l with
  | nil => intro res; rfl
  | cons a l ih =>
    intro res
    rw [List.foldl_cons, ih, foldl_vecAddAt_length]

/-- C4: matrix-vector products fail with `ShapeMismatch` exactly on a length
mismatch, and otherwise return the dense row-times-vector sums, in the
uncompressed, compressed and (for square matrices) modified-compressed
representation states. -/
theorem claim_C4_spmv (S : StorageOrder) (m : Matrix α) (sq : SquareMatrix α)
    (hc : m.compressed = false)
    (hsmod : sq.modified = false) (hsc : sq.compressed = false)
    (hsq : sq.rows = sq.cols)
    (hwf : MapWF sq.rows sq.cols sq.uncompressed_format)
    (hzf : MapZF sq.uncompressed_format) (hN : 1 ≤ sq.rows)
    (v : List α) :
    ((m.matVec S v = .error .ShapeMismatch ↔ v.length ≠ m.cols) ∧
     (v.length = m.cols → ∃ r, m.matVec S v = .ok r ∧ r.length = m.rows ∧
       ∀ i, i < m.rows → r.getD i 0 =
         ∑ c ∈ Finset.range m.cols, m.getVal S i c * v.getD c 0)) ∧
    ((m.compress S).matVec S v = m.matVec S v) ∧
    (((sq.compress_mod S).matVec S v = .error .ShapeMismatch ↔
        v.length ≠ sq.cols) ∧
     (v.length = sq.cols → ∃ r,
       (sq.compress_mod S).matVec S v = .ok r ∧ r.length = sq.rows ∧
       ∀ i, i < sq.rows → r.getD i 0 =
         ∑ c ∈ Finset.range sq.cols, sq.getVal S i c * v.getD c 0)) := by
  obtain ⟨hrows, hcols, hcomp, hmodt, huf, hvals, hbind⟩ :=
    compress_mod_spec S sq hsmod hsc hsq hwf hzf hN
  refine ⟨⟨?_, ?_⟩, matVec_compress_eq S m hc v, ?_, ?_⟩
  · constructor
    · intro herr
      by_contra hlen
      have hl : v.length = m.cols := hlen
      obtain ⟨r, hok, _, _⟩ := matVec_uncompressed_spec S m v hc hl
      rw [hok] at herr
      exact Except.noConfusion herr
    · exact matVec_shape_error S m v
  · intro hv
    obtain ⟨r, hok, hlen, hget⟩ := matVec_uncompressed_spec S m v hc hv
    refine ⟨r, hok, hlen, ?_⟩
    intro i hi
    rw [hget i hi]
    refine Finset.sum_congr rfl ?_
    intro c hcm
    rw [Matrix.getVal_uncompressed S m hc i c hi (Finset.mem_range.mp hcm)]
  · constructor
    · intro herr
      by_contra hlen
      have hl : v.length = sq.cols := hlen
      have hok : ∃ r, (sq.compress_mod S).matVec S v = .ok r := by
        unfold SquareMatrix.matVec
        rw [hmodt, if_pos rfl, if_neg (by rw [hcols]; exact fun h => h hl)]
        exact ⟨_, rfl⟩
      obtain ⟨r0, hok⟩ := hok
      rw [hok] at herr
      exact Except.noConfusion herr
    · intro hne
      unfold SquareMatrix.matVec
      rw [hmodt, if_pos rfl, if_pos (by rw [hcols]; exact hne)]
  · intro hv
    cases S with
    | RowMajor =>
      refine ⟨(List.range (sq.compress_mod .RowMajor).rows).foldl
        (fun res i2 => vecAddAt res i2
          ((sq.compress_mod
            .RowMajor).compressed_format_mod.values.getD i2 0 *
            v.getD i2 0))
        ((List.range (sq.compress_mod .RowMajor).rows).foldl
          (fun res i2 => (msrSlice
            (sq.compress_mod .RowMajor).compressed_format_mod.bind
            (sq.compress_mod .RowMajor).compressed_format_mod.values.length
            (sq.compress_mod .RowMajor).rows i2).foldl
            (fun res j => vecAddAt res i2
              ((sq.compress_mod
                .RowMajor).compressed_format_mod.values.getD j 0 *
                v.getD ((sq.compress_mod
                  .RowMajor).compressed_format_mod.bind.getD j 0) 0)) res)
          (List.replicate (sq.compress_mod .RowMajor).rows 0)), ?_, ?_, ?_⟩
      · unfold SquareMatrix.matVec
        rw [hmodt, if_pos rfl,
          if_neg (show ¬ (v.length ≠ (sq.compress_mod .RowMajor).cols) from
            by rw [hcols]; exact fun h => h hv)]
      · rw [foldl_vecAddAt_length, foldl_foldl_vecAddAt_length,
          List.length_replicate]
        exact hrows
      · intro i hi
        rw [hvals, hbind, hrows, show sq.cols = sq.rows from hsq.symm,
          show (∑ c ∈ Finset.range sq.rows,
              sq.getVal .RowMajor i c * v.getD c 0) =
            ∑ c ∈ Finset.range sq.rows,
              (sq.uncompressed_format ⟨i, c⟩).getD 0 * v.getD c 0 from
            Finset.sum_congr rfl (fun c hcm => by
              rw [SquareMatrix.getVal_unmod_uncompressed .RowMajor sq hsmod
                hsc i c hi
                (lt_of_lt_of_eq (Finset.mem_range.mp hcm) hsq)])]
        exact msr_matVec_rm sq.rows sq.uncompressed_format v sq.rows rfl i hi
    | ColumnMajor =>
      refine ⟨(List.range (sq.compress_mod .ColumnMajor).rows).foldl
        (fun res i2 => vecAddAt res i2
          ((sq.compress_mod
            .ColumnMajor).compressed_format_mod.values.getD i2 0 *
            v.getD i2 0))
        ((List.range (sq.compress_mod .ColumnMajor).cols).foldl
          (fun res i2 => (msrSlice
            (sq.compress_mod .ColumnMajor).compressed_format_mod.bind
            (sq.compress_mod
              .ColumnMajor).compressed_format_mod.values.length
            (sq.compress_mod .ColumnMajor).cols i2).foldl
            (fun res j => vecAddAt res
              ((sq.compress_mod
                .ColumnMajor).compressed_format_mod.bind.getD j 0)
              ((sq.compress_mod
                .ColumnMajor).compressed_format_mod.values.getD j 0 *
                v.getD i2 0)) res)
          (List.replicate (sq.compress_mod .ColumnMajor).rows 0)),
          ?_, ?_, ?_⟩
      · unfold SquareMatrix.matVec
        rw [hmodt, if_pos rfl,
          if_neg (show ¬ (v.length ≠ (sq.compress_mod .ColumnMajor).cols)
            from by rw [hcols]; exact fun h => h hv)]
      · rw [foldl_vecAddAt_length, foldl_foldl_vecAddAt_length,
          List.length_replicate]
        exact hrows
      · intro i hi
        rw [hvals, hbind, hrows, hcols,
          show sq.cols = sq.rows from hsq.symm,
          show (∑ c ∈ Finset.range sq.rows,
              sq.getVal .ColumnMajor i c * v.getD c 0) =
            ∑ c ∈ Finset.range sq.rows,
              (sq.uncompressed_format ⟨i, c⟩).getD 0 * v.getD c 0 from
            Finset.sum_congr rfl (fun c hcm => by
              rw [SquareMatrix.getVal_unmod_uncompressed .ColumnMajor sq
                hsmod hsc i c hi
                (lt_of_lt_of_eq (Finset.mem_range.mp hcm) hsq)])]
        exact msr_matVec_cm sq.rows sq.uncompressed_format v sq.rows rfl i hi

/-- Witness for C4: the modified-compressed scenario-5 matrix times the
all-ones vector returns row sums, and the shape-mismatch case errors. -/
theorem claim_C4_spmv_witness :
    (scen1.matVec .RowMajor [1, 1] = .error .ShapeMismatch ↔
      ([1, 1] : List ℤ).length ≠ scen1.cols) ∧
    ∃ r, (scenario5A.compress_mod .RowMajor).matVec .RowMajor [1, 1, 1, 1] =
      .ok r ∧ r.length = 4 ∧ r.getD 1 0 = 6 := by
  have hwf : MapWF scenario5A.rows scenario5A.cols
      scenario5A.uncompressed_format := by
    intro k v h
    unfold scenario5A at h
    simp only at h
    split_ifs at h with h1 h2 h3 h4 <;>
      first
        | (subst_vars; exact ⟨by decide, by decide⟩)
        | cases h
  have hzf : MapZF scenario5A.uncompressed_format := by
    intro k v h
    unfold scenario5A at h
    simp only at h
    split_ifs at h with h1 h2 h3 h4 <;> (cases h <;> decide)
  have h := claim_C4_spmv .RowMajor scen1 scenario5A rfl rfl rfl rfl hwf hzf
    (by decide) [1, 1, 1, 1]
  have h2ok := h.2.2.2 (by decide)
  obtain ⟨r, hok, hlen, hget⟩ := h2ok
  have herr := (claim_C4_spmv .RowMajor scen1 scenario5A rfl rfl rfl rfl hwf
    hzf (by decide) [1, 1]).1.1
  refine ⟨herr, r, hok, ?_, ?_⟩
  · rw [hlen]
    rfl
  · rw [hget 1 (by decide)]
    decide

section NormThms2

variable {β : Type} [LinearOrderedCommRing β] [DecidableEq β]

/-- The interleaved slice/diagonal accumulation loop of the modified-format
One-norm preserves the accumulator length. -/
theorem foldl_slice_diag_length {γ γ2 : Type} (l : List γ)
    (gl : γ → List γ2) (pos : γ → γ2 → ℕ) (delta : γ → γ2 → β)
    (pos2 : γ → ℕ) (delta2 : γ → β) :
    ∀ res : List β,
      (l.foldl (fun r i => vecAddAt ((gl i).foldl
        (fun r2 j => vecAddAt r2 (pos i j) (delta i j)) r)
        (pos2 i) (delta2 i)) res).length = res.length := by
  induction l with
  | nil => intro res; rfl
  | cons a l ih =>
    intro res
    rw [List.foldl_cons, ih, vecAddAt_length, foldl_vecAddAt_length]

/-- The modified-format One-norm loop over the canonical arrays (row-major
kernel) accumulates the per-column absolute sums. -/
theorem msr_normOne_rm (n : ℕ) (f : UMap β) (N : ℕ) (hN : N = n)
    (c : ℕ) (hc : c < n) :
    ((List.range N).foldl (fun sums i =>
      vecAddAt ((msrSlice
        ((List.range n).map
          (fun q => n + countLt .RowMajor (offEntries .RowMajor n n f) q) ++
          (offEntries .RowMajor n n f).map (fun e => e.1.minor .RowMajor))
        ((List.range n).map (fun i3 => (f ⟨i3, i3⟩).getD 0) ++
          (offEntries .RowMajor n n f).map Prod.snd).length N i).foldl
        (fun sums2 j => vecAddAt sums2
          (((List.range n).map
            (fun q => n + countLt .RowMajor
              (offEntries .RowMajor n n f) q) ++
            (offEntries .RowMajor n n f).map
              (fun e => e.1.minor .RowMajor)).getD j 0)
          |((List.range n).map (fun i3 => (f ⟨i3, i3⟩).getD 0) ++
            (offEntries .RowMajor n n f).map Prod.snd).getD j 0|) sums)
        i |((List.range n).map (fun i3 => (f ⟨i3, i3⟩).getD 0) ++
          (offEntries .RowMajor n n f).map Prod.snd).getD i 0|)
      (List.replicate n (0 : β))).getD c 0 =
    ∑ r ∈ Finset.range n, |(f ⟨r, c⟩).getD 0| := by
  subst N
  have hmd : majorDim .RowMajor n n = n := rfl
  have hdr : ∀ q, q < n →
      ((List.range n).map (fun i3 => (f ⟨i3, i3⟩).getD 0) ++
        (offEntries .RowMajor n n f).map Prod.snd).getD q 0 =
      (f ⟨q, q⟩).getD 0 := by
    intro q hq
    rw [List.getD_append _ _ _ _
        (by rw [List.length_map, List.length_range]; omega),
      List.getD_eq_getElem _ _
        (by rw [List.length_map, List.length_range]; omega),
      List.getElem_map, List.getElem_range]
  have hstep : ∀ (d : List β), ∀ i ∈ List.range n,
      vecAddAt ((msrSlice
        ((List.range n).map
          (fun q => n + countLt .RowMajor (offEntries .RowMajor n n f) q) ++
          (offEntries .RowMajor n n f).map (fun e => e.1.minor .RowMajor))
        ((List.range n).map (fun i3 => (f ⟨i3, i3⟩).getD 0) ++
          (offEntries .RowMajor n n f).map Prod.snd).length n i).foldl
        (fun sums2 j => vecAddAt sums2
          (((List.range n).map
            (fun q => n + countLt .RowMajor
              (offEntries .RowMajor n n f) q) ++
            (offEntries .RowMajor n n f).map
              (fun e => e.1.minor .RowMajor)).getD j 0)
          |((List.range n).map (fun i3 => (f ⟨i3, i3⟩).getD 0) ++
            (offEntries .RowMajor n n f).map Prod.snd).getD j 0|) d)
        i |((List.range n).map (fun i3 => (f ⟨i3, i3⟩).getD 0) ++
          (offEntries .RowMajor n n f).map Prod.snd).getD i 0| =
      ((offGroup .RowMajor n n f i).map (fun e => (e.1.col, |e.2|)) ++
        [(i, |(f ⟨i, i⟩).getD 0|)]).foldl
        (fun r q => vecAddAt r q.1 q.2) d := by
    intro d i hi0
    have hi : i < n := List.mem_range.mp hi0
    have hwin : (msrSlice
        ((List.range n).map
          (fun q => n + countLt .RowMajor (offEntries .RowMajor n n f) q) ++
          (offEntries .RowMajor n n f).map (fun e => e.1.minor .RowMajor))
        ((List.range n).map (fun i3 => (f ⟨i3, i3⟩).getD 0) ++
          (offEntries .RowMajor n n f).map Prod.snd).length n i).foldl
        (fun sums2 j => vecAddAt sums2
          (((List.range n).map
            (fun q => n + countLt .RowMajor
              (offEntries .RowMajor n n f) q) ++
            (offEntries .RowMajor n n f).map
              (fun e => e.1.minor .RowMajor)).getD j 0)
          |((List.range n).map (fun i3 => (f ⟨i3, i3⟩).getD 0) ++
            (offEntries .RowMajor n n f).map Prod.snd).getD j 0|) d =
        (offGroup .RowMajor n n f i).foldl
          (fun s e => vecAddAt s e.1.col |e.2|) d := by
      rw [show ((List.range n).map (fun i3 => (f ⟨i3, i3⟩).getD 0) ++
          (offEntries .RowMajor n n f).map Prod.snd).length =
          n + (offEntries .RowMajor n n f).length from by
            rw [List.length_append, List.length_map, List.length_map,
              List.length_range],
        msrSlice_canonical .RowMajor n n hmd f i hi]
      refine foldl_window _ _ _ _ d ?_
      intro t ht dd
      rw [show n + countLt .RowMajor (offEntries .RowMajor n n f) i + t =
          n + (countLt .RowMajor (offEntries .RowMajor n n f) i + t) from by
            omega,
        msr_off_getD .RowMajor n n f
          ((List.range n).map
            (fun q => n + countLt .RowMajor (offEntries .RowMajor n n f) q))
          (by rw [List.length_map, List.length_range]) hmd
          (fun e => e.1.minor .RowMajor) i hi t ht 0,
        msr_off_getD .RowMajor n n f
          ((List.range n).map (fun i3 => (f ⟨i3, i3⟩).getD 0))
          (by rw [List.length_map, List.length_range]) hmd
          Prod.snd i hi t ht (0 : β)]
      rfl
    rw [hwin, hdr i hi, List.foldl_append, List.foldl_map, List.foldl_cons,
      List.foldl_nil]
  have hconv : (List.range n).foldl (fun sums i =>
      vecAddAt ((msrSlice
        ((List.range n).map
          (fun q => n + countLt .RowMajor (offEntries .RowMajor n n f) q) ++
          (offEntries .RowMajor n n f).map (fun e => e.1.minor .RowMajor))
        ((List.range n).map (fun i3 => (f ⟨i3, i3⟩).getD 0) ++
          (offEntries .RowMajor n n f).map Prod.snd).length n i).foldl
        (fun sums2 j => vecAddAt sums2
          (((List.range n).map
            (fun q => n + countLt .RowMajor
              (offEntries .RowMajor n n f) q) ++
            (offEntries .RowMajor n n f).map
              (fun e => e.1.minor .RowMajor)).getD j 0)
          |((List.range n).map (fun i3 => (f ⟨i3, i3⟩).getD 0) ++
            (offEntries .RowMajor n n f).map Prod.snd).getD j 0|) sums)
        i |((List.range n).map (fun i3 => (f ⟨i3, i3⟩).getD 0) ++
          (offEntries .RowMajor n n f).map Prod.snd).getD i 0|)
      (List.replicate n (0 : β)) =
      ((List.range n).flatMap (fun i =>
        (offGroup .RowMajor n n f i).map (fun e => (e.1.col, |e.2|)) ++
          [(i, |(f ⟨i, i⟩).getD 0|)])).foldl
        (fun r q => vecAddAt r q.1 q.2) (List.replicate n (0 : β)) := by
    rw [foldl_flatMap]
    exact List.foldl_ext _ _ _ hstep
  rw [hconv,
    foldl_vecAddAt_getD _ _ _ _ c (by rw [List.length_replicate]; exact hc),
    List.getD_eq_getElem _ _ (by rw [List.length_replicate]; exact hc),
    List.getElem_replicate, zero_add, List.filter_flatMap, flatMap_map_sum,
    list_range_map_sum]
  have hper : ∀ i ∈ Finset.range n,
      ((((offGroup .RowMajor n n f i).map (fun e => (e.1.col, |e.2|)) ++
        [(i, |(f ⟨i, i⟩).getD 0|)]).filter
          (fun q => decide (q.1 = c))).map Prod.snd).sum =
      (((offGroup .RowMajor n n f i).filter
        (fun e => decide (e.1.col = c))).map (fun e => |e.2|)).sum +
        (if i = c then |(f ⟨i, i⟩).getD 0| else 0) := by
    intro i _
    rw [List.filter_append, List.map_append, List.sum_append]
    congr 1
    · rw [List.filter_map, List.map_map]
      rfl
    · by_cases hic : i = c
      · rw [if_pos hic]
        simp [hic]
      · rw [if_neg hic]
        simp [hic]
  rw [Finset.sum_congr rfl hper, Finset.sum_add_distrib,
    Finset.sum_ite_eq' (Finset.range n) c
      (fun i => |(f ⟨i, i⟩).getD 0|),
    if_pos (Finset.mem_range.mpr hc),
    show (∑ i ∈ Finset.range n, (((offGroup .RowMajor n n f i).filter
        (fun e => decide (e.1.col = c))).map (fun e => |e.2|)).sum) =
      (((offEntries .RowMajor n n f).filter
        (fun e => decide (e.1.col = c))).map (fun e => |e.2|)).sum from by
      rw [offEntries_flatMap_rows .RowMajor n n hmd f, List.filter_flatMap,
        flatMap_map_sum, list_range_map_sum]]
  exact off_col_sum .RowMajor n f c hc (fun r x => |x|) (fun r => abs_zero)

/-- The modified-format One-norm loop over the canonical arrays
(column-major kernel) accumulates the per-column absolute sums. -/
theorem msr_normOne_cm (n : ℕ) (f : UMap β) (N : ℕ) (hN : N = n)
    (c : ℕ) (hc : c < n) :
    ((List.range N).foldl (fun sums i =>
      vecAddAt ((msrSlice
        ((List.range n).map
          (fun q => n + countLt .ColumnMajor
            (offEntries .ColumnMajor n n f) q) ++
          (offEntries .ColumnMajor n n f).map
            (fun e => e.1.minor .ColumnMajor))
        ((List.range n).map (fun i3 => (f ⟨i3, i3⟩).getD 0) ++
          (offEntries .ColumnMajor n n f).map Prod.snd).length N i).foldl
        (fun sums2 j => vecAddAt sums2 i
          |((List.range n).map (fun i3 => (f ⟨i3, i3⟩).getD 0) ++
            (offEntries .ColumnMajor n n f).map Prod.snd).getD j 0|) sums)
        i |((List.range n).map (fun i3 => (f ⟨i3, i3⟩).getD 0) ++
          (offEntries .ColumnMajor n n f).map Prod.snd).getD i 0|)
      (List.replicate n (0 : β))).getD c 0 =
    ∑ r ∈ Finset.range n, |(f ⟨r, c⟩).getD 0| := by
  subst N
  have hmd : majorDim .ColumnMajor n n = n := rfl
  have hdr : ∀ q, q < n →
      ((List.range n).map (fun i3 => (f ⟨i3, i3⟩).getD 0) ++
        (offEntries .ColumnMajor n n f).map Prod.snd).getD q 0 =
      (f ⟨q, q⟩).getD 0 := by
    intro q hq
    rw [List.getD_append _ _ _ _
        (by rw [List.length_map, List.length_range]; omega),
      List.getD_eq_getElem _ _
        (by rw [List.length_map, List.length_range]; omega),
      List.getElem_map, List.getElem_range]
  have hstep : ∀ (d : List β), ∀ i ∈ List.range n,
      vecAddAt ((msrSlice
        ((List.range n).map
          (fun q => n + countLt .ColumnMajor
            (offEntries .ColumnMajor n n f) q) ++
          (offEntries .ColumnMajor n n f).map
            (fun e => e.1.minor .ColumnMajor))
        ((List.range n).map (fun i3 => (f ⟨i3, i3⟩).getD 0) ++
          (offEntries .ColumnMajor n n f).map Prod.snd).length n i).foldl
        (fun sums2 j => vecAddAt sums2 i
          |((List.range n).map (fun i3 => (f ⟨i3, i3⟩).getD 0) ++
            (offEntries .ColumnMajor n n f).map Prod.snd).getD j 0|) d)
        i |((List.range n).map (fun i3 => (f ⟨i3, i3⟩).getD 0) ++
          (offEntries .ColumnMajor n n f).map Prod.snd).getD i 0| =
      ((offGroup .ColumnMajor n n f i).map (fun e => (e.1.col, |e.2|)) ++
        [(i, |(f ⟨i, i⟩).getD 0|)]).foldl
        (fun r q => vecAddAt r q.1 q.2) d := by
    intro d i hi0
    have hi : i < n := List.mem_range.mp hi0
    have hwin : (msrSlice
        ((List.range n).map
          (fun q => n + countLt .ColumnMajor
            (offEntries .ColumnMajor n n f) q) ++
          (offEntries .ColumnMajor n n f).map
            (fun e => e.1.minor .ColumnMajor))
        ((List.range n).map (fun i3 => (f ⟨i3, i3⟩).getD 0) ++
          (offEntries .ColumnMajor n n f).map Prod.snd).length n i).foldl
        (fun sums2 j => vecAddAt sums2 i
          |((List.range n).map (fun i3 => (f ⟨i3, i3⟩).getD 0) ++
            (offEntries .ColumnMajor n n f).map Prod.snd).getD j 0|) d =
        (offGroup .ColumnMajor n n f i).foldl
          (fun s e => vecAddAt s e.1.col |e.2|) d := by
      rw [show ((List.range n).map (fun i3 => (f ⟨i3, i3⟩).getD 0) ++
          (offEntries .ColumnMajor n n f).map Prod.snd).length =
          n + (offEntries .ColumnMajor n n f).length from by
            rw [List.length_append, List.length_map, List.length_map,
              List.length_range],
        msrSlice_canonical .ColumnMajor n n hmd f i hi]
      refine foldl_window _ _ _ _ d ?_
      intro t ht dd
      rw [show n + countLt .ColumnMajor (offEntries .ColumnMajor n n f) i +
          t = n + (countLt .ColumnMajor (offEntries .ColumnMajor n n f) i +
          t) from by omega,
        msr_off_getD .ColumnMajor n n f
          ((List.range n).map (fun i3 => (f ⟨i3, i3⟩).getD 0))
          (by rw [List.length_map, List.length_range]) hmd
          Prod.snd i hi t ht (0 : β)]
      have hmaj := offGroup_major_rows .ColumnMajor n n hmd f i hi _
        (List.get_mem _ _ ht)
      rw [show ((offGroup .ColumnMajor n n f i).get ⟨t, ht⟩).1.col = i
        from hmaj]
    rw [hwin, hdr i hi, List.foldl_append, List.foldl_map, List.foldl_cons,
      List.foldl_nil]
  have hconv : (List.range n).foldl (fun sums i =>
      vecAddAt ((msrSlice
        ((List.range n).map
          (fun q => n + countLt .ColumnMajor
            (offEntries .ColumnMajor n n f) q) ++
          (offEntries .ColumnMajor n n f).map
            (fun e => e.1.minor .ColumnMajor))
        ((List.range n).map (fun i3 => (f ⟨i3, i3⟩).getD 0) ++
          (offEntries .ColumnMajor n n f).map Prod.snd).length n i).foldl
        (fun sums2 j => vecAddAt sums2 i
          |((List.range n).map (fun i3 => (f ⟨i3, i3⟩).getD 0) ++
            (offEntries .ColumnMajor n n f).map Prod.snd).getD j 0|) sums)
        i |((List.range n).map (fun i3 => (f ⟨i3, i3⟩).getD 0) ++
          (offEntries .ColumnMajor n n f).map Prod.snd).getD i 0|)
      (List.replicate n (0 : β)) =
      ((List.range n).flatMap (fun i =>
        (offGroup .ColumnMajor n n f i).map (fun e => (e.1.col, |e.2|)) ++
          [(i, |(f ⟨i, i⟩).getD 0|)])).foldl
        (fun r q => vecAddAt r q.1 q.2) (List.replicate n (0 : β)) := by
    rw [foldl_flatMap]
    exact List.foldl_ext _ _ _ hstep
  rw [hconv,
    foldl_vecAddAt_getD _ _ _ _ c (by rw [List.length_replicate]; exact hc),
    List.getD_eq_getElem _ _ (by rw [List.length_replicate]; exact hc),
    List.getElem_replicate, zero_add, List.filter_flatMap, flatMap_map_sum,
    list_range_map_sum]
  have hper : ∀ i ∈ Finset.range n,
      ((((offGroup .ColumnMajor n n f i).map (fun e => (e.1.col, |e.2|)) ++
        [(i, |(f ⟨i, i⟩).getD 0|)]).filter
          (fun q => decide (q.1 = c))).map Prod.snd).sum =
      (((offGroup .ColumnMajor n n f i).filter
        (fun e => decide (e.1.col = c))).map (fun e => |e.2|)).sum +
        (if i = c then |(f ⟨i, i⟩).getD 0| else 0) := by
    intro i _
    rw [List.filter_append, List.map_append, List.sum_append]
    congr 1
    · rw [List.filter_map, List.map_map]
      rfl
    · by_cases hic : i = c
      · rw [if_pos hic]
        simp [hic]
      · rw [if_neg hic]
        simp [hic]
  rw [Finset.sum_congr rfl hper, Finset.sum_add_distrib,
    Finset.sum_ite_eq' (Finset.range n) c
      (fun i => |(f ⟨i, i⟩).getD 0|),
    if_pos (Finset.mem_range.mpr hc),
    show (∑ i ∈ Finset.range n, (((offGroup .ColumnMajor n n f i).filter
        (fun e => decide (e.1.col = c))).map (fun e => |e.2|)).sum) =
      (((offEntries .ColumnMajor n n f).filter
        (fun e => decide (e.1.col = c))).map (fun e => |e.2|)).sum from by
      rw [offEntries_flatMap_rows .ColumnMajor n n hmd f,
        List.filter_flatMap, flatMap_map_sum, list_range_map_sum]]
  exact off_col_sum .ColumnMajor n f c hc (fun r x => |x|)
    (fun r => abs_zero)

end NormThms2

section NormThms3

variable {β : Type} [LinearOrderedCommRing β] [DecidableEq β]

/-- The One-norm of an unmodified square matrix is the general-matrix
One-norm. -/
theorem SquareMatrix.normOne_unmod (S : StorageOrder) (sq : SquareMatrix β)
    (hsmod : sq.modified = false) :
    sq.normOne S = sq.toMatrix.normOne S := by
  unfold SquareMatrix.normOne
  rw [hsmod, if_neg (by simp)]

/-- The One-norm of the modified-format image of an uncompressed square
matrix is the maximum of the per-column absolute sums of the source. -/
theorem normOne_compress_mod (S : StorageOrder) (sq : SquareMatrix β)
    (hsmod : sq.modified = false) (hsc : sq.compressed = false)
    (hsq : sq.rows = sq.cols)
    (hwf : MapWF sq.rows sq.cols sq.uncompressed_format)
    (hzf : MapZF sq.uncompressed_format) (h1 : 1 ≤ sq.rows) :
    (sq.compress_mod S).normOne S =
      maxElem ((List.range sq.cols).map (fun c =>
        ∑ r ∈ Finset.range sq.rows,
          |(sq.uncompressed_format ⟨r, c⟩).getD 0|)) := by
  obtain ⟨hrows, hcols, hcomp, hmodt, huf, hvals, hbind⟩ :=
    compress_mod_spec S sq hsmod hsc hsq hwf hzf h1
  cases S with
  | RowMajor =>
    have hform : (sq.compress_mod .RowMajor).normOne .RowMajor =
        maxElem ((List.range (sq.compress_mod .RowMajor).rows).foldl
          (fun sums i => vecAddAt ((msrSlice
            (sq.compress_mod .RowMajor).compressed_format_mod.bind
            (sq.compress_mod .RowMajor).compressed_format_mod.values.length
            (sq.compress_mod .RowMajor).rows i).foldl
            (fun sums2 j => vecAddAt sums2
              ((sq.compress_mod
                .RowMajor).compressed_format_mod.bind.getD j 0)
              |(sq.compress_mod
                .RowMajor).compressed_format_mod.values.getD j 0|) sums)
            i |(sq.compress_mod
              .RowMajor).compressed_format_mod.values.getD i 0|)
          (List.replicate (sq.compress_mod .RowMajor).cols (0 : β))) := by
      unfold SquareMatrix.normOne
      rw [hmodt, if_pos rfl]
    rw [hform, hvals, hbind, hrows, hcols,
      show sq.cols = sq.rows from hsq.symm]
    congr 1
    refine List.ext_getElem ?_ ?_
    · rw [foldl_slice_diag_length, List.length_replicate, List.length_map,
        List.length_range]
    · intro c h1' h2'
      have hcn : c < sq.rows := by
        rw [foldl_slice_diag_length, List.length_replicate] at h1'
        exact h1'
      rw [← List.getD_eq_getElem _ 0 h1',
        msr_normOne_rm sq.rows sq.uncompressed_format sq.rows rfl c hcn,
        List.getElem_map, List.getElem_range]
  | ColumnMajor =>
    have hform : (sq.compress_mod .ColumnMajor).normOne .ColumnMajor =
        maxElem ((List.range (sq.compress_mod .ColumnMajor).cols).foldl
          (fun sums i => vecAddAt ((msrSlice
            (sq.compress_mod .ColumnMajor).compressed_format_mod.bind
            (sq.compress_mod
              .ColumnMajor).compressed_format_mod.values.length
            (sq.compress_mod .ColumnMajor).cols i).foldl
            (fun sums2 j => vecAddAt sums2 i
              |(sq.compress_mod
                .ColumnMajor).compressed_format_mod.values.getD j 0|) sums)
            i |(sq.compress_mod
              .ColumnMajor).compressed_format_mod.values.getD i 0|)
          (List.replicate (sq.compress_mod .ColumnMajor).cols (0 : β))) := by
      unfold SquareMatrix.normOne
      rw [hmodt, if_pos rfl]
    rw [hform, hvals, hbind, hcols,
      show sq.cols = sq.rows from hsq.symm]
    congr 1
    refine List.ext_getElem ?_ ?_
    · rw [foldl_slice_diag_length, List.length_replicate, List.length_map,
        List.length_range]
    · intro c h1' h2'
      have hcn : c < sq.rows := by
        rw [foldl_slice_diag_length, List.length_replicate] at h1'
        exact h1'
      rw [← List.getD_eq_getElem _ 0 h1',
        msr_normOne_cm sq.rows sq.uncompressed_format sq.rows rfl c hcn,
        List.getElem_map, List.getElem_range]

/-- C7: the One-norm equals the maximum over columns of the column absolute
sums, computed from each of the three representation states without
conversion: directly on the COO store, on the compressed arrays, and on the
modified-format arrays, all agreeing with each other. -/
theorem claim_C7_one_norm (S : StorageOrder) (m : Matrix β)
    (sq : SquareMatrix β) (hc : m.compressed = false) (h1c : 1 ≤ m.cols)
    (hsmod : sq.modified = false) (hsc : sq.compressed = false)
    (hsq : sq.rows = sq.cols)
    (hwf : MapWF sq.rows sq.cols sq.uncompressed_format)
    (hzf : MapZF sq.uncompressed_format) (h1 : 1 ≤ sq.rows) :
    (m.normOne S = maxElem ((List.range m.cols).map (fun c =>
        ∑ r ∈ Finset.range m.rows, |(m.uncompressed_format ⟨r, c⟩).getD 0|)) ∧
      m.normOne S ∈ ((List.range m.cols).map (fun c =>
        ∑ r ∈ Finset.range m.rows, |(m.uncompressed_format ⟨r, c⟩).getD 0|)) ∧
      (∀ x ∈ ((List.range m.cols).map (fun c =>
        ∑ r ∈ Finset.range m.rows, |(m.uncompressed_format ⟨r, c⟩).getD 0|)),
        x ≤ m.normOne S)) ∧
    ((m.compress S).normOne S = m.normOne S) ∧
    ((sq.compress_mod S).normOne S = sq.normOne S ∧
      (sq.compress_mod S).normOne S =
        maxElem ((List.range sq.cols).map (fun c =>
          ∑ r ∈ Finset.range sq.rows,
            |(sq.uncompressed_format ⟨r, c⟩).getD 0|))) := by
  have hm := normOne_uncompressed S m hc
  have hmod := normOne_compress_mod S sq hsmod hsc hsq hwf hzf h1
  have hbase : sq.normOne S =
      maxElem ((List.range sq.cols).map (fun c =>
        ∑ r ∈ Finset.range sq.rows,
          |(sq.uncompressed_format ⟨r, c⟩).getD 0|)) := by
    rw [SquareMatrix.normOne_unmod S sq hsmod]
    exact normOne_uncompressed S sq.toMatrix hsc
  refine ⟨⟨hm, ?_, ?_⟩, normOne_compress_eq S m hc, ?_, hmod⟩
  · rw [hm]
    refine maxElem_mem _ (List.ne_nil_of_length_pos ?_)
    rw [List.length_map, List.length_range]
    omega
  · intro x hx
    rw [hm]
    exact le_maxElem _ x hx
  · rw [hmod, hbase]

/-- Witness for C7: the One-norm of the scenario-5 square matrix is the same
in modified-compressed state as in uncompressed state, likewise for the
scenario-1 matrix after compression, and the uncompressed One-norm is a
column sum that dominates the others. -/
theorem claim_C7_one_norm_witness :
    (scenario5A.compress_mod .RowMajor).normOne .RowMajor =
      scenario5A.normOne .RowMajor ∧
    (scen1.compress .RowMajor).normOne .RowMajor =
      scen1.normOne .RowMajor := by
  have hwf : MapWF scenario5A.rows scenario5A.cols
      scenario5A.uncompressed_format := by
    intro k v h
    unfold scenario5A at h
    simp only at h
    split_ifs at h with h1 h2 h3 h4 <;>
      first
        | (subst_vars; exact ⟨by decide, by decide⟩)
        | cases h
  have hzf : MapZF scenario5A.uncompressed_format := by
    intro k v h
    unfold scenario5A at h
    simp only at h
    split_ifs at h with h1 h2 h3 h4 <;> (cases h <;> decide)
  have h := claim_C7_one_norm .RowMajor scen1 scenario5A rfl (by decide) rfl
    rfl rfl hwf hzf (by decide)
  exact ⟨h.2.2.1, h.2.1⟩

end NormThms3

/-- After the diagonal of a slice has been merged, the merge loop copies the
remaining off-diagonal entries through unchanged. -/
theorem mergeStep_flag (S : StorageOrder) (i : ℕ) (D : α)
    (L : List (Index × α)) :
    ∀ acc : MergeAcc α, L.foldl (mergeStep S i D) (acc, true) =
      (⟨acc.inner, acc.outer ++ L.map (fun e => e.1.minor S),
        acc.values ++ L.map Prod.snd, acc.index⟩, true) := by
  induction L with
  | nil =>
    intro acc
    rw [List.foldl_nil, List.map_nil, List.map_nil, List.append_nil,
      List.append_nil]
  | cons e L ih =>
    intro acc
    rw [List.foldl_cons,
      show mergeStep S i D (acc, true) e =
        ((⟨acc.inner, acc.outer ++ [e.1.minor S], acc.values ++ [e.2],
          acc.index⟩ : MergeAcc α), true) from rfl,
      ih, List.map_cons, List.map_cons]
    simp [List.append_assoc]

/-- While the pending diagonal has not been passed (zero diagonal, or minors
still below the diagonal), the merge loop copies entries through. -/
theorem mergeStep_low (S : StorageOrder) (i : ℕ) (D : α)
    (L : List (Index × α))
    (hL : ∀ e ∈ L, ¬(D ≠ 0 ∧ i < e.1.minor S)) :
    ∀ acc : MergeAcc α, L.foldl (mergeStep S i D) (acc, false) =
      (⟨acc.inner, acc.outer ++ L.map (fun e => e.1.minor S),
        acc.values ++ L.map Prod.snd, acc.index⟩, false) := by
  induction L with
  | nil =>
    intro acc
    rw [List.foldl_nil, List.map_nil, List.map_nil, List.append_nil,
      List.append_nil]
  | cons e L ih =>
    intro acc
    have hcond : ¬(¬(((acc, false) : MergeAcc α × Bool).2 = true) ∧
        D ≠ 0 ∧ e.1.minor S > i) :=
      fun h => hL e (List.mem_cons_self e L) ⟨h.2.1, h.2.2⟩
    rw [List.foldl_cons,
      show mergeStep S i D (acc, false) e =
        ((⟨acc.inner, acc.outer ++ [e.1.minor S], acc.values ++ [e.2],
          acc.index⟩ : MergeAcc α), false) from by
        unfold mergeStep
        rw [if_neg hcond],
      ih (fun x hx => hL x (List.mem_cons_of_mem _ hx)), List.map_cons,
      List.map_cons]
    simp [List.append_assoc]

/-- When the first remaining entry's minor coordinate has passed a nonzero
diagonal, the merge loop inserts the diagonal value first. -/
theorem mergeStep_high (S : StorageOrder) (i : ℕ) (D : α) (hD : D ≠ 0)
    (e : Index × α) (he : i < e.1.minor S) (L : List (Index × α)) :
    ∀ acc : MergeAcc α,
      (e :: L).foldl (mergeStep S i D) (acc, false) =
      (⟨acc.inner, acc.outer ++ i :: e.1.minor S ::
          L.map (fun x => x.1.minor S),
        acc.values ++ D :: e.2 :: L.map Prod.snd, acc.index + 1⟩, true) := by
  intro acc
  have hcond : (¬(((acc, false) : MergeAcc α × Bool).2 = true) ∧
      D ≠ 0 ∧ e.1.minor S > i) := ⟨by simp, hD, he⟩
  rw [List.foldl_cons,
    show mergeStep S i D (acc, false) e =
      ((⟨acc.inner, (acc.outer ++ [i]) ++ [e.1.minor S],
        (acc.values ++ [D]) ++ [e.2], acc.index + 1⟩ : MergeAcc α),
        true) from by
      unfold mergeStep
      rw [if_pos hcond],
    mergeStep_flag]
  simp [List.append_assoc]

/-- A traversal group of a square map splits into the off-diagonal entries
below the diagonal, the diagonal slot, and the off-diagonal entries above
the diagonal, in minor order. -/
theorem entryGroup_split_offdiag (S : StorageOrder) (n : ℕ) (f : UMap α)
    (i : ℕ) (hi : i < n) :
    ∃ A B : List (Index × α),
      entryGroup S n n f i =
        A ++ (((f ⟨i, i⟩).map
          (fun v => ((⟨i, i⟩ : Index), v))).toList ++ B) ∧
      offGroup S n n f i = A ++ B ∧
      (∀ e ∈ A, e.1.minor S < i) ∧ (∀ e ∈ B, i < e.1.minor S) := by
  have hnd : minorDim S n n = n := by cases S <;> rfl
  have hmk : Index.make S i i = (⟨i, i⟩ : Index) := by cases S <;> rfl
  refine ⟨(List.range i).filterMap
      (fun j => (f (Index.make S i j)).map (fun v => (Index.make S i j, v))),
    (List.range' (i + 1) (n - (i + 1))).filterMap
      (fun j => (f (Index.make S i j)).map (fun v => (Index.make S i j, v))),
    ?_, ?_, ?_, ?_⟩
  case refine_3 =>
    intro e he
    obtain ⟨j, hj, hje⟩ := List.mem_filterMap.mp he
    rw [List.mem_range] at hj
    obtain ⟨v, _, hev⟩ := Option.map_eq_some'.mp hje
    rw [← hev]
    rw [show (Index.make S i j, v).1.minor S = j from Index.make_minor S i j]
    exact hj
  case refine_4 =>
    intro e he
    obtain ⟨j, hj, hje⟩ := List.mem_filterMap.mp he
    rw [List.mem_range'] at hj
    obtain ⟨v, _, hev⟩ := Option.map_eq_some'.mp hje
    rw [← hev]
    rw [show (Index.make S i j, v).1.minor S = j from Index.make_minor S i j]
    obtain ⟨t, _, hjt⟩ := hj
    omega
  case refine_1 =>
    unfold entryGroup
    rw [hnd, range_split_mid i n hi, List.filterMap_append,
      List.filterMap_cons, hmk]
    cases f ⟨i, i⟩ <;> rfl
  case refine_2 =>
    have hoffp : ∀ j, j ≠ i → ∀ v : α,
        decide (¬ (Index.make S i j, v).1.col =
          (Index.make S i j, v).1.row) = true := by
      intro j hj v
      cases S with
      | RowMajor =>
        simp only [decide_eq_true_eq]
        exact fun h => hj h
      | ColumnMajor =>
        simp only [decide_eq_true_eq]
        exact fun h => hj h.symm
    have hsplit : entryGroup S n n f i =
        (List.range i).filterMap (fun j => (f (Index.make S i j)).map
          (fun v => (Index.make S i j, v))) ++
        (((f ⟨i, i⟩).map (fun v => ((⟨i, i⟩ : Index), v))).toList ++
          (List.range' (i + 1) (n - (i + 1))).filterMap
            (fun j => (f (Index.make S i j)).map
              (fun v => (Index.make S i j, v)))) := by
      unfold entryGroup
      rw [hnd, range_split_mid i n hi, List.filterMap_append,
        List.filterMap_cons, hmk]
      cases f ⟨i, i⟩ <;> rfl
    unfold offGroup
    rw [hsplit, List.filter_append, List.filter_append]
    have hA : ((List.range i).filterMap (fun j => (f (Index.make S i j)).map
        (fun v => (Index.make S i j, v)))).filter
        (fun e => decide (¬ e.1.col = e.1.row)) =
        (List.range i).filterMap (fun j => (f (Index.make S i j)).map
          (fun v => (Index.make S i j, v))) := by
      refine List.filter_eq_self.mpr ?_
      intro e he
      obtain ⟨j, hj, hje⟩ := List.mem_filterMap.mp he
      rw [List.mem_range] at hj
      obtain ⟨v, _, hev⟩ := Option.map_eq_some'.mp hje
      rw [← hev]
      exact hoffp j (by omega) v
    have hB : ((List.range' (i + 1) (n - (i + 1))).filterMap
        (fun j => (f (Index.make S i j)).map
          (fun v => (Index.make S i j, v)))).filter
        (fun e => decide (¬ e.1.col = e.1.row)) =
        (List.range' (i + 1) (n - (i + 1))).filterMap
          (fun j => (f (Index.make S i j)).map
            (fun v => (Index.make S i j, v))) := by
      refine List.filter_eq_self.mpr ?_
      intro e he
      obtain ⟨j, hj, hje⟩ := List.mem_filterMap.mp he
      rw [List.mem_range'] at hj
      obtain ⟨v, _, hev⟩ := Option.map_eq_some'.mp hje
      rw [← hev]
      obtain ⟨t, _, hjt⟩ := hj
      exact hoffp j (by omega) v
    have hdiag : (((f ⟨i, i⟩).map
        (fun v => ((⟨i, i⟩ : Index), v))).toList).filter
        (fun e => decide (¬ e.1.col = e.1.row)) = [] := by
      cases f ⟨i, i⟩ <;> simp
    rw [hA, hB, hdiag, List.nil_append]

/-- After the diagonal has been inserted during the slice walk, the final
diagonal check of the merge loop does nothing. -/
theorem merge_post_flag (i : ℕ) (D : α) (X : MergeAcc α) :
    (if ¬ (((X, true) : MergeAcc α × Bool).2 = true) ∧ D ≠ 0 then
      (⟨((X, true) : MergeAcc α × Bool).1.inner,
        ((X, true) : MergeAcc α × Bool).1.outer ++ [i],
        ((X, true) : MergeAcc α × Bool).1.values ++ [D],
        ((X, true) : MergeAcc α × Bool).1.index + 1⟩ : MergeAcc α)
    else ((X, true) : MergeAcc α × Bool).1) = X := by
  rw [if_neg (fun h => h.1 rfl)]

/-- A nonzero diagonal not yet inserted is appended by the final diagonal
check of the merge loop. -/
theorem merge_post_emit (i : ℕ) (D : α) (hD : D ≠ 0) (X : MergeAcc α) :
    (if ¬ (((X, false) : MergeAcc α × Bool).2 = true) ∧ D ≠ 0 then
      (⟨((X, false) : MergeAcc α × Bool).1.inner,
        ((X, false) : MergeAcc α × Bool).1.outer ++ [i],
        ((X, false) : MergeAcc α × Bool).1.values ++ [D],
        ((X, false) : MergeAcc α × Bool).1.index + 1⟩ : MergeAcc α)
    else ((X, false) : MergeAcc α × Bool).1) =
    (⟨X.inner, X.outer ++ [i], X.values ++ [D], X.index + 1⟩ :
      MergeAcc α) := by
  rw [if_pos (⟨fun h => Bool.noConfusion h, hD⟩ :
    ¬ (((X, false) : MergeAcc α × Bool).2 = true) ∧ D ≠ 0)]

/-- A zero diagonal is never inserted by the final diagonal check of the
merge loop. -/
theorem merge_post_zero (i : ℕ) (D : α) (hD : D = 0) (X : MergeAcc α) :
    (if ¬ (((X, false) : MergeAcc α × Bool).2 = true) ∧ D ≠ 0 then
      (⟨((X, false) : MergeAcc α × Bool).1.inner,
        ((X, false) : MergeAcc α × Bool).1.outer ++ [i],
        ((X, false) : MergeAcc α × Bool).1.values ++ [D],
        ((X, false) : MergeAcc α × Bool).1.index + 1⟩ : MergeAcc α)
    else ((X, false) : MergeAcc α × Bool).1) = X := by
  rw [if_neg (fun h => h.2 hD)]

/-- One slice of the merge loop of `SquareMatrix::compress` from modified
state emits exactly the slice's traversal group (minors in order, with the
nonzero diagonal merged into place) and advances the written-entry counter
into the next inner slot. -/
theorem merge_body (S : StorageOrder) (n : ℕ) (f : UMap α)
    (hzf : MapZF f) (N : ℕ) (hN : N = n) (acc : MergeAcc α) (i : ℕ)
    (hi : i < n) :
    (fun st : MergeAcc α × Bool =>
      (fun acc2 : MergeAcc α =>
        (⟨acc2.inner.set (i + 1) (acc2.index + ((if i + 1 = N then ((List.range n).map (fun i3 => (f ⟨i3, i3⟩).getD 0) ++
        (offEntries S n n f).map Prod.snd).length else ((List.range n).map (fun q => n + countLt S (offEntries S n n f) q) ++
        (offEntries S n n f).map (fun e => e.1.minor S)).getD (i + 1) 0) - ((List.range n).map (fun q => n + countLt S (offEntries S n n f) q) ++
        (offEntries S n n f).map (fun e => e.1.minor S)).getD i 0)),
          acc2.outer, acc2.values,
          acc2.index + ((if i + 1 = N then ((List.range n).map (fun i3 => (f ⟨i3, i3⟩).getD 0) ++
        (offEntries S n n f).map Prod.snd).length else ((List.range n).map (fun q => n + countLt S (offEntries S n n f) q) ++
        (offEntries S n n f).map (fun e => e.1.minor S)).getD (i + 1) 0) - ((List.range n).map (fun q => n + countLt S (offEntries S n n f) q) ++
        (offEntries S n n f).map (fun e => e.1.minor S)).getD i 0)⟩ : MergeAcc α))
      (if ¬ st.2 ∧ ((List.range n).map (fun i3 => (f ⟨i3, i3⟩).getD 0) ++
        (offEntries S n n f).map Prod.snd).getD i 0 ≠ 0 then
        (⟨st.1.inner, st.1.outer ++ [i], st.1.values ++ [((List.range n).map (fun i3 => (f ⟨i3, i3⟩).getD 0) ++
        (offEntries S n n f).map Prod.snd).getD i 0],
          st.1.index + 1⟩ : MergeAcc α)
      else st.1))
    ((List.range' (((List.range n).map (fun q => n + countLt S (offEntries S n n f) q) ++
        (offEntries S n n f).map (fun e => e.1.minor S)).getD i 0) ((if i + 1 = N then ((List.range n).map (fun i3 => (f ⟨i3, i3⟩).getD 0) ++
        (offEntries S n n f).map Prod.snd).length else ((List.range n).map (fun q => n + countLt S (offEntries S n n f) q) ++
        (offEntries S n n f).map (fun e => e.1.minor S)).getD (i + 1) 0) - ((List.range n).map (fun q => n + countLt S (offEntries S n n f) q) ++
        (offEntries S n n f).map (fun e => e.1.minor S)).getD i 0)).foldl
      (fun (st : MergeAcc α × Bool) (j : ℕ) =>
      (fun st1 : MergeAcc α × Bool =>
        ((⟨st1.1.inner, st1.1.outer ++ [((List.range n).map (fun q => n + countLt S (offEntries S n n f) q) ++
        (offEntries S n n f).map (fun e => e.1.minor S)).getD j 0],
          st1.1.values ++ [((List.range n).map (fun i3 => (f ⟨i3, i3⟩).getD 0) ++
        (offEntries S n n f).map Prod.snd).getD j 0], st1.1.index⟩ : MergeAcc α),
          st1.2))
      (if ¬ st.2 ∧ ((List.range n).map (fun i3 => (f ⟨i3, i3⟩).getD 0) ++
        (offEntries S n n f).map Prod.snd).getD i 0 ≠ 0 ∧ ((List.range n).map (fun q => n + countLt S (offEntries S n n f) q) ++
        (offEntries S n n f).map (fun e => e.1.minor S)).getD j 0 > i then
        ((⟨st.1.inner, st.1.outer ++ [i], st.1.values ++ [((List.range n).map (fun i3 => (f ⟨i3, i3⟩).getD 0) ++
        (offEntries S n n f).map Prod.snd).getD i 0],
          st.1.index + 1⟩ : MergeAcc α), true)
      else st)) (acc, false)) =
    (⟨acc.inner.set (i + 1) (acc.index + (entryGroup S n n f i).length),
      acc.outer ++ (entryGroup S n n f i).map (fun e => e.1.minor S),
      acc.values ++ (entryGroup S n n f i).map Prod.snd,
      acc.index + (entryGroup S n n f i).length⟩ : MergeAcc α) := by
  subst N
  have hmd : majorDim S n n = n := by cases S <;> rfl
  have hOSf := offEntries_flatMap_rows S n n hmd f
  have hsucc := countLt_flatMap_succ S (offGroup S n n f) n
    (offGroup_major_rows S n n hmd f) i hi
  rw [← hOSf] at hsucc
  have hall : countLt S (offEntries S n n f) n =
      (offEntries S n n f).length := by
    apply countLt_all
    intro a ha
    have hmem : a ∈ (List.range n).flatMap (offGroup S n n f) := by
      rw [← hOSf]; exact ha
    rw [List.mem_flatMap] at hmem
    obtain ⟨r, hr, hain⟩ := hmem
    rw [List.mem_range] at hr
    rw [offGroup_major_rows S n n hmd f r hr a hain]
    exact hr
  have hdr : ∀ q, q < n → ((List.range n).map (fun i3 => (f ⟨i3, i3⟩).getD 0) ++
        (offEntries S n n f).map Prod.snd).getD q 0 = (f ⟨q, q⟩).getD 0 := by
    intro q hq
    rw [List.getD_append _ _ _ _
        (by rw [List.length_map, List.length_range]; omega),
      List.getD_eq_getElem _ _
        (by rw [List.length_map, List.length_range]; omega),
      List.getElem_map, List.getElem_range]
  have hstart : ((List.range n).map (fun q => n + countLt S (offEntries S n n f) q) ++
        (offEntries S n n f).map (fun e => e.1.minor S)).getD i 0 = n + countLt S (offEntries S n n f) i := by
    rw [List.getD_append _ _ _ _
        (by rw [List.length_map, List.length_range]; omega),
      List.getD_eq_getElem _ _
        (by rw [List.length_map, List.length_range]; omega),
      List.getElem_map, List.getElem_range]
  have hdiff : (if i + 1 = n then ((List.range n).map (fun i3 => (f ⟨i3, i3⟩).getD 0) ++
        (offEntries S n n f).map Prod.snd).length else ((List.range n).map (fun q => n + countLt S (offEntries S n n f) q) ++
        (offEntries S n n f).map (fun e => e.1.minor S)).getD (i + 1) 0) - ((List.range n).map (fun q => n + countLt S (offEntries S n n f) q) ++
        (offEntries S n n f).map (fun e => e.1.minor S)).getD i 0 = (offGroup S n n f i).length := by
    by_cases hlast : i + 1 = n
    · rw [if_pos hlast, hstart,
        show ((List.range n).map (fun i3 => (f ⟨i3, i3⟩).getD 0) ++
        (offEntries S n n f).map Prod.snd).length = n + (offEntries S n n f).length from by
          rw [List.length_append, List.length_map, List.length_map,
            List.length_range]]
      have hallc : countLt S (offEntries S n n f) (i + 1) =
          (offEntries S n n f).length := by rw [hlast]; exact hall
      omega
    · have hnext : ((List.range n).map (fun q => n + countLt S (offEntries S n n f) q) ++
        (offEntries S n n f).map (fun e => e.1.minor S)).getD (i + 1) 0 =
          n + countLt S (offEntries S n n f) (i + 1) := by
        rw [List.getD_append _ _ _ _
            (by rw [List.length_map, List.length_range]; omega),
          List.getD_eq_getElem _ _
            (by rw [List.length_map, List.length_range]; omega),
          List.getElem_map, List.getElem_range]
      rw [if_neg hlast, hstart, hnext]
      omega
  rw [hdr i hi, hdiff, hstart]
  have hifold : ∀ st0 : MergeAcc α × Bool,
      (List.range' (n + countLt S (offEntries S n n f) i)
        (offGroup S n n f i).length).foldl
        (fun (st : MergeAcc α × Bool) (j : ℕ) =>
      (fun st1 : MergeAcc α × Bool =>
        ((⟨st1.1.inner, st1.1.outer ++ [((List.range n).map (fun q => n + countLt S (offEntries S n n f) q) ++
        (offEntries S n n f).map (fun e => e.1.minor S)).getD j 0],
          st1.1.values ++ [((List.range n).map (fun i3 => (f ⟨i3, i3⟩).getD 0) ++
        (offEntries S n n f).map Prod.snd).getD j 0], st1.1.index⟩ : MergeAcc α),
          st1.2))
      (if ¬ st.2 ∧ (f ⟨i, i⟩).getD 0 ≠ 0 ∧ ((List.range n).map (fun q => n + countLt S (offEntries S n n f) q) ++
        (offEntries S n n f).map (fun e => e.1.minor S)).getD j 0 > i then
        ((⟨st.1.inner, st.1.outer ++ [i],
          st.1.values ++ [(f ⟨i, i⟩).getD 0],
          st.1.index + 1⟩ : MergeAcc α), true)
      else st)) st0 =
      (offGroup S n n f i).foldl
        (mergeStep S i ((f ⟨i, i⟩).getD 0)) st0 := by
    intro st0
    refine foldl_window _ _ _ _ st0 ?_
    intro t ht st
    rw [show n + countLt S (offEntries S n n f) i + t =
        n + (countLt S (offEntries S n n f) i + t) from by omega,
      msr_off_getD S n n f
        ((List.range n).map
          (fun q => n + countLt S (offEntries S n n f) q))
        (by rw [List.length_map, List.length_range]) hmd
        (fun e => e.1.minor S) i hi t ht 0,
      msr_off_getD S n n f
        ((List.range n).map (fun i3 => (f ⟨i3, i3⟩).getD 0))
        (by rw [List.length_map, List.length_range]) hmd
        Prod.snd i hi t ht (0 : α)]
    rfl
  rw [hifold]
  obtain ⟨A, B, hG, hOG, hAm, hBm⟩ := entryGroup_split_offdiag S n f i hi
  have hmini : (⟨i, i⟩ : Index).minor S = i := by cases S <;> rfl
  rw [hOG, List.foldl_append]
  cases hfd : f ⟨i, i⟩ with
  | none =>
    rw [hfd] at hG
    have hGn : entryGroup S n n f i = A ++ B := by
      rw [hG]; rfl
    rw [mergeStep_low S i ((Option.none : Option α).getD 0) A
        (fun e he h => h.1 rfl),
      mergeStep_low S i ((Option.none : Option α).getD 0) B
        (fun e he h => h.1 rfl), hGn]
    beta_reduce
    rw [merge_post_zero i ((Option.none : Option α).getD 0) rfl]
    dsimp only
    simp [List.append_assoc]
  | some v =>
    have hD : ((some v).getD 0 : α) ≠ 0 := hzf ⟨i, i⟩ v hfd
    rw [hfd] at hG
    have hGs : entryGroup S n n f i = A ++ ((⟨i, i⟩, v) :: B) := by
      rw [hG]; rfl
    rw [mergeStep_low S i ((some v).getD 0) A
        (fun e he h => by have h1 := hAm e he; exact absurd h.2 (by omega)),
      hGs]
    cases B with
    | nil =>
      rw [List.foldl_nil]
      beta_reduce
      rw [merge_post_emit i ((some v).getD 0) hD]
      dsimp only
      simp only [MergeAcc.mk.injEq]
      refine ⟨?_, ?_, ?_, ?_⟩
      · refine congrArg (acc.inner.set (i + 1)) ?_
        simp only [List.length_append, List.length_cons, List.length_nil,
          List.length_map]
        omega
      · simp [List.append_assoc, hmini]
      · simp [List.append_assoc]
      · simp only [List.length_append, List.length_cons, List.length_nil,
          List.length_map]
        omega
    | cons b B2 =>
      rw [mergeStep_high S i _ hD b (hBm b (List.mem_cons_self b B2)) B2]
      beta_reduce
      rw [merge_post_flag i ((some v).getD 0)]
      dsimp only
      simp only [MergeAcc.mk.injEq]
      refine ⟨?_, ?_, ?_, ?_⟩
      · refine congrArg (acc.inner.set (i + 1)) ?_
        simp only [List.length_append, List.length_cons, List.length_map]
        omega
      · simp [List.append_assoc, hmini]
      · simp [List.append_assoc]
      · simp only [List.length_append, List.length_cons, List.length_map]
        omega

/-- Folding the merge loop of `SquareMatrix::compress` from modified state
over all slices of the canonical MSR arrays produces exactly the canonical
CSR/CSC arrays of the stored map. -/
theorem merge_canonical (S : StorageOrder) (n : ℕ) (f : UMap α)
    (hzf : MapZF f) (N : ℕ) (hN : N = n) :
    (List.range N).foldl (fun (acc : MergeAcc α) (i : ℕ) =>
    (fun st : MergeAcc α × Bool =>
      (fun acc2 : MergeAcc α =>
        (⟨acc2.inner.set (i + 1) (acc2.index + ((if i + 1 = N then ((List.range n).map (fun i3 => (f ⟨i3, i3⟩).getD 0) ++
        (offEntries S n n f).map Prod.snd).length else ((List.range n).map (fun q => n + countLt S (offEntries S n n f) q) ++
        (offEntries S n n f).map (fun e => e.1.minor S)).getD (i + 1) 0) - ((List.range n).map (fun q => n + countLt S (offEntries S n n f) q) ++
        (offEntries S n n f).map (fun e => e.1.minor S)).getD i 0)),
          acc2.outer, acc2.values,
          acc2.index + ((if i + 1 = N then ((List.range n).map (fun i3 => (f ⟨i3, i3⟩).getD 0) ++
        (offEntries S n n f).map Prod.snd).length else ((List.range n).map (fun q => n + countLt S (offEntries S n n f) q) ++
        (offEntries S n n f).map (fun e => e.1.minor S)).getD (i + 1) 0) - ((List.range n).map (fun q => n + countLt S (offEntries S n n f) q) ++
        (offEntries S n n f).map (fun e => e.1.minor S)).getD i 0)⟩ : MergeAcc α))
      (if ¬ st.2 ∧ ((List.range n).map (fun i3 => (f ⟨i3, i3⟩).getD 0) ++
        (offEntries S n n f).map Prod.snd).getD i 0 ≠ 0 then
        (⟨st.1.inner, st.1.outer ++ [i], st.1.values ++ [((List.range n).map (fun i3 => (f ⟨i3, i3⟩).getD 0) ++
        (offEntries S n n f).map Prod.snd).getD i 0],
          st.1.index + 1⟩ : MergeAcc α)
      else st.1))
    ((List.range' (((List.range n).map (fun q => n + countLt S (offEntries S n n f) q) ++
        (offEntries S n n f).map (fun e => e.1.minor S)).getD i 0) ((if i + 1 = N then ((List.range n).map (fun i3 => (f ⟨i3, i3⟩).getD 0) ++
        (offEntries S n n f).map Prod.snd).length else ((List.range n).map (fun q => n + countLt S (offEntries S n n f) q) ++
        (offEntries S n n f).map (fun e => e.1.minor S)).getD (i + 1) 0) - ((List.range n).map (fun q => n + countLt S (offEntries S n n f) q) ++
        (offEntries S n n f).map (fun e => e.1.minor S)).getD i 0)).foldl
      (fun (st : MergeAcc α × Bool) (j : ℕ) =>
      (fun st1 : MergeAcc α × Bool =>
        ((⟨st1.1.inner, st1.1.outer ++ [((List.range n).map (fun q => n + countLt S (offEntries S n n f) q) ++
        (offEntries S n n f).map (fun e => e.1.minor S)).getD j 0],
          st1.1.values ++ [((List.range n).map (fun i3 => (f ⟨i3, i3⟩).getD 0) ++
        (offEntries S n n f).map Prod.snd).getD j 0], st1.1.index⟩ : MergeAcc α),
          st1.2))
      (if ¬ st.2 ∧ ((List.range n).map (fun i3 => (f ⟨i3, i3⟩).getD 0) ++
        (offEntries S n n f).map Prod.snd).getD i 0 ≠ 0 ∧ ((List.range n).map (fun q => n + countLt S (offEntries S n n f) q) ++
        (offEntries S n n f).map (fun e => e.1.minor S)).getD j 0 > i then
        ((⟨st.1.inner, st.1.outer ++ [i], st.1.values ++ [((List.range n).map (fun i3 => (f ⟨i3, i3⟩).getD 0) ++
        (offEntries S n n f).map Prod.snd).getD i 0],
          st.1.index + 1⟩ : MergeAcc α), true)
      else st)) (acc, false)))
      (⟨List.replicate (N + 1) 0, [], [], 0⟩ : MergeAcc α) =
    (⟨csrInner S n f, (entries S n n f).map (fun e => e.1.minor S),
      (entries S n n f).map Prod.snd,
      (entries S n n f).length⟩ : MergeAcc α) := by
  subst N
  have hmd : majorDim S n n = n := by cases S <;> rfl
  have hext : (List.range n).foldl (fun (acc : MergeAcc α) (i : ℕ) =>
    (fun st : MergeAcc α × Bool =>
      (fun acc2 : MergeAcc α =>
        (⟨acc2.inner.set (i + 1) (acc2.index + ((if i + 1 = n then ((List.range n).map (fun i3 => (f ⟨i3, i3⟩).getD 0) ++
        (offEntries S n n f).map Prod.snd).length else ((List.range n).map (fun q => n + countLt S (offEntries S n n f) q) ++
        (offEntries S n n f).map (fun e => e.1.minor S)).getD (i + 1) 0) - ((List.range n).map (fun q => n + countLt S (offEntries S n n f) q) ++
        (offEntries S n n f).map (fun e => e.1.minor S)).getD i 0)),
          acc2.outer, acc2.values,
          acc2.index + ((if i + 1 = n then ((List.range n).map (fun i3 => (f ⟨i3, i3⟩).getD 0) ++
        (offEntries S n n f).map Prod.snd).length else ((List.range n).map (fun q => n + countLt S (offEntries S n n f) q) ++
        (offEntries S n n f).map (fun e => e.1.minor S)).getD (i + 1) 0) - ((List.range n).map (fun q => n + countLt S (offEntries S n n f) q) ++
        (offEntries S n n f).map (fun e => e.1.minor S)).getD i 0)⟩ : MergeAcc α))
      (if ¬ st.2 ∧ ((List.range n).map (fun i3 => (f ⟨i3, i3⟩).getD 0) ++
        (offEntries S n n f).map Prod.snd).getD i 0 ≠ 0 then
        (⟨st.1.inner, st.1.outer ++ [i], st.1.values ++ [((List.range n).map (fun i3 => (f ⟨i3, i3⟩).getD 0) ++
        (offEntries S n n f).map Prod.snd).getD i 0],
          st.1.index + 1⟩ : MergeAcc α)
      else st.1))
    ((List.range' (((List.range n).map (fun q => n + countLt S (offEntries S n n f) q) ++
        (offEntries S n n f).map (fun e => e.1.minor S)).getD i 0) ((if i + 1 = n then ((List.range n).map (fun i3 => (f ⟨i3, i3⟩).getD 0) ++
        (offEntries S n n f).map Prod.snd).length else ((List.range n).map (fun q => n + countLt S (offEntries S n n f) q) ++
        (offEntries S n n f).map (fun e => e.1.minor S)).getD (i + 1) 0) - ((List.range n).map (fun q => n + countLt S (offEntries S n n f) q) ++
        (offEntries S n n f).map (fun e => e.1.minor S)).getD i 0)).foldl
      (fun (st : MergeAcc α × Bool) (j : ℕ) =>
      (fun st1 : MergeAcc α × Bool =>
        ((⟨st1.1.inner, st1.1.outer ++ [((List.range n).map (fun q => n + countLt S (offEntries S n n f) q) ++
        (offEntries S n n f).map (fun e => e.1.minor S)).getD j 0],
          st1.1.values ++ [((List.range n).map (fun i3 => (f ⟨i3, i3⟩).getD 0) ++
        (offEntries S n n f).map Prod.snd).getD j 0], st1.1.index⟩ : MergeAcc α),
          st1.2))
      (if ¬ st.2 ∧ ((List.range n).map (fun i3 => (f ⟨i3, i3⟩).getD 0) ++
        (offEntries S n n f).map Prod.snd).getD i 0 ≠ 0 ∧ ((List.range n).map (fun q => n + countLt S (offEntries S n n f) q) ++
        (offEntries S n n f).map (fun e => e.1.minor S)).getD j 0 > i then
        ((⟨st.1.inner, st.1.outer ++ [i], st.1.values ++ [((List.range n).map (fun i3 => (f ⟨i3, i3⟩).getD 0) ++
        (offEntries S n n f).map Prod.snd).getD i 0],
          st.1.index + 1⟩ : MergeAcc α), true)
      else st)) (acc, false)))
      (⟨List.replicate (n + 1) 0, [], [], 0⟩ : MergeAcc α) =
      (List.range n).foldl (mergeRow S n f)
        (⟨List.replicate (n + 1) 0, [], [], 0⟩ : MergeAcc α) := by
    apply List.foldl_ext
    intro a i hi
    exact merge_body S n f hzf n rfl a i (List.mem_range.mp hi)
  rw [hext]
  have hflat : (List.range n).flatMap (entryGroup S n n f) = entries S n n f := by
    rw [entries_eq_flatMap, hmd]
  have hinv : ∀ i, i ≤ n →
      ((List.range i).foldl (mergeRow S n f) (⟨List.replicate (n + 1) 0, [], [], 0⟩ : MergeAcc α)).inner.length = n + 1 ∧
      (∀ q, q ≤ i → ((List.range i).foldl (mergeRow S n f) (⟨List.replicate (n + 1) 0, [], [], 0⟩ : MergeAcc α)).inner.getD q 0 =
        countLt S (entries S n n f) q) ∧
      (∀ q, i < q → ((List.range i).foldl (mergeRow S n f) (⟨List.replicate (n + 1) 0, [], [], 0⟩ : MergeAcc α)).inner.getD q 0 = 0) ∧
      ((List.range i).foldl (mergeRow S n f) (⟨List.replicate (n + 1) 0, [], [], 0⟩ : MergeAcc α)).outer =
        ((List.range i).flatMap (entryGroup S n n f)).map (fun e => e.1.minor S) ∧
      ((List.range i).foldl (mergeRow S n f) (⟨List.replicate (n + 1) 0, [], [], 0⟩ : MergeAcc α)).values =
        ((List.range i).flatMap (entryGroup S n n f)).map Prod.snd ∧
      ((List.range i).foldl (mergeRow S n f) (⟨List.replicate (n + 1) 0, [], [], 0⟩ : MergeAcc α)).index =
        ((List.range i).flatMap (entryGroup S n n f)).length := by
    intro i
    induction i with
    | zero =>
      intro _
      simp only [List.range_zero, List.foldl_nil, List.flatMap_nil,
        List.map_nil, List.length_nil]
      refine ⟨by rw [List.length_replicate], ?_, ?_, ?_, ?_, ?_⟩
      · intro q hq
        have hq0 : q = 0 := Nat.le_zero.mp hq
        subst hq0
        rw [getD_replicate, countLt_zero]
      · intro q _
        rw [getD_replicate]
      · trivial
      · trivial
      · trivial
    | succ i ih =>
      intro hsi
      have hi : i < n := by omega
      obtain ⟨hlen, hle, hgt, ho, hv, hx⟩ := ih (by omega)
      rw [List.range_succ, List.foldl_append, List.foldl_cons, List.foldl_nil]
      have hmr : mergeRow S n f ((List.range i).foldl (mergeRow S n f) (⟨List.replicate (n + 1) 0, [], [], 0⟩ : MergeAcc α)) i =
          (⟨((List.range i).foldl (mergeRow S n f) (⟨List.replicate (n + 1) 0, [], [], 0⟩ : MergeAcc α)).inner.set (i + 1)
              (((List.range i).foldl (mergeRow S n f) (⟨List.replicate (n + 1) 0, [], [], 0⟩ : MergeAcc α)).index + (entryGroup S n n f i).length),
            ((List.range i).foldl (mergeRow S n f) (⟨List.replicate (n + 1) 0, [], [], 0⟩ : MergeAcc α)).outer ++ (entryGroup S n n f i).map (fun e => e.1.minor S),
            ((List.range i).foldl (mergeRow S n f) (⟨List.replicate (n + 1) 0, [], [], 0⟩ : MergeAcc α)).values ++ (entryGroup S n n f i).map Prod.snd,
            ((List.range i).foldl (mergeRow S n f) (⟨List.replicate (n + 1) 0, [], [], 0⟩ : MergeAcc α)).index + (entryGroup S n n f i).length⟩ : MergeAcc α) := rfl
      rw [hmr]
      dsimp only
      refine ⟨?_, ?_, ?_, ?_, ?_, ?_⟩
      · rw [List.length_set]
        exact hlen
      · intro q hq
        by_cases hqi : q = i + 1
        · subst hqi
          rw [getD_set_self _ _ _ _ (by rw [hlen]; omega)]
          rw [hx, countLt_succ_entries S n n f i (by rw [hmd]; omega),
            countLt_entries S n n f i (by rw [hmd]; omega)]
        · rw [getD_set_ne _ _ _ _ _ (by omega)]
          exact hle q (by omega)
      · intro q hq
        rw [getD_set_ne _ _ _ _ _ (by omega)]
        exact hgt q (by omega)
      · rw [ho, List.flatMap_append, List.map_append]
        simp
      · rw [hv, List.flatMap_append, List.map_append]
        simp
      · rw [hx, List.flatMap_append, List.length_append]
        simp
  obtain ⟨hlen, hle, hgt, ho, hv, hx⟩ := hinv n (le_refl n)
  have hinner : ((List.range n).foldl (mergeRow S n f) (⟨List.replicate (n + 1) 0, [], [], 0⟩ : MergeAcc α)).inner = csrInner S n f := by
    refine ext_getD _ _ 0 ?_ ?_
    · rw [hlen]
      unfold csrInner
      rw [List.length_map, List.length_range]
    · intro q hq
      rw [hlen] at hq
      rw [hle q (by omega)]
      unfold csrInner
      rw [List.getD_eq_getElem _ _
          (by rw [List.length_map, List.length_range]; omega),
        List.getElem_map, List.getElem_range]
  have heta : ((List.range n).foldl (mergeRow S n f) (⟨List.replicate (n + 1) 0, [], [], 0⟩ : MergeAcc α)) =
      (⟨((List.range n).foldl (mergeRow S n f) (⟨List.replicate (n + 1) 0, [], [], 0⟩ : MergeAcc α)).inner, ((List.range n).foldl (mergeRow S n f) (⟨List.replicate (n + 1) 0, [], [], 0⟩ : MergeAcc α)).outer,
        ((List.range n).foldl (mergeRow S n f) (⟨List.replicate (n + 1) 0, [], [], 0⟩ : MergeAcc α)).values, ((List.range n).foldl (mergeRow S n f) (⟨List.replicate (n + 1) 0, [], [], 0⟩ : MergeAcc α)).index⟩ : MergeAcc α) := rfl
  rw [heta, hinner, ho, hv, hx, hflat]

/-- `SquareMatrix::compress` maps the canonical ModifiedCompressed state to
the canonical Compressed state with the same logical contents. -/
theorem compress_from_msr (S : StorageOrder) (n : ℕ) (f : UMap α)
    (hzf : MapZF f) (q : SquareMatrix α) (hq : MsrSt S n f q) :
    CsrSt S n f (q.compress S) := by
  obtain ⟨hrows, hcols, hmod, hc, huf, hcf, hvals, hbind⟩ := hq
  cases S with
  | RowMajor =>
    refine ⟨?_, ?_, ?_, ?_, ?_, ?_, ?_, ?_⟩
    · unfold SquareMatrix.compress
      rw [hc, if_neg Bool.false_ne_true, hmod, if_pos rfl]
      exact hrows
    · unfold SquareMatrix.compress
      rw [hc, if_neg Bool.false_ne_true, hmod, if_pos rfl]
      exact hcols
    · unfold SquareMatrix.compress
      rw [hc, if_neg Bool.false_ne_true, hmod, if_pos rfl]
    · unfold SquareMatrix.compress
      rw [hc, if_neg Bool.false_ne_true, hmod, if_pos rfl]
    · unfold SquareMatrix.compress
      rw [hc, if_neg Bool.false_ne_true, hmod, if_pos rfl]
      exact huf
    · unfold SquareMatrix.compress
      rw [hc, if_neg Bool.false_ne_true, hmod, if_pos rfl, hvals, hbind]
      exact congrArg (fun a : MergeAcc α => a.inner)
        (merge_canonical StorageOrder.RowMajor n f hzf q.rows hrows)
    · unfold SquareMatrix.compress
      rw [hc, if_neg Bool.false_ne_true, hmod, if_pos rfl, hvals, hbind]
      exact congrArg (fun a : MergeAcc α => a.outer)
        (merge_canonical StorageOrder.RowMajor n f hzf q.rows hrows)
    · unfold SquareMatrix.compress
      rw [hc, if_neg Bool.false_ne_true, hmod, if_pos rfl, hvals, hbind]
      exact congrArg (fun a : MergeAcc α => a.values)
        (merge_canonical StorageOrder.RowMajor n f hzf q.rows hrows)
  | ColumnMajor =>
    refine ⟨?_, ?_, ?_, ?_, ?_, ?_, ?_, ?_⟩
    · unfold SquareMatrix.compress
      rw [hc, if_neg Bool.false_ne_true, hmod, if_pos rfl]
      exact hrows
    · unfold SquareMatrix.compress
      rw [hc, if_neg Bool.false_ne_true, hmod, if_pos rfl]
      exact hcols
    · unfold SquareMatrix.compress
      rw [hc, if_neg Bool.false_ne_true, hmod, if_pos rfl]
    · unfold SquareMatrix.compress
      rw [hc, if_neg Bool.false_ne_true, hmod, if_pos rfl]
    · unfold SquareMatrix.compress
      rw [hc, if_neg Bool.false_ne_true, hmod, if_pos rfl]
      exact huf
    · unfold SquareMatrix.compress
      rw [hc, if_neg Bool.false_ne_true, hmod, if_pos rfl, hvals, hbind]
      exact congrArg (fun a : MergeAcc α => a.inner)
        (merge_canonical StorageOrder.ColumnMajor n f hzf q.cols hcols)
    · unfold SquareMatrix.compress
      rw [hc, if_neg Bool.false_ne_true, hmod, if_pos rfl, hvals, hbind]
      exact congrArg (fun a : MergeAcc α => a.outer)
        (merge_canonical StorageOrder.ColumnMajor n f hzf q.cols hcols)
    · unfold SquareMatrix.compress
      rw [hc, if_neg Bool.false_ne_true, hmod, if_pos rfl, hvals, hbind]
      exact congrArg (fun a : MergeAcc α => a.values)
        (merge_canonical StorageOrder.ColumnMajor n f hzf q.cols hcols)

/-- A write run does not change the length of the buffer. -/
theorem writeRun_length {δ : Type} (xs : List δ) :
    ∀ (l : List δ) (p : ℕ), (writeRun l p xs).length = l.length := by
  induction xs with
  | nil => intro l p; rfl
  | cons x xs ih =>
    intro l p
    rw [writeRun, ih, List.length_set]

/-- A write run of a concatenation is two consecutive runs. -/
theorem writeRun_append {δ : Type} (xs ys : List δ) (l : List δ) (p : ℕ) :
    writeRun l p (xs ++ ys) = writeRun (writeRun l p xs) (p + xs.length) ys := by
  induction xs generalizing l p with
  | nil => rfl
  | cons x xs ih =>
    rw [List.cons_append, writeRun, writeRun, ih,
      show p + 1 + xs.length = p + (x :: xs).length from by
        rw [List.length_cons]; omega]

/-- A single write below the run window commutes with the run. -/
theorem writeRun_set_comm {δ : Type} (xs : List δ) :
    ∀ (l : List δ) (p i : ℕ) (a : δ), i < p →
      writeRun (l.set i a) p xs = (writeRun l p xs).set i a := by
  induction xs with
  | nil => intro l p i a _; rfl
  | cons x xs ih =>
    intro l p i a h
    rw [writeRun, writeRun, List.set_comm _ _ _ (show i ≠ p from by omega),
      ih _ _ _ _ (by omega)]

/-- Reads below the run window are unchanged. -/
theorem writeRun_getD_low {δ : Type} (xs : List δ) :
    ∀ (l : List δ) (p t : ℕ) (d : δ), t < p →
      (writeRun l p xs).getD t d = l.getD t d := by
  induction xs with
  | nil => intro l p t d _; rfl
  | cons x xs ih =>
    intro l p t d ht
    rw [writeRun, ih _ _ _ _ (by omega), getD_set_ne _ _ _ _ _ (by omega)]

/-- Reads inside the run window return the written elements. -/
theorem writeRun_getD_in {δ : Type} (xs : List δ) :
    ∀ (l : List δ) (p k : ℕ) (d : δ), k < xs.length → p + k < l.length →
      (writeRun l p xs).getD (p + k) d = xs.getD k d := by
  induction xs with
  | nil =>
    intro l p k d hk _
    exact absurd hk (by simp)
  | cons x xs ih =>
    intro l p k d hk hb
    cases k with
    | zero =>
      rw [writeRun, writeRun_getD_low xs _ _ _ _ (by omega), Nat.add_zero,
        getD_set_self _ _ _ _ (by omega)]
      rfl
    | succ k2 =>
      rw [writeRun, show p + (k2 + 1) = p + 1 + k2 from by omega,
        ih _ _ _ _ (by rw [List.length_cons] at hk; omega)
          (by rw [List.length_set]; omega),
        List.getD_cons_succ]

/-- Folding the slice-walk step over a run of off-diagonal entries appends
their values and minors to the off-diagonal region. -/
theorem modStep_off_run (S : StorageOrder) (n i : ℕ)
    (L : List (Index × α)) :
    ∀ acc : ModAcc α, (∀ e ∈ L, ¬ e.1.minor S = i) →
      L.foldl (modStep S n i) acc =
        ⟨writeRun acc.values (n + acc.off) (L.map Prod.snd),
          writeRun acc.bind (n + acc.off) (L.map (fun e => e.1.minor S)),
          acc.off + L.length⟩ := by
  induction L with
  | nil =>
    intro acc _
    rfl
  | cons e L ih =>
    intro acc hL
    have he : ¬ e.1.minor S = i := hL e (List.mem_cons_self e L)
    have hstep : modStep S n i acc e =
        ⟨acc.values.set (n + acc.off) e.2,
          acc.bind.set (n + acc.off) (e.1.minor S), acc.off + 1⟩ := by
      unfold modStep
      rw [if_neg he]
    rw [List.foldl_cons, hstep,
      ih _ (fun e2 he2 => hL e2 (List.mem_cons_of_mem e he2))]
    dsimp only
    simp only [List.map_cons, List.length_cons, writeRun, ModAcc.mk.injEq]
    refine ⟨rfl, rfl, by omega⟩

/-- The slice-walk step on a diagonal hit stores the value in the reserved
diagonal slot. -/
theorem modStep_diag (S : StorageOrder) (n i : ℕ) (acc : ModAcc α)
    (e : Index × α) (he : e.1.minor S = i) :
    modStep S n i acc e = ⟨acc.values.set i e.2, acc.bind, acc.off⟩ := by
  unfold modStep
  rw [if_pos he]

/-- `slicePositions` on the compress image of a fresh square store, with the
square spelling of the window. -/
theorem slicePositions_compress_sq (S : StorageOrder) (n : ℕ) (f : UMap α)
    (i : ℕ) (hi : i < n) :
    slicePositions (Matrix.compress S
        (⟨n, n, false, f, ⟨[], [], []⟩⟩ : Matrix α)).compressed_format.inner i =
      List.range' (countLt S (entries S n n f) i)
        (entryGroup S n n f i).length := by
  have hmd : majorDim S n n = n := by cases S <;> rfl
  exact slicePositions_compress S (⟨n, n, false, f, ⟨[], [], []⟩⟩ : Matrix α)
    rfl i (by show i < majorDim S n n; rw [hmd]; exact hi)

/-- The compressed arrays of the compress image of a fresh square store, at
a window position, with the square spelling. -/
theorem compress_window_sq (S : StorageOrder) (n : ℕ) (f : UMap α)
    (i : ℕ) (hi : i < n) (t : ℕ)
    (ht : t < (entryGroup S n n f i).length) :
    (Matrix.compress S
        (⟨n, n, false, f, ⟨[], [], []⟩⟩ : Matrix α)).compressed_format.outer.getD
        (countLt S (entries S n n f) i + t) 0 =
      ((entryGroup S n n f i).get ⟨t, ht⟩).1.minor S ∧
    (Matrix.compress S
        (⟨n, n, false, f, ⟨[], [], []⟩⟩ : Matrix α)).compressed_format.values.getD
        (countLt S (entries S n n f) i + t) 0 =
      ((entryGroup S n n f i).get ⟨t, ht⟩).2 := by
  have hmd : majorDim S n n = n := by cases S <;> rfl
  exact compress_window S (⟨n, n, false, f, ⟨[], [], []⟩⟩ : Matrix α)
    rfl i (by show i < majorDim S n n; rw [hmd]; exact hi) t ht

/-- The per-slice effect of the merge walk of the compressed branch of
`SquareMatrix::compress_mod`, as a write-run record. -/
theorem modRow_spec (S : StorageOrder) (n : ℕ) (f : UMap α) (i : ℕ)
    (hi : i < n) (acc : ModAcc α) :
    modRow S n f acc i =
      ⟨(f ⟨i, i⟩).elim
          (writeRun acc.values (n + acc.off)
            ((offGroup S n n f i).map Prod.snd))
          (fun v => (writeRun acc.values (n + acc.off)
            ((offGroup S n n f i).map Prod.snd)).set i v),
        writeRun (acc.bind.set i (acc.off + n)) (n + acc.off)
          ((offGroup S n n f i).map (fun e => e.1.minor S)),
        acc.off + (offGroup S n n f i).length⟩ := by
  obtain ⟨A, B, hG, hOG, hAm, hBm⟩ := entryGroup_split_offdiag S n f i hi
  have hmini : (⟨i, i⟩ : Index).minor S = i := by cases S <;> rfl
  unfold modRow
  rw [hG, List.foldl_append, List.foldl_append,
    modStep_off_run S n i A _ (fun e he => by have h2 := hAm e he; omega)]
  cases hfd : f ⟨i, i⟩ with
  | none =>
    rw [show (((Option.none : Option α).map
        (fun v => ((⟨i, i⟩ : Index), v))).toList : List (Index × α)) = []
      from rfl, List.foldl_nil,
      modStep_off_run S n i B _ (fun e he => by have h2 := hBm e he; omega)]
    dsimp only [Option.elim]
    rw [hOG, List.map_append, List.map_append, List.length_append,
      writeRun_append, writeRun_append]
    simp only [ModAcc.mk.injEq]
    refine ⟨?_, ?_, ?_⟩
    · rw [show n + (acc.off + A.length) = n + acc.off + A.length from by omega,
        List.length_map]
    · rw [show n + (acc.off + A.length) = n + acc.off + A.length from by omega,
        List.length_map]
    · omega
  | some v =>
    rw [show (((Option.some v).map
        (fun v2 => ((⟨i, i⟩ : Index), v2))).toList : List (Index × α)) =
        [((⟨i, i⟩ : Index), v)] from rfl,
      List.foldl_cons, List.foldl_nil, modStep_diag S n i _ _ hmini,
      modStep_off_run S n i B _ (fun e he => by have h2 := hBm e he; omega)]
    dsimp only [Option.elim]
    rw [hOG, List.map_append, List.map_append, List.length_append,
      writeRun_append, writeRun_append]
    rw [writeRun_set_comm (B.map Prod.snd) _ _ _ _ (by omega)]
    simp only [ModAcc.mk.injEq]
    refine ⟨?_, ?_, ?_⟩
    · rw [show n + (acc.off + A.length) = n + acc.off + A.length from by omega,
        List.length_map]
    · rw [show n + (acc.off + A.length) = n + acc.off + A.length from by omega,
        List.length_map]
    · omega

/-- One slice of the merge walk of the compressed branch of
`SquareMatrix::compress_mod` over the compress image of a fresh square
store equals the per-slice effect `modRow`. -/
theorem mod_body (S : StorageOrder) (n : ℕ) (f : UMap α) (acc : ModAcc α)
    (i : ℕ) (hi : i < n) :
    (slicePositions (Matrix.compress S (⟨n, n, false, f, ⟨[], [], []⟩⟩ : Matrix α)).compressed_format.inner i).foldl
      (fun (a : ModAcc α) (j : ℕ) =>
        if (Matrix.compress S (⟨n, n, false, f, ⟨[], [], []⟩⟩ : Matrix α)).compressed_format.outer.getD j 0 = i then
          (⟨a.values.set i ((Matrix.compress S (⟨n, n, false, f, ⟨[], [], []⟩⟩ : Matrix α)).compressed_format.values.getD j 0), a.bind,
            a.off⟩ : ModAcc α)
        else
          (⟨a.values.set (n + a.off) ((Matrix.compress S (⟨n, n, false, f, ⟨[], [], []⟩⟩ : Matrix α)).compressed_format.values.getD j 0),
            a.bind.set (n + a.off) ((Matrix.compress S (⟨n, n, false, f, ⟨[], [], []⟩⟩ : Matrix α)).compressed_format.outer.getD j 0),
            a.off + 1⟩ : ModAcc α))
      (⟨acc.values, acc.bind.set i (acc.off + n), acc.off⟩ : ModAcc α) = modRow S n f acc i := by
  rw [slicePositions_compress_sq S n f i hi]
  unfold modRow
  refine foldl_window (entryGroup S n n f i) _ (modStep S n i)
    (countLt S (entries S n n f) i) _ ?_
  intro t ht a
  obtain ⟨hwo, hwv⟩ := compress_window_sq S n f i hi t ht
  rw [hwo, hwv]
  rfl

/-- Folding the merge walk of the compressed branch of
`SquareMatrix::compress_mod` over all slices of the compress image of a
fresh square store produces the canonical MSR/MSC arrays. -/
theorem mod_canonical (S : StorageOrder) (n : ℕ) (f : UMap α) :
    (List.range n).foldl
      (fun (acc : ModAcc α) (i : ℕ) =>
        (slicePositions (Matrix.compress S (⟨n, n, false, f, ⟨[], [], []⟩⟩ : Matrix α)).compressed_format.inner i).foldl
      (fun (a : ModAcc α) (j : ℕ) =>
        if (Matrix.compress S (⟨n, n, false, f, ⟨[], [], []⟩⟩ : Matrix α)).compressed_format.outer.getD j 0 = i then
          (⟨a.values.set i ((Matrix.compress S (⟨n, n, false, f, ⟨[], [], []⟩⟩ : Matrix α)).compressed_format.values.getD j 0), a.bind,
            a.off⟩ : ModAcc α)
        else
          (⟨a.values.set (n + a.off) ((Matrix.compress S (⟨n, n, false, f, ⟨[], [], []⟩⟩ : Matrix α)).compressed_format.values.getD j 0),
            a.bind.set (n + a.off) ((Matrix.compress S (⟨n, n, false, f, ⟨[], [], []⟩⟩ : Matrix α)).compressed_format.outer.getD j 0),
            a.off + 1⟩ : ModAcc α))
      (⟨acc.values, acc.bind.set i (acc.off + n), acc.off⟩ : ModAcc α))
      (⟨List.replicate (n + (offEntries S n n f).length) 0,
        List.replicate (n + (offEntries S n n f).length) 0, 0⟩ : ModAcc α) =
    (⟨(List.range n).map (fun i => (f ⟨i, i⟩).getD 0) ++
        (offEntries S n n f).map Prod.snd,
      (List.range n).map (fun i => n + countLt S (offEntries S n n f) i) ++
        (offEntries S n n f).map (fun e => e.1.minor S),
      (offEntries S n n f).length⟩ : ModAcc α) := by
  have hmd : majorDim S n n = n := by cases S <;> rfl
  have hOSf := offEntries_flatMap_rows S n n hmd f
  have hext : (List.range n).foldl
      (fun (acc : ModAcc α) (i : ℕ) =>
        (slicePositions (Matrix.compress S (⟨n, n, false, f, ⟨[], [], []⟩⟩ : Matrix α)).compressed_format.inner i).foldl
      (fun (a : ModAcc α) (j : ℕ) =>
        if (Matrix.compress S (⟨n, n, false, f, ⟨[], [], []⟩⟩ : Matrix α)).compressed_format.outer.getD j 0 = i then
          (⟨a.values.set i ((Matrix.compress S (⟨n, n, false, f, ⟨[], [], []⟩⟩ : Matrix α)).compressed_format.values.getD j 0), a.bind,
            a.off⟩ : ModAcc α)
        else
          (⟨a.values.set (n + a.off) ((Matrix.compress S (⟨n, n, false, f, ⟨[], [], []⟩⟩ : Matrix α)).compressed_format.values.getD j 0),
            a.bind.set (n + a.off) ((Matrix.compress S (⟨n, n, false, f, ⟨[], [], []⟩⟩ : Matrix α)).compressed_format.outer.getD j 0),
            a.off + 1⟩ : ModAcc α))
      (⟨acc.values, acc.bind.set i (acc.off + n), acc.off⟩ : ModAcc α))
      (⟨List.replicate (n + (offEntries S n n f).length) 0,
        List.replicate (n + (offEntries S n n f).length) 0, 0⟩ : ModAcc α) =
      (List.range n).foldl (modRow S n f)
        (⟨List.replicate (n + (offEntries S n n f).length) 0,
          List.replicate (n + (offEntries S n n f).length) 0, 0⟩ : ModAcc α) := by
    apply List.foldl_ext
    intro a i hi
    exact mod_body S n f a i (List.mem_range.mp hi)
  rw [hext]
  have hall : countLt S (offEntries S n n f) n =
      (offEntries S n n f).length := by
    apply countLt_all
    intro a ha
    have hmem : a ∈ (List.range n).flatMap (offGroup S n n f) := by
      rw [← hOSf]; exact ha
    rw [List.mem_flatMap] at hmem
    obtain ⟨r, hr, hain⟩ := hmem
    rw [List.mem_range] at hr
    rw [offGroup_major_rows S n n hmd f r hr a hain]
    exact hr
  have hsucc : ∀ j, j < n → countLt S (offEntries S n n f) (j + 1) =
      countLt S (offEntries S n n f) j + (offGroup S n n f j).length := by
    intro j hj
    have h2 := countLt_flatMap_succ S (offGroup S n n f) n
      (offGroup_major_rows S n n hmd f) j hj
    rw [← hOSf] at h2
    exact h2
  have hOSget : ∀ j, j < n → ∀ k, ∀ hk : k < (offGroup S n n f j).length,
      (offEntries S n n f).getD
          (countLt S (offEntries S n n f) j + k) ((⟨0, 0⟩ : Index), (0 : α)) =
        (offGroup S n n f j).get ⟨k, hk⟩ := by
    intro j hj k hk
    rw [hOSf]
    exact flatMap_getD_group S (offGroup S n n f) n
      (offGroup_major_rows S n n hmd f) j hj k hk _
  have hcb : ∀ j, j < n → countLt S (offEntries S n n f) j +
      (offGroup S n n f j).length ≤ (offEntries S n n f).length :=
    fun j hj => countLt_off_bound S n n hmd f j hj
  have hinv : ∀ i, i ≤ n →
      ((List.range i).foldl (modRow S n f) (⟨List.replicate (n + (offEntries S n n f).length) 0, List.replicate (n + (offEntries S n n f).length) 0, 0⟩ : ModAcc α)).values.length = n + (offEntries S n n f).length ∧
      ((List.range i).foldl (modRow S n f) (⟨List.replicate (n + (offEntries S n n f).length) 0, List.replicate (n + (offEntries S n n f).length) 0, 0⟩ : ModAcc α)).bind.length = n + (offEntries S n n f).length ∧
      ((List.range i).foldl (modRow S n f) (⟨List.replicate (n + (offEntries S n n f).length) 0, List.replicate (n + (offEntries S n n f).length) 0, 0⟩ : ModAcc α)).off = countLt S (offEntries S n n f) i ∧
      (∀ p, p < n → ((List.range i).foldl (modRow S n f) (⟨List.replicate (n + (offEntries S n n f).length) 0, List.replicate (n + (offEntries S n n f).length) 0, 0⟩ : ModAcc α)).values.getD p 0 =
        if p < i then (f ⟨p, p⟩).getD 0 else 0) ∧
      (∀ p, p < n → ((List.range i).foldl (modRow S n f) (⟨List.replicate (n + (offEntries S n n f).length) 0, List.replicate (n + (offEntries S n n f).length) 0, 0⟩ : ModAcc α)).bind.getD p 0 =
        if p < i then n + countLt S (offEntries S n n f) p else 0) ∧
      (∀ t, t < countLt S (offEntries S n n f) i →
        ((List.range i).foldl (modRow S n f) (⟨List.replicate (n + (offEntries S n n f).length) 0, List.replicate (n + (offEntries S n n f).length) 0, 0⟩ : ModAcc α)).values.getD (n + t) 0 =
          ((offEntries S n n f).getD t ((⟨0, 0⟩ : Index), (0 : α))).2) ∧
      (∀ t, t < countLt S (offEntries S n n f) i →
        ((List.range i).foldl (modRow S n f) (⟨List.replicate (n + (offEntries S n n f).length) 0, List.replicate (n + (offEntries S n n f).length) 0, 0⟩ : ModAcc α)).bind.getD (n + t) 0 =
          ((offEntries S n n f).getD t ((⟨0, 0⟩ : Index), (0 : α))).1.minor S) := by
    intro i
    induction i with
    | zero =>
      intro _
      simp only [List.range_zero, List.foldl_nil]
      refine ⟨by rw [List.length_replicate], by rw [List.length_replicate],
        (countLt_zero S _).symm, ?_, ?_, ?_, ?_⟩
      · intro p hp
        rw [if_neg (show ¬ p < 0 from by omega), getD_replicate]
      · intro p hp
        rw [if_neg (show ¬ p < 0 from by omega), getD_replicate]
      · intro t ht
        rw [countLt_zero] at ht
        exact absurd ht (Nat.not_lt_zero t)
      · intro t ht
        rw [countLt_zero] at ht
        exact absurd ht (Nat.not_lt_zero t)
    | succ i ih =>
      intro hsi
      have hi : i < n := by omega
      obtain ⟨hvl, hbl, hoff, hdv, hdb, hov, hob⟩ := ih (by omega)
      rw [List.range_succ, List.foldl_append, List.foldl_cons, List.foldl_nil,
        modRow_spec S n f i hi _]
      dsimp only
      refine ⟨?_, ?_, ?_, ?_, ?_, ?_, ?_⟩
      · cases hfd : f ⟨i, i⟩ with
        | none =>
          dsimp only [Option.elim]
          rw [writeRun_length]
          exact hvl
        | some v =>
          dsimp only [Option.elim]
          rw [List.length_set, writeRun_length]
          exact hvl
      · rw [writeRun_length, List.length_set]
        exact hbl
      · rw [hoff, hsucc i hi]
      · intro p hp
        cases hfd : f ⟨i, i⟩ with
        | none =>
          dsimp only [Option.elim]
          rw [writeRun_getD_low _ _ _ _ _ (by omega), hdv p hp]
          by_cases hpi : p = i
          · subst p
            rw [if_neg (show ¬ i < i from by omega),
              if_pos (show i < i + 1 from by omega), hfd]
            rfl
          · by_cases h2 : p < i
            · rw [if_pos h2, if_pos (show p < i + 1 from by omega)]
            · rw [if_neg h2, if_neg (show ¬ p < i + 1 from by omega)]
        | some v =>
          dsimp only [Option.elim]
          by_cases hpi : p = i
          · subst p
            rw [getD_set_self _ _ _ _ (by rw [writeRun_length, hvl]; omega),
              if_pos (show i < i + 1 from by omega), hfd]
            rfl
          · rw [getD_set_ne _ _ _ _ _ (show i ≠ p from by omega),
              writeRun_getD_low _ _ _ _ _ (by omega), hdv p hp]
            by_cases h2 : p < i
            · rw [if_pos h2, if_pos (show p < i + 1 from by omega)]
            · rw [if_neg h2, if_neg (show ¬ p < i + 1 from by omega)]
      · intro p hp
        by_cases hpi : p = i
        · subst p
          rw [writeRun_getD_low _ _ _ _ _ (by omega),
            getD_set_self _ _ _ _ (by rw [hbl]; omega),
            if_pos (show i < i + 1 from by omega), hoff]
          omega
        · rw [writeRun_getD_low _ _ _ _ _ (by omega),
            getD_set_ne _ _ _ _ _ (show i ≠ p from by omega), hdb p hp]
          by_cases h2 : p < i
          · rw [if_pos h2, if_pos (show p < i + 1 from by omega)]
          · rw [if_neg h2, if_neg (show ¬ p < i + 1 from by omega)]
      · intro t ht
        rw [hsucc i hi] at ht
        by_cases hlo : t < countLt S (offEntries S n n f) i
        · cases hfd : f ⟨i, i⟩ with
          | none =>
            dsimp only [Option.elim]
            rw [hoff, writeRun_getD_low _ _ _ _ _ (by omega)]
            exact hov t hlo
          | some v =>
            dsimp only [Option.elim]
            rw [getD_set_ne _ _ _ _ _ (show i ≠ n + t from by omega), hoff,
              writeRun_getD_low _ _ _ _ _ (by omega)]
            exact hov t hlo
        · obtain ⟨k, hkt⟩ : ∃ k, t = countLt S (offEntries S n n f) i + k :=
            ⟨t - countLt S (offEntries S n n f) i, by omega⟩
          subst hkt
          have hk : k < (offGroup S n n f i).length := by omega
          cases hfd : f ⟨i, i⟩ with
          | none =>
            dsimp only [Option.elim]
            rw [hoff,
              show n + (countLt S (offEntries S n n f) i + k) =
                n + countLt S (offEntries S n n f) i + k from by omega,
              writeRun_getD_in _ _ _ _ _
                (by rw [List.length_map]; exact hk)
                (by rw [hvl]; have hb2 := hcb i hi; omega),
              hOSget i hi k hk,
              List.getD_eq_getElem _ _ (by rw [List.length_map]; exact hk),
              List.getElem_map]
            rfl
          | some v =>
            dsimp only [Option.elim]
            rw [getD_set_ne _ _ _ _ _
                (show i ≠ n + (countLt S (offEntries S n n f) i + k)
                  from by omega), hoff,
              show n + (countLt S (offEntries S n n f) i + k) =
                n + countLt S (offEntries S n n f) i + k from by omega,
              writeRun_getD_in _ _ _ _ _
                (by rw [List.length_map]; exact hk)
                (by rw [hvl]; have hb2 := hcb i hi; omega),
              hOSget i hi k hk,
              List.getD_eq_getElem _ _ (by rw [List.length_map]; exact hk),
              List.getElem_map]
            rfl
      · intro t ht
        rw [hsucc i hi] at ht
        by_cases hlo : t < countLt S (offEntries S n n f) i
        · rw [hoff, writeRun_getD_low _ _ _ _ _ (by omega),
            getD_set_ne _ _ _ _ _ (show i ≠ n + t from by omega)]
          exact hob t hlo
        · obtain ⟨k, hkt⟩ : ∃ k, t = countLt S (offEntries S n n f) i + k :=
            ⟨t - countLt S (offEntries S n n f) i, by omega⟩
          subst hkt
          have hk : k < (offGroup S n n f i).length := by omega
          rw [hoff,
            show n + (countLt S (offEntries S n n f) i + k) =
              n + countLt S (offEntries S n n f) i + k from by omega,
            writeRun_getD_in _ _ _ _ _
              (by rw [List.length_map]; exact hk)
              (by rw [List.length_set, hbl]; have hb2 := hcb i hi; omega),
            hOSget i hi k hk,
            List.getD_eq_getElem _ _ (by rw [List.length_map]; exact hk),
            List.getElem_map]
          rfl
  obtain ⟨hvl, hbl, hoff, hdv, hdb, hov, hob⟩ := hinv n (le_refl n)
  have hveq : ((List.range n).foldl (modRow S n f) (⟨List.replicate (n + (offEntries S n n f).length) 0, List.replicate (n + (offEntries S n n f).length) 0, 0⟩ : ModAcc α)).values =
      (List.range n).map (fun i => (f ⟨i, i⟩).getD 0) ++
        (offEntries S n n f).map Prod.snd := by
    refine ext_getD _ _ 0 ?_ ?_
    · rw [hvl, List.length_append, List.length_map, List.length_map,
        List.length_range]
    · intro p hp
      rw [hvl] at hp
      by_cases hpn : p < n
      · rw [hdv p hpn, if_pos hpn,
          List.getD_append _ _ _ _
            (by rw [List.length_map, List.length_range]; omega),
          List.getD_eq_getElem _ _
            (by rw [List.length_map, List.length_range]; omega),
          List.getElem_map, List.getElem_range]
      · obtain ⟨k, hkp⟩ : ∃ k, p = n + k := ⟨p - n, by omega⟩
        subst hkp
        have hk : k < (offEntries S n n f).length := by omega
        rw [hov k (by rw [hall]; exact hk),
          List.getD_eq_getElem _ _ hk,
          show ((n : ℕ) + k) =
            ((List.range n).map (fun i => (f ⟨i, i⟩).getD (0 : α))).length + k
            from by rw [List.length_map, List.length_range],
          getD_append_offset,
          List.getD_eq_getElem _ _ (by rw [List.length_map]; exact hk),
          List.getElem_map]
  have hbeq : ((List.range n).foldl (modRow S n f) (⟨List.replicate (n + (offEntries S n n f).length) 0, List.replicate (n + (offEntries S n n f).length) 0, 0⟩ : ModAcc α)).bind =
      (List.range n).map (fun i => n + countLt S (offEntries S n n f) i) ++
        (offEntries S n n f).map (fun e => e.1.minor S) := by
    refine ext_getD _ _ 0 ?_ ?_
    · rw [hbl, List.length_append, List.length_map, List.length_map,
        List.length_range]
    · intro p hp
      rw [hbl] at hp
      by_cases hpn : p < n
      · rw [hdb p hpn, if_pos hpn,
          List.getD_append _ _ _ _
            (by rw [List.length_map, List.length_range]; omega),
          List.getD_eq_getElem _ _
            (by rw [List.length_map, List.length_range]; omega),
          List.getElem_map, List.getElem_range]
      · obtain ⟨k, hkp⟩ : ∃ k, p = n + k := ⟨p - n, by omega⟩
        subst hkp
        have hk : k < (offEntries S n n f).length := by omega
        rw [hob k (by rw [hall]; exact hk),
          List.getD_eq_getElem _ _ hk,
          show ((n : ℕ) + k) = ((List.range n).map
            (fun i => n + countLt S (offEntries S n n f) i)).length + k
            from by rw [List.length_map, List.length_range],
          getD_append_offset,
          List.getD_eq_getElem _ _ (by rw [List.length_map]; exact hk),
          List.getElem_map]
  have heta : ((List.range n).foldl (modRow S n f) (⟨List.replicate (n + (offEntries S n n f).length) 0, List.replicate (n + (offEntries S n n f).length) 0, 0⟩ : ModAcc α)) =
      (⟨((List.range n).foldl (modRow S n f) (⟨List.replicate (n + (offEntries S n n f).length) 0, List.replicate (n + (offEntries S n n f).length) 0, 0⟩ : ModAcc α)).values, ((List.range n).foldl (modRow S n f) (⟨List.replicate (n + (offEntries S n n f).length) 0, List.replicate (n + (offEntries S n n f).length) 0, 0⟩ : ModAcc α)).bind, ((List.range n).foldl (modRow S n f) (⟨List.replicate (n + (offEntries S n n f).length) 0, List.replicate (n + (offEntries S n n f).length) 0, 0⟩ : ModAcc α)).off⟩ : ModAcc α) := rfl
  rw [heta, hveq, hbeq, hoff, hall]

/-- A matrix in the canonical Compressed state is, as a record, the compress
image of a fresh uncompressed store holding the same map. -/
theorem csr_eq_compress (S : StorageOrder) (n : ℕ) (f : UMap α)
    (q : SquareMatrix α) (hq : CsrSt S n f q) :
    q.toMatrix = Matrix.compress S (⟨n, n, false, f, ⟨[], [], []⟩⟩ : Matrix α) := by
  obtain ⟨hrows, hcols, hmod, hcomp, huf, hinner, houter, hvals⟩ := hq
  obtain ⟨hr0, hc0, hcm0, huf0, ho0, hv0, hil0, hig0⟩ :=
    compress_spec S (⟨n, n, false, f, ⟨[], [], []⟩⟩ : Matrix α) rfl
  have hmd : majorDim S n n = n := by cases S <;> rfl
  have hmd0 : majorDim S (⟨n, n, false, f, ⟨[], [], []⟩⟩ : Matrix α).rows (⟨n, n, false, f, ⟨[], [], []⟩⟩ : Matrix α).cols = n := hmd
  have hE : entries S (⟨n, n, false, f, ⟨[], [], []⟩⟩ : Matrix α).rows (⟨n, n, false, f, ⟨[], [], []⟩⟩ : Matrix α).cols (⟨n, n, false, f, ⟨[], [], []⟩⟩ : Matrix α).uncompressed_format =
      entries S n n f := rfl
  have hinner0 : (Matrix.compress S (⟨n, n, false, f, ⟨[], [], []⟩⟩ : Matrix α)).compressed_format.inner =
      csrInner S n f := by
    refine ext_getD _ _ 0 ?_ ?_
    · rw [hil0, hmd0]
      unfold csrInner
      rw [List.length_map, List.length_range]
    · intro t ht
      rw [hil0, hmd0] at ht
      rw [hig0 t (by rw [hmd0]; omega), hE]
      unfold csrInner
      rw [List.getD_eq_getElem _ _
          (by rw [List.length_map, List.length_range]; omega),
        List.getElem_map, List.getElem_range]
  have hcf : q.compressed_format =
      (Matrix.compress S (⟨n, n, false, f, ⟨[], [], []⟩⟩ : Matrix α)).compressed_format := by
    have he1 : q.compressed_format =
        (⟨q.compressed_format.inner, q.compressed_format.outer,
          q.compressed_format.values⟩ : CompressedStorage α) := rfl
    have he2 : (Matrix.compress S (⟨n, n, false, f, ⟨[], [], []⟩⟩ : Matrix α)).compressed_format =
        (⟨(Matrix.compress S (⟨n, n, false, f, ⟨[], [], []⟩⟩ : Matrix α)).compressed_format.inner,
          (Matrix.compress S (⟨n, n, false, f, ⟨[], [], []⟩⟩ : Matrix α)).compressed_format.outer,
          (Matrix.compress S (⟨n, n, false, f, ⟨[], [], []⟩⟩ : Matrix α)).compressed_format.values⟩ :
            CompressedStorage α) := rfl
    rw [he1, he2, hinner, hinner0, houter, ho0, hvals, hv0, hE]
  have heq : q.toMatrix =
      (⟨q.toMatrix.rows, q.toMatrix.cols, q.toMatrix.compressed,
        q.toMatrix.uncompressed_format, q.toMatrix.compressed_format⟩ :
          Matrix α) := rfl
  have heq0 : Matrix.compress S (⟨n, n, false, f, ⟨[], [], []⟩⟩ : Matrix α) =
      (⟨(Matrix.compress S (⟨n, n, false, f, ⟨[], [], []⟩⟩ : Matrix α)).rows, (Matrix.compress S (⟨n, n, false, f, ⟨[], [], []⟩⟩ : Matrix α)).cols,
        (Matrix.compress S (⟨n, n, false, f, ⟨[], [], []⟩⟩ : Matrix α)).compressed,
        (Matrix.compress S (⟨n, n, false, f, ⟨[], [], []⟩⟩ : Matrix α)).uncompressed_format,
        (Matrix.compress S (⟨n, n, false, f, ⟨[], [], []⟩⟩ : Matrix α)).compressed_format⟩ : Matrix α) := rfl
  rw [heq, heq0]
  simp only [Matrix.mk.injEq]
  refine ⟨?_, ?_, ?_, ?_, hcf⟩
  · rw [hrows, hr0]
  · rw [hcols, hc0]
  · rw [hcomp, hcm0]
  · rw [huf, huf0]

/-- `SquareMatrix::get_mod_size` on the canonical Compressed state of a
zero-free square store: the reserved diagonal prefix plus the off-diagonal
entries. -/
theorem get_mod_size_csr (S : StorageOrder) (n : ℕ) (f : UMap α)
    (hzf : MapZF f) (q : SquareMatrix α) (hq : CsrSt S n f q) :
    q.get_mod_size S = n + (offEntries S n n f).length := by
  have hB := csr_eq_compress S n f q hq
  obtain ⟨hrows, hcols, hmod, hcomp, huf, hinner, houter, hvals⟩ := hq
  obtain ⟨hr0, hc0, hcm0, huf0, ho0, hv0, hil0, hig0⟩ :=
    compress_spec S (⟨n, n, false, f, ⟨[], [], []⟩⟩ : Matrix α) rfl
  have hE : entries S (⟨n, n, false, f, ⟨[], [], []⟩⟩ : Matrix α).rows (⟨n, n, false, f, ⟨[], [], []⟩⟩ : Matrix α).cols (⟨n, n, false, f, ⟨[], [], []⟩⟩ : Matrix α).uncompressed_format =
      entries S n n f := rfl
  unfold SquareMatrix.get_mod_size SquareMatrix.get_nnz
  rw [hmod, if_neg Bool.false_ne_true]
  unfold Matrix.get_nnz
  rw [hrows, hB, hcm0, if_pos rfl, hv0, hE, List.length_map]
  have hfc : (List.range n).filter
      (fun i => decide (SquareMatrix.getVal S q i i = 0)) =
      (List.range n).filter (fun i => decide ((f ⟨i, i⟩).getD 0 = 0)) := by
    refine List.filter_congr ?_
    intro i hi
    rw [List.mem_range] at hi
    have hgv : SquareMatrix.getVal S q i i = (f ⟨i, i⟩).getD 0 := by
      unfold SquareMatrix.getVal SquareMatrix.get
      rw [if_neg (show ¬ (i ≥ q.rows ∨ i ≥ q.cols) from by
          rw [hrows, hcols]; omega),
        hmod, if_neg Bool.false_ne_true, hB,
        get_compress S (⟨n, n, false, f, ⟨[], [], []⟩⟩ : Matrix α) rfl i i hi hi]
    rw [hgv]
  rw [hfc]
  exact mod_size_core S n f hzf

/-- `SquareMatrix::compress_mod` maps the canonical Compressed state to the
canonical ModifiedCompressed state with the same logical contents. -/
theorem csr_to_msr (S : StorageOrder) (n : ℕ) (f : UMap α) (hzf : MapZF f)
    (q : SquareMatrix α) (hq : CsrSt S n f q) :
    MsrSt S n f (q.compress_mod S) := by
  have hB := csr_eq_compress S n f q hq
  have hsz := get_mod_size_csr S n f hzf q hq
  obtain ⟨hrows, hcols, hmod, hcomp, huf, hinner, houter, hvals⟩ := hq
  refine ⟨?_, ?_, ?_, ?_, ?_, ?_, ?_, ?_⟩
  · unfold SquareMatrix.compress_mod
    rw [hmod, if_neg Bool.false_ne_true, hcomp, if_pos rfl]
    exact hrows
  · unfold SquareMatrix.compress_mod
    rw [hmod, if_neg Bool.false_ne_true, hcomp, if_pos rfl]
    exact hcols
  · unfold SquareMatrix.compress_mod
    rw [hmod, if_neg Bool.false_ne_true, hcomp, if_pos rfl]
  · unfold SquareMatrix.compress_mod
    rw [hmod, if_neg Bool.false_ne_true, hcomp, if_pos rfl]
  · unfold SquareMatrix.compress_mod
    rw [hmod, if_neg Bool.false_ne_true, hcomp, if_pos rfl]
    exact huf
  · unfold SquareMatrix.compress_mod
    rw [hmod, if_neg Bool.false_ne_true, hcomp, if_pos rfl]
  · unfold SquareMatrix.compress_mod
    rw [hmod, if_neg Bool.false_ne_true, hcomp, if_pos rfl, hrows, hsz, hB]
    exact congrArg (fun a : ModAcc α => a.values) (mod_canonical S n f)
  · unfold SquareMatrix.compress_mod
    rw [hmod, if_neg Bool.false_ne_true, hcomp, if_pos rfl, hrows, hsz, hB]
    exact congrArg (fun a : ModAcc α => a.bind) (mod_canonical S n f)

/-- The uncompressed branch of `SquareMatrix::compress_mod` leaves the
compressed storage of the general-matrix part untouched. -/
theorem compress_mod_cf (S : StorageOrder) (m : SquareMatrix α)
    (hmod : m.modified = false) (hc : m.compressed = false) :
    (m.compress_mod S).compressed_format = m.compressed_format := by
  unfold SquareMatrix.compress_mod
  rw [hmod, if_neg Bool.false_ne_true, hc, if_neg Bool.false_ne_true]

/-- `Matrix::uncompress` on a compressed matrix clears the compressed
storage. -/
theorem uncompress_cf_empty (S : StorageOrder) (m : Matrix α)
    (hc : m.compressed = true) :
    (m.uncompress S).compressed_format =
      (⟨[], [], []⟩ : CompressedStorage α) := by
  unfold Matrix.uncompress
  rw [hc, if_neg (show ¬ ¬ (true = true) from fun h => h rfl)]

/-- `compress_mod` maps the Uncompressed state to the canonical
ModifiedCompressed state. -/
theorem coo_to_msr (S : StorageOrder) (n : ℕ) (f : UMap α)
    (hwf : MapWF n n f) (hzf : MapZF f) (hN : 1 ≤ n) (q : SquareMatrix α)
    (hq : CooSt n f q) : MsrSt S n f (q.compress_mod S) := by
  obtain ⟨hrows, hcols, hmod, hc, huf, hcf⟩ := hq
  have hsq : q.rows = q.cols := by rw [hrows, hcols]
  have hwf2 : MapWF q.rows q.cols q.uncompressed_format := by
    rw [hrows, hcols, huf]
    exact hwf
  have hzf2 : MapZF q.uncompressed_format := by
    rw [huf]
    exact hzf
  have hN2 : 1 ≤ q.rows := by
    rw [hrows]
    exact hN
  obtain ⟨h1, h2, h3, h4, h5, h6, h7⟩ :=
    compress_mod_spec S q hmod hc hsq hwf2 hzf2 hN2
  refine ⟨?_, ?_, h4, h3, h5, ?_, ?_, ?_⟩
  · rw [h1, hrows]
  · rw [h2, hcols]
  · rw [compress_mod_cf S q hmod hc, hcf]
  · rw [h6, hrows, hcols, huf]
  · rw [h7, hrows, hcols, huf]

/-- `compress` maps the Uncompressed state to the canonical Compressed
state. -/
theorem coo_to_csr (S : StorageOrder) (n : ℕ) (f : UMap α)
    (q : SquareMatrix α) (hq : CooSt n f q) : CsrSt S n f (q.compress S) := by
  obtain ⟨hrows, hcols, hmod, hc, huf, hcf⟩ := hq
  obtain ⟨h1, h2, h3, h4, h5, h6, h7, h8⟩ := compress_spec S q.toMatrix hc
  have hmdq : majorDim S q.rows q.cols = n := by
    rw [hrows, hcols]
    cases S <;> rfl
  have hEq : entries S q.rows q.cols q.uncompressed_format =
      entries S n n f := by
    rw [hrows, hcols, huf]
  refine ⟨?_, ?_, ?_, ?_, ?_, ?_, ?_, ?_⟩
  · unfold SquareMatrix.compress
    rw [hc, if_neg Bool.false_ne_true, hmod, if_neg Bool.false_ne_true]
    show (q.toMatrix.compress S).rows = n
    rw [h1]
    exact hrows
  · unfold SquareMatrix.compress
    rw [hc, if_neg Bool.false_ne_true, hmod, if_neg Bool.false_ne_true]
    show (q.toMatrix.compress S).cols = n
    rw [h2]
    exact hcols
  · unfold SquareMatrix.compress
    rw [hc, if_neg Bool.false_ne_true, hmod, if_neg Bool.false_ne_true]
  · unfold SquareMatrix.compress
    rw [hc, if_neg Bool.false_ne_true, hmod, if_neg Bool.false_ne_true]
    show (q.toMatrix.compress S).compressed = true
    exact h3
  · unfold SquareMatrix.compress
    rw [hc, if_neg Bool.false_ne_true, hmod, if_neg Bool.false_ne_true]
    show (q.toMatrix.compress S).uncompressed_format = UMap.empty
    exact h4
  · unfold SquareMatrix.compress
    rw [hc, if_neg Bool.false_ne_true, hmod, if_neg Bool.false_ne_true]
    show (q.toMatrix.compress S).compressed_format.inner = csrInner S n f
    refine ext_getD _ _ 0 ?_ ?_
    · rw [h7, hmdq]
      unfold csrInner
      rw [List.length_map, List.length_range]
    · intro t ht
      rw [h7, hmdq] at ht
      rw [h8 t (by rw [hmdq]; omega), hEq]
      unfold csrInner
      rw [List.getD_eq_getElem _ _
          (by rw [List.length_map, List.length_range]; omega),
        List.getElem_map, List.getElem_range]
  · unfold SquareMatrix.compress
    rw [hc, if_neg Bool.false_ne_true, hmod, if_neg Bool.false_ne_true]
    show (q.toMatrix.compress S).compressed_format.outer =
      (entries S n n f).map (fun e => e.1.minor S)
    rw [h5, hEq]
  · unfold SquareMatrix.compress
    rw [hc, if_neg Bool.false_ne_true, hmod, if_neg Bool.false_ne_true]
    show (q.toMatrix.compress S).compressed_format.values =
      (entries S n n f).map Prod.snd
    rw [h6, hEq]

/-- `uncompress` on the Uncompressed state is the identity. -/
theorem coo_to_coo (S : StorageOrder) (n : ℕ) (f : UMap α)
    (q : SquareMatrix α) (hq : CooSt n f q) : CooSt n f (q.uncompress S) := by
  obtain ⟨hrows, hcols, hmod, hc, huf, hcf⟩ := hq
  have hform : q.uncompress S =
      (⟨q.toMatrix, false, q.compressed_format_mod⟩ : SquareMatrix α) := by
    unfold SquareMatrix.uncompress Matrix.uncompress
    rw [hmod, if_neg Bool.false_ne_true, hc,
      if_pos (show ¬ (false = true) from Bool.false_ne_true)]
  rw [hform]
  exact ⟨hrows, hcols, rfl, hc, huf, hcf⟩

/-- `compress_mod` on the ModifiedCompressed state is the identity. -/
theorem msr_to_msr (S : StorageOrder) (n : ℕ) (f : UMap α)
    (q : SquareMatrix α) (hq : MsrSt S n f q) :
    MsrSt S n f (q.compress_mod S) := by
  have hform : q.compress_mod S = q := by
    unfold SquareMatrix.compress_mod
    rw [hq.2.2.1, if_pos rfl]
  rw [hform]
  exact hq

/-- `uncompress` maps the canonical ModifiedCompressed state back to the
Uncompressed state holding the same map. -/
theorem msr_to_coo (S : StorageOrder) (n : ℕ) (f : UMap α)
    (hwf : MapWF n n f) (hzf : MapZF f) (q : SquareMatrix α)
    (hq : MsrSt S n f q) : CooSt n f (q.uncompress S) := by
  obtain ⟨hrows, hcols, hmod, hc, huf, hcf, hvals, hbind⟩ := hq
  refine ⟨?_, ?_, ?_, ?_, ?_, ?_⟩
  · unfold SquareMatrix.uncompress
    rw [hmod, if_pos rfl]
    exact hrows
  · unfold SquareMatrix.uncompress
    rw [hmod, if_pos rfl]
    exact hcols
  · unfold SquareMatrix.uncompress
    rw [hmod, if_pos rfl]
  · unfold SquareMatrix.uncompress
    rw [hmod, if_pos rfl]
    exact hc
  · cases S with
    | RowMajor =>
      unfold SquareMatrix.uncompress
      rw [hmod, if_pos rfl, hvals, hbind]
      exact msr_rebuild .RowMajor n f hwf hzf _ hrows
    | ColumnMajor =>
      unfold SquareMatrix.uncompress
      rw [hmod, if_pos rfl, hvals, hbind]
      exact msr_rebuild .ColumnMajor n f hwf hzf _ hcols
  · unfold SquareMatrix.uncompress
    rw [hmod, if_pos rfl]
    exact hcf

/-- `compress` on the Compressed state is the identity. -/
theorem csr_to_csr (S : StorageOrder) (n : ℕ) (f : UMap α)
    (q : SquareMatrix α) (hq : CsrSt S n f q) :
    CsrSt S n f (q.compress S) := by
  have hform : q.compress S = q := by
    unfold SquareMatrix.compress
    rw [hq.2.2.2.1, if_pos rfl]
  rw [hform]
  exact hq

/-- `uncompress` maps the canonical Compressed state back to the
Uncompressed state holding the same map. -/
theorem csr_to_coo (S : StorageOrder) (n : ℕ) (f : UMap α)
    (hwf : MapWF n n f) (q : SquareMatrix α) (hq : CsrSt S n f q) :
    CooSt n f (q.uncompress S) := by
  have hB := csr_eq_compress S n f q hq
  obtain ⟨hrows, hcols, hmod, hcomp, huf, hinner, houter, hvals⟩ := hq
  obtain ⟨hu1, hu2, hu3, hu4⟩ := uncompress_compress_map S (⟨n, n, false, f, ⟨[], [], []⟩⟩ : Matrix α) rfl hwf
  have hcm0 : (Matrix.compress S (⟨n, n, false, f, ⟨[], [], []⟩⟩ : Matrix α)).compressed = true :=
    (compress_spec S (⟨n, n, false, f, ⟨[], [], []⟩⟩ : Matrix α) rfl).2.2.1
  refine ⟨?_, ?_, ?_, ?_, ?_, ?_⟩
  · unfold SquareMatrix.uncompress
    rw [hmod, if_neg Bool.false_ne_true, hB]
    show ((Matrix.compress S (⟨n, n, false, f, ⟨[], [], []⟩⟩ : Matrix α)).uncompress S).rows = n
    rw [hu2]
  · unfold SquareMatrix.uncompress
    rw [hmod, if_neg Bool.false_ne_true, hB]
    show ((Matrix.compress S (⟨n, n, false, f, ⟨[], [], []⟩⟩ : Matrix α)).uncompress S).cols = n
    rw [hu3]
  · unfold SquareMatrix.uncompress
    rw [hmod, if_neg Bool.false_ne_true]
  · unfold SquareMatrix.uncompress
    rw [hmod, if_neg Bool.false_ne_true, hB]
    show ((Matrix.compress S (⟨n, n, false, f, ⟨[], [], []⟩⟩ : Matrix α)).uncompress S).compressed = false
    exact hu4
  · unfold SquareMatrix.uncompress
    rw [hmod, if_neg Bool.false_ne_true, hB]
    show ((Matrix.compress S (⟨n, n, false, f, ⟨[], [], []⟩⟩ : Matrix α)).uncompress S).uncompressed_format = f
    rw [hu1]
  · unfold SquareMatrix.uncompress
    rw [hmod, if_neg Bool.false_ne_true, hB]
    show ((Matrix.compress S (⟨n, n, false, f, ⟨[], [], []⟩⟩ : Matrix α)).uncompress S).compressed_format =
      (⟨[], [], []⟩ : CompressedStorage α)
    exact uncompress_cf_empty S _ hcm0

/-- Every conversion call maps a reachable representation state to a
reachable representation state with the same logical contents. -/
theorem goodSt_step (S : StorageOrder) (n : ℕ) (f : UMap α)
    (hwf : MapWF n n f) (hzf : MapZF f) (hN : 1 ≤ n) (q : SquareMatrix α)
    (hq : GoodSt S n f q) (op : ConvOp) :
    GoodSt S n f (applyConv S q op) := by
  cases op with
  | cmod =>
    cases hq with
    | inl h => exact Or.inr (Or.inl (coo_to_msr S n f hwf hzf hN q h))
    | inr h2 =>
      cases h2 with
      | inl h => exact Or.inr (Or.inl (msr_to_msr S n f q h))
      | inr h => exact Or.inr (Or.inl (csr_to_msr S n f hzf q h))
  | comp =>
    cases hq with
    | inl h => exact Or.inr (Or.inr (coo_to_csr S n f q h))
    | inr h2 =>
      cases h2 with
      | inl h => exact Or.inr (Or.inr (compress_from_msr S n f hzf q h))
      | inr h => exact Or.inr (Or.inr (csr_to_csr S n f q h))
  | uncomp =>
    cases hq with
    | inl h => exact Or.inl (coo_to_coo S n f q h)
    | inr h2 =>
      cases h2 with
      | inl h => exact Or.inl (msr_to_coo S n f hwf hzf q h)
      | inr h => exact Or.inl (csr_to_coo S n f hwf q h)

/-- A matrix in the canonical ModifiedCompressed state is, as a record, the
compress_mod image of a fresh uncompressed store holding the same map. -/
theorem msr_eq_compress_mod (S : StorageOrder) (n : ℕ) (f : UMap α)
    (hwf : MapWF n n f) (hzf : MapZF f) (hN : 1 ≤ n) (q : SquareMatrix α)
    (hq : MsrSt S n f q) : q = (cooBase n f).compress_mod S := by
  obtain ⟨hrows, hcols, hmod, hc, huf, hcf, hvals, hbind⟩ := hq
  obtain ⟨h1, h2, h3, h4, h5, h6, h7⟩ :=
    compress_mod_spec S (cooBase n f) rfl rfl rfl hwf hzf hN
  have h1s : ((cooBase n f).compress_mod S).rows = n := h1
  have h2s : ((cooBase n f).compress_mod S).cols = n := h2
  have h6s : ((cooBase n f).compress_mod S).compressed_format_mod.values =
      (List.range n).map (fun i => (f ⟨i, i⟩).getD 0) ++
        (offEntries S n n f).map Prod.snd := h6
  have h7s : ((cooBase n f).compress_mod S).compressed_format_mod.bind =
      (List.range n).map (fun i => n + countLt S (offEntries S n n f) i) ++
        (offEntries S n n f).map (fun e => e.1.minor S) := h7
  have hcf0 : ((cooBase n f).compress_mod S).compressed_format =
      (⟨[], [], []⟩ : CompressedStorage α) := by
    rw [compress_mod_cf S (cooBase n f) rfl rfl]
    rfl
  have he1 : q = (⟨⟨q.rows, q.cols, q.compressed, q.uncompressed_format,
      q.compressed_format⟩, q.modified, ⟨q.compressed_format_mod.values,
      q.compressed_format_mod.bind⟩⟩ : SquareMatrix α) := rfl
  have he2 : (cooBase n f).compress_mod S =
      (⟨⟨((cooBase n f).compress_mod S).rows,
        ((cooBase n f).compress_mod S).cols,
        ((cooBase n f).compress_mod S).compressed,
        ((cooBase n f).compress_mod S).uncompressed_format,
        ((cooBase n f).compress_mod S).compressed_format⟩,
        ((cooBase n f).compress_mod S).modified,
        ⟨((cooBase n f).compress_mod S).compressed_format_mod.values,
          ((cooBase n f).compress_mod S).compressed_format_mod.bind⟩⟩ :
        SquareMatrix α) := rfl
  rw [he1, he2, hrows, hcols, hc, huf, hcf, hmod, hvals, hbind,
    h1s, h2s, h3, h5, h4, hcf0, h6s, h7s]

/-- Element reads on the Uncompressed state return the stored map. -/
theorem coo_get (S : StorageOrder) (n : ℕ) (f : UMap α) (q : SquareMatrix α)
    (hq : CooSt n f q) (r c : ℕ) (hr : r < n) (hc2 : c < n) :
    q.get S r c = .ok ((f ⟨r, c⟩).getD 0) := by
  obtain ⟨hrows, hcols, hmod, hc, huf, hcf⟩ := hq
  rw [SquareMatrix.get_unmod S q hmod r c (by rw [hrows]; exact hr)
      (by rw [hcols]; exact hc2),
    Matrix.get_uncompressed S q.toMatrix r c (by rw [hrows]; exact hr)
      (by rw [hcols]; exact hc2) hc, huf]

/-- Element reads on the canonical ModifiedCompressed state return the
stored map. -/
theorem msr_get (S : StorageOrder) (n : ℕ) (f : UMap α)
    (hwf : MapWF n n f) (hzf : MapZF f) (hN : 1 ≤ n) (q : SquareMatrix α)
    (hq : MsrSt S n f q) (r c : ℕ) (hr : r < n) (hc2 : c < n) :
    q.get S r c = .ok ((f ⟨r, c⟩).getD 0) := by
  rw [msr_eq_compress_mod S n f hwf hzf hN q hq,
    get_compress_mod S (cooBase n f) rfl rfl rfl hwf hzf hN r c hr hc2]
  exact coo_get S n f (cooBase n f) ⟨rfl, rfl, rfl, rfl, rfl, rfl⟩ r c hr hc2

/-- Element reads on the canonical Compressed state return the stored
map. -/
theorem csr_get (S : StorageOrder) (n : ℕ) (f : UMap α) (q : SquareMatrix α)
    (hq : CsrSt S n f q) (r c : ℕ) (hr : r < n) (hc2 : c < n) :
    q.get S r c = .ok ((f ⟨r, c⟩).getD 0) := by
  have hB := csr_eq_compress S n f q hq
  obtain ⟨hrows, hcols, hmod, hcomp, huf, hinner, houter, hvals⟩ := hq
  rw [SquareMatrix.get_unmod S q hmod r c (by rw [hrows]; exact hr)
      (by rw [hcols]; exact hc2), hB,
    get_compress S (⟨n, n, false, f, ⟨[], [], []⟩⟩ : Matrix α) rfl r c hr hc2]

/-- Element reads on any reachable representation state return the stored
map. -/
theorem goodSt_get (S : StorageOrder) (n : ℕ) (f : UMap α)
    (hwf : MapWF n n f) (hzf : MapZF f) (hN : 1 ≤ n) (q : SquareMatrix α)
    (hq : GoodSt S n f q) (r c : ℕ) (hr : r < n) (hc2 : c < n) :
    q.get S r c = .ok ((f ⟨r, c⟩).getD 0) := by
  cases hq with
  | inl h => exact coo_get S n f q h r c hr hc2
  | inr h2 =>
    cases h2 with
    | inl h => exact msr_get S n f hwf hzf hN q h r c hr hc2
    | inr h => exact csr_get S n f q h r c hr hc2

/-- C2: for every square matrix (any scalar, any storage order, any side
length at least 1, zero diagonal entries and empty slices allowed), any
sequence of the conversions `compress_mod`, `compress`, `uncompress`
preserves the logical contents: `get(r, c)` returns the same value for
every in-range index as before the sequence — in particular for the
sequences compress_mod-then-uncompress and
compress_mod-then-compress-then-uncompress the claim singles out. -/
theorem claim_C2_conversion_sequences (S : StorageOrder) (m : SquareMatrix α)
    (hmod : m.modified = false) (hc : m.compressed = false)
    (hcf : m.compressed_format = ⟨[], [], []⟩) (hsq : m.rows = m.cols)
    (hwf : MapWF m.rows m.cols m.uncompressed_format)
    (hzf : MapZF m.uncompressed_format) (hN : 1 ≤ m.rows)
    (ops : List ConvOp) (r c : ℕ) (hr : r < m.rows) (hcc : c < m.cols) :
    (applyConvs S m ops).get S r c = m.get S r c := by
  have hwf2 : MapWF m.rows m.rows m.uncompressed_format := fun k v h =>
    ⟨(hwf k v h).1, lt_of_lt_of_eq (hwf k v h).2 hsq.symm⟩
  have hq0 : CooSt m.rows m.uncompressed_format m :=
    ⟨rfl, hsq.symm, hmod, hc, rfl, hcf⟩
  have hcr : c < m.rows := by rw [hsq]; exact hcc
  have hpres : ∀ (l : List ConvOp) (q : SquareMatrix α),
      GoodSt S m.rows m.uncompressed_format q →
      GoodSt S m.rows m.uncompressed_format (l.foldl (applyConv S) q) := by
    intro l
    induction l with
    | nil =>
      intro q hq
      exact hq
    | cons op l ih =>
      intro q hq
      rw [List.foldl_cons]
      exact ih _ (goodSt_step S m.rows m.uncompressed_format hwf2 hzf hN
        q hq op)
  have hgood : GoodSt S m.rows m.uncompressed_format (applyConvs S m ops) :=
    hpres ops m (Or.inl hq0)
  rw [goodSt_get S m.rows m.uncompressed_format hwf2 hzf hN _ hgood r c hr hcr,
    goodSt_get S m.rows m.uncompressed_format hwf2 hzf hN m (Or.inl hq0)
      r c hr hcr]

theorem claim_C2_conversion_sequences_witness :
    (applyConvs StorageOrder.RowMajor scenario5A
        [ConvOp.cmod, ConvOp.uncomp]).get StorageOrder.RowMajor 1 3 =
      scenario5A.get StorageOrder.RowMajor 1 3 ∧
    (applyConvs StorageOrder.RowMajor scenario5A
        [ConvOp.cmod, ConvOp.comp, ConvOp.uncomp]).get
        StorageOrder.RowMajor 2 2 =
      scenario5A.get StorageOrder.RowMajor 2 2 := by
  have hwf : MapWF scenario5A.rows scenario5A.cols
      scenario5A.uncompressed_format := by
    intro k v h
    unfold scenario5A at h
    simp only at h
    split_ifs at h with h1 h2 h3 h4 <;>
      first
        | (subst_vars; exact ⟨by decide, by decide⟩)
        | cases h
  have hzf : MapZF scenario5A.uncompressed_format := by
    intro k v h
    unfold scenario5A at h
    simp only at h
    split_ifs at h with h1 h2 h3 h4 <;> (cases h <;> decide)
  exact ⟨claim_C2_conversion_sequences StorageOrder.RowMajor scenario5A rfl
      rfl rfl rfl hwf hzf (by decide) [ConvOp.cmod, ConvOp.uncomp] 1 3
      (by decide) (by decide),
    claim_C2_conversion_sequences StorageOrder.RowMajor scenario5A rfl rfl
      rfl rfl hwf hzf (by decide) [ConvOp.cmod, ConvOp.comp, ConvOp.uncomp]
      2 2 (by decide) (by decide)⟩

end SparseSpec
